import Mathlib

/-!
# RePeL: bit cursor, parser and MAC modules, connection engine

A shallow embedding of `repel/bitstring.c`, `repel/repel_types.h`,
`repel/parser/modbus_tcp_parser.c`, `repel/parser/fake_parser.c`,
`repel/parser/split_parser.c`, `repel/mac/hmac_module.c` and `repel/repel.c`,
followed by the properties proved about them.

Conventions of the embedding:

* a byte array is a total map from byte offsets to bytes (`Buffer`); an array
  of the C program is a prefix of such a map, and the length the C code is
  given travels next to it as a number;
* every C object (packet, MAC buffer, extract buffer) is a `Buffer` of its own,
  and the pointer of a `bitstring_t` is the byte offset into its array;
* `uint8_t`, `uint16_t`, `uint32_t`, `uint64_t`, `unsigned int` values are
  natural numbers, reduced modulo `2 ^ w` at every place where the C code
  stores into a variable of that type and the value may exceed it;
  `unsigned int` and `int` are 32 bits wide.
-/

namespace RePeL

/-! ## Bytes and buffers -/

/-- One octet. -/
abbrev Byte := Fin 256

/-- A byte array, addressed by byte offset. -/
abbrev Buffer := Nat → Byte

/-- Conversion of an integer to `uint8_t`. -/
def u8 (x : Nat) : Byte := ⟨x % 256, Nat.mod_lt x (by decide)⟩

/-- Load of `*(buf + a)`, as a number. -/
def Buffer.read (m : Buffer) (a : Nat) : Nat := (m a).val

/-- Store `*(buf + a) = (uint8_t) v`. -/
def Buffer.write (m : Buffer) (a v : Nat) : Buffer :=
  fun x => if x = a then u8 v else m x

/-- The first `n` bytes of a buffer, as numbers. -/
def Buffer.take (m : Buffer) (n : Nat) : List Nat :=
  (List.range n).map m.read

/-- A buffer holding the given bytes, zero beyond them. -/
def Buffer.ofList (l : List Nat) : Buffer :=
  fun a => u8 (l.getD a 0)

/-- Bit `i` of a buffer, bit 0 being the most significant bit of byte 0. -/
def getBit (m : Buffer) (i : Nat) : Bool :=
  (m.read (i / 8)).testBit (7 - i % 8)

/-- The unsigned integer whose binary digits, most significant first, are the
`n` bits of the buffer starting at bit position `p`. -/
def bitsVal (m : Buffer) (p : Nat) : Nat → Nat
  | 0 => 0
  | n + 1 => 2 * bitsVal m p n + (getBit m (p + n)).toNat

/-- Low byte of the C expression `~x`. -/
def bnot8 (x : Nat) : Nat := 0xff ^^^ (x % 256)

/-- Number of values of `unsigned int`. -/
def UINT_RANGE : Nat := 2 ^ 32

/-! ## bitstring.c -/

/-- The `bitstring_t` cursor: `data` is the byte offset of the pointer into its
array, `shift` the bit offset inside that byte (a `uint8_t`). -/
structure BitString where
  data : Nat
  shift : Nat
deriving DecidableEq, Repr

/-- Absolute bit position of a cursor. -/
def BitString.pos (c : BitString) : Nat := 8 * c.data + c.shift

def bitstring_init : BitString := { data := 0, shift := 0 }

/-- The function `bitstring_skip`; `offset` is an `unsigned int`, so the sum
wraps at `UINT_RANGE`. -/
def bitstring_skip (c : BitString) (bits : Nat) : BitString :=
  let offset := (c.shift + bits) % UINT_RANGE
  { data := c.data + offset / 8, shift := (offset % 8) % 256 }

/-- The function `bitstring_rewind`; `string->shift -= bits % 8` is computed in
`uint8_t`, so a negative difference wraps to `256 - ...`; the test `shift >= 8`
detects it. The pointer arithmetic is on byte offsets; moving before offset 0
(undefined in C) stops at 0. -/
def bitstring_rewind (c : BitString) (bits : Nat) : BitString :=
  let data := c.data - bits / 8
  let shift := (c.shift + 256 - bits % 8) % 256
  if shift ≥ 8 then { data := data - 1, shift := shift % 8 }
  else { data := data, shift := shift }

/-- The function `bitstring_pop_u8`. The comparisons `shft > 8 - bits` and
`shft >= 8 - bits` are done in `int`; they are written here with the
subtraction moved to the other side. -/
def bitstring_pop_u8 (m : Buffer) (c : BitString) (bits : Nat) : Nat × BitString :=
  let dt := c.data
  let shft := c.shift
  let val := (m.read dt <<< shft) % 256
  let val := if shft + bits > 8 then (val ||| (m.read (dt + 1) >>> (8 - shft))) % 256 else val
  let data := if shft + bits ≥ 8 then dt + 1 else dt
  (val >>> (8 - bits), { data := data, shift := ((shft + bits) % 8) % 256 })

/-- The loop `while(_bits) { val = (val << 8) | pop_u8(8); _bits -= 8; }` of the
wide pop functions, for an accumulator of `w` bits; `_bits` is a multiple of 8
and `k = _bits / 8` is the number of rounds. -/
def pop_loop (w : Nat) (m : Buffer) : Nat → BitString → Nat → Nat × BitString
  | 0, c, val => (val, c)
  | k + 1, c, val =>
    let r := bitstring_pop_u8 m c 8
    pop_loop w m k r.2 (((val <<< 8) ||| r.1) % 2 ^ w)

/-- Common body of `bitstring_pop_u16`, `_u32` and `_u64`, which differ in the
width `w` of `val` only. -/
def pop_wide (w : Nat) (m : Buffer) (c : BitString) (bits : Nat) : Nat × BitString :=
  let _bits := (bits - bits % 8) % 256
  let r := bitstring_pop_u8 m c (bits % 8)
  pop_loop w m (_bits / 8) r.2 (r.1 % 2 ^ w)

def bitstring_pop_u16 (m : Buffer) (c : BitString) (bits : Nat) : Nat × BitString :=
  pop_wide 16 m c bits

def bitstring_pop_u32 (m : Buffer) (c : BitString) (bits : Nat) : Nat × BitString :=
  pop_wide 32 m c bits

def bitstring_pop_u64 (m : Buffer) (c : BitString) (bits : Nat) : Nat × BitString :=
  pop_wide 64 m c bits

/-- The function `bitstring_peek_u8`; `string->shift + offset` is an `unsigned int`. -/
def bitstring_peek_u8 (m : Buffer) (c : BitString) (offset bits : Nat) : Nat :=
  let dt := c.data + ((c.shift + offset) % UINT_RANGE) / 8
  let shft := (((c.shift + offset) % UINT_RANGE) % 8) % 256
  let val := (m.read dt <<< shft) % 256
  let val := if shft + bits > 8 then (val ||| (m.read (dt + 1) >>> (8 - shft))) % 256 else val
  val >>> (8 - bits)

/-- The loop `while(_off < offset + bits) { val = (val << 8) | peek_u8(_off, 8);
_off += 8; }` of the wide peek functions, `lim` being `offset + bits` as an
`unsigned int`. The first argument bounds the number of rounds; the result is
`none` when the loop would still be running after that many. -/
def peek_loop (w : Nat) (m : Buffer) (c : BitString) (lim : Nat) : Nat → Nat → Nat → Option Nat
  | 0, _off, val => if _off < lim then none else some val
  | fuel + 1, _off, val =>
    if _off < lim then
      peek_loop w m c lim fuel ((_off + 8) % UINT_RANGE)
        (((val <<< 8) ||| bitstring_peek_u8 m c _off 8) % 2 ^ w)
    else some val

/-- Common body of `bitstring_peek_u16`, `_u32` and `_u64`. `bits` is a
`uint8_t`, so 32 rounds are more than the loop can need. -/
def peek_wide (w : Nat) (m : Buffer) (c : BitString) (offset bits : Nat) : Option Nat :=
  let _off := (offset + bits % 8) % UINT_RANGE
  let val := bitstring_peek_u8 m c offset (bits % 8) % 2 ^ w
  peek_loop w m c ((offset + bits) % UINT_RANGE) 32 _off val

def bitstring_peek_u16 (m : Buffer) (c : BitString) (offset bits : Nat) : Option Nat :=
  peek_wide 16 m c offset bits

def bitstring_peek_u32 (m : Buffer) (c : BitString) (offset bits : Nat) : Option Nat :=
  peek_wide 32 m c offset bits

def bitstring_peek_u64 (m : Buffer) (c : BitString) (offset bits : Nat) : Option Nat :=
  peek_wide 64 m c offset bits

/-- The function `bitstring_push_u8`: two read-modify-write steps on the byte under the
cursor and, when the field crosses into the next byte, two on that one. -/
def bitstring_push_u8 (m : Buffer) (c : BitString) (val bits : Nat) : Buffer × BitString :=
  let dt := c.data
  let shft := c.shift
  let mask := (0xff <<< (8 - bits)) % 256
  let val := (val <<< (8 - bits)) % 256
  let m := m.write dt (m.read dt &&& bnot8 (mask >>> shft))
  let m := m.write dt (m.read dt ||| (val >>> shft))
  let m :=
    if shft + bits > 8 then
      let m := m.write (dt + 1) (m.read (dt + 1) &&& bnot8 (mask <<< (8 - shft)))
      m.write (dt + 1) (m.read (dt + 1) ||| (val <<< (8 - shft)))
    else m
  let data := if shft + bits ≥ 8 then dt + 1 else dt
  (m, { data := data, shift := ((shft + bits) % 8) % 256 })

def bitstring_push_u16 (m : Buffer) (c : BitString) (val bits : Nat) : Buffer × BitString :=
  if bits > 8 then
    let r := bitstring_push_u8 m c ((val >>> 8) % 256) ((bits - 8) % 256)
    bitstring_push_u8 r.1 r.2 (val % 256) 8
  else
    bitstring_push_u8 m c (val % 256) bits

/-- The loop `while(octs > 0) { octs -= 1; push_u8((uint8_t) (val >> (8*octs)), 8); }`
of `bitstring_push_u32` and `bitstring_push_u64`. -/
def push_loop (val : Nat) : Nat → Buffer → BitString → Buffer × BitString
  | 0, m, c => (m, c)
  | octs + 1, m, c =>
    let r := bitstring_push_u8 m c ((val >>> (8 * octs)) % 256) 8
    push_loop val octs r.1 r.2

/-- Common body of `bitstring_push_u32` and `bitstring_push_u64`. When `bits`
is the full width, `val >> (8*octs)` shifts by the width of the type; the
value is then pushed with a bit count of 0, which stores nothing of it. -/
def push_wide (m : Buffer) (c : BitString) (val bits : Nat) : Buffer × BitString :=
  let octs := bits / 8
  let r := bitstring_push_u8 m c ((val >>> (8 * octs)) % 256) (bits % 8)
  push_loop val octs r.1 r.2

def bitstring_push_u32 (m : Buffer) (c : BitString) (val bits : Nat) : Buffer × BitString :=
  push_wide m c (val % 2 ^ 32) bits

def bitstring_push_u64 (m : Buffer) (c : BitString) (val bits : Nat) : Buffer × BitString :=
  push_wide m c (val % 2 ^ 64) bits

/-- The function `bitstring_copy_u8(dest, src, bits)`: pop from `src`, push to `dest`. Takes
the source buffer and cursor, the destination buffer and cursor; returns the
destination buffer and both cursors. -/
def bitstring_copy_u8 (dm : Buffer) (dc : BitString) (sm : Buffer) (sc : BitString) (bits : Nat) :
    Buffer × BitString × BitString :=
  let e := bitstring_pop_u8 sm sc bits
  let r := bitstring_push_u8 dm dc e.1 bits
  (r.1, r.2, e.2)

def bitstring_copy_u16 (dm : Buffer) (dc : BitString) (sm : Buffer) (sc : BitString) (bits : Nat) :
    Buffer × BitString × BitString :=
  let e := bitstring_pop_u16 sm sc bits
  let r := bitstring_push_u16 dm dc e.1 bits
  (r.1, r.2, e.2)

/-- The pop function of the `N`-bit variant, `N` one of 8, 16, 32, 64. -/
def bitstring_pop_uN : Nat → Buffer → BitString → Nat → Nat × BitString
  | 8 => bitstring_pop_u8
  | 16 => bitstring_pop_u16
  | 32 => bitstring_pop_u32
  | _ => bitstring_pop_u64

/-- The push function of the `N`-bit variant. -/
def bitstring_push_uN : Nat → Buffer → BitString → Nat → Nat → Buffer × BitString
  | 8 => bitstring_push_u8
  | 16 => bitstring_push_u16
  | 32 => bitstring_push_u32
  | _ => bitstring_push_u64

/-- The peek function of the `N`-bit variant; `none` stands for a loop that
does not come to its end. -/
def bitstring_peek_uN : Nat → Buffer → BitString → Nat → Nat → Option Nat
  | 8 => fun m c offset bits => some (bitstring_peek_u8 m c offset bits)
  | 16 => bitstring_peek_u16
  | 32 => bitstring_peek_u32
  | _ => bitstring_peek_u64

/-- What a push of the low `n` bits of `v` at bit position `p` makes of a
buffer: the window holds the bits of `v`, most significant first, and every
other bit is as before. -/
def IsPush (m : Buffer) (p v n : Nat) (m' : Buffer) : Prop :=
  ∀ i, getBit m' i = if p ≤ i ∧ i < p + n then v.testBit (p + n - 1 - i) else getBit m i

/-- The buffer with every byte 0xFF. -/
def allOnes : Buffer := fun _ => 255

end RePeL

namespace RePeL

/-! ## repel_types.h -/

/-- Number of values of `nonce_t` (`uint64_t`). -/
def NONCE_RANGE : Nat := 2 ^ 64

/-- The macro `NONCE_MASK`, that is `~((nonce_t) 0)`. -/
def NONCE_MASK : Nat := 2 ^ 64 - 1

def UINT16_MAX : Nat := 65535

/-- The function `netendian_nonce`: the eight bytes `b[i] = (uint8_t) (nonce >> ((8-i-1)*8))`. -/
def netendian_nonce (nonce : Nat) : List Nat :=
  (List.range 8).map fun i => (nonce >>> ((8 - i - 1) * 8)) % 256

/-- The macro `ceil_bits_to_bytes`. -/
def ceil_bits_to_bytes (b : Nat) : Nat := (b + 7) / 8

/-- The macro `POW2`. -/
def POW2 (e : Nat) : Nat := 1 <<< e

/-- Conversion of an `int` to `int16_t`. -/
def int16 (x : Int) : Int := (x + 32768) % 65536 - 32768

/-- Conversion of a non-negative `int32_t` length to `bufsize_t` (`uint16_t`). -/
def bufsize (x : Int) : Nat := (x % 65536).toNat

/-- The C expression `1 << k`, of type `int`, converted to `uint64_t` as in
`nonce += 1 << noncebits`. It is `2 ^ k` for `k ≤ 30`. From `k = 31` on the
shift leaves the range of `int`; the value taken here is the wrapped one, the
low 32 bits of `2 ^ k` read as a signed number and then sign-extended. -/
def int_one_shl (k : Nat) : Nat :=
  let r := 2 ^ k % 2 ^ 32
  if r < 2 ^ 31 then r else r + (2 ^ 64 - 2 ^ 32)

/-- The call `memset(buf, v, n)`. -/
def memset (buf : Buffer) (v n : Nat) : Buffer :=
  fun a => if a < n then u8 v else buf a

/-- The test `memcmp(a, b, n) == 0`. -/
def memcmp_eq (a b : Buffer) (n : Nat) : Bool :=
  decide (a.take n = b.take n)

/-! ## repel_modules.h -/

inductive RepelMode where
  | EMBED
  | AUTHENTICATE
deriving DecidableEq, Repr

/-- The struct `ParseResult`: `pktlen` is an `int32_t`, `embed_bits` a
`bitcount_t`. -/
structure ParseResult where
  pktlen : Int
  embed_bits : Nat
  packet_has_nonce : Bool
deriving DecidableEq, Repr

/-- The macro `parse_fail_on_minlen(minlen, pktlen)`: the result it returns when
`pktlen < minlen`. -/
def parse_fail_on_minlen (minlen : Int) (pktlen : Nat) : Option ParseResult :=
  if (pktlen : Int) < minlen then
    some { pktlen := (pktlen : Int) - minlen, embed_bits := 0, packet_has_nonce := false }
  else none

/-- The struct `ParserModule` over a parser state `σ` (`create` and `destroy`
manage memory only). Each callback gets the state and gives back the state and
the buffers it may write: `parse` sees the packet through a pointer to const
and does not change the module state, `embed` writes the packet, `extract`
the packet and the MAC buffer, `restore` and `verified` the packet.
`verified` may be a null pointer. -/
structure ParserModule (σ : Type) where
  parse : σ → Buffer → Nat → RepelMode → ParseResult
  embed : σ → Buffer → Nat → Buffer → σ × Buffer
  extract : σ → Buffer → Nat → Buffer → σ × Buffer × Buffer
  restore : σ → Buffer → Nat → RepelMode → σ × Buffer
  verified : Option (σ → Buffer → Nat → σ × Buffer)

/-- The struct `MacModule` over a MAC state `μ`. `sign` returns a pointer to a
buffer of the module; the value returned here is that buffer, and `writeback`
is the module state after the caller has written to it through the pointer.
`verify` returns an `int16_t`. The nonce argument is `none` for a null
pointer. Keys are an opaque byte blob (`none` for a null pointer). -/
structure MacModule (μ : Type) where
  sign : μ → Buffer → Nat → Nat → Nat → Option (List Nat) → μ × Buffer
  writeback : μ → Buffer → μ
  verify : μ → Buffer → Nat → Buffer → Nat → Option (List Nat) → μ × Int
  set_keys : μ → Option Buffer → μ

/-! ## mac/hmac_module.c -/

/-- The constant `DTLS_HMAC_DIGEST_SIZE`, the size of a SHA-256 digest. -/
def DTLS_HMAC_DIGEST_SIZE : Nat := 32

def HMAC_KEY_SIZE : Nat := 16
def HMAC_KEYSLOT_SEND : Nat := 0
def HMAC_KEYSLOT_RECV : Nat := 1

/-- The HMAC primitive behind `dtls_hmac_init`, `_update` and `_finalize`: any
function from a key and a message to digest bytes. -/
abbrev HmacFn := List Nat → List Nat → List Nat

/-- The struct `HMacData` without the digest context: the two keys, stored one
after the other, and the MAC buffer. -/
structure HMacData where
  keys : Buffer
  buffer : Buffer

/-- The bytes of `data->keys[slot]`. -/
def HMacData.key (data : HMacData) (slot : Nat) : List Nat :=
  (List.range HMAC_KEY_SIZE).map fun j => data.keys.read (HMAC_KEY_SIZE * slot + j)

/-- The call `dtls_hmac_finalize(&ctx, buffer)`: stores the digest in the first
`DTLS_HMAC_DIGEST_SIZE` bytes of the buffer. -/
def hmac_finalize (buffer : Buffer) (digest : List Nat) : Buffer :=
  fun a => if a < DTLS_HMAC_DIGEST_SIZE then u8 (digest.getD a 0) else buffer a

/-- The message fed to the digest: the packet bytes, then the nonce bytes if a
nonce is given. -/
def hmac_message (packet : Buffer) (pktlen : Nat) (noncebytes : Option (List Nat)) : List Nat :=
  packet.take pktlen ++ noncebytes.getD []

def hmac_sign (H : HmacFn) (data : HMacData) (packet : Buffer) (pktlen macbits extrabits : Nat)
    (noncebytes : Option (List Nat)) : HMacData × Buffer :=
  let bytes := ceil_bits_to_bytes (macbits + extrabits) % 65536
  let buffer := memset data.buffer 0 bytes
  let buffer := hmac_finalize buffer
    (H (data.key HMAC_KEYSLOT_SEND) (hmac_message packet pktlen noncebytes))
  ({ data with buffer := buffer }, buffer)

def hmac_verify (H : HmacFn) (data : HMacData) (packet : Buffer) (pktlen : Nat) (mac : Buffer)
    (bits : Nat) (noncebytes : Option (List Nat)) : HMacData × Int :=
  let buffer := memset data.buffer 0 (ceil_bits_to_bytes bits)
  let buffer := hmac_finalize buffer
    (H (data.key HMAC_KEYSLOT_RECV) (hmac_message packet pktlen noncebytes))
  let data := { data with buffer := buffer }
  let fullbytes := bits / 8
  let oddbits := bits % 8
  if memcmp_eq mac buffer fullbytes then
    if oddbits > 0 then
      let mrest := mac.read fullbytes
      let brest := buffer.read fullbytes
      let mask := 0xff >>> oddbits
      if (mrest ||| mask) ≠ (brest ||| mask) then (data, int16 (-(bits : Int)))
      else (data, int16 bits)
    else (data, int16 bits)
  else (data, int16 (-(bits : Int)))

/-- The function `hmac_set_keys`: copies `sizeof(data->keys)` = 32 bytes unless `keys` is null. -/
def hmac_set_keys (data : HMacData) (keys : Option Buffer) : HMacData :=
  match keys with
  | some k => { data with keys := fun a => if a < 2 * HMAC_KEY_SIZE then k a else data.keys a }
  | none => data

/-- The module table `hmac_module`, over the keyed function `H`. -/
def hmac_module (H : HmacFn) : MacModule HMacData where
  sign := hmac_sign H
  writeback := fun data buffer => { data with buffer := buffer }
  verify := hmac_verify H
  set_keys := hmac_set_keys

/-! ## parser/modbus_tcp_parser.c -/

/-- The compile-time parameters `MODBUS_TCP_REUSE_TID_BITS` (below 16),
`MODBUS_TCP_IS_CLIENT` and `MODBUS_TCP_REUSE_UNIT_ID`. -/
structure ModbusConfig where
  MODBUS_TCP_REUSE_TID_BITS : Nat := 12
  MODBUS_TCP_IS_CLIENT : Bool := true
  MODBUS_TCP_REUSE_UNIT_ID : Bool := true
deriving DecidableEq, Repr

def tid_map_len (cfg : ModbusConfig) : Nat :=
  if cfg.MODBUS_TCP_REUSE_TID_BITS > 0 then POW2 (16 - cfg.MODBUS_TCP_REUSE_TID_BITS) % 65536
  else 1

/-- The struct `ModbusTCPState`: the `uint16_t` cells of `transaction_map`,
and `tid0_index`. -/
structure ModbusTCPState where
  transaction_map : List Nat
  tid0_index : Nat
deriving DecidableEq, Repr

/-- The `for` loop of `_map_tid` from index `i` on, `n` cells being left to
look at; `none` when it ends without a `return`. -/
def map_tid_loop (state : ModbusTCPState) (tid ireserved : Nat) :
    Nat → Nat → Option (ModbusTCPState × Nat)
  | 0, _ => none
  | n + 1, i =>
    if i ≠ ireserved ∧ state.transaction_map.getD i 0 = 0 then
      if tid = 0 then some ({ state with tid0_index := i }, i)
      else some ({ state with transaction_map := state.transaction_map.set i tid }, i)
    else map_tid_loop state tid ireserved n (i + 1)

def _map_tid (cfg : ModbusConfig) (state : ModbusTCPState) (tid : Nat) : ModbusTCPState × Nat :=
  let ireserved := state.tid0_index
  if ireserved < tid_map_len cfg then (state, ireserved)
  else
    match map_tid_loop state tid ireserved (tid_map_len cfg) 0 with
    | some r => r
    | none => (state, tid % tid_map_len cfg)

def _unmap_tid (cfg : ModbusConfig) (state : ModbusTCPState) (mapid : Nat) :
    ModbusTCPState × Nat :=
  let tid := state.transaction_map.getD mapid 0
  if tid = 0 then
    if mapid = state.tid0_index then ({ state with tid0_index := tid_map_len cfg }, 0)
    else (state, mapid)
  else ({ state with transaction_map := state.transaction_map.set mapid 0 }, tid)

/-- The number of carrier bits of a frame: `16 + MODBUS_TCP_REUSE_TID_BITS`,
plus 8 when the unit identifier is reused. -/
def modbus_embed_bits (cfg : ModbusConfig) : Nat :=
  16 + cfg.MODBUS_TCP_REUSE_TID_BITS + (if cfg.MODBUS_TCP_REUSE_UNIT_ID then 8 else 0)

/-- The function `modbus_tcp_parse`. The 16-bit peek of the Length field ends within the
bound of its loop (`peek_uN_eq`), so the default of `getD` is never taken. -/
def modbus_tcp_parse (cfg : ModbusConfig) (_self : ModbusTCPState) (packet : Buffer)
    (buflen : Nat) (_mode : RepelMode) : ParseResult :=
  match parse_fail_on_minlen 6 buflen with
  | some res => res
  | none =>
    let pktlen : Int := ((bitstring_peek_u16 packet bitstring_init (4 * 8) 16).getD 0 : Nat)
    let pktlen := pktlen + 6
    match parse_fail_on_minlen pktlen buflen with
    | some res => res
    | none =>
      { pktlen := pktlen, embed_bits := modbus_embed_bits cfg, packet_has_nonce := false }

def modbus_tcp_embed (cfg : ModbusConfig) (self : ModbusTCPState) (packet : Buffer)
    (_pktlen : Nat) (macbuf : Buffer) : ModbusTCPState × Buffer :=
  let pkt := bitstring_init
  let mac := bitstring_init
  /- Transaction Identifier -/
  let r :=
    if cfg.MODBUS_TCP_REUSE_TID_BITS > 0 then
      let r := bitstring_copy_u16 packet pkt macbuf mac cfg.MODBUS_TCP_REUSE_TID_BITS
      (r.1, bitstring_skip r.2.1 (16 - cfg.MODBUS_TCP_REUSE_TID_BITS), r.2.2)
    else (packet, bitstring_skip pkt 16, mac)
  /- Protocol Identifier -/
  let r := bitstring_copy_u16 r.1 r.2.1 macbuf r.2.2 16
  /- Length -/
  let r := (r.1, bitstring_skip r.2.1 16, r.2.2)
  /- Unit Identifier -/
  let r := if cfg.MODBUS_TCP_REUSE_UNIT_ID then bitstring_copy_u8 r.1 r.2.1 macbuf r.2.2 8 else r
  (self, r.1)

def modbus_tcp_extract (cfg : ModbusConfig) (self : ModbusTCPState) (packet : Buffer)
    (_pktlen : Nat) (macbuf : Buffer) : ModbusTCPState × Buffer × Buffer :=
  let pkt := bitstring_init
  let mac := bitstring_init
  /- Transaction Identifier; `r` is the MAC buffer, its cursor, the packet cursor -/
  let r :=
    if cfg.MODBUS_TCP_REUSE_TID_BITS > 0 then
      let r := bitstring_copy_u16 macbuf mac packet pkt cfg.MODBUS_TCP_REUSE_TID_BITS
      (r.1, r.2.1, bitstring_skip r.2.2 (16 - cfg.MODBUS_TCP_REUSE_TID_BITS))
    else (macbuf, mac, bitstring_skip pkt 16)
  /- Protocol Identifier -/
  let r := bitstring_copy_u16 r.1 r.2.1 packet r.2.2 16
  /- Length -/
  let r := (r.1, r.2.1, bitstring_skip r.2.2 16)
  /- Unit Identifier -/
  let r := if cfg.MODBUS_TCP_REUSE_UNIT_ID then bitstring_copy_u8 r.1 r.2.1 packet r.2.2 8 else r
  (self, packet, r.1)

def modbus_tcp_restore (cfg : ModbusConfig) (state : ModbusTCPState) (packet : Buffer)
    (_pktlen : Nat) (mode : RepelMode) : ModbusTCPState × Buffer :=
  let pkt := bitstring_init
  /- Transaction Identifier -/
  let r : ModbusTCPState × Buffer × BitString :=
    if cfg.MODBUS_TCP_REUSE_TID_BITS > 0 then
      if cfg.MODBUS_TCP_IS_CLIENT then
        if mode = RepelMode.EMBED then
          let tid := (bitstring_peek_u16 packet pkt 0 16).getD 0
          let mt := _map_tid cfg state tid
          let p := bitstring_push_u16 packet pkt 0 cfg.MODBUS_TCP_REUSE_TID_BITS
          let p := bitstring_push_u16 p.1 p.2 mt.2 (16 - cfg.MODBUS_TCP_REUSE_TID_BITS)
          (mt.1, p.1, p.2)
        else
          let p := bitstring_push_u16 packet pkt 0 cfg.MODBUS_TCP_REUSE_TID_BITS
          (state, p.1, bitstring_skip p.2 (16 - cfg.MODBUS_TCP_REUSE_TID_BITS))
      else
        let p := bitstring_push_u16 packet pkt 0 cfg.MODBUS_TCP_REUSE_TID_BITS
        (state, p.1, bitstring_skip p.2 (16 - cfg.MODBUS_TCP_REUSE_TID_BITS))
    else (state, packet, bitstring_skip pkt 16)
  /- Protocol Identifier -/
  let p := bitstring_push_u16 r.2.1 r.2.2 0 16
  /- Length -/
  let p := (p.1, bitstring_skip p.2 16)
  /- Unit Identifier -/
  let p := if cfg.MODBUS_TCP_REUSE_UNIT_ID then bitstring_push_u8 p.1 p.2 255 8 else p
  (r.1, p.1)

def modbus_tcp_verified (cfg : ModbusConfig) (state : ModbusTCPState) (packet : Buffer)
    (_pktlen : Nat) : ModbusTCPState × Buffer :=
  let pkt := bitstring_init
  if cfg.MODBUS_TCP_REUSE_TID_BITS > 0 ∧ cfg.MODBUS_TCP_IS_CLIENT then
    let mapid := (bitstring_peek_u16 packet pkt cfg.MODBUS_TCP_REUSE_TID_BITS
      (16 - cfg.MODBUS_TCP_REUSE_TID_BITS)).getD 0
    let ut := _unmap_tid cfg state mapid
    (ut.1, (bitstring_push_u16 packet pkt ut.2 16).1)
  else (state, packet)

/-- Carrier layout of the default configuration (12 TID bits, PID, Unit ID):
the index of the MAC bit that a packet bit carries, `none` for a packet bit
that is no carrier. -/
def modbus_carrier (i : Nat) : Option Nat :=
  if i < 12 then some i
  else if 16 ≤ i ∧ i < 32 then some (i - 4)
  else if 48 ≤ i ∧ i < 56 then some (i - 20)
  else none

/-- The packet bit that carries MAC bit `j < 36` in the default configuration. -/
def modbus_slot (j : Nat) : Nat :=
  if j < 12 then j else if j < 28 then j + 4 else j + 20

/-- A packet whose carrier fields hold the canonical values of the default
configuration: upper 12 TID bits and PID zero, Unit ID 0xFF. -/
def ModbusCanonical (Q : Buffer) : Prop :=
  (∀ i, i < 12 → getBit Q i = false) ∧ (∀ i, 16 ≤ i → i < 32 → getBit Q i = false) ∧
    (∀ i, 48 ≤ i → i < 56 → getBit Q i = true)

/-- The module table `modbus_tcp_parser`. -/
def modbus_tcp_parser_module (cfg : ModbusConfig) : ParserModule ModbusTCPState where
  parse := modbus_tcp_parse cfg
  embed := modbus_tcp_embed cfg
  extract := modbus_tcp_extract cfg
  restore := modbus_tcp_restore cfg
  verified := some (modbus_tcp_verified cfg)

/-! ## repel.h and repel.c -/

/-- The struct `AuthenticateResult`; both counts are `uint16_t`. -/
structure AuthenticateResult where
  protection_level : Nat
  packet_loss : Nat
  nonce_embedded : Bool
deriving DecidableEq, Repr

inductive CallbackKind where
  | on_auth_success
  | on_auth_failed
deriving DecidableEq, Repr

/-- One call of an `auth_callback_fn_t`, with its four arguments. -/
structure CallbackCall where
  kind : CallbackKind
  cbdata : Nat
  packet : Buffer
  packet_len : Nat
  result : AuthenticateResult

/-- The struct `RepelConnection`. -/
structure RepelConnection (σ μ : Type) where
  parser : ParserModule σ
  macalgo : MacModule μ
  parser_state : σ
  mac_state : μ
  nonce_send : Nat
  nonce_recv : Nat
  nonce_embed_bits : Nat
  extrbuf : Buffer

def repel_set_keys {σ μ : Type} (con : RepelConnection σ μ) (keys : Option Buffer) :
    RepelConnection σ μ :=
  { con with mac_state := con.macalgo.set_keys con.mac_state keys }

/-- The function `repel_embed`: the connection and the packet after the call, and the
`uint16_t` it returns. -/
def repel_embed {σ μ : Type} (con : RepelConnection σ μ) (packet : Buffer) (packet_size : Nat) :
    RepelConnection σ μ × Buffer × Nat :=
  let pinfo := con.parser.parse con.parser_state packet packet_size RepelMode.EMBED
  if pinfo.pktlen ≠ (packet_size : Int) ∨ pinfo.embed_bits = 0 then (con, packet, 0)
  else
    let pktlen := bufsize pinfo.pktlen
    let rs := con.parser.restore con.parser_state packet pktlen RepelMode.EMBED
    let macbits := pinfo.embed_bits
    if !pinfo.packet_has_nonce then
      let noncebits := con.nonce_embed_bits
      if pinfo.embed_bits ≤ noncebits then
        ({ con with parser_state := rs.1 }, rs.2, 0)
      else
        let netnonce := netendian_nonce con.nonce_send
        let macbits := macbits - noncebits
        let sg := con.macalgo.sign con.mac_state rs.2 pktlen macbits noncebits (some netnonce)
        /- Embed Nonce bits behind MAC in buffer -/
        let mac :=
          if noncebits > 0 then
            let macstr := bitstring_skip bitstring_init macbits
            (bitstring_push_u64 sg.2 macstr con.nonce_send (noncebits % 256)).1
          else sg.2
        let em := con.parser.embed rs.1 rs.2 pktlen mac
        ({ con with
            parser_state := em.1
            mac_state := con.macalgo.writeback sg.1 mac
            nonce_send := (con.nonce_send + 1) % NONCE_RANGE },
          em.2, macbits)
    else
      let sg := con.macalgo.sign con.mac_state rs.2 pktlen macbits 0 none
      let em := con.parser.embed rs.1 rs.2 pktlen sg.2
      ({ con with parser_state := em.1, mac_state := sg.1 }, em.2, macbits)

/-- The MAC buffer that `repel_embed` hands to `parser.embed` when the MAC
module is the HMAC adapter and the engine embeds a nonce: the buffer returned
by `hmac_sign`, with the low nonce bits pushed behind the MAC bits. -/
def hmac_embed_mac (H : HmacFn) (data : HMacData) (packet : Buffer)
    (pktlen macbits noncebits send : Nat) : Buffer :=
  let sg := hmac_sign H data packet pktlen macbits noncebits (some (netendian_nonce send))
  if noncebits > 0 then
    (bitstring_push_u64 sg.2 (bitstring_skip bitstring_init macbits) send (noncebits % 256)).1
  else sg.2

/-- The block "Reconstruct nonce from extracted bits" of `repel_authenticate`,
run when `noncebits > 0`: from the receive nonce, the extracted bits, the
number of MAC bits in front of the nonce bits and the number of nonce bits, the
nonce candidate and `auth.packet_loss`. -/
def reconstruct_nonce (recv : Nat) (mac : Buffer) (macbits noncebits : Nat) : Nat × Nat :=
  let macstr := bitstring_skip bitstring_init macbits
  let nonce := (bitstring_pop_u64 mac macstr (noncebits % 256)).1
  /- Determine upper bits from connection nonce -/
  let upper := recv &&& ((NONCE_MASK <<< noncebits) % NONCE_RANGE)
  let nonce := nonce ||| upper
  let nonce := if nonce < recv then (nonce + int_one_shl noncebits) % NONCE_RANGE else nonce
  let diff := (nonce + NONCE_RANGE - recv) % NONCE_RANGE
  (nonce, if diff < UINT16_MAX then diff else UINT16_MAX)

/-- What `repel_authenticate` leaves behind: the connection, the packet, the
`int32_t` it returns and the callback it has made, if any. -/
structure AuthOutcome (σ μ : Type) where
  con : RepelConnection σ μ
  packet : Buffer
  ret : Int
  callback : Option CallbackCall

/-- The end of `repel_authenticate`, from the result `protection` of
`MAC.verify` on: the optional `verified` step, the callback, the return. -/
def authenticate_finish {σ μ : Type} (con : RepelConnection σ μ) (packet : Buffer)
    (pinfo : ParseResult) (auth : AuthenticateResult) (protection : Int)
    (on_auth_success on_auth_failed : Bool) (cbdata : Nat) : AuthOutcome σ μ :=
  let pktlen := bufsize pinfo.pktlen
  if protection > 0 then
    let auth := { auth with protection_level := protection.toNat % 65536 }
    let vf :=
      match con.parser.verified with
      | some verified => verified con.parser_state packet pktlen
      | none => (con.parser_state, packet)
    { con := { con with parser_state := vf.1 }
      packet := vf.2
      ret := pinfo.pktlen
      callback :=
        if on_auth_success then
          some { kind := CallbackKind.on_auth_success, cbdata := cbdata, packet := vf.2,
                 packet_len := pktlen, result := auth }
        else none }
  else
    let auth := { auth with protection_level := ((-protection) % 65536).toNat }
    { con := con
      packet := packet
      ret := pinfo.pktlen
      callback :=
        if on_auth_failed then
          some { kind := CallbackKind.on_auth_failed, cbdata := cbdata, packet := packet,
                 packet_len := pktlen, result := auth }
        else none }

/-- The function `repel_authenticate`. `auth` is the content of the uninitialised local
variable `auth`; the two flags say whether the callback pointers are non-null. -/
def repel_authenticate {σ μ : Type} (con : RepelConnection σ μ) (packet : Buffer)
    (buffer_size : Nat) (on_auth_success on_auth_failed : Bool) (cbdata : Nat)
    (auth : AuthenticateResult) : AuthOutcome σ μ :=
  let pinfo := con.parser.parse con.parser_state packet buffer_size RepelMode.AUTHENTICATE
  if pinfo.pktlen < 0 then
    { con := con, packet := packet, ret := pinfo.pktlen, callback := none }
  else
    let pktlen := bufsize pinfo.pktlen
    let ex := con.parser.extract con.parser_state packet pktlen con.extrbuf
    let rs := con.parser.restore ex.1 ex.2.1 pktlen RepelMode.AUTHENTICATE
    let con := { con with parser_state := rs.1, extrbuf := ex.2.2 }
    let mac := ex.2.2
    let macbits := pinfo.embed_bits
    let auth := { auth with nonce_embedded := !pinfo.packet_has_nonce }
    if auth.nonce_embedded then
      let noncebits := con.nonce_embed_bits
      if pinfo.embed_bits ≤ noncebits then
        { con := con, packet := rs.2, ret := 0, callback := none }
      else
        /- Reconstruct nonce from extracted bits -/
        let macbits := if noncebits > 0 then macbits - noncebits else macbits
        let rn :=
          if noncebits > 0 then reconstruct_nonce con.nonce_recv mac macbits noncebits
          else (con.nonce_recv, 0)
        let nonce := rn.1
        let auth := { auth with packet_loss := rn.2 }
        let netnonce := netendian_nonce nonce
        let vr := con.macalgo.verify con.mac_state rs.2 pktlen mac macbits (some netnonce)
        let protection := vr.2
        let con := { con with
          mac_state := vr.1
          nonce_recv := if protection > 0 then (nonce + 1) % NONCE_RANGE else con.nonce_recv }
        authenticate_finish con rs.2 pinfo auth protection on_auth_success on_auth_failed cbdata
    else
      let vr := con.macalgo.verify con.mac_state rs.2 pktlen mac macbits none
      let con := { con with mac_state := vr.1 }
      authenticate_finish con rs.2 pinfo auth vr.2 on_auth_success on_auth_failed cbdata

end RePeL

namespace RePeL

/-! ## The stages of `repel_authenticate`, and runs of several calls -/

/-- The parse result at the head of `repel_authenticate`. -/
def auth_parse {σ μ : Type} (con : RepelConnection σ μ) (packet : Buffer) (buffer_size : Nat) :
    ParseResult :=
  con.parser.parse con.parser_state packet buffer_size RepelMode.AUTHENTICATE

/-- What `parser.extract` returns in `repel_authenticate`: parser state, packet
and extract buffer. -/
def auth_extract {σ μ : Type} (con : RepelConnection σ μ) (packet : Buffer)
    (buffer_size : Nat) : σ × Buffer × Buffer :=
  con.parser.extract con.parser_state packet (bufsize (auth_parse con packet buffer_size).pktlen)
    con.extrbuf

/-- What `parser.restore` returns in `repel_authenticate`: parser state and
restored packet. -/
def auth_restore {σ μ : Type} (con : RepelConnection σ μ) (packet : Buffer)
    (buffer_size : Nat) : σ × Buffer :=
  con.parser.restore (auth_extract con packet buffer_size).1
    (auth_extract con packet buffer_size).2.1
    (bufsize (auth_parse con packet buffer_size).pktlen) RepelMode.AUTHENTICATE

/-- The nonce candidate and the packet loss that `repel_authenticate` computes
for a packet without protocol nonce. -/
def auth_nonce {σ μ : Type} (con : RepelConnection σ μ) (packet : Buffer) (buffer_size : Nat) :
    Nat × Nat :=
  if con.nonce_embed_bits > 0 then
    reconstruct_nonce con.nonce_recv (auth_extract con packet buffer_size).2.2
      ((auth_parse con packet buffer_size).embed_bits - con.nonce_embed_bits)
      con.nonce_embed_bits
  else (con.nonce_recv, 0)

/-- The one call of `MAC.verify` that `repel_authenticate` makes for a packet
with room for a MAC, with its arguments. -/
def auth_verify {σ μ : Type} (con : RepelConnection σ μ) (packet : Buffer) (buffer_size : Nat) :
    μ × Int :=
  if (auth_parse con packet buffer_size).packet_has_nonce then
    con.macalgo.verify con.mac_state (auth_restore con packet buffer_size).2
      (bufsize (auth_parse con packet buffer_size).pktlen)
      (auth_extract con packet buffer_size).2.2
      (auth_parse con packet buffer_size).embed_bits none
  else
    con.macalgo.verify con.mac_state (auth_restore con packet buffer_size).2
      (bufsize (auth_parse con packet buffer_size).pktlen)
      (auth_extract con packet buffer_size).2.2
      ((auth_parse con packet buffer_size).embed_bits - con.nonce_embed_bits)
      (some (netendian_nonce (auth_nonce con packet buffer_size).1))

/-- Calls of `repel_embed` on one packet after the other: the connection in the end,
and for each packet the embedded buffer and the value returned. -/
def embed_seq {σ μ : Type} (con : RepelConnection σ μ) :
    List (Buffer × Nat) → RepelConnection σ μ × List (Buffer × Nat)
  | [] => (con, [])
  | p :: rest =>
    let e := repel_embed con p.1 p.2
    let r := embed_seq e.1 rest
    (r.1, (e.2.1, e.2.2) :: r.2)

/-- The number of calls in a run of `embed_seq` that returned a non-zero value. -/
def embed_successes (run : List (Buffer × Nat)) : Nat :=
  (run.filter fun p => p.2 ≠ 0).length

/-- A connection with the Modbus/TCP parser and the HMAC adapter, in a given
state. -/
def modbus_hmac_connection (H : HmacFn) (cfg : ModbusConfig) (st : ModbusTCPState)
    (ms : HMacData) (send recv embed_nonce_bits : Nat) (extrbuf : Buffer) :
    RepelConnection ModbusTCPState HMacData :=
  { parser := modbus_tcp_parser_module cfg, macalgo := hmac_module H, parser_state := st,
    mac_state := ms, nonce_send := send, nonce_recv := recv,
    nonce_embed_bits := embed_nonce_bits, extrbuf := extrbuf }

/-- The receive buffer after a frame of `n` bytes has arrived in it: the first
`n` bytes are those of the frame, the bytes behind them are what the buffer
`rbuf` held before. -/
def receive_frame (frame : Buffer) (n : Nat) (rbuf : Buffer) : Buffer :=
  fun a => if a < n then frame a else rbuf a

/-- One protected packet from connection `A` to connection `B`: `repel_embed`
on `A`; the `size` bytes of the frame travel to the receive buffer of `B`,
which held `rbuf`; then `repel_authenticate` on `B` with that buffer. -/
def embed_authenticate {σ μ σ' μ' : Type} (A : RepelConnection σ μ) (B : RepelConnection σ' μ')
    (packet : Buffer) (size : Nat) (rbuf : Buffer) (on_auth_success on_auth_failed : Bool)
    (cbdata : Nat) (auth : AuthenticateResult) :
    (RepelConnection σ μ × Buffer × Nat) × AuthOutcome σ' μ' :=
  let e := repel_embed A packet size
  (e, repel_authenticate B (receive_frame e.2.1 size rbuf) size on_auth_success on_auth_failed
    cbdata auth)

/-- The request of the Modbus/TCP round trip: `00 07 00 00 00 06 11 03 00 6B 00 03`. -/
def modbus_request : Buffer :=
  Buffer.ofList [0x00, 0x07, 0x00, 0x00, 0x00, 0x06, 0x11, 0x03, 0x00, 0x6B, 0x00, 0x03]

/-- The empty TID map of a client: 16 free cells, `tid0_index = tid_map_len`. -/
def modbus_fresh_state : ModbusTCPState :=
  { transaction_map := List.replicate 16 0, tid0_index := 16 }

/-- The exchange of the sender and receiver examples: the client embeds, the
server authenticates and embeds the reply in the same buffer, the client
authenticates the reply. Returns the outcome at the server and at the client. -/
def modbus_exchange (client server : RepelConnection ModbusTCPState HMacData)
    (packet : Buffer) (size : Nat) :
    AuthOutcome ModbusTCPState HMacData × AuthOutcome ModbusTCPState HMacData :=
  let e1 := repel_embed client packet size
  let r2 := repel_authenticate server e1.2.1 size true true 0 ⟨0, 0, false⟩
  let e3 := repel_embed r2.con r2.packet size
  let r4 := repel_authenticate e1.1 e3.2.1 size true true 0 ⟨0, 0, false⟩
  (r2, r4)

/-- The key `26 46 29 4A 40 4E 63 52 66 55 6A 57 6E 5A 72` followed by `last`,
as in the sender and receiver examples. -/
def example_key (last : Nat) : List Nat :=
  [0x26, 0x46, 0x29, 0x4A, 0x40, 0x4E, 0x63, 0x52, 0x66, 0x55, 0x6A, 0x57, 0x6E, 0x5A, 0x72, last]

/-- MAC state of the sender example: keys `..34`, `..35`. -/
def sender_mac_state : HMacData :=
  { keys := Buffer.ofList (example_key 0x34 ++ example_key 0x35), buffer := allOnes }

/-- MAC state of the receiver example: keys `..35`, `..34`. -/
def receiver_mac_state : HMacData :=
  { keys := Buffer.ofList (example_key 0x35 ++ example_key 0x34), buffer := allOnes }

/-- A keyed function for concrete runs, in place of HMAC-SHA256: 32 bytes
computed from the sums of key and message. -/
def sum_hmac : HmacFn :=
  fun key msg => (List.range 32).map fun i => (key.sum + 7 * msg.sum + 37 * i) % 256

/-- A parser module for a protocol with a nonce of its own: the Modbus/TCP
parser with `packet_has_nonce` set in the parse result. -/
def own_nonce_parser_module : ParserModule ModbusTCPState :=
  { modbus_tcp_parser_module {} with
    parse := fun st p n m => { modbus_tcp_parse {} st p n m with packet_has_nonce := true } }

/-- Sender connection of the examples: client role, `embed_nonce_bits = 3`, over
`sum_hmac`, with the given send nonce. -/
def example_sender (send : Nat) : RepelConnection ModbusTCPState HMacData :=
  modbus_hmac_connection sum_hmac {} modbus_fresh_state sender_mac_state send 0 3 allOnes

/-- Receiver connection of the examples: server role, `embed_nonce_bits = 3`,
over `sum_hmac`, with the given receive nonce. -/
def example_receiver (recv : Nat) : RepelConnection ModbusTCPState HMacData :=
  modbus_hmac_connection sum_hmac { MODBUS_TCP_IS_CLIENT := false } modbus_fresh_state
    receiver_mac_state 0 recv 3 allOnes

/-- The request as the sender with the given send nonce embeds it. -/
def example_embedded (send : Nat) : Buffer :=
  (repel_embed (example_sender send) modbus_request 12).2.1

/-- The embedded request with bit 0 of the function code byte (offset 7)
flipped. -/
def example_tampered : Buffer :=
  (example_embedded 0).write 7 ((example_embedded 0).read 7 ^^^ 1)

/-- Calls of `repel_authenticate` on one packet after the other, both callbacks given:
the connection in the end and the `packet_loss` reported for each packet
(`none` when no callback was made). -/
def authenticate_seq {σ μ : Type} (con : RepelConnection σ μ) :
    List (Buffer × Nat) → RepelConnection σ μ × List (Option Nat)
  | [] => (con, [])
  | p :: rest =>
    let r := repel_authenticate con p.1 p.2 true true 0 ⟨0, 0, false⟩
    let t := authenticate_seq r.con rest
    (t.1, r.callback.map (fun c => c.result.packet_loss) :: t.2)

/-- The nonce loss run: the sender embeds the request six times; of the six
packets the receiver gets the first, fourth, fifth and sixth. The list holds
the `packet_loss` reported for each of the four. -/
def nonce_loss_run : List (Option Nat) :=
  let sent := (embed_seq (example_sender 0) (List.replicate 6 (modbus_request, 12))).2
  let received := [sent.getD 0 (allOnes, 0), sent.getD 3 (allOnes, 0), sent.getD 4 (allOnes, 0),
    sent.getD 5 (allOnes, 0)]
  (authenticate_seq (example_receiver 0) (received.map fun p => (p.1, 12))).2

end RePeL
namespace RePeL

/-! ## Inputs of the engine runs -/

/-- A parser module that reports a parse error for every buffer: the
Modbus/TCP parser of the default configuration, with a parse function that
returns `pktlen = 0`, the given `embed_bits` and no protocol nonce. -/
def parse_error_parser_module (embed_bits : Nat) : ParserModule ModbusTCPState :=
  { modbus_tcp_parser_module {} with
    parse := fun _ _ _ _ => { pktlen := 0, embed_bits := embed_bits, packet_has_nonce := false } }

/-- The receiver of the examples with `parse_error_parser_module` as its parser. -/
def parse_error_receiver (embed_bits : Nat) : RepelConnection ModbusTCPState HMacData :=
  { parser := parse_error_parser_module embed_bits, macalgo := hmac_module sum_hmac,
    parser_state := modbus_fresh_state, mac_state := receiver_mac_state, nonce_send := 0,
    nonce_recv := 0, nonce_embed_bits := 3, extrbuf := allOnes }

/-- The bit count that `repel_authenticate` hands to `MAC.verify`: all carrier
bits for a packet with a protocol nonce, the carrier bits less the nonce bits
otherwise. -/
def auth_macbits {σ μ : Type} (con : RepelConnection σ μ) (packet : Buffer) (buffer_size : Nat) :
    Nat :=
  if (auth_parse con packet buffer_size).packet_has_nonce then
    (auth_parse con packet buffer_size).embed_bits
  else (auth_parse con packet buffer_size).embed_bits - con.nonce_embed_bits

/-- The digest of a message under a key, as `dtls_hmac_finalize` stores it in a
zeroed buffer: the first `DTLS_HMAC_DIGEST_SIZE` bytes. -/
def hmac_digest (H : HmacFn) (key msg : List Nat) : Buffer :=
  hmac_finalize (fun _ => 0) (H key msg)

/-- The message that `repel_authenticate` has `MAC.verify` authenticate: the
restored packet, followed by the eight bytes of the nonce candidate unless the
packet has a nonce of its own. -/
def auth_mac_message {σ μ : Type} (con : RepelConnection σ μ) (packet : Buffer)
    (buffer_size : Nat) : List Nat :=
  hmac_message (auth_restore con packet buffer_size).2
    (bufsize (auth_parse con packet buffer_size).pktlen)
    (if (auth_parse con packet buffer_size).packet_has_nonce then none
      else some (netendian_nonce (auth_nonce con packet buffer_size).1))

/-- The buffer with bit `i` inverted (bit 0 is the most significant bit of
byte 0). -/
def flip_bit (m : Buffer) (i : Nat) : Buffer :=
  m.write (i / 8) (m.read (i / 8) ^^^ (1 <<< (7 - i % 8)))

/-- The embedded request with the lowest bit of the Length field (bit 47)
inverted: Length 7 in place of 6. -/
def example_length_flipped : Buffer := flip_bit (example_embedded 0) 47

/-! ## bitstring.h, parser/fake_parser.c -/

def bitstring_copy_u64 (dm : Buffer) (dc : BitString) (sm : Buffer) (sc : BitString) (bits : Nat) :
    Buffer × BitString × BitString :=
  let e := bitstring_pop_u64 sm sc bits
  let r := bitstring_push_u64 dm dc e.1 bits
  (r.1, r.2, e.2)

/-- The macro `MAX_MAC_BITS` of the fake and the split parser. -/
def MAX_MAC_BITS : Nat := 256

/-- The macro `MAX_MAC_BYTES` of the fake parser. -/
def MAX_MAC_BYTES : Nat := ceil_bits_to_bytes 256

/-- The function `fake_parse`; the state, the packet and the mode are unused. -/
def fake_parse (_self : Unit) (_packet : Buffer) (buflen : Nat) (_mode : RepelMode) :
    ParseResult :=
  { pktlen := (buflen : Int)
    embed_bits := if buflen * 8 < MAX_MAC_BITS then (buflen * 8) % 65536 else MAX_MAC_BITS
    packet_has_nonce := false }

/-- The loop `while(bits > 64) { bitstring_copy_u64(dst, src, 64); bits -= 64; }`
of `fake_embed` and `fake_extract`: destination buffer, both cursors and the
bits that are left. The first argument bounds the number of rounds; a bound of
at least `bits` is never used up while the loop would go on. -/
def copy_u64_loop (sm : Buffer) :
    Nat → Buffer → BitString → BitString → Nat → Buffer × BitString × BitString × Nat
  | 0, dm, dc, sc, bits => (dm, dc, sc, bits)
  | fuel + 1, dm, dc, sc, bits =>
    if bits > 64 then
      let r := bitstring_copy_u64 dm dc sm sc 64
      copy_u64_loop sm fuel r.1 r.2.1 r.2.2 (bits - 64)
    else (dm, dc, sc, bits)

/-- The common body of `fake_embed` and `fake_extract`: copies the first
`min (8 * pktlen) 256` bits of the source to the destination. -/
def fake_copy (dm sm : Buffer) (pktlen : Nat) : Buffer :=
  let bits := if pktlen * 8 < MAX_MAC_BITS then (pktlen * 8) % 65536 else MAX_MAC_BITS
  let r := copy_u64_loop sm bits dm bitstring_init bitstring_init bits
  if r.2.2.2 > 0 then (bitstring_copy_u64 r.1 r.2.1 sm r.2.2.1 r.2.2.2).1 else r.1

def fake_embed (self : Unit) (packet : Buffer) (pktlen : Nat) (macbuf : Buffer) :
    Unit × Buffer :=
  (self, fake_copy packet macbuf pktlen)

def fake_extract (self : Unit) (packet : Buffer) (pktlen : Nat) (macbuf : Buffer) :
    Unit × Buffer × Buffer :=
  (self, packet, fake_copy macbuf packet pktlen)

def fake_restore (self : Unit) (packet : Buffer) (pktlen : Nat) (_mode : RepelMode) :
    Unit × Buffer :=
  let pktlen := if pktlen > MAX_MAC_BYTES then MAX_MAC_BYTES else pktlen
  (self, memset packet 0 pktlen)

/-- The module table `fake_parser`; `verified` is a null pointer. -/
def fake_parser_module : ParserModule Unit where
  parse := fake_parse
  embed := fake_embed
  extract := fake_extract
  restore := fake_restore
  verified := none

/-! ## parser/split_parser.c -/

/-- The compile-time switches `EVAL_PKTALIGN` and `EVAL_MACALIGN`; neither is
defined in the sources, so both are off unless the build sets them. -/
structure SplitConfig where
  EVAL_PKTALIGN : Bool := false
  EVAL_MACALIGN : Bool := false
deriving DecidableEq, Repr

def OFFSET_BITS : Nat := 1

/-- The macro `MIN_PKT_LEN`. -/
def MIN_PKT_LEN (cfg : SplitConfig) : Nat :=
  if cfg.EVAL_PKTALIGN then MAX_MAC_BITS
  else ceil_bits_to_bytes (MAX_MAC_BITS * (OFFSET_BITS + 1))

/-- The globals of the split parser: `split_parser_mac_splits` (a `uint16_t`)
and the array `fmac` that takes the place of the MAC buffer under
`EVAL_MACALIGN`. -/
structure SplitState where
  split_parser_mac_splits : Nat
  fmac : Buffer

/-- The loop `while(numbits > 8) { bitstring_copy_u8(dst, src, 8); numbits -= 8; }`
and the `if(numbits)` after it, of `_bstr_copy_multibyte`. The first argument
bounds the number of rounds. -/
def copy_multibyte_loop (sm : Buffer) :
    Nat → Buffer → BitString → BitString → Nat → Buffer × BitString × BitString
  | 0, dm, dc, sc, _ => (dm, dc, sc)
  | fuel + 1, dm, dc, sc, numbits =>
    if numbits > 8 then
      let r := bitstring_copy_u8 dm dc sm sc 8
      copy_multibyte_loop sm fuel r.1 r.2.1 r.2.2 (numbits - 8)
    else if numbits ≠ 0 then bitstring_copy_u8 dm dc sm sc numbits
    else (dm, dc, sc)

/-- The function `_bstr_copy_multibyte`. Every round takes 8 bits off `numbits`, so `numbits`
rounds are never used up while the loop would go on. -/
def _bstr_copy_multibyte (dm : Buffer) (dc : BitString) (sm : Buffer) (sc : BitString)
    (numbits : Nat) : Buffer × BitString × BitString :=
  copy_multibyte_loop sm numbits dm dc sc numbits

/-- The loop and the `if(numbits)` of `_bstr_zero_multibyte`. -/
def zero_multibyte_loop : Nat → Buffer → BitString → Nat → Buffer × BitString
  | 0, m, c, _ => (m, c)
  | fuel + 1, m, c, numbits =>
    if numbits > 8 then
      let r := bitstring_push_u8 m c 0 8
      zero_multibyte_loop fuel r.1 r.2 (numbits - 8)
    else if numbits ≠ 0 then bitstring_push_u8 m c 0 numbits
    else (m, c)

def _bstr_zero_multibyte (m : Buffer) (c : BitString) (numbits : Nat) : Buffer × BitString :=
  zero_multibyte_loop numbits m c numbits

/-- The function `_bstr_byte_align`: `data += !!shift; shift = 0`. -/
def _bstr_byte_align (c : BitString) : BitString :=
  { data := c.data + (if c.shift ≠ 0 then 1 else 0), shift := 0 }

def split_parse (cfg : SplitConfig) (_self : SplitState) (_packet : Buffer) (buflen : Nat)
    (_mode : RepelMode) : ParseResult :=
  match parse_fail_on_minlen (MIN_PKT_LEN cfg) buflen with
  | some res => res
  | none => { pktlen := (buflen : Int), embed_bits := MAX_MAC_BITS, packet_has_nonce := false }

/-- The value of `segment_len`, `MAX_MAC_BITS / (split_parser_mac_splits + 1)`. -/
def segment_len (state : SplitState) : Nat :=
  (MAX_MAC_BITS / (state.split_parser_mac_splits + 1)) % 65536

/-- The step in front of every segment in `split_embed` and `split_extract`,
on the packet cursor and the MAC cursor. -/
def split_gap (cfg : SplitConfig) (pkt mac : BitString) : BitString × BitString :=
  if cfg.EVAL_PKTALIGN then (_bstr_byte_align pkt, mac)
  else if cfg.EVAL_MACALIGN then (pkt, _bstr_byte_align mac)
  else (bitstring_skip pkt OFFSET_BITS, mac)

/-- The loop `while(s < split_parser_mac_splits)` of `split_embed`, for the
rounds that are left: packet, packet cursor, MAC cursor and the bits yet to
process. -/
def split_embed_loop (cfg : SplitConfig) (seg : Nat) (macbuf : Buffer) :
    Nat → Buffer → BitString → BitString → Nat → Buffer × BitString × BitString × Nat
  | 0, packet, pkt, mac, bits => (packet, pkt, mac, bits)
  | n + 1, packet, pkt, mac, bits =>
    let g := split_gap cfg pkt mac
    let r := _bstr_copy_multibyte packet g.1 macbuf g.2 seg
    split_embed_loop cfg seg macbuf n r.1 r.2.1 r.2.2 ((bits + 65536 - seg) % 65536)

/-- The function `split_embed`. Under `EVAL_MACALIGN` the bits come from `fmac`, not from
the MAC buffer. -/
def split_embed (cfg : SplitConfig) (self : SplitState) (packet : Buffer) (_pktlen : Nat)
    (macbuf : Buffer) : SplitState × Buffer :=
  let src := if cfg.EVAL_MACALIGN then self.fmac else macbuf
  let r := split_embed_loop cfg (segment_len self) src self.split_parser_mac_splits packet
    bitstring_init bitstring_init MAX_MAC_BITS
  /- Rest as last segment -/
  let g := split_gap cfg r.2.1 r.2.2.1
  (self, (_bstr_copy_multibyte r.1 g.1 src g.2 r.2.2.2).1)

/-- The loop of `split_extract`: destination buffer, packet cursor, MAC cursor
and the bits yet to process. -/
def split_extract_loop (cfg : SplitConfig) (seg : Nat) (packet : Buffer) :
    Nat → Buffer → BitString → BitString → Nat → Buffer × BitString × BitString × Nat
  | 0, dst, pkt, mac, bits => (dst, pkt, mac, bits)
  | n + 1, dst, pkt, mac, bits =>
    let g := split_gap cfg pkt mac
    let r := _bstr_copy_multibyte dst g.2 packet g.1 seg
    split_extract_loop cfg seg packet n r.1 r.2.2 r.2.1 ((bits + 65536 - seg) % 65536)

/-- The function `split_extract`. Under `EVAL_MACALIGN` the bits go to `fmac`, not to the
MAC buffer. -/
def split_extract (cfg : SplitConfig) (self : SplitState) (packet : Buffer) (_pktlen : Nat)
    (macbuf : Buffer) : SplitState × Buffer × Buffer :=
  let dst := if cfg.EVAL_MACALIGN then self.fmac else macbuf
  let r := split_extract_loop cfg (segment_len self) packet self.split_parser_mac_splits dst
    bitstring_init bitstring_init MAX_MAC_BITS
  /- Rest as last segment -/
  let g := split_gap cfg r.2.1 r.2.2.1
  let dst := (_bstr_copy_multibyte r.1 g.2 packet g.1 r.2.2.2).1
  if cfg.EVAL_MACALIGN then ({ self with fmac := dst }, packet, macbuf)
  else (self, packet, dst)

/-- The step in front of every segment in `split_restore`. -/
def split_restore_gap (cfg : SplitConfig) (pkt : BitString) : BitString :=
  if cfg.EVAL_PKTALIGN then _bstr_byte_align pkt else bitstring_skip pkt OFFSET_BITS

/-- The loop of `split_restore`: packet, packet cursor and the bits yet to
process. -/
def split_restore_loop (cfg : SplitConfig) (seg : Nat) :
    Nat → Buffer → BitString → Nat → Buffer × BitString × Nat
  | 0, packet, pkt, bits => (packet, pkt, bits)
  | n + 1, packet, pkt, bits =>
    let r := _bstr_zero_multibyte packet (split_restore_gap cfg pkt) seg
    split_restore_loop cfg seg n r.1 r.2 ((bits + 65536 - seg) % 65536)

def split_restore (cfg : SplitConfig) (self : SplitState) (packet : Buffer) (_pktlen : Nat)
    (_mode : RepelMode) : SplitState × Buffer :=
  let r := split_restore_loop cfg (segment_len self) self.split_parser_mac_splits packet
    bitstring_init MAX_MAC_BITS
  /- Rest as last segment -/
  (self, (_bstr_zero_multibyte r.1 (split_restore_gap cfg r.2.1) r.2.2).1)

/-- The module table `split_parser`; `verified` is a null pointer. -/
def split_parser_module (cfg : SplitConfig) : ParserModule SplitState where
  parse := split_parse cfg
  embed := split_embed cfg
  extract := split_extract cfg
  restore := split_restore cfg
  verified := none

/-- The carrier bits of the fake parser for a packet of `pktlen` bytes: the
first `embed_bits` bits. -/
abbrev fake_carrier (pktlen i : Nat) : Prop :=
  i < (fake_parse () (fun _ => 0) pktlen RepelMode.EMBED).embed_bits

/-- What a copy of `n` bits from bit position `sp` of `sm` to bit position `p`
makes of a buffer `m`: the window holds the source bits in order, and every
other bit is as before. -/
def IsCopy (m : Buffer) (p : Nat) (sm : Buffer) (sp n : Nat) (m' : Buffer) : Prop :=
  ∀ i, getBit m' i = if p ≤ i ∧ i < p + n then getBit sm (sp + (i - p)) else getBit m i

/-- The bits of `n` segments of `g` bits each, from bit position `p` on, with
one bit skipped in front of every segment. -/
def split_zone (g : Nat) : Nat → Nat → Nat → Bool
  | 0, _, _ => false
  | n + 1, p, i => decide (p + 1 ≤ i ∧ i < p + 1 + g) || split_zone g n (p + g + 1) i

/-- The MAC bit that a packet bit carries in `n` segments of `g` bits each,
the packet being at bit position `p` and the MAC at bit position `q`, with one
packet bit skipped in front of every segment; `none` for a packet bit outside
the segments. -/
def split_src (g : Nat) : Nat → Nat → Nat → Nat → Option Nat
  | 0, _, _, _ => none
  | n + 1, p, q, i =>
    if p + 1 ≤ i ∧ i < p + 1 + g then some (q + (i - (p + 1)))
    else split_src g n (p + g + 1) (q + g) i

/-- Carrier layout of the split parser in the one-bit-gap mode, for `S`
splits: the index of the MAC bit that a packet bit carries, `none` for a packet
bit that is no carrier. -/
def split_layout (S i : Nat) : Option Nat :=
  match split_src (256 / (S + 1)) S 0 0 i with
  | some j => some j
  | none =>
    if S * (256 / (S + 1) + 1) + 1 ≤ i ∧
        i < S * (256 / (S + 1) + 1) + 1 + (256 - S * (256 / (S + 1))) then
      some (S * (256 / (S + 1)) + (i - (S * (256 / (S + 1) + 1) + 1)))
    else none

/-- The carrier bits of the split parser in the one-bit-gap mode, for `S`
splits: segment `t < S` takes the `seg = 256 / (S + 1)` bits from bit
`t * (seg + 1) + 1` on, and the last segment the remaining `256 - S * seg`
bits from bit `S * (seg + 1) + 1` on. -/
def split_carrier (S i : Nat) : Prop :=
  (∃ t, t < S ∧ t * (256 / (S + 1) + 1) + 1 ≤ i ∧ i < (t + 1) * (256 / (S + 1) + 1)) ∨
    (S * (256 / (S + 1) + 1) + 1 ≤ i ∧ i < S * (256 / (S + 1) + 1) + 1 + (256 - S * (256 / (S + 1))))

end RePeL
namespace RePeL

/-! ## Inputs of the runs on the TID map -/

/-- The request of the examples with the given Transaction Identifier bytes. -/
def modbus_request_tid (hi lo : Nat) : Buffer :=
  Buffer.ofList [hi, lo, 0x00, 0x00, 0x00, 0x06, 0x11, 0x03, 0x00, 0x6B, 0x00, 0x03]

/-- The parser state of a client that has embedded, from the fresh state, one
request with Transaction Identifier 0 and waits for its reply. -/
def tid0_pending_state : ModbusTCPState :=
  (modbus_tcp_restore {} modbus_fresh_state (modbus_request_tid 0 0) 12 RepelMode.EMBED).1

/-! ## mac/fakemac_module.c -/

/-- The function `fakemac_sign`; the module state is the buffer itself. -/
def fakemac_sign (self : Buffer) (_packet : Buffer) (_pktlen macbits extrabits : Nat)
    (_noncebytes : Option (List Nat)) : Buffer × Buffer :=
  let buf := memset self 0xff (ceil_bits_to_bytes (macbits + extrabits))
  (buf, buf)

/-- The loop `for(i = 0; i < fullbytes; i++) if(mac[i] != 0xff) return -bits;`
of `fakemac_verify`, from index `i` on with `n` rounds left: `false` when it
returns, `true` when it runs to its end. -/
def fakemac_loop (mac : Buffer) : Nat → Nat → Bool
  | 0, _ => true
  | n + 1, i => if mac.read i ≠ 0xff then false else fakemac_loop mac n (i + 1)

/-- The function `fakemac_verify`. In `mac[fullbytes] | (mask != 0xff)` the comparison binds
tighter than the bitwise or. -/
def fakemac_verify (self : Buffer) (_packet : Buffer) (_pktlen : Nat) (mac : Buffer) (bits : Nat)
    (_noncebytes : Option (List Nat)) : Buffer × Int :=
  let fullbytes := (bits / 8) % 65536
  let oddbits := (bits % 8) % 65536
  if fakemac_loop mac fullbytes 0 then
    if oddbits > 0 then
      let mask := (0xff >>> oddbits) % 256
      if (mac.read fullbytes ||| (if mask ≠ 0xff then 1 else 0)) ≠ 0 then
        (self, int16 (-(bits : Int)))
      else (self, int16 bits)
    else (self, int16 bits)
  else (self, int16 (-(bits : Int)))

def fakemac_set_keys (self : Buffer) (_keys : Option Buffer) : Buffer := self

/-- The module table `fakemac_module`. -/
def fakemac_module : MacModule Buffer where
  sign := fakemac_sign
  writeback := fun _ buf => buf
  verify := fakemac_verify
  set_keys := fakemac_set_keys

/-- A connection with the Modbus/TCP parser of the default configuration and
the null MAC module, with the given `embed_nonce_bits`, both nonces 0. -/
def modbus_fakemac_connection (embed_nonce_bits : Nat) : RepelConnection ModbusTCPState Buffer :=
  { parser := modbus_tcp_parser_module {}, macalgo := fakemac_module,
    parser_state := modbus_fresh_state, mac_state := fun _ => 0, nonce_send := 0,
    nonce_recv := 0, nonce_embed_bits := embed_nonce_bits, extrbuf := fun _ => 0 }

/-- Sender of the examples for a protocol with a nonce of its own. -/
def own_nonce_sender : RepelConnection ModbusTCPState HMacData :=
  { example_sender 0 with parser := own_nonce_parser_module }

/-- Receiver of the examples for a protocol with a nonce of its own; it holds
the keys of the sender in the other order. -/
def own_nonce_receiver : RepelConnection ModbusTCPState HMacData :=
  { example_receiver 0 with parser := own_nonce_parser_module }

/-! ## The MAC buffer of `repel_embed` -/

/-- The buffer that `MAC.sign` returns in `repel_embed` for a packet without
protocol nonce. -/
def embed_sign {σ μ : Type} (con : RepelConnection σ μ) (packet : Buffer) (packet_size : Nat) :
    Buffer :=
  let pinfo := con.parser.parse con.parser_state packet packet_size RepelMode.EMBED
  let pktlen := bufsize pinfo.pktlen
  let rs := con.parser.restore con.parser_state packet pktlen RepelMode.EMBED
  let noncebits := con.nonce_embed_bits
  let netnonce := netendian_nonce con.nonce_send
  let macbits := pinfo.embed_bits - noncebits
  (con.macalgo.sign con.mac_state rs.2 pktlen macbits noncebits (some netnonce)).2

/-- The buffer `mac` that `repel_embed` hands to `parser.embed` for a packet
without protocol nonce: the buffer that `MAC.sign` returned, after the block
"Embed Nonce bits behind MAC in buffer". -/
def embed_mac {σ μ : Type} (con : RepelConnection σ μ) (packet : Buffer) (packet_size : Nat) :
    Buffer :=
  let pinfo := con.parser.parse con.parser_state packet packet_size RepelMode.EMBED
  let noncebits := con.nonce_embed_bits
  let macbits := pinfo.embed_bits - noncebits
  if noncebits > 0 then
    let macstr := bitstring_skip bitstring_init macbits
    (bitstring_push_u64 (embed_sign con packet packet_size) macstr con.nonce_send
      (noncebits % 256)).1
  else embed_sign con packet packet_size

/-- A connection with the fake parser and the null MAC module. -/
def fake_fakemac_connection (embed_nonce_bits send : Nat) : RepelConnection Unit Buffer :=
  { parser := fake_parser_module, macalgo := fakemac_module, parser_state := (),
    mac_state := fun _ => 0, nonce_send := send, nonce_recv := 0,
    nonce_embed_bits := embed_nonce_bits, extrbuf := fun _ => 0 }

/-! ## The `create` functions and `repel_create_connection` -/

/-- The function `modbus_tcp_create`. `alloc` is the memory that `mem_alloc` returns, `none`
for a null pointer, with whatever it holds; the second argument is the content
of `*max_embed_bits` before the call. The call of `memset` clears
`tid_map_len` bytes of the `uint16_t` array `transaction_map`; a cell of which
only the first byte is cleared keeps its high byte (little-endian). -/
def modbus_tcp_create (cfg : ModbusConfig) (alloc : Option ModbusTCPState)
    (max_embed_bits : Nat) : Option ModbusTCPState × Nat :=
  match alloc with
  | none => (none, max_embed_bits)
  | some state =>
    let cells := (List.range (tid_map_len cfg)).map fun i =>
      if 2 * i + 2 ≤ tid_map_len cfg then 0
      else if 2 * i + 1 ≤ tid_map_len cfg then state.transaction_map.getD i 0 / 256 * 256
      else state.transaction_map.getD i 0
    let max_embed_bits := 16 + cfg.MODBUS_TCP_REUSE_TID_BITS
    let max_embed_bits := if cfg.MODBUS_TCP_REUSE_UNIT_ID then max_embed_bits + 8 else max_embed_bits
    (some { transaction_map := cells, tid0_index := tid_map_len cfg }, max_embed_bits)

/-- The function `fake_create`. -/
def fake_create (_max_embed_bits : Nat) : Option Unit × Nat :=
  (some (), MAX_MAC_BITS)

/-- The function `split_create`. The state is the globals of the parser; under
`EVAL_MACALIGN` the array `fmac` is filled with `random_rand()`, given here as
the sequence `rand` of the values it returns. -/
def split_create (cfg : SplitConfig) (globals : SplitState) (rand : Nat → Nat)
    (_max_embed_bits : Nat) : Option SplitState × Nat :=
  let fmac : Buffer :=
    if cfg.EVAL_MACALIGN then fun i => if i < MAX_MAC_BITS then u8 (rand i) else globals.fmac i
    else globals.fmac
  (some { globals with fmac := fmac }, MAX_MAC_BITS)

/-- The function `repel_create_connection`: the connection, `none` for a null pointer, and
`mac_bytes`, the length of the array `extrbuf`. The `create` functions of the
two modules are arguments of their own; `alloc` is the memory that `mem_alloc`
returns for the connection, of which only `extrbuf` is not assigned. -/
def repel_create_connection {σ μ : Type} (parser : ParserModule σ) (macalgo : MacModule μ)
    (embed_nonce_bits : Nat) (parser_create : Nat → Option σ × Nat)
    (mac_create : Nat → Option μ) (alloc : Option Buffer) :
    Option (RepelConnection σ μ) × Nat :=
  let max_embed_bits := 0
  let pc := parser_create max_embed_bits
  let mac_bytes := ceil_bits_to_bytes pc.2 % 65536
  let mstate := mac_create mac_bytes
  match alloc, pc.1, mstate with
  | some extrbuf, some pstate, some mstate =>
    (some { parser := parser, parser_state := pstate, macalgo := macalgo, mac_state := mstate,
            nonce_send := 0, nonce_recv := 0, nonce_embed_bits := embed_nonce_bits,
            extrbuf := extrbuf }, mac_bytes)
  | _, _, _ => (none, mac_bytes)

end RePeL
namespace RePeL

/-! ## Runs on the TID map -/

/-- A call of `_map_tid` with a TID, or of `_unmap_tid` with a slot index. -/
inductive TidCall where
  | map_tid (tid : Nat)
  | unmap_tid (mapid : Nat)
deriving DecidableEq, Repr

/-- The empty TID map: every cell 0 and `tid0_index = tid_map_len`. -/
def empty_tid_map (cfg : ModbusConfig) : ModbusTCPState :=
  { transaction_map := List.replicate (tid_map_len cfg) 0, tid0_index := tid_map_len cfg }

/-- The parser state after one call on the TID map. -/
def tid_call (cfg : ModbusConfig) (st : ModbusTCPState) : TidCall → ModbusTCPState
  | TidCall.map_tid tid => (_map_tid cfg st tid).1
  | TidCall.unmap_tid mapid => (_unmap_tid cfg st mapid).1

/-- The parser state after a sequence of calls on the TID map. -/
def tid_calls (cfg : ModbusConfig) (st : ModbusTCPState) (calls : List TidCall) :
    ModbusTCPState :=
  calls.foldl (tid_call cfg) st

/-- The argument of a call is in range: a TID is a `uint16_t`, a slot index is
below the map length. -/
def TidCall.in_range (cfg : ModbusConfig) : TidCall → Bool
  | TidCall.map_tid tid => decide (tid < 65536)
  | TidCall.unmap_tid mapid => decide (mapid < tid_map_len cfg)

/-- The number of cells of the map that hold a non-zero TID. -/
def tid_map_used (st : ModbusTCPState) : Nat :=
  st.transaction_map.countP (fun t => t != 0)

/-- The shape of the TID map: all cells are there, `tid0_index` is a slot or
the map length, and the cell of a slot reserved for TID 0 is 0. -/
def TidMapShape (cfg : ModbusConfig) (st : ModbusTCPState) : Prop :=
  st.transaction_map.length = tid_map_len cfg ∧ st.tid0_index ≤ tid_map_len cfg ∧
    (st.tid0_index < tid_map_len cfg → st.transaction_map.getD st.tid0_index 0 = 0)

/-- The state of a client with 16 requests outstanding: from the empty map,
`_map_tid` on the TIDs 1 to 15 and then on TID 0. -/
def full_map_state : ModbusTCPState :=
  tid_calls {} (empty_tid_map {})
    ((List.range 15).map (fun i => TidCall.map_tid (i + 1)) ++ [TidCall.map_tid 0])

/-! ## Inputs of the runs on short frames -/

/-- A frame of 6 bytes, the MBAP header without the Unit Identifier, with
Length 0: `00 01 00 00 00 00`. -/
def modbus_header_only : Buffer :=
  Buffer.ofList [0x00, 0x01, 0x00, 0x00, 0x00, 0x00]

/-! ## The packet bit of a MAC bit in the split parser -/

/-- The packet bit that carries a MAC bit in `n` segments of `g` bits each,
the packet being at bit position `p` and the MAC at bit position `q`, with one
packet bit skipped in front of every segment; `none` for a MAC bit outside the
segments. -/
def split_dst (g : Nat) : Nat → Nat → Nat → Nat → Option Nat
  | 0, _, _, _ => none
  | n + 1, p, q, j =>
    if q ≤ j ∧ j < q + g then some (p + 1 + (j - q))
    else split_dst g n (p + g + 1) (q + g) j

/-- The packet bit that carries MAC bit `j` in the one-bit-gap mode with `S`
splits; `none` for `j` from 256 on. -/
def split_slot (S j : Nat) : Option Nat :=
  match split_dst (256 / (S + 1)) S 0 0 j with
  | some i => some i
  | none =>
    if S * (256 / (S + 1)) ≤ j ∧ j < 256 then
      some (S * (256 / (S + 1) + 1) + 1 + (j - S * (256 / (S + 1))))
    else none

/-- The globals of the split parser with the given number of splits. -/
def split_state (S : Nat) : SplitState :=
  { split_parser_mac_splits := S, fmac := fun _ => 0 }

end RePeL
namespace RePeL

/-! ## Connections with the fake parser and the HMAC adapter -/

/-- A connection with the fake parser and the HMAC adapter over the keyed
function `H`. -/
def fake_hmac_connection (H : HmacFn) (ms : HMacData) (send recv embed_nonce_bits : Nat)
    (extrbuf : Buffer) : RepelConnection Unit HMacData :=
  { parser := fake_parser_module, macalgo := hmac_module H, parser_state := (),
    mac_state := ms, nonce_send := send, nonce_recv := recv,
    nonce_embed_bits := embed_nonce_bits, extrbuf := extrbuf }

end RePeL
namespace RePeL

/-! ## Bits of a buffer -/

theorem u8_val (x : Nat) : (u8 x).val = x % 256 := rfl

theorem read_write_same (m : Buffer) (a v : Nat) : (m.write a v).read a = v % 256 := by
  simp [Buffer.read, Buffer.write, u8]

theorem read_write_other (m : Buffer) (a b v : Nat) (h : b ≠ a) :
    (m.write a v).read b = m.read b := by
  simp [Buffer.read, Buffer.write, h]

theorem read_lt (m : Buffer) (a : Nat) : m.read a < 256 := (m a).isLt

theorem testBit_read_high (m : Buffer) (a k : Nat) (hk : 8 ≤ k) : (m.read a).testBit k = false := by
  apply Nat.testBit_lt_two_pow
  calc m.read a < 256 := read_lt m a
    _ = 2 ^ 8 := by norm_num
    _ ≤ 2 ^ k := Nat.pow_le_pow_right (by norm_num) hk

/-- Two bytes with the same eight bits are equal. -/
theorem byte_ext (x y : Byte) (h : ∀ k, k < 8 → x.val.testBit k = y.val.testBit k) : x = y := by
  apply Fin.ext
  apply Nat.eq_of_testBit_eq
  intro k
  by_cases hk : k < 8
  · exact h k hk
  · have hx : x.val < 2 ^ k :=
      lt_of_lt_of_le x.isLt (by
        calc 256 = 2 ^ 8 := by norm_num
          _ ≤ 2 ^ k := Nat.pow_le_pow_right (by norm_num) (by omega))
    have hy : y.val < 2 ^ k :=
      lt_of_lt_of_le y.isLt (by
        calc 256 = 2 ^ 8 := by norm_num
          _ ≤ 2 ^ k := Nat.pow_le_pow_right (by norm_num) (by omega))
    rw [Nat.testBit_lt_two_pow hx, Nat.testBit_lt_two_pow hy]

/-- A byte is determined by the eight buffer bits it holds. -/
theorem byte_eq_of_getBit (m m' : Buffer) (a : Nat)
    (h : ∀ i, i / 8 = a → getBit m' i = getBit m i) : m' a = m a := by
  apply byte_ext
  intro k hk
  have := h (8 * a + (7 - k)) (by omega)
  simp only [getBit, Buffer.read] at this
  have e1 : (8 * a + (7 - k)) / 8 = a := by omega
  have e2 : 7 - (8 * a + (7 - k)) % 8 = k := by omega
  rw [e1, e2] at this
  exact this

theorem buffer_ext_bits (m m' : Buffer) (h : ∀ i, getBit m' i = getBit m i) : m' = m := by
  funext a
  exact byte_eq_of_getBit m m' a (fun i _ => h i)

theorem testBit_bitsVal (m : Buffer) (p n j : Nat) :
    (bitsVal m p n).testBit j = (decide (j < n) && getBit m (p + n - 1 - j)) := by
  induction n generalizing j with
  | zero => simp [bitsVal]
  | succ n ih =>
    rw [bitsVal]
    have hb : (getBit m (p + n)).toNat < 2 ^ 1 := by cases getBit m (p + n) <;> simp
    have h2 : 2 * bitsVal m p n = 2 ^ 1 * bitsVal m p n := by simp
    rw [h2, Nat.testBit_mul_pow_two_add _ hb]
    by_cases hj : j < 1
    · have : j = 0 := by omega
      subst this
      simp only [Nat.zero_lt_one, if_true, Nat.testBit_bool_to_nat]
      simp
    · simp only [hj, if_false, ih]
      have e : p + n - 1 - (j - 1) = p + (n + 1) - 1 - j ∨ ¬ (j - 1 < n) := by omega
      rcases e with e | e
      · rw [e]; congr 1; simp; omega
      · have : ¬ (j < n + 1) := by omega
        simp [e, this]

theorem bitsVal_lt (m : Buffer) (p n : Nat) : bitsVal m p n < 2 ^ n := by
  apply Nat.lt_pow_two_of_testBit
  intro i hi
  rw [testBit_bitsVal]
  have : ¬ (i < n) := by omega
  simp [this]

theorem bitsVal_add (m : Buffer) (p a b : Nat) :
    bitsVal m p (a + b) = 2 ^ b * bitsVal m p a + bitsVal m (p + a) b := by
  apply Nat.eq_of_testBit_eq
  intro j
  rw [Nat.testBit_mul_pow_two_add _ (bitsVal_lt m (p + a) b), testBit_bitsVal]
  by_cases hj : j < b
  · have h1 : j < a + b := by omega
    have h2 : p + (a + b) - 1 - j = p + a + b - 1 - j := by omega
    simp [hj, h1, testBit_bitsVal, h2]
  · simp only [hj, if_false, testBit_bitsVal]
    by_cases h1 : j < a + b
    · have h3 : j - b < a := by omega
      have h2 : p + (a + b) - 1 - j = p + a - 1 - (j - b) := by omega
      simp [h1, h3, h2]
    · have h3 : ¬ (j - b < a) := by omega
      simp [h1, h3]

/-! ## Cursor movement -/

theorem BitString.eq_of_pos (c c' : BitString) (h : c.shift ≤ 7) (h' : c'.shift ≤ 7)
    (hp : c.pos = c'.pos) : c = c' := by
  cases c with
  | mk d s =>
    cases c' with
    | mk d' s' =>
      simp only [BitString.pos] at hp h h'
      have : d = d' := by omega
      have : s = s' := by omega
      subst_vars
      rfl

theorem skip_shift_le (c : BitString) (k : Nat) : (bitstring_skip c k).shift ≤ 7 := by
  simp only [bitstring_skip]
  omega

theorem skip_shift (c : BitString) (k : Nat) (h : c.shift + k < UINT_RANGE) :
    (bitstring_skip c k).shift = (c.shift + k) % 8 := by
  simp only [bitstring_skip, Nat.mod_eq_of_lt h]
  omega

theorem skip_pos (c : BitString) (k : Nat) (h : c.shift + k < UINT_RANGE) :
    (bitstring_skip c k).pos = c.pos + k := by
  simp only [bitstring_skip, BitString.pos, Nat.mod_eq_of_lt h]
  omega

theorem skip_skip (c : BitString) (a b : Nat) (h : c.shift + a + b < UINT_RANGE) :
    bitstring_skip (bitstring_skip c a) b = bitstring_skip c (a + b) := by
  have h1 : c.shift + a < UINT_RANGE := by omega
  have h2 : (c.shift + a) % 8 % 256 + b < UINT_RANGE := by omega
  have h3 : c.shift + (a + b) < UINT_RANGE := by omega
  simp only [bitstring_skip, Nat.mod_eq_of_lt h1, Nat.mod_eq_of_lt h2, Nat.mod_eq_of_lt h3]
  congr 1 <;> omega

theorem skip_zero (c : BitString) (hs : c.shift ≤ 7) : bitstring_skip c 0 = c := by
  apply BitString.eq_of_pos _ _ (skip_shift_le _ _) hs
  rw [skip_pos]
  · rfl
  · simp only [UINT_RANGE]; omega

theorem rewind_skip (c : BitString) (k : Nat) (hs : c.shift ≤ 7) (h : c.shift + k < UINT_RANGE) :
    bitstring_rewind (bitstring_skip c k) k = c := by
  cases c with
  | mk d s =>
    simp only at hs h
    simp only [bitstring_skip, Nat.mod_eq_of_lt h, bitstring_rewind]
    have e : ((s + k) % 8 % 256 + 256 - k % 8) % 256 = (if (s + k) % 8 < k % 8 then
        (s + k) % 8 + 256 - k % 8 else (s + k) % 8 - k % 8) := by
      split <;> omega
    rw [e]
    by_cases hlt : (s + k) % 8 < k % 8
    · simp only [hlt, if_true]
      have h8 : (s + k) % 8 + 256 - k % 8 ≥ 8 := by omega
      simp only [h8, if_true]
      congr 1 <;> omega
    · simp only [hlt, if_false]
      have h8 : ¬ ((s + k) % 8 - k % 8 ≥ 8) := by omega
      simp only [h8, if_false]
      congr 1 <;> omega

end RePeL
namespace RePeL

/-! ## Reading bits -/

/-- The value computed by the body shared by `bitstring_pop_u8` and
`bitstring_peek_u8`, for a cursor at byte `d`, shift `s`. -/
theorem pop_u8_bits (m : Buffer) (d s n : Nat) (hn : n ≤ 8) (hs : s ≤ 7) :
    (if s + n > 8 then ((m.read d <<< s) % 256 ||| (m.read (d + 1) >>> (8 - s))) % 256
      else (m.read d <<< s) % 256) >>> (8 - n) = bitsVal m (8 * d + s) n := by
  apply Nat.eq_of_testBit_eq
  intro j
  rw [testBit_bitsVal]
  simp only [getBit]
  have e256 : (256 : Nat) = 2 ^ 8 := by norm_num
  by_cases hj : j < n
  · by_cases hc : s + n > 8
    · simp only [hc, if_true, e256, Nat.testBit_shiftRight, Nat.testBit_mod_two_pow,
        Nat.testBit_or, Nat.testBit_shiftLeft, hj]
      by_cases hq : s + n - 1 - j < 8
      · have e1 : (8 * d + s + n - 1 - j) / 8 = d := by omega
        have e2 : 7 - (8 * d + s + n - 1 - j) % 8 = 8 - n + j - s := by omega
        have e3 : ¬ (8 - s + (8 - n + j) < 8) := by omega
        have e4 : 8 - n + j < 8 := by omega
        have e5 : 8 - n + j ≥ s := by omega
        have e6 : 8 - n + j - s < 8 := by omega
        have e7 := testBit_read_high m (d + 1) (8 - s + (8 - n + j)) (by omega)
        simp [e1, e2, e4, e5, e6, e7]
      · have e1 : (8 * d + s + n - 1 - j) / 8 = d + 1 := by omega
        have e2 : 7 - (8 * d + s + n - 1 - j) % 8 = 8 - s + (8 - n + j) := by omega
        have e4 : 8 - n + j < 8 := by omega
        have e5 : ¬ (8 - n + j ≥ s) := by omega
        simp [e1, e2, e4, e5]
    · simp only [hc, if_false, e256, Nat.testBit_shiftRight, Nat.testBit_mod_two_pow,
        Nat.testBit_shiftLeft, hj]
      have e1 : (8 * d + s + n - 1 - j) / 8 = d := by omega
      have e2 : 7 - (8 * d + s + n - 1 - j) % 8 = 8 - n + j - s := by omega
      have e4 : 8 - n + j < 8 := by omega
      have e5 : 8 - n + j ≥ s := by omega
      have e6 : 8 - n + j - s < 8 := by omega
      simp [e1, e2, e4, e5, e6]
  · simp only [hj, decide_False, Bool.false_and]
    have e4 : ¬ (8 - n + j < 8) := by omega
    by_cases hc : s + n > 8
    · simp only [hc, if_true, e256, Nat.testBit_shiftRight, Nat.testBit_mod_two_pow]
      simp [e4]
    · simp only [hc, if_false, e256, Nat.testBit_shiftRight, Nat.testBit_mod_two_pow]
      simp [e4]

/-- Cursor left behind by `bitstring_pop_u8` and `bitstring_push_u8`. -/
theorem advance_u8 (c : BitString) (n : Nat) (hn : n ≤ 8) (hs : c.shift ≤ 7) :
    ({ data := if c.shift + n ≥ 8 then c.data + 1 else c.data,
       shift := ((c.shift + n) % 8) % 256 } : BitString) = bitstring_skip c n := by
  have h : c.shift + n < UINT_RANGE := by simp only [UINT_RANGE]; omega
  simp only [bitstring_skip, Nat.mod_eq_of_lt h]
  congr 1
  split <;> omega

theorem pop_u8_eq (m : Buffer) (c : BitString) (n : Nat) (hn : n ≤ 8) (hs : c.shift ≤ 7) :
    bitstring_pop_u8 m c n = (bitsVal m c.pos n, bitstring_skip c n) := by
  simp only [bitstring_pop_u8]
  rw [advance_u8 c n hn hs, pop_u8_bits m c.data c.shift n hn hs]
  rfl

theorem shl8_or (v x : Nat) (hx : x < 2 ^ 8) : (v <<< 8) ||| x = 2 ^ 8 * v + x := by
  apply Nat.eq_of_testBit_eq
  intro j
  rw [Nat.testBit_mul_pow_two_add _ hx, Nat.testBit_or, Nat.testBit_shiftLeft]
  by_cases hj : j < 8
  · have : ¬ (j ≥ 8) := by omega
    simp [hj, this]
  · have h8 : j ≥ 8 := by omega
    have : x.testBit j = false :=
      Nat.testBit_lt_two_pow (lt_of_lt_of_le hx (Nat.pow_le_pow_right (by norm_num) h8))
    simp [hj, h8, this]

theorem pop_loop_eq (w : Nat) (m : Buffer) (k : Nat) (c : BitString) (val j : Nat)
    (hs : c.shift ≤ 7) (hv : val < 2 ^ j) (hw : j + 8 * k ≤ w) (hk : k ≤ 32) :
    pop_loop w m k c val
      = (2 ^ (8 * k) * val + bitsVal m c.pos (8 * k), bitstring_skip c (8 * k)) := by
  induction k generalizing c val j with
  | zero => simp [pop_loop, bitsVal, skip_zero c hs]
  | succ k ih =>
    rw [pop_loop, pop_u8_eq m c 8 (le_refl _) hs]
    simp only
    have hb := bitsVal_lt m c.pos 8
    rw [shl8_or _ _ hb]
    have hlt : 2 ^ 8 * val + bitsVal m c.pos 8 < 2 ^ (j + 8) := by
      have : 2 ^ (j + 8) = 2 ^ 8 * 2 ^ j := by rw [pow_add, mul_comm]
      rw [this]
      have : 2 ^ 8 * (val + 1) ≤ 2 ^ 8 * 2 ^ j := Nat.mul_le_mul_left _ hv
      omega
    have hlt' : 2 ^ 8 * val + bitsVal m c.pos 8 < 2 ^ w :=
      lt_of_lt_of_le hlt (Nat.pow_le_pow_right (by norm_num) (by omega))
    rw [Nat.mod_eq_of_lt hlt']
    have hU : c.shift + 8 + 8 * k < UINT_RANGE := by simp only [UINT_RANGE]; omega
    rw [ih (bitstring_skip c 8) _ (j + 8) (skip_shift_le _ _) hlt (by omega) (by omega)]
    rw [skip_skip c 8 (8 * k) hU, skip_pos c 8 (by omega)]
    have e : 8 * (k + 1) = 8 + 8 * k := by ring
    rw [e, bitsVal_add m c.pos 8 (8 * k)]
    congr 1
    rw [pow_add]
    ring

theorem pop_wide_eq (w : Nat) (m : Buffer) (c : BitString) (n : Nat)
    (hn : n ≤ w) (hw : w ≤ 64) (hs : c.shift ≤ 7) :
    pop_wide w m c n = (bitsVal m c.pos n, bitstring_skip c n) := by
  simp only [pop_wide]
  rw [pop_u8_eq m c (n % 8) (by omega) hs]
  simp only
  have h1 := bitsVal_lt m c.pos (n % 8)
  have h2 : bitsVal m c.pos (n % 8) < 2 ^ w :=
    lt_of_lt_of_le h1 (Nat.pow_le_pow_right (by norm_num) (by omega))
  rw [Nat.mod_eq_of_lt h2]
  have e1 : (n - n % 8) % 256 / 8 = n / 8 := by omega
  rw [e1, pop_loop_eq w m (n / 8) _ _ (n % 8) (skip_shift_le _ _) h1 (by omega) (by omega)]
  have hU : c.shift + n % 8 + 8 * (n / 8) < UINT_RANGE := by simp only [UINT_RANGE]; omega
  rw [skip_skip c _ _ hU, skip_pos c _ (by omega)]
  have e2 : n % 8 + 8 * (n / 8) = n := by omega
  rw [e2]
  congr 1
  have := bitsVal_add m c.pos (n % 8) (8 * (n / 8))
  rw [e2] at this
  exact this.symm

end RePeL
namespace RePeL

/-! ## Writing bits -/

theorem testBit_255 (k : Nat) : (255 : Nat).testBit k = decide (k < 8) := by
  have : (255 : Nat) = 2 ^ 8 - 1 := by norm_num
  rw [this, Nat.testBit_two_pow_sub_one]

theorem testBit_bnot8 (x k : Nat) : (bnot8 x).testBit k = (decide (k < 8) && !x.testBit k) := by
  have e256 : (256 : Nat) = 2 ^ 8 := by norm_num
  simp only [bnot8, Nat.testBit_xor, testBit_255, e256, Nat.testBit_mod_two_pow]
  by_cases hk : k < 8 <;> simp [hk]

/-- Bits of the byte under the cursor after the two stores of `bitstring_push_u8`. -/
theorem push_byte0 (b v s n k : Nat) (hn : n ≤ 8) (hs : s ≤ 7) (hk : k < 8) :
    (((b &&& bnot8 (((0xff <<< (8 - n)) % 256) >>> s)) % 256
        ||| (((v <<< (8 - n)) % 256) >>> s)) % 256).testBit k
      = if s ≤ 7 - k ∧ 7 - k < s + n then v.testBit (s + n - 1 - (7 - k)) else b.testBit k := by
  have e256 : (256 : Nat) = 2 ^ 8 := by norm_num
  simp only [e256, Nat.testBit_mod_two_pow, Nat.testBit_or, Nat.testBit_and, testBit_bnot8,
    Nat.testBit_shiftRight, Nat.testBit_shiftLeft, testBit_255, hk, decide_True, Bool.true_and]
  by_cases hwin : s ≤ 7 - k ∧ 7 - k < s + n
  · have e1 : s + k < 8 := by omega
    have e2 : s + k ≥ 8 - n := by omega
    have e3 : s + k - (8 - n) < 8 := by omega
    have e4 : s + k - (8 - n) = s + n - 1 - (7 - k) := by omega
    have e5 : ¬ (8 ≤ s + n - 1 - (7 - k)) := by omega
    simp [hwin, e1, e2, e3, e4, e5]
  · simp only [hwin, if_false]
    by_cases e1 : s + k < 8
    · have e2 : ¬ (s + k ≥ 8 - n) := by omega
      simp [e1, e2]
    · simp [e1]

/-- Bits of the following byte after the two stores of `bitstring_push_u8`. -/
theorem push_byte1 (b v s n k : Nat) (hn : n ≤ 8) (hs : s ≤ 7) (hk : k < 8) :
    (((b &&& bnot8 (((0xff <<< (8 - n)) % 256) <<< (8 - s))) % 256
        ||| (((v <<< (8 - n)) % 256) <<< (8 - s))) % 256).testBit k
      = if 15 - k < s + n then v.testBit (s + n - 1 - (15 - k)) else b.testBit k := by
  have e256 : (256 : Nat) = 2 ^ 8 := by norm_num
  simp only [e256, Nat.testBit_mod_two_pow, Nat.testBit_or, Nat.testBit_and, testBit_bnot8,
    Nat.testBit_shiftRight, Nat.testBit_shiftLeft, testBit_255, hk, decide_True, Bool.true_and]
  by_cases hwin : 15 - k < s + n
  · have e1 : k ≥ 8 - s := by omega
    have e2 : k - (8 - s) < 8 := by omega
    have e3 : k - (8 - s) ≥ 8 - n := by omega
    have e4 : k - (8 - s) - (8 - n) < 8 := by omega
    have e5 : k - (8 - s) - (8 - n) = s + n - 1 - (15 - k) := by omega
    have e6 : ¬ (8 ≤ s + n - 1 - (15 - k)) := by omega
    simp [hwin, e1, e2, e3, e4, e5, e6]
  · simp only [hwin, if_false]
    by_cases e1 : k ≥ 8 - s
    · have e2 : k - (8 - s) < 8 := by omega
      have e3 : ¬ (k - (8 - s) ≥ 8 - n) := by omega
      simp [e1, e2, e3]
    · simp [e1]

theorem push_u8_isPush (m : Buffer) (c : BitString) (v n : Nat) (hn : n ≤ 8) (hs : c.shift ≤ 7) :
    IsPush m c.pos v n (bitstring_push_u8 m c v n).1 := by
  intro i
  simp only [bitstring_push_u8, BitString.pos]
  by_cases hc : c.shift + n > 8
  · simp only [hc, if_true]
    by_cases h1 : i / 8 = c.data + 1
    · simp only [getBit, h1, read_write_same, read_write_other _ _ _ _ (Nat.succ_ne_self c.data)]
      rw [push_byte1 _ v c.shift n (7 - i % 8) hn hs (by omega)]
      have ea : (15 - (7 - i % 8) < c.shift + n) ↔
          (8 * c.data + c.shift ≤ i ∧ i < 8 * c.data + c.shift + n) := by omega
      by_cases hw : 8 * c.data + c.shift ≤ i ∧ i < 8 * c.data + c.shift + n
      · have eb : c.shift + n - 1 - (15 - (7 - i % 8)) = 8 * c.data + c.shift + n - 1 - i := by
          omega
        simp only [ea.mpr hw, if_true, hw, and_self, eb]
      · have : ¬ (15 - (7 - i % 8) < c.shift + n) := fun h => hw (ea.mp h)
        simp only [this, if_false, hw]
    · by_cases h0 : i / 8 = c.data
      · have hne : c.data ≠ c.data + 1 := by omega
        simp only [getBit, h0, read_write_same, read_write_other _ _ _ _ hne]
        rw [push_byte0 _ v c.shift n (7 - i % 8) hn hs (by omega)]
        have ea : (c.shift ≤ 7 - (7 - i % 8) ∧ 7 - (7 - i % 8) < c.shift + n) ↔
            (8 * c.data + c.shift ≤ i ∧ i < 8 * c.data + c.shift + n) := by omega
        by_cases hw : 8 * c.data + c.shift ≤ i ∧ i < 8 * c.data + c.shift + n
        · have eb : c.shift + n - 1 - (7 - (7 - i % 8)) = 8 * c.data + c.shift + n - 1 - i := by
            omega
          simp only [ea.mpr hw, if_true, hw, and_self, eb]
        · have : ¬ (c.shift ≤ 7 - (7 - i % 8) ∧ 7 - (7 - i % 8) < c.shift + n) :=
            fun h => hw (ea.mp h)
          simp only [this, if_false, hw]
      · have hw : ¬ (8 * c.data + c.shift ≤ i ∧ i < 8 * c.data + c.shift + n) := by omega
        simp only [getBit, read_write_other _ _ _ _ h1, read_write_other _ _ _ _ h0, hw, if_false]
  · simp only [hc, if_false]
    by_cases h0 : i / 8 = c.data
    · simp only [getBit, h0, read_write_same]
      rw [push_byte0 _ v c.shift n (7 - i % 8) hn hs (by omega)]
      have ea : (c.shift ≤ 7 - (7 - i % 8) ∧ 7 - (7 - i % 8) < c.shift + n) ↔
          (8 * c.data + c.shift ≤ i ∧ i < 8 * c.data + c.shift + n) := by omega
      by_cases hw : 8 * c.data + c.shift ≤ i ∧ i < 8 * c.data + c.shift + n
      · have eb : c.shift + n - 1 - (7 - (7 - i % 8)) = 8 * c.data + c.shift + n - 1 - i := by
          omega
        simp only [ea.mpr hw, if_true, hw, and_self, eb]
      · have : ¬ (c.shift ≤ 7 - (7 - i % 8) ∧ 7 - (7 - i % 8) < c.shift + n) :=
          fun h => hw (ea.mp h)
        simp only [this, if_false, hw]
    · have hw : ¬ (8 * c.data + c.shift ≤ i ∧ i < 8 * c.data + c.shift + n) := by omega
      simp only [getBit, read_write_other _ _ _ _ h0, hw, if_false]

theorem push_u8_cursor (m : Buffer) (c : BitString) (v n : Nat) (hn : n ≤ 8) (hs : c.shift ≤ 7) :
    (bitstring_push_u8 m c v n).2 = bitstring_skip c n := by
  simp only [bitstring_push_u8]
  exact advance_u8 c n hn hs

end RePeL
namespace RePeL

theorem IsPush.congr {m m' : Buffer} {p v v' n : Nat} (h : IsPush m p v n m')
    (hv : ∀ j, j < n → v'.testBit j = v.testBit j) : IsPush m p v' n m' := by
  intro i
  rw [h i]
  by_cases hw : p ≤ i ∧ i < p + n
  · simp only [hw, and_self, if_true]
    exact (hv _ (by omega)).symm
  · simp only [hw, if_false]

/-- Two pushes in a row are one push of the concatenated bits. -/
theorem IsPush.append {m m1 m2 : Buffer} {p v1 n1 v2 n2 v : Nat}
    (h1 : IsPush m p v1 n1 m1) (h2 : IsPush m1 (p + n1) v2 n2 m2)
    (hlo : ∀ j, j < n2 → v.testBit j = v2.testBit j)
    (hhi : ∀ j, j < n1 → v.testBit (n2 + j) = v1.testBit j) :
    IsPush m p v (n1 + n2) m2 := by
  intro i
  rw [h2 i]
  by_cases hw2 : p + n1 ≤ i ∧ i < p + n1 + n2
  · have hw : p ≤ i ∧ i < p + (n1 + n2) := by omega
    simp only [hw2, hw, and_self, if_true]
    have e : p + (n1 + n2) - 1 - i = p + n1 + n2 - 1 - i := by omega
    rw [e]
    exact (hlo _ (by omega)).symm
  · simp only [hw2, if_false]
    rw [h1 i]
    by_cases hw1 : p ≤ i ∧ i < p + n1
    · have hw : p ≤ i ∧ i < p + (n1 + n2) := by omega
      simp only [hw1, hw, and_self, if_true]
      have e : p + (n1 + n2) - 1 - i = n2 + (p + n1 - 1 - i) := by omega
      rw [e]
      exact (hhi _ (by omega)).symm
    · have hw : ¬ (p ≤ i ∧ i < p + (n1 + n2)) := by omega
      simp only [hw1, hw, if_false]

theorem testBit_shr_mod256 (v a j : Nat) (hj : j < 8) :
    ((v >>> a) % 256).testBit j = v.testBit (a + j) := by
  have e256 : (256 : Nat) = 2 ^ 8 := by norm_num
  rw [e256, Nat.testBit_mod_two_pow, Nat.testBit_shiftRight]
  simp [hj]

theorem testBit_mod256 (v j : Nat) (hj : j < 8) : (v % 256).testBit j = v.testBit j := by
  have e256 : (256 : Nat) = 2 ^ 8 := by norm_num
  rw [e256, Nat.testBit_mod_two_pow]
  simp [hj]

theorem push_loop_spec (val : Nat) (octs : Nat) (m : Buffer) (c : BitString)
    (hs : c.shift ≤ 7) (ho : octs ≤ 32) :
    IsPush m c.pos val (8 * octs) (push_loop val octs m c).1 ∧
      (push_loop val octs m c).2 = bitstring_skip c (8 * octs) := by
  induction octs generalizing m c with
  | zero =>
    refine ⟨?_, ?_⟩
    · intro i
      have : ¬ (c.pos ≤ i ∧ i < c.pos + 8 * 0) := by omega
      rw [if_neg this]
      rfl
    · show c = bitstring_skip c (8 * 0)
      exact (skip_zero c hs).symm
  | succ k ih =>
    rw [push_loop]
    have h1 := push_u8_isPush m c ((val >>> (8 * k)) % 256) 8 (le_refl _) hs
    have hc := push_u8_cursor m c ((val >>> (8 * k)) % 256) 8 (le_refl _) hs
    have hU : c.shift + 8 + 8 * k < UINT_RANGE := by simp only [UINT_RANGE]; omega
    obtain ⟨h2, h3⟩ := ih (bitstring_push_u8 m c ((val >>> (8 * k)) % 256) 8).1
      (bitstring_push_u8 m c ((val >>> (8 * k)) % 256) 8).2 (by rw [hc]; exact skip_shift_le _ _)
      (by omega)
    rw [hc] at h2 h3
    rw [hc]
    rw [skip_pos c 8 (by omega)] at h2
    refine ⟨?_, ?_⟩
    · have e : 8 * (k + 1) = 8 + 8 * k := by ring
      rw [e]
      exact IsPush.append h1 h2 (fun j _ => rfl) (fun j hj => (testBit_shr_mod256 val (8 * k) j hj).symm)
    · rw [h3, skip_skip c 8 (8 * k) hU]
      congr 1
      ring

theorem push_wide_spec (m : Buffer) (c : BitString) (val n : Nat) (hs : c.shift ≤ 7)
    (hn : n ≤ 255) :
    IsPush m c.pos val n (push_wide m c val n).1 ∧
      (push_wide m c val n).2 = bitstring_skip c n := by
  simp only [push_wide]
  have h1 := push_u8_isPush m c ((val >>> (8 * (n / 8))) % 256) (n % 8) (by omega) hs
  have hc := push_u8_cursor m c ((val >>> (8 * (n / 8))) % 256) (n % 8) (by omega) hs
  obtain ⟨h2, h3⟩ := push_loop_spec val (n / 8)
    (bitstring_push_u8 m c ((val >>> (8 * (n / 8))) % 256) (n % 8)).1
    (bitstring_push_u8 m c ((val >>> (8 * (n / 8))) % 256) (n % 8)).2
    (by rw [hc]; exact skip_shift_le _ _) (by omega)
  have hU : c.shift + n % 8 + 8 * (n / 8) < UINT_RANGE := by simp only [UINT_RANGE]; omega
  rw [hc] at h2 h3
  rw [hc]
  rw [skip_pos c _ (by omega)] at h2
  have e : n % 8 + 8 * (n / 8) = n := by omega
  refine ⟨?_, ?_⟩
  · have := IsPush.append (v := val) h1 h2 (fun j _ => rfl)
      (fun j hj => (testBit_shr_mod256 val (8 * (n / 8)) j (by omega)).symm)
    rw [e] at this
    exact this
  · rw [h3, skip_skip c _ _ hU, e]

theorem push_u16_spec (m : Buffer) (c : BitString) (val n : Nat) (hs : c.shift ≤ 7)
    (hn : n ≤ 16) :
    IsPush m c.pos val n (bitstring_push_u16 m c val n).1 ∧
      (bitstring_push_u16 m c val n).2 = bitstring_skip c n := by
  simp only [bitstring_push_u16]
  by_cases h8 : n > 8
  · simp only [h8, if_true]
    have e0 : (n - 8) % 256 = n - 8 := by omega
    rw [e0]
    have h1 := push_u8_isPush m c ((val >>> 8) % 256) (n - 8) (by omega) hs
    have hc := push_u8_cursor m c ((val >>> 8) % 256) (n - 8) (by omega) hs
    have hs1 : (bitstring_push_u8 m c ((val >>> 8) % 256) (n - 8)).2.shift ≤ 7 := by
      rw [hc]; exact skip_shift_le _ _
    have h2 := push_u8_isPush (bitstring_push_u8 m c ((val >>> 8) % 256) (n - 8)).1
      (bitstring_push_u8 m c ((val >>> 8) % 256) (n - 8)).2 (val % 256) 8 (le_refl _) hs1
    have hc2 := push_u8_cursor (bitstring_push_u8 m c ((val >>> 8) % 256) (n - 8)).1
      (bitstring_push_u8 m c ((val >>> 8) % 256) (n - 8)).2 (val % 256) 8 (le_refl _) hs1
    have hU : c.shift + (n - 8) + 8 < UINT_RANGE := by simp only [UINT_RANGE]; omega
    rw [hc] at h2 hc2
    rw [hc]
    rw [skip_pos c _ (by omega)] at h2
    have e : n - 8 + 8 = n := by omega
    refine ⟨?_, ?_⟩
    · have := IsPush.append (v := val) h1 h2 (fun j hj => (testBit_mod256 val j hj).symm)
        (fun j hj => (testBit_shr_mod256 val 8 j (by omega)).symm)
      rw [e] at this
      exact this
    · rw [hc2, skip_skip c _ _ hU, e]
  · simp only [h8, if_false]
    refine ⟨?_, push_u8_cursor m c _ n (by omega) hs⟩
    exact (push_u8_isPush m c (val % 256) n (by omega) hs).congr
      (fun j hj => (testBit_mod256 val j (by omega)).symm)

theorem testBit_mod_pow (v w j : Nat) (hj : j < w) : (v % 2 ^ w).testBit j = v.testBit j := by
  simp [Nat.testBit_mod_two_pow, hj]

theorem push_u32_spec (m : Buffer) (c : BitString) (val n : Nat) (hs : c.shift ≤ 7)
    (hn : n ≤ 32) :
    IsPush m c.pos val n (bitstring_push_u32 m c val n).1 ∧
      (bitstring_push_u32 m c val n).2 = bitstring_skip c n := by
  obtain ⟨h1, h2⟩ := push_wide_spec m c (val % 2 ^ 32) n hs (by omega)
  exact ⟨h1.congr (fun j hj => (testBit_mod_pow val 32 j (by omega)).symm), h2⟩

theorem push_u64_spec (m : Buffer) (c : BitString) (val n : Nat) (hs : c.shift ≤ 7)
    (hn : n ≤ 64) :
    IsPush m c.pos val n (bitstring_push_u64 m c val n).1 ∧
      (bitstring_push_u64 m c val n).2 = bitstring_skip c n := by
  obtain ⟨h1, h2⟩ := push_wide_spec m c (val % 2 ^ 64) n hs (by omega)
  exact ⟨h1.congr (fun j hj => (testBit_mod_pow val 64 j (by omega)).symm), h2⟩

/-- Reading back the window of a push gives the low bits of the value. -/
theorem bitsVal_of_isPush {m m' : Buffer} {p v n : Nat} (h : IsPush m p v n m') :
    bitsVal m' p n = v % 2 ^ n := by
  apply Nat.eq_of_testBit_eq
  intro j
  rw [testBit_bitsVal, Nat.testBit_mod_two_pow]
  by_cases hj : j < n
  · rw [h (p + n - 1 - j)]
    have hw : p ≤ p + n - 1 - j ∧ p + n - 1 - j < p + n := by omega
    have e : p + n - 1 - (p + n - 1 - j) = j := by omega
    simp only [hj, hw, and_self, if_true, e, decide_True, Bool.true_and]
  · simp [hj]

/-- Bits outside the window of a push read as before. -/
theorem bitsVal_frame {m m' : Buffer} {p v n : Nat} (h : IsPush m p v n m') (q k : Nat)
    (hd : q + k ≤ p ∨ p + n ≤ q) : bitsVal m' q k = bitsVal m q k := by
  apply Nat.eq_of_testBit_eq
  intro j
  rw [testBit_bitsVal, testBit_bitsVal]
  by_cases hj : j < k
  · rw [h (q + k - 1 - j)]
    have hw : ¬ (p ≤ q + k - 1 - j ∧ q + k - 1 - j < p + n) := by omega
    simp only [hw, if_false]
  · simp [hj]

end RePeL
namespace RePeL

/-! ## Peeking -/

theorem peek_u8_eq_pop (m : Buffer) (c : BitString) (off n : Nat) :
    bitstring_peek_u8 m c off n = (bitstring_pop_u8 m (bitstring_skip c off) n).1 := by
  simp only [bitstring_peek_u8, bitstring_pop_u8, bitstring_skip]

theorem peek_loop_eq (w : Nat) (m : Buffer) (c : BitString) (k : Nat) (fuel off val : Nat)
    (hf : k ≤ fuel) (h : c.shift + off + 8 * k < UINT_RANGE) :
    peek_loop w m c (off + 8 * k) fuel off val
      = some (pop_loop w m k (bitstring_skip c off) val).1 := by
  induction k generalizing fuel off val with
  | zero =>
    cases fuel with
    | zero => simp [peek_loop, pop_loop]
    | succ f => simp [peek_loop, pop_loop]
  | succ k ih =>
    cases fuel with
    | zero => omega
    | succ f =>
      have hlt : off < off + 8 * (k + 1) := by omega
      have hU : (off + 8) % UINT_RANGE = off + 8 := Nat.mod_eq_of_lt (by omega)
      have e : off + 8 * (k + 1) = off + 8 + 8 * k := by ring
      rw [peek_loop, if_pos hlt, hU, e, ih f (off + 8) _ (by omega) (by omega), pop_loop]
      rw [peek_u8_eq_pop, pop_u8_eq m (bitstring_skip c off) 8 (le_refl _) (skip_shift_le _ _)]
      rw [skip_skip c off 8 (by omega)]

theorem peek_wide_eq (w : Nat) (m : Buffer) (c : BitString) (off n : Nat)
    (hn : n ≤ 255) (h : c.shift + off + n < UINT_RANGE) :
    peek_wide w m c off n = some (pop_wide w m (bitstring_skip c off) n).1 := by
  simp only [peek_wide, pop_wide]
  have h1 : (off + n % 8) % UINT_RANGE = off + n % 8 := Nat.mod_eq_of_lt (by omega)
  have h2 : (off + n) % UINT_RANGE = off + n % 8 + 8 * (n / 8) := by
    rw [Nat.mod_eq_of_lt (by omega)]; omega
  have e1 : (n - n % 8) % 256 / 8 = n / 8 := by omega
  rw [h1, h2, e1, peek_loop_eq w m c (n / 8) 32 _ _ (by omega) (by omega), peek_u8_eq_pop]
  rw [pop_u8_eq m (bitstring_skip c off) (n % 8) (by omega) (skip_shift_le _ _)]
  rw [skip_skip c off (n % 8) (by omega)]

end RePeL
namespace RePeL

/-! ## The four width variants together -/

theorem pop_uN_eq (N : Nat) (hN : N = 8 ∨ N = 16 ∨ N = 32 ∨ N = 64) (m : Buffer)
    (c : BitString) (n : Nat) (hs : c.shift ≤ 7) (hn : n ≤ N) :
    bitstring_pop_uN N m c n = (bitsVal m c.pos n, bitstring_skip c n) := by
  rcases hN with rfl | rfl | rfl | rfl
  · exact pop_u8_eq m c n hn hs
  · exact pop_wide_eq 16 m c n hn (by omega) hs
  · exact pop_wide_eq 32 m c n hn (by omega) hs
  · exact pop_wide_eq 64 m c n hn (by omega) hs

theorem push_uN_spec (N : Nat) (hN : N = 8 ∨ N = 16 ∨ N = 32 ∨ N = 64) (m : Buffer)
    (c : BitString) (v n : Nat) (hs : c.shift ≤ 7) (hn : n ≤ N) :
    IsPush m c.pos v n (bitstring_push_uN N m c v n).1 ∧
      (bitstring_push_uN N m c v n).2 = bitstring_skip c n := by
  rcases hN with rfl | rfl | rfl | rfl
  · exact ⟨push_u8_isPush m c v n hn hs, push_u8_cursor m c v n hn hs⟩
  · exact push_u16_spec m c v n hs hn
  · exact push_u32_spec m c v n hs hn
  · exact push_u64_spec m c v n hs hn

theorem peek_uN_eq (N : Nat) (hN : N = 8 ∨ N = 16 ∨ N = 32 ∨ N = 64) (m : Buffer)
    (c : BitString) (off n : Nat) (hn : n ≤ N) (h : c.shift + off + n < UINT_RANGE) :
    bitstring_peek_uN N m c off n = some (bitstring_pop_uN N m (bitstring_skip c off) n).1 := by
  rcases hN with rfl | rfl | rfl | rfl
  · show some (bitstring_peek_u8 m c off n) = _
    rw [peek_u8_eq_pop]
    rfl
  · exact peek_wide_eq 16 m c off n (by omega) h
  · exact peek_wide_eq 32 m c off n (by omega) h
  · exact peek_wide_eq 64 m c off n (by omega) h

/-- A byte none of whose bits lies in the window of a push is unchanged. -/
theorem IsPush.byte_eq {m m' : Buffer} {p v n : Nat} (h : IsPush m p v n m') (a : Nat)
    (ha : 8 * a + 8 ≤ p ∨ p + n ≤ 8 * a) : m' a = m a := by
  apply byte_eq_of_getBit
  intro i hi
  rw [h i]
  have : ¬ (p ≤ i ∧ i < p + n) := by omega
  simp only [this, if_false]

theorem getBit_allOnes (i : Nat) : getBit allOnes i = true := by
  simp only [getBit, allOnes, Buffer.read]
  have h : 7 - i % 8 < 8 := by omega
  have := testBit_255 (7 - i % 8)
  simp only [h, decide_True] at this
  exact this

/-! ## Claims on the bit cursor -/

/-- C3: for each width variant `N` of 8, 16, 32, 64, each bit count
`1 ≤ n ≤ N`, each cursor with shift 0..7, each buffer and each value
`v < 2 ^ n`: pushing `v`, rewinding by `n` and popping `n` bits returns `v`,
and the cursor is then where the push left it. -/
theorem bitstring_push_rewind_pop (N : Nat) (hN : N = 8 ∨ N = 16 ∨ N = 32 ∨ N = 64)
    (m : Buffer) (c : BitString) (v n : Nat) (hs : c.shift ≤ 7) (h1 : 1 ≤ n) (hn : n ≤ N)
    (hv : v < 2 ^ n) :
    bitstring_pop_uN N (bitstring_push_uN N m c v n).1
        (bitstring_rewind (bitstring_push_uN N m c v n).2 n) n
      = (v, (bitstring_push_uN N m c v n).2) := by
  obtain ⟨hp, hc⟩ := push_uN_spec N hN m c v n hs hn
  have hU : c.shift + n < UINT_RANGE := by
    simp only [UINT_RANGE]
    rcases hN with rfl | rfl | rfl | rfl <;> omega
  rw [hc, rewind_skip c n hs hU, pop_uN_eq N hN _ c n hs hn, bitsVal_of_isPush hp,
    Nat.mod_eq_of_lt hv]

theorem bitstring_push_rewind_pop_witness :
    (16 = 8 ∨ 16 = 16 ∨ 16 = 32 ∨ 16 = 64) ∧ (3 : Nat) ≤ 7 ∧ 1 ≤ 10 ∧ 10 ≤ 16 ∧ 683 < 2 ^ 10 ∧
    bitstring_pop_uN 16 (bitstring_push_uN 16 allOnes ⟨2, 3⟩ 683 10).1
        (bitstring_rewind (bitstring_push_uN 16 allOnes ⟨2, 3⟩ 683 10).2 10) 10
      = (683, (bitstring_push_uN 16 allOnes ⟨2, 3⟩ 683 10).2) :=
  ⟨by decide, by decide, by decide, by decide, by decide,
    bitstring_push_rewind_pop 16 (by decide) allOnes ⟨2, 3⟩ 683 10 (by decide) (by decide)
      (by decide) (by decide)⟩

/-- C4: for each width variant, each `1 ≤ n ≤ N`, each cursor with shift 0..7
and each value `v`, the push sets the `n` bits from the cursor position on to
the low `n` bits of `v`, most significant first, and changes no other bit of
the buffer; a byte without a bit in that window is unchanged; and on the
all-0xFF buffer, skipping `k` bits and pushing `n` zero bits clears exactly the
bits `k .. k+n-1`. -/
theorem bitstring_push_locality (N : Nat) (hN : N = 8 ∨ N = 16 ∨ N = 32 ∨ N = 64)
    (m : Buffer) (c : BitString) (v n : Nat) (hs : c.shift ≤ 7) (h1 : 1 ≤ n) (hn : n ≤ N) :
    (∀ i, getBit (bitstring_push_uN N m c v n).1 i
        = if c.pos ≤ i ∧ i < c.pos + n then v.testBit (c.pos + n - 1 - i) else getBit m i) ∧
    (∀ a, 8 * a + 8 ≤ c.pos ∨ c.pos + n ≤ 8 * a → (bitstring_push_uN N m c v n).1 a = m a) ∧
    (∀ k, k < UINT_RANGE → ∀ i,
      getBit (bitstring_push_uN N allOnes (bitstring_skip bitstring_init k) 0 n).1 i
        = !decide (k ≤ i ∧ i < k + n)) := by
  have _ := h1
  obtain ⟨hp, _⟩ := push_uN_spec N hN m c v n hs hn
  refine ⟨hp, fun a ha => hp.byte_eq a ha, ?_⟩
  intro k hk i
  obtain ⟨hq, _⟩ := push_uN_spec N hN allOnes (bitstring_skip bitstring_init k) 0 n
    (skip_shift_le _ _) hn
  have hpos : (bitstring_skip bitstring_init k).pos = k := by
    rw [skip_pos _ _ (by simpa [bitstring_init] using hk)]
    simp [BitString.pos, bitstring_init]
  rw [hq i, hpos, getBit_allOnes]
  by_cases hw : k ≤ i ∧ i < k + n <;> simp [hw]

theorem bitstring_push_locality_witness :
    (32 = 8 ∨ 32 = 16 ∨ 32 = 32 ∨ 32 = 64) ∧ (5 : Nat) ≤ 7 ∧ 1 ≤ 19 ∧ 19 ≤ 32 ∧
    ((∀ i, getBit (bitstring_push_uN 32 allOnes ⟨1, 5⟩ 0 19).1 i
        = if (⟨1, 5⟩ : BitString).pos ≤ i ∧ i < (⟨1, 5⟩ : BitString).pos + 19
          then (0 : Nat).testBit ((⟨1, 5⟩ : BitString).pos + 19 - 1 - i) else getBit allOnes i) ∧
    (∀ a, 8 * a + 8 ≤ (⟨1, 5⟩ : BitString).pos ∨ (⟨1, 5⟩ : BitString).pos + 19 ≤ 8 * a →
      (bitstring_push_uN 32 allOnes ⟨1, 5⟩ 0 19).1 a = allOnes a) ∧
    (∀ k, k < UINT_RANGE → ∀ i,
      getBit (bitstring_push_uN 32 allOnes (bitstring_skip bitstring_init k) 0 19).1 i
        = !decide (k ≤ i ∧ i < k + 19))) :=
  ⟨by decide, by decide, by decide, by decide,
    bitstring_push_locality 32 (by decide) allOnes ⟨1, 5⟩ 0 19 (by decide) (by decide)
      (by decide)⟩

/-- C5: for each width variant, `1 ≤ n ≤ N` and a cursor with shift 0..7, the
pop returns the unsigned integer whose binary digits, most significant first,
are the `n` buffer bits from the cursor position on; the value is below
`2 ^ n`; and the cursor ends `n` bits further, where `bitstring_skip` puts it.
The pop only reads the buffer. -/
theorem bitstring_pop_spec (N : Nat) (hN : N = 8 ∨ N = 16 ∨ N = 32 ∨ N = 64)
    (m : Buffer) (c : BitString) (n : Nat) (hs : c.shift ≤ 7) (h1 : 1 ≤ n) (hn : n ≤ N) :
    (bitstring_pop_uN N m c n).1 = bitsVal m c.pos n ∧
    (∀ j, ((bitstring_pop_uN N m c n).1).testBit j
        = (decide (j < n) && getBit m (c.pos + (n - 1 - j)))) ∧
    (bitstring_pop_uN N m c n).1 < 2 ^ n ∧
    (bitstring_pop_uN N m c n).2 = bitstring_skip c n := by
  have _ := h1
  rw [pop_uN_eq N hN m c n hs hn]
  refine ⟨rfl, ?_, bitsVal_lt m c.pos n, rfl⟩
  intro j
  rw [testBit_bitsVal]
  by_cases hj : j < n
  · have e : c.pos + n - 1 - j = c.pos + (n - 1 - j) := by omega
    rw [e]
  · simp [hj]

theorem bitstring_pop_spec_witness :
    (64 = 8 ∨ 64 = 16 ∨ 64 = 32 ∨ 64 = 64) ∧ (6 : Nat) ≤ 7 ∧ 1 ≤ 37 ∧ 37 ≤ 64 ∧
    ((bitstring_pop_uN 64 allOnes ⟨0, 6⟩ 37).1 = bitsVal allOnes (⟨0, 6⟩ : BitString).pos 37 ∧
    (∀ j, ((bitstring_pop_uN 64 allOnes ⟨0, 6⟩ 37).1).testBit j
        = (decide (j < 37) && getBit allOnes ((⟨0, 6⟩ : BitString).pos + (37 - 1 - j)))) ∧
    (bitstring_pop_uN 64 allOnes ⟨0, 6⟩ 37).1 < 2 ^ 37 ∧
    (bitstring_pop_uN 64 allOnes ⟨0, 6⟩ 37).2 = bitstring_skip ⟨0, 6⟩ 37) :=
  ⟨by decide, by decide, by decide, by decide,
    bitstring_pop_spec 64 (by decide) allOnes ⟨0, 6⟩ 37 (by decide) (by decide) (by decide)⟩

/-- C6, as the claim states it, fails when `shift + k` exceeds `UINT_MAX`: the
sum in `bitstring_skip` wraps, and the rewind lands 2^29 bytes too low. -/
theorem bitstring_rewind_skip_wraps :
    bitstring_rewind (bitstring_skip ⟨1073741824, 7⟩ 4294967295) 4294967295
      ≠ (⟨1073741824, 7⟩ : BitString) := by
  decide

/-- C6, amended: for every cursor with shift 0..7 and every bit count `k` with
`shift + k ≤ UINT_MAX`, rewinding by `k` after skipping `k` restores the byte
position and the shift, also when the skip crosses a byte boundary and the
8-bit shift subtraction of the rewind wraps around. -/
theorem bitstring_rewind_skip (c : BitString) (k : Nat) (hs : c.shift ≤ 7)
    (h : c.shift + k < UINT_RANGE) :
    bitstring_rewind (bitstring_skip c k) k = c :=
  rewind_skip c k hs h

theorem bitstring_rewind_skip_witness :
    (6 : Nat) ≤ 7 ∧ 6 + 13 < UINT_RANGE ∧
    bitstring_rewind (bitstring_skip ⟨5, 6⟩ 13) 13 = (⟨5, 6⟩ : BitString) :=
  ⟨by decide, by decide, bitstring_rewind_skip ⟨5, 6⟩ 13 (by decide) (by decide)⟩

/-- C7, as the claim states it, fails for an offset near `UINT_MAX`: `offset +
bits` wraps in `bitstring_peek_u16`, its loop does not run, and it returns 0
where the pop at the skipped cursor reads 0xFFFF. -/
theorem bitstring_peek_wraps :
    bitstring_peek_uN 16 allOnes ⟨0, 0⟩ 4294967288 16
      ≠ some (bitstring_pop_uN 16 allOnes (bitstring_skip ⟨0, 0⟩ 4294967288) 16).1 := by
  decide

/-- C7, amended: for each width variant, cursor, offset and bit count `n ≤ N`
with `shift + offset + n ≤ UINT_MAX`, the peek returns what the pop returns at
the cursor skipped by the offset. The peek only reads the buffer and the
cursor. -/
theorem bitstring_peek_eq_pop_skip (N : Nat) (hN : N = 8 ∨ N = 16 ∨ N = 32 ∨ N = 64)
    (m : Buffer) (c : BitString) (off n : Nat) (hn : n ≤ N)
    (h : c.shift + off + n < UINT_RANGE) :
    bitstring_peek_uN N m c off n
      = some (bitstring_pop_uN N m (bitstring_skip c off) n).1 :=
  peek_uN_eq N hN m c off n hn h

theorem bitstring_peek_eq_pop_skip_witness :
    (32 = 8 ∨ 32 = 16 ∨ 32 = 32 ∨ 32 = 64) ∧ 28 ≤ 32 ∧ 4 + 4 + 28 < UINT_RANGE ∧
    bitstring_peek_uN 32 allOnes ⟨0, 4⟩ 4 28
      = some (bitstring_pop_uN 32 allOnes (bitstring_skip ⟨0, 4⟩ 4) 28).1 :=
  ⟨by decide, by decide, by decide,
    bitstring_peek_eq_pop_skip 32 (by decide) allOnes ⟨0, 4⟩ 4 28 (by decide) (by decide)⟩

end RePeL
namespace RePeL

/-! ## Copies between buffers -/

theorem getBit_congr_bitsVal {m m' src : Buffer} {p sp n : Nat}
    (h : IsPush m p (bitsVal src sp n) n m') (i : Nat) :
    getBit m' i = if p ≤ i ∧ i < p + n then getBit src (sp + (i - p)) else getBit m i := by
  rw [h i]
  by_cases hw : p ≤ i ∧ i < p + n
  · simp only [hw, and_self, if_true]
    rw [testBit_bitsVal]
    have h1 : p + n - 1 - i < n := by omega
    have h2 : sp + n - 1 - (p + n - 1 - i) = sp + (i - p) := by omega
    simp [h1, h2]
  · simp only [hw, if_false]

theorem bitsVal_congr {m m' : Buffer} {q k : Nat}
    (h : ∀ i, q ≤ i → i < q + k → getBit m' i = getBit m i) : bitsVal m' q k = bitsVal m q k := by
  apply Nat.eq_of_testBit_eq
  intro j
  rw [testBit_bitsVal, testBit_bitsVal]
  by_cases hj : j < k
  · rw [h _ (by omega) (by omega)]
  · simp [hj]

theorem take_congr {m m' : Buffer} {n : Nat}
    (h : ∀ i, i < 8 * n → getBit m' i = getBit m i) : m'.take n = m.take n := by
  simp only [Buffer.take]
  apply List.map_congr_left
  intro a ha
  have ha' : a < n := List.mem_range.mp ha
  simp only [Buffer.read]
  congr 1
  exact byte_eq_of_getBit m m' a (fun i hi => h i (by omega))

/-! ## The Modbus/TCP parser, default carrier layout -/

theorem skip_init (k : Nat) (hk : k < UINT_RANGE) :
    bitstring_skip bitstring_init k = ⟨k / 8, k % 8⟩ := by
  have : (0 + k) % UINT_RANGE = k := by rw [Nat.zero_add, Nat.mod_eq_of_lt hk]
  simp only [bitstring_skip, bitstring_init, this]
  congr 1 <;> omega

theorem modbus_embed_eq (cfg : ModbusConfig) (hb : cfg.MODBUS_TCP_REUSE_TID_BITS = 12)
    (hu : cfg.MODBUS_TCP_REUSE_UNIT_ID = true) (st : ModbusTCPState) (P mac : Buffer)
    (len : Nat) :
    modbus_tcp_embed cfg st P len mac = (st,
      (bitstring_push_u8
        (bitstring_push_u16 (bitstring_push_u16 P ⟨0, 0⟩ (bitsVal mac 0 12) 12).1 ⟨2, 0⟩
          (bitsVal mac 12 16) 16).1 ⟨6, 0⟩ (bitsVal mac 28 8) 8).1) := by
  have c0 : (⟨0, 0⟩ : BitString).shift ≤ 7 := by decide
  have c1 : (⟨1, 4⟩ : BitString).shift ≤ 7 := by decide
  have c2 : (⟨2, 0⟩ : BitString).shift ≤ 7 := by decide
  have c3 : (⟨3, 4⟩ : BitString).shift ≤ 7 := by decide
  have p1 := pop_wide_eq 16 mac ⟨0, 0⟩ 12 (by decide) (by decide) c0
  have p2 := pop_wide_eq 16 mac ⟨1, 4⟩ 16 (by decide) (by decide) c1
  have p3 := pop_u8_eq mac ⟨3, 4⟩ 8 (by decide) c3
  have s1 : bitstring_skip ⟨0, 0⟩ 12 = ⟨1, 4⟩ := by decide
  have s2 : bitstring_skip ⟨1, 4⟩ 4 = ⟨2, 0⟩ := by decide
  have s3 : bitstring_skip ⟨1, 4⟩ 16 = ⟨3, 4⟩ := by decide
  have s4 : bitstring_skip ⟨2, 0⟩ 16 = ⟨4, 0⟩ := by decide
  have s5 : bitstring_skip ⟨4, 0⟩ 16 = ⟨6, 0⟩ := by decide
  have q1 := fun v => (push_u16_spec P ⟨0, 0⟩ v 12 c0 (by decide)).2
  have q2 := fun m v => (push_u16_spec m ⟨2, 0⟩ v 16 c2 (by decide)).2
  simp only [s1, s3, BitString.pos] at p1 p2 p3
  simp only [s1, s4] at q1 q2
  simp only [modbus_tcp_embed, hb, hu, bitstring_copy_u16, bitstring_copy_u8, bitstring_init,
    bitstring_pop_u16, p1, p2, p3, q1, q2, s2, s5, if_true, gt_iff_lt, Nat.zero_lt_succ,
    Nat.reduceSub, Nat.reduceMul, Nat.reduceAdd, Nat.lt_add_one, Nat.ofNat_pos]

end RePeL
namespace RePeL

theorem modbus_extract_eq (cfg : ModbusConfig) (hb : cfg.MODBUS_TCP_REUSE_TID_BITS = 12)
    (hu : cfg.MODBUS_TCP_REUSE_UNIT_ID = true) (st : ModbusTCPState) (P scr : Buffer)
    (len : Nat) :
    modbus_tcp_extract cfg st P len scr = (st, P,
      (bitstring_push_u8
        (bitstring_push_u16 (bitstring_push_u16 scr ⟨0, 0⟩ (bitsVal P 0 12) 12).1 ⟨1, 4⟩
          (bitsVal P 16 16) 16).1 ⟨3, 4⟩ (bitsVal P 48 8) 8).1) := by
  have c0 : (⟨0, 0⟩ : BitString).shift ≤ 7 := by decide
  have c1 : (⟨1, 4⟩ : BitString).shift ≤ 7 := by decide
  have c2 : (⟨2, 0⟩ : BitString).shift ≤ 7 := by decide
  have c6 : (⟨6, 0⟩ : BitString).shift ≤ 7 := by decide
  have p1 := pop_wide_eq 16 P ⟨0, 0⟩ 12 (by decide) (by decide) c0
  have p2 := pop_wide_eq 16 P ⟨2, 0⟩ 16 (by decide) (by decide) c2
  have p3 := pop_u8_eq P ⟨6, 0⟩ 8 (by decide) c6
  have s1 : bitstring_skip ⟨0, 0⟩ 12 = ⟨1, 4⟩ := by decide
  have s2 : bitstring_skip ⟨1, 4⟩ 4 = ⟨2, 0⟩ := by decide
  have s3 : bitstring_skip ⟨1, 4⟩ 16 = ⟨3, 4⟩ := by decide
  have s4 : bitstring_skip ⟨2, 0⟩ 16 = ⟨4, 0⟩ := by decide
  have s5 : bitstring_skip ⟨4, 0⟩ 16 = ⟨6, 0⟩ := by decide
  have q1 := fun v => (push_u16_spec scr ⟨0, 0⟩ v 12 c0 (by decide)).2
  have q2 := fun m v => (push_u16_spec m ⟨1, 4⟩ v 16 c1 (by decide)).2
  simp only [s1, s4, BitString.pos] at p1 p2 p3
  simp only [s1, s3] at q1 q2
  simp only [modbus_tcp_extract, hb, hu, bitstring_copy_u16, bitstring_copy_u8, bitstring_init,
    bitstring_pop_u16, p1, p2, p3, q1, q2, s2, s5, if_true, gt_iff_lt, Nat.zero_lt_succ,
    Nat.reduceSub, Nat.reduceMul, Nat.reduceAdd, Nat.lt_add_one, Nat.ofNat_pos]

/-- The packet that `modbus_tcp_restore` leaves when it does not remap the TID
(`AUTHENTICATE` mode, or the server role). -/
theorem modbus_restore_eq (cfg : ModbusConfig) (hb : cfg.MODBUS_TCP_REUSE_TID_BITS = 12)
    (hu : cfg.MODBUS_TCP_REUSE_UNIT_ID = true) (st : ModbusTCPState) (P : Buffer)
    (len : Nat) (mode : RepelMode)
    (hm : mode = RepelMode.AUTHENTICATE ∨ cfg.MODBUS_TCP_IS_CLIENT = false) :
    modbus_tcp_restore cfg st P len mode = (st,
      (bitstring_push_u8
        (bitstring_push_u16 (bitstring_push_u16 P ⟨0, 0⟩ 0 12).1 ⟨2, 0⟩ 0 16).1
        ⟨6, 0⟩ 255 8).1) := by
  have c0 : (⟨0, 0⟩ : BitString).shift ≤ 7 := by decide
  have c2 : (⟨2, 0⟩ : BitString).shift ≤ 7 := by decide
  have s1 : bitstring_skip ⟨0, 0⟩ 12 = ⟨1, 4⟩ := by decide
  have s2 : bitstring_skip ⟨1, 4⟩ 4 = ⟨2, 0⟩ := by decide
  have s4 : bitstring_skip ⟨2, 0⟩ 16 = ⟨4, 0⟩ := by decide
  have s5 : bitstring_skip ⟨4, 0⟩ 16 = ⟨6, 0⟩ := by decide
  have q1 := fun v => (push_u16_spec P ⟨0, 0⟩ v 12 c0 (by decide)).2
  have q2 := fun m v => (push_u16_spec m ⟨2, 0⟩ v 16 c2 (by decide)).2
  simp only [s1, s4] at q1 q2
  rcases hm with hm | hm
  · subst hm
    cases hcl : cfg.MODBUS_TCP_IS_CLIENT <;>
    simp [modbus_tcp_restore, hb, hu, hcl, bitstring_init, q1, q2, s2, s5]
  · simp [modbus_tcp_restore, hb, hu, hm, bitstring_init, q1, q2, s2, s5]

/-- The packet and the state that `modbus_tcp_restore` leaves when it remaps
the TID (client role, `EMBED` mode). -/
theorem modbus_restore_client_eq (cfg : ModbusConfig)
    (hb : cfg.MODBUS_TCP_REUSE_TID_BITS = 12) (hu : cfg.MODBUS_TCP_REUSE_UNIT_ID = true)
    (hc : cfg.MODBUS_TCP_IS_CLIENT = true) (st : ModbusTCPState) (P : Buffer) (len : Nat) :
    modbus_tcp_restore cfg st P len RepelMode.EMBED = ((_map_tid cfg st (bitsVal P 0 16)).1,
      (bitstring_push_u8
        (bitstring_push_u16
          (bitstring_push_u16 (bitstring_push_u16 P ⟨0, 0⟩ 0 12).1 ⟨1, 4⟩
            (_map_tid cfg st (bitsVal P 0 16)).2 4).1 ⟨2, 0⟩ 0 16).1
        ⟨6, 0⟩ 255 8).1) := by
  have c0 : (⟨0, 0⟩ : BitString).shift ≤ 7 := by decide
  have c1 : (⟨1, 4⟩ : BitString).shift ≤ 7 := by decide
  have c2 : (⟨2, 0⟩ : BitString).shift ≤ 7 := by decide
  have s1 : bitstring_skip ⟨0, 0⟩ 12 = ⟨1, 4⟩ := by decide
  have s2 : bitstring_skip ⟨1, 4⟩ 4 = ⟨2, 0⟩ := by decide
  have s4 : bitstring_skip ⟨2, 0⟩ 16 = ⟨4, 0⟩ := by decide
  have s5 : bitstring_skip ⟨4, 0⟩ 16 = ⟨6, 0⟩ := by decide
  have s0 : bitstring_skip ⟨0, 0⟩ 0 = ⟨0, 0⟩ := by decide
  have q1 := fun v => (push_u16_spec P ⟨0, 0⟩ v 12 c0 (by decide)).2
  have q1' := fun m v => (push_u16_spec m ⟨1, 4⟩ v 4 c1 (by decide)).2
  have q2 := fun m v => (push_u16_spec m ⟨2, 0⟩ v 16 c2 (by decide)).2
  have pk : bitstring_peek_u16 P ⟨0, 0⟩ 0 16 = some (bitsVal P 0 16) := by
    have := peek_wide_eq 16 P ⟨0, 0⟩ 0 16 (by decide) (by decide)
    rw [s0, pop_wide_eq 16 P ⟨0, 0⟩ 16 (by decide) (by decide) c0] at this
    exact this
  simp only [s1, s2, s4] at q1 q1' q2
  simp [modbus_tcp_restore, hb, hu, hc, bitstring_init, q1, q1', q2, s5, pk]

theorem testBit_255_lt (k : Nat) (hk : k < 8) : (255 : Nat).testBit k = true := by
  rw [testBit_255]; simp [hk]

/-- Bits of a packet after the three pushes of `modbus_tcp_embed`. -/
theorem getBit_modbus_embed (P mac : Buffer) (i : Nat) :
    getBit (bitstring_push_u8
        (bitstring_push_u16 (bitstring_push_u16 P ⟨0, 0⟩ (bitsVal mac 0 12) 12).1 ⟨2, 0⟩
          (bitsVal mac 12 16) 16).1 ⟨6, 0⟩ (bitsVal mac 28 8) 8).1 i
      = match modbus_carrier i with
        | some j => getBit mac j
        | none => getBit P i := by
  have h1 := getBit_congr_bitsVal
    (push_u16_spec P ⟨0, 0⟩ (bitsVal mac 0 12) 12 (by decide) (by decide)).1 i
  have h2 := getBit_congr_bitsVal
    (push_u16_spec (bitstring_push_u16 P ⟨0, 0⟩ (bitsVal mac 0 12) 12).1 ⟨2, 0⟩
      (bitsVal mac 12 16) 16 (by decide) (by decide)).1 i
  have h3 := getBit_congr_bitsVal
    (push_u8_isPush (bitstring_push_u16 (bitstring_push_u16 P ⟨0, 0⟩ (bitsVal mac 0 12) 12).1
      ⟨2, 0⟩ (bitsVal mac 12 16) 16).1 ⟨6, 0⟩ (bitsVal mac 28 8) 8 (by decide) (by decide)) i
  rw [h3, h2, h1]
  simp only [BitString.pos, modbus_carrier]
  split_ifs <;> first | rfl | omega | (congr 1; omega)

/-- Bits of the extract buffer after the three pushes of `modbus_tcp_extract`. -/
theorem getBit_modbus_extract (P scr : Buffer) (j : Nat) :
    getBit (bitstring_push_u8
        (bitstring_push_u16 (bitstring_push_u16 scr ⟨0, 0⟩ (bitsVal P 0 12) 12).1 ⟨1, 4⟩
          (bitsVal P 16 16) 16).1 ⟨3, 4⟩ (bitsVal P 48 8) 8).1 j
      = if j < 36 then getBit P (modbus_slot j) else getBit scr j := by
  have h1 := getBit_congr_bitsVal
    (push_u16_spec scr ⟨0, 0⟩ (bitsVal P 0 12) 12 (by decide) (by decide)).1 j
  have h2 := getBit_congr_bitsVal
    (push_u16_spec (bitstring_push_u16 scr ⟨0, 0⟩ (bitsVal P 0 12) 12).1 ⟨1, 4⟩
      (bitsVal P 16 16) 16 (by decide) (by decide)).1 j
  have h3 := getBit_congr_bitsVal
    (push_u8_isPush (bitstring_push_u16 (bitstring_push_u16 scr ⟨0, 0⟩ (bitsVal P 0 12) 12).1
      ⟨1, 4⟩ (bitsVal P 16 16) 16).1 ⟨3, 4⟩ (bitsVal P 48 8) 8 (by decide) (by decide)) j
  rw [h3, h2, h1]
  simp only [BitString.pos, modbus_slot]
  split_ifs <;> first | rfl | omega | (congr 1; omega)

/-- Bits of a packet after the pushes of `modbus_tcp_restore` without remap. -/
theorem getBit_modbus_restore (P : Buffer) (i : Nat) :
    getBit (bitstring_push_u8
        (bitstring_push_u16 (bitstring_push_u16 P ⟨0, 0⟩ 0 12).1 ⟨2, 0⟩ 0 16).1
        ⟨6, 0⟩ 255 8).1 i
      = if i < 12 then false else if 16 ≤ i ∧ i < 32 then false
        else if 48 ≤ i ∧ i < 56 then true else getBit P i := by
  have h1 := (push_u16_spec P ⟨0, 0⟩ 0 12 (by decide) (by decide)).1 i
  have h2 := (push_u16_spec (bitstring_push_u16 P ⟨0, 0⟩ 0 12).1 ⟨2, 0⟩ 0 16
    (by decide) (by decide)).1 i
  have h3 := (push_u8_isPush (bitstring_push_u16 (bitstring_push_u16 P ⟨0, 0⟩ 0 12).1
      ⟨2, 0⟩ 0 16).1 ⟨6, 0⟩ 255 8 (by decide) (by decide)) i
  rw [h3, h2, h1]
  simp only [BitString.pos, Nat.zero_testBit]
  split_ifs <;> first | rfl | omega | (apply testBit_255_lt; omega)

/-- Bits of a packet after the pushes of `modbus_tcp_restore` with remap to
the map index `mapid`. -/
theorem getBit_modbus_restore_client (P : Buffer) (mapid i : Nat) :
    getBit (bitstring_push_u8
        (bitstring_push_u16
          (bitstring_push_u16 (bitstring_push_u16 P ⟨0, 0⟩ 0 12).1 ⟨1, 4⟩ mapid 4).1
          ⟨2, 0⟩ 0 16).1 ⟨6, 0⟩ 255 8).1 i
      = if i < 12 then false else if i < 16 then mapid.testBit (15 - i)
        else if i < 32 then false
        else if 48 ≤ i ∧ i < 56 then true else getBit P i := by
  have h1 := (push_u16_spec P ⟨0, 0⟩ 0 12 (by decide) (by decide)).1 i
  have h1' := (push_u16_spec (bitstring_push_u16 P ⟨0, 0⟩ 0 12).1 ⟨1, 4⟩ mapid 4
    (by decide) (by decide)).1 i
  have h2 := (push_u16_spec (bitstring_push_u16 (bitstring_push_u16 P ⟨0, 0⟩ 0 12).1 ⟨1, 4⟩
    mapid 4).1 ⟨2, 0⟩ 0 16 (by decide) (by decide)).1 i
  have h3 := (push_u8_isPush (bitstring_push_u16 (bitstring_push_u16
    (bitstring_push_u16 P ⟨0, 0⟩ 0 12).1 ⟨1, 4⟩ mapid 4).1 ⟨2, 0⟩ 0 16).1 ⟨6, 0⟩ 255 8
    (by decide) (by decide)) i
  rw [h3, h2, h1', h1]
  simp only [BitString.pos, Nat.zero_testBit]
  split_ifs <;> first | rfl | omega | (apply testBit_255_lt; omega)

end RePeL
namespace RePeL

theorem getBit_embed (cfg : ModbusConfig) (hb : cfg.MODBUS_TCP_REUSE_TID_BITS = 12)
    (hu : cfg.MODBUS_TCP_REUSE_UNIT_ID = true) (st : ModbusTCPState) (P mac : Buffer)
    (len i : Nat) :
    getBit (modbus_tcp_embed cfg st P len mac).2 i
      = match modbus_carrier i with
        | some j => getBit mac j
        | none => getBit P i := by
  rw [modbus_embed_eq cfg hb hu]
  exact getBit_modbus_embed P mac i

theorem getBit_extract (cfg : ModbusConfig) (hb : cfg.MODBUS_TCP_REUSE_TID_BITS = 12)
    (hu : cfg.MODBUS_TCP_REUSE_UNIT_ID = true) (st : ModbusTCPState) (P scr : Buffer)
    (len j : Nat) :
    getBit (modbus_tcp_extract cfg st P len scr).2.2 j
      = if j < 36 then getBit P (modbus_slot j) else getBit scr j := by
  rw [modbus_extract_eq cfg hb hu]
  exact getBit_modbus_extract P scr j

theorem getBit_restore (cfg : ModbusConfig) (hb : cfg.MODBUS_TCP_REUSE_TID_BITS = 12)
    (hu : cfg.MODBUS_TCP_REUSE_UNIT_ID = true) (st : ModbusTCPState) (P : Buffer)
    (len : Nat) (mode : RepelMode)
    (hm : mode = RepelMode.AUTHENTICATE ∨ cfg.MODBUS_TCP_IS_CLIENT = false) (i : Nat) :
    getBit (modbus_tcp_restore cfg st P len mode).2 i
      = if i < 12 then false else if 16 ≤ i ∧ i < 32 then false
        else if 48 ≤ i ∧ i < 56 then true else getBit P i := by
  rw [modbus_restore_eq cfg hb hu st P len mode hm]
  exact getBit_modbus_restore P i

/-- Whatever the mode and the role, the restored packet is canonical and
agrees with the input outside the TID, PID and Unit ID fields. -/
theorem restore_canonical (cfg : ModbusConfig) (hb : cfg.MODBUS_TCP_REUSE_TID_BITS = 12)
    (hu : cfg.MODBUS_TCP_REUSE_UNIT_ID = true) (st : ModbusTCPState) (P : Buffer)
    (len : Nat) (mode : RepelMode) :
    ModbusCanonical (modbus_tcp_restore cfg st P len mode).2 ∧
      ∀ i, 32 ≤ i → ¬ (48 ≤ i ∧ i < 56) →
        getBit (modbus_tcp_restore cfg st P len mode).2 i = getBit P i := by
  by_cases hm : mode = RepelMode.AUTHENTICATE ∨ cfg.MODBUS_TCP_IS_CLIENT = false
  · have h := getBit_restore cfg hb hu st P len mode hm
    refine ⟨⟨?_, ?_, ?_⟩, ?_⟩
    · intro i hi; rw [h i]; simp [hi]
    · intro i h1 h2; rw [h i]
      have : ¬ i < 12 := by omega
      simp [this, h1, h2]
    · intro i h1 h2; rw [h i]
      have : ¬ i < 12 := by omega
      have h3 : ¬ (16 ≤ i ∧ i < 32) := by omega
      simp [this, h1, h2, h3]
    · intro i h1 h2; rw [h i]
      have : ¬ i < 12 := by omega
      have h3 : ¬ (16 ≤ i ∧ i < 32) := by omega
      simp [this, h2, h3]
  · have hme : mode = RepelMode.EMBED := by
      cases mode
      · rfl
      · exact absurd (Or.inl rfl) hm
    have hc : cfg.MODBUS_TCP_IS_CLIENT = true := by
      cases h : cfg.MODBUS_TCP_IS_CLIENT
      · exact absurd (Or.inr h) hm
      · rfl
    subst hme
    rw [modbus_restore_client_eq cfg hb hu hc]
    have h := getBit_modbus_restore_client P (_map_tid cfg st (bitsVal P 0 16)).2
    refine ⟨⟨?_, ?_, ?_⟩, ?_⟩
    · intro i hi; rw [h i]; simp [hi]
    · intro i h1 h2; rw [h i]
      have : ¬ i < 12 := by omega
      have h3 : ¬ i < 16 := by omega
      simp [this, h3, h2]
    · intro i h1 h2; rw [h i]
      have : ¬ i < 12 := by omega
      have h3 : ¬ i < 16 := by omega
      have h4 : ¬ i < 32 := by omega
      simp [this, h3, h4, h1, h2]
    · intro i h1 h2; rw [h i]
      have : ¬ i < 12 := by omega
      have h3 : ¬ i < 16 := by omega
      have h4 : ¬ i < 32 := by omega
      simp [this, h3, h4, h2]

/-- Restoring an embedded packet without remap gives back the canonical packet
the MAC bits were embedded in. -/
theorem restore_embed_cancel (cfg cfg' : ModbusConfig)
    (hb : cfg.MODBUS_TCP_REUSE_TID_BITS = 12) (hu : cfg.MODBUS_TCP_REUSE_UNIT_ID = true)
    (hb' : cfg'.MODBUS_TCP_REUSE_TID_BITS = 12) (hu' : cfg'.MODBUS_TCP_REUSE_UNIT_ID = true)
    (st st' : ModbusTCPState) (Q mac : Buffer) (len len' : Nat) (mode : RepelMode)
    (hm : mode = RepelMode.AUTHENTICATE ∨ cfg'.MODBUS_TCP_IS_CLIENT = false)
    (hQ : ModbusCanonical Q) :
    (modbus_tcp_restore cfg' st' (modbus_tcp_embed cfg st Q len mac).2 len' mode).2 = Q := by
  apply buffer_ext_bits
  intro i
  rw [getBit_restore cfg' hb' hu' st' _ len' mode hm i, getBit_embed cfg hb hu]
  obtain ⟨h1, h2, h3⟩ := hQ
  by_cases a1 : i < 12
  · simp [a1, h1 i a1]
  · by_cases a2 : 16 ≤ i ∧ i < 32
    · simp [a1, a2, h2 i a2.1 a2.2]
    · by_cases a3 : 48 ≤ i ∧ i < 56
      · simp [a1, a2, a3, h3 i a3.1 a3.2]
      · simp [a1, a2, a3, modbus_carrier]

/-- Restoring a canonical packet without remap changes nothing. -/
theorem restore_of_canonical (cfg : ModbusConfig) (hb : cfg.MODBUS_TCP_REUSE_TID_BITS = 12)
    (hu : cfg.MODBUS_TCP_REUSE_UNIT_ID = true) (st : ModbusTCPState) (Q : Buffer)
    (len : Nat) (mode : RepelMode)
    (hm : mode = RepelMode.AUTHENTICATE ∨ cfg.MODBUS_TCP_IS_CLIENT = false)
    (hQ : ModbusCanonical Q) :
    (modbus_tcp_restore cfg st Q len mode).2 = Q := by
  apply buffer_ext_bits
  intro i
  rw [getBit_restore cfg hb hu st _ len mode hm i]
  obtain ⟨h1, h2, h3⟩ := hQ
  by_cases a1 : i < 12
  · simp [a1, h1 i a1]
  · by_cases a2 : 16 ≤ i ∧ i < 32
    · simp [a1, a2, h2 i a2.1 a2.2]
    · by_cases a3 : 48 ≤ i ∧ i < 56
      · simp [a1, a2, a3, h3 i a3.1 a3.2]
      · simp [a1, a2, a3]

/-- The bits that `modbus_tcp_extract` reads from an embedded packet are the
first 36 bits of the embedded MAC buffer. -/
theorem extract_embed (cfg cfg' : ModbusConfig)
    (hb : cfg.MODBUS_TCP_REUSE_TID_BITS = 12) (hu : cfg.MODBUS_TCP_REUSE_UNIT_ID = true)
    (hb' : cfg'.MODBUS_TCP_REUSE_TID_BITS = 12) (hu' : cfg'.MODBUS_TCP_REUSE_UNIT_ID = true)
    (st st' : ModbusTCPState) (Q mac scr : Buffer) (len len' j : Nat) (hj : j < 36) :
    getBit (modbus_tcp_extract cfg' st' (modbus_tcp_embed cfg st Q len mac).2 len' scr).2.2 j
      = getBit mac j := by
  rw [getBit_extract cfg' hb' hu', getBit_embed cfg hb hu]
  simp only [hj, if_true, modbus_slot, modbus_carrier]
  split_ifs <;> first | rfl | omega

/-! ## modbus_tcp_parse -/

theorem peek_u16_length (P : Buffer) :
    bitstring_peek_u16 P bitstring_init (4 * 8) 16 = some (bitsVal P 32 16) := by
  have h := peek_wide_eq 16 P ⟨0, 0⟩ 32 16 (by decide) (by decide)
  have s : bitstring_skip ⟨0, 0⟩ 32 = ⟨4, 0⟩ := by decide
  rw [s, pop_wide_eq 16 P ⟨4, 0⟩ 16 (by decide) (by decide) (by decide)] at h
  exact h

theorem modbus_parse_complete (cfg : ModbusConfig) (st : ModbusTCPState) (P : Buffer)
    (buflen : Nat) (mode : RepelMode) (h : buflen ≥ bitsVal P 32 16 + 6) :
    modbus_tcp_parse cfg st P buflen mode
      = { pktlen := (bitsVal P 32 16 + 6 : Nat), embed_bits := modbus_embed_bits cfg,
          packet_has_nonce := false } := by
  have h6 : ¬ ((buflen : Int) < 6) := by omega
  have hl : ¬ ((buflen : Int) < ((bitsVal P 32 16 : Nat) : Int) + 6) := by omega
  simp only [modbus_tcp_parse, parse_fail_on_minlen, h6, if_false, peek_u16_length,
    Option.getD_some, hl]
  simp

theorem modbus_embed_bits_default (cfg : ModbusConfig)
    (hb : cfg.MODBUS_TCP_REUSE_TID_BITS = 12) (hu : cfg.MODBUS_TCP_REUSE_UNIT_ID = true) :
    modbus_embed_bits cfg = 36 := by
  simp [modbus_embed_bits, hb, hu]

end RePeL
namespace RePeL

/-! ## The HMAC adapter -/

theorem memcmp_of_bits (a b : Buffer) (n : Nat)
    (h : ∀ i, i < 8 * n → getBit a i = getBit b i) : memcmp_eq a b n = true := by
  simp only [memcmp_eq, decide_eq_true_eq]
  exact take_congr h

theorem rest_of_bits (a b : Buffer) (f o : Nat) (ho : o < 8)
    (h : ∀ j, j < o → getBit a (8 * f + j) = getBit b (8 * f + j)) :
    (a.read f ||| (0xff >>> o)) = (b.read f ||| (0xff >>> o)) := by
  apply Nat.eq_of_testBit_eq
  intro t
  simp only [Nat.testBit_or, Nat.testBit_shiftRight, testBit_255]
  by_cases ht : o + t < 8
  · simp [ht]
  · by_cases h8 : t < 8
    · have := h (7 - t) (by omega)
      simp only [getBit] at this
      have e1 : (8 * f + (7 - t)) / 8 = f := by omega
      have e2 : 7 - (8 * f + (7 - t)) % 8 = t := by omega
      rw [e1, e2] at this
      simp [ht, this]
    · rw [testBit_read_high a f t (by omega), testBit_read_high b f t (by omega)]

/-- The buffer that `hmac_sign` and `hmac_verify` compute the digest into. -/
theorem getBit_hmac_finalize (b b' : Buffer) (d : List Nat) (i : Nat) (hi : i < 256) :
    getBit (hmac_finalize b d) i = getBit (hmac_finalize b' d) i := by
  have : i / 8 < DTLS_HMAC_DIGEST_SIZE := by simp only [DTLS_HMAC_DIGEST_SIZE]; omega
  simp only [getBit, Buffer.read, hmac_finalize, this, if_true]

theorem int16_of_small (n : Nat) (h : n < 32768) : int16 (n : Int) = n := by
  simp only [int16]
  omega

/-- The function `hmac_verify` accepts a candidate whose first `bits` bits are those of
the digest. -/
theorem hmac_verify_of_leading_bits (H : HmacFn) (data : HMacData) (packet : Buffer) (pktlen : Nat)
    (mac : Buffer) (bits : Nat) (nb : Option (List Nat)) (hbits : bits < 32768)
    (h : ∀ j, j < bits → getBit mac j
      = getBit (hmac_finalize (memset data.buffer 0 (ceil_bits_to_bytes bits))
          (H (data.key HMAC_KEYSLOT_RECV) (hmac_message packet pktlen nb))) j) :
    (hmac_verify H data packet pktlen mac bits nb).2 = bits := by
  have h1 := memcmp_of_bits mac _ (bits / 8) (fun i hi => h i (by omega))
  simp only [hmac_verify, h1, if_true]
  by_cases ho : bits % 8 > 0
  · have h2 := rest_of_bits mac (hmac_finalize (memset data.buffer 0 (ceil_bits_to_bytes bits))
          (H (data.key HMAC_KEYSLOT_RECV) (hmac_message packet pktlen nb))) (bits / 8)
        (bits % 8) (by omega) (fun j hj => h _ (by omega))
    simp only [ho, if_true, ne_eq, h2, not_true_eq_false, if_false]
    exact int16_of_small bits hbits
  · simp only [ho, if_false]
    exact int16_of_small bits hbits

theorem hmac_sign_buffer (H : HmacFn) (data : HMacData) (packet : Buffer)
    (pktlen macbits extrabits : Nat) (nb : Option (List Nat)) :
    (hmac_sign H data packet pktlen macbits extrabits nb).2
      = hmac_finalize (memset data.buffer 0 (ceil_bits_to_bytes (macbits + extrabits) % 65536))
          (H (data.key HMAC_KEYSLOT_SEND) (hmac_message packet pktlen nb)) := rfl

/-! ## Nonce arithmetic -/

theorem testBit_nonce_mask (k j : Nat) :
    ((NONCE_MASK <<< k) % NONCE_RANGE).testBit j = (decide (k ≤ j) && decide (j < 64)) := by
  simp only [NONCE_MASK, NONCE_RANGE, Nat.testBit_mod_two_pow, Nat.testBit_shiftLeft,
    Nat.testBit_two_pow_sub_one]
  by_cases h1 : j < 64 <;> by_cases h2 : k ≤ j <;> simp [h1, h2]
  omega

/-- Low bits of one number joined with the upper bits of another. -/
theorem low_or_upper (low recv k : Nat) (hl : low < 2 ^ k) (hr : recv < 2 ^ 64) :
    low ||| (recv &&& ((NONCE_MASK <<< k) % NONCE_RANGE)) = 2 ^ k * (recv / 2 ^ k) + low := by
  apply Nat.eq_of_testBit_eq
  intro j
  rw [Nat.testBit_mul_pow_two_add _ hl, Nat.testBit_or, Nat.testBit_and, testBit_nonce_mask]
  by_cases hj : j < k
  · have : ¬ (k ≤ j) := by omega
    simp [hj, this]
  · have h1 : k ≤ j := by omega
    have h2 : low.testBit j = false :=
      Nat.testBit_lt_two_pow (lt_of_lt_of_le hl (Nat.pow_le_pow_right (by norm_num) h1))
    simp only [hj, if_false, h2, Bool.false_or, h1, decide_True, Bool.true_and]
    rw [← Nat.shiftRight_eq_div_pow, Nat.testBit_shiftRight]
    have e : k + (j - k) = j := by omega
    rw [e]
    by_cases h64 : j < 64
    · simp [h64]
    · have : recv.testBit j = false :=
        Nat.testBit_lt_two_pow (lt_of_lt_of_le hr (Nat.pow_le_pow_right (by norm_num) (by omega)))
      simp [h64, this]

theorem int_one_shl_small (k : Nat) (hk : k ≤ 30) : int_one_shl k = 2 ^ k := by
  have h1 : 2 ^ k ≤ 2 ^ 30 := Nat.pow_le_pow_right (by norm_num) hk
  have h2 : 2 ^ k % 2 ^ 32 = 2 ^ k := Nat.mod_eq_of_lt (by omega)
  have h3 : 2 ^ k < 2 ^ 31 := by omega
  simp only [int_one_shl, h2]
  rw [if_pos h3]

/-- The window arithmetic of the nonce reconstruction: with the low `k` bits of
`R + d` and the upper bits of `R`, one conditional addition of `2 ^ k` gives
`R + d`. -/
theorem window_candidate (R d X : Nat) (hX : 0 < X) (hd : d < X) :
    (if X * (R / X) + (R + d) % X < R then X * (R / X) + (R + d) % X + X
      else X * (R / X) + (R + d) % X) = R + d := by
  have hR := Nat.div_add_mod R X
  have hr := Nat.mod_lt R hX
  generalize hq : X * (R / X) = U at *
  generalize hrr : R % X = r at *
  have e : (R + d) % X = (r + d) % X := by
    rw [← hR, Nat.add_assoc, ← hq, Nat.mul_add_mod]
  rw [e]
  by_cases hlt : r + d < X
  · rw [Nat.mod_eq_of_lt hlt]
    have : ¬ (U + (r + d) < R) := by omega
    simp only [this, if_false]
    omega
  · have e2 : (r + d) % X = r + d - X := by
      rw [Nat.mod_eq_sub_mod (by omega), Nat.mod_eq_of_lt (by omega)]
    rw [e2]
    have : U + (r + d - X) < R := by omega
    simp only [this, if_true]
    omega

theorem window_candidate_nowrap (R d X : Nat) (h : R % X + d < X) :
    X * (R / X) + (R + d) % X = R + d := by
  have hR := Nat.div_add_mod R X
  generalize hq : X * (R / X) = U at *
  generalize hrr : R % X = r at *
  have e : (R + d) % X = (r + d) % X := by
    rw [← hR, Nat.add_assoc, ← hq, Nat.mul_add_mod]
  rw [e, Nat.mod_eq_of_lt h]
  omega

/-- The nonce reconstruction finds the sender nonce `R + d` from its low `k`
bits whenever `d < 2 ^ k`, provided `1 << k` fits `int` (`k ≤ 30`) or the low
`k` bits of `R` do not overflow when `d` is added; the loss is `d`, capped at
`UINT16_MAX`. -/
theorem reconstruct_nonce_eq (R d k macbits : Nat) (mac : Buffer) (hk : k ≤ 63)
    (hd : d < 2 ^ k) (hR : R + d < 2 ^ 64) (hm : macbits < 65536)
    (hs : k ≤ 30 ∨ R % 2 ^ k + d < 2 ^ k)
    (hlow : bitsVal mac macbits k = (R + d) % 2 ^ k) :
    reconstruct_nonce R mac macbits k = (R + d, if d < UINT16_MAX then d else UINT16_MAX) := by
  have hX : 0 < 2 ^ k := Nat.two_pow_pos k
  have hk' : k % 256 = k := Nat.mod_eq_of_lt (by omega)
  have hsk : bitstring_skip bitstring_init macbits = ⟨macbits / 8, macbits % 8⟩ :=
    skip_init macbits (by simp only [UINT_RANGE]; omega)
  have hpop : (bitstring_pop_u64 mac ⟨macbits / 8, macbits % 8⟩ k).1 = (R + d) % 2 ^ k := by
    show (pop_wide 64 mac ⟨macbits / 8, macbits % 8⟩ k).1 = _
    rw [pop_wide_eq 64 mac _ k (by omega) (le_refl _) (by simp only []; omega)]
    simp only [BitString.pos]
    have e : 8 * (macbits / 8) + macbits % 8 = macbits := by omega
    rw [e, hlow]
  have hlo := low_or_upper ((R + d) % 2 ^ k) R k (Nat.mod_lt _ hX) (by omega)
  have hcand : (if 2 ^ k * (R / 2 ^ k) + (R + d) % 2 ^ k < R then
      (2 ^ k * (R / 2 ^ k) + (R + d) % 2 ^ k + int_one_shl k) % NONCE_RANGE
      else 2 ^ k * (R / 2 ^ k) + (R + d) % 2 ^ k) = R + d := by
    rcases hs with hs | hs
    · rw [int_one_shl_small k hs]
      have hw := window_candidate R d (2 ^ k) hX hd
      by_cases hlt : 2 ^ k * (R / 2 ^ k) + (R + d) % 2 ^ k < R
      · rw [if_pos hlt] at hw ⊢
        rw [hw]
        exact Nat.mod_eq_of_lt (by simpa [NONCE_RANGE] using hR)
      · rw [if_neg hlt] at hw ⊢
        exact hw
    · have hw := window_candidate_nowrap R d (2 ^ k) hs
      rw [hw]
      have : ¬ (R + d < R) := by omega
      rw [if_neg this]
  simp only [reconstruct_nonce, hk', hsk, hpop, hlo, hcand]
  have hdiff : (R + d + NONCE_RANGE - R) % NONCE_RANGE = d := by
    have e : R + d + NONCE_RANGE - R = d + NONCE_RANGE := by omega
    rw [e, Nat.add_mod_right]
    exact Nat.mod_eq_of_lt (by simp only [NONCE_RANGE]; omega)
  rw [hdiff]

end RePeL
namespace RePeL

theorem bufsize_of_nat (n : Nat) (h : n < 65536) : bufsize (n : Int) = n := by
  simp only [bufsize]
  omega

/-- The result of `repel_embed` with the Modbus/TCP parser (default carrier layout) and the
HMAC adapter on a complete frame. -/
theorem modbus_hmac_embed (H : HmacFn) (cfg : ModbusConfig)
    (hb : cfg.MODBUS_TCP_REUSE_TID_BITS = 12) (hu : cfg.MODBUS_TCP_REUSE_UNIT_ID = true)
    (st : ModbusTCPState) (ms : HMacData) (send recv k : Nat) (x P : Buffer) (size : Nat)
    (hk : k < 36) (hsize : size = bitsVal P 32 16 + 6) (h16 : size < 65536) :
    repel_embed
        { parser := modbus_tcp_parser_module cfg, macalgo := hmac_module H, parser_state := st,
          mac_state := ms, nonce_send := send, nonce_recv := recv, nonce_embed_bits := k,
          extrbuf := x } P size
      = ({ parser := modbus_tcp_parser_module cfg, macalgo := hmac_module H,
           parser_state := (modbus_tcp_restore cfg st P size RepelMode.EMBED).1,
           mac_state :=
             { keys := ms.keys
               buffer := hmac_embed_mac H ms (modbus_tcp_restore cfg st P size RepelMode.EMBED).2
                 size (36 - k) k send },
           nonce_send := (send + 1) % NONCE_RANGE, nonce_recv := recv, nonce_embed_bits := k,
           extrbuf := x },
         (modbus_tcp_embed cfg (modbus_tcp_restore cfg st P size RepelMode.EMBED).1
           (modbus_tcp_restore cfg st P size RepelMode.EMBED).2 size
           (hmac_embed_mac H ms (modbus_tcp_restore cfg st P size RepelMode.EMBED).2
             size (36 - k) k send)).2,
         36 - k) := by
  have hp := modbus_parse_complete cfg st P size RepelMode.EMBED (by omega)
  rw [← hsize, modbus_embed_bits_default cfg hb hu] at hp
  have hle : ¬ (36 ≤ k) := by omega
  have hem : ∀ s Q l m, (modbus_tcp_embed cfg s Q l m).1 = s := by
    intro s Q l m
    rw [modbus_embed_eq cfg hb hu]
  simp only [repel_embed, modbus_tcp_parser_module, hmac_module, hp, bufsize_of_nat size h16, hle,
    hem, hmac_embed_mac, ne_eq, not_true_eq_false, OfNat.ofNat_ne_zero, or_self, if_false,
    Bool.not_false, if_true]
  by_cases hk0 : k > 0
  · simp only [hk0, if_true, hmac_sign]
  · simp only [hk0, if_false, hmac_sign]

/-- The result of `repel_authenticate` with the Modbus/TCP parser (default carrier layout) and
the HMAC adapter, on a packet `Pe` that carries in its carrier fields the bits
of `mac` and is the canonical packet `Q` elsewhere, when the first `36 - k`
bits of `mac` are those of the digest of `Q` and the nonce `N` under the
receive key, the next `k` bits are the low bits of `N`, and `N` lies in the
window of the receive nonce. -/
theorem modbus_hmac_authenticate (H : HmacFn) (cfg : ModbusConfig)
    (hb : cfg.MODBUS_TCP_REUSE_TID_BITS = 12) (hu : cfg.MODBUS_TCP_REUSE_UNIT_ID = true)
    (st : ModbusTCPState) (ms : HMacData) (send recv k : Nat) (x Pe Q mac : Buffer)
    (size N d : Nat) (hk : k < 36) (hsize : size = bitsVal Q 32 16 + 6) (h16 : size < 65536)
    (hQ : ModbusCanonical Q)
    (hPe : ∀ i, getBit Pe i = match modbus_carrier i with
      | some j => getBit mac j
      | none => getBit Q i)
    (hmac : ∀ j, j < 36 - k → getBit mac j
      = getBit (hmac_finalize allOnes (H (ms.key HMAC_KEYSLOT_RECV)
          (hmac_message Q size (some (netendian_nonce N))))) j)
    (hnonce : bitsVal mac (36 - k) k = N % 2 ^ k)
    (hN : N = recv + d) (hd : d < 2 ^ k) (hN64 : N < 2 ^ 64)
    (hs : k ≤ 30 ∨ recv % 2 ^ k + d < 2 ^ k)
    (on_success on_failed : Bool) (cbdata : Nat) (auth : AuthenticateResult) :
    repel_authenticate
        { parser := modbus_tcp_parser_module cfg, macalgo := hmac_module H, parser_state := st,
          mac_state := ms, nonce_send := send, nonce_recv := recv, nonce_embed_bits := k,
          extrbuf := x } Pe size on_success on_failed cbdata auth
      = { con :=
            { parser := modbus_tcp_parser_module cfg, macalgo := hmac_module H,
              parser_state := (modbus_tcp_verified cfg st Q size).1,
              mac_state := (hmac_verify H ms Q size (modbus_tcp_extract cfg st Pe size x).2.2
                (36 - k) (some (netendian_nonce N))).1,
              nonce_send := send, nonce_recv := (N + 1) % NONCE_RANGE, nonce_embed_bits := k,
              extrbuf := (modbus_tcp_extract cfg st Pe size x).2.2 },
          packet := (modbus_tcp_verified cfg st Q size).2,
          ret := size,
          callback :=
            if on_success then
              some { kind := CallbackKind.on_auth_success, cbdata := cbdata,
                     packet := (modbus_tcp_verified cfg st Q size).2, packet_len := size,
                     result :=
                       { protection_level := 36 - k,
                         packet_loss := if d < UINT16_MAX then d else UINT16_MAX,
                         nonce_embedded := true } }
            else none } := by
  -- parse
  have hlen : bitsVal Pe 32 16 = bitsVal Q 32 16 := by
    apply bitsVal_congr
    intro i h1 h2
    rw [hPe i]
    have : modbus_carrier i = none := by
      simp only [modbus_carrier]
      split_ifs <;> first | rfl | omega
    rw [this]
  have hp := modbus_parse_complete cfg st Pe size RepelMode.AUTHENTICATE (by omega)
  rw [hlen, ← hsize, modbus_embed_bits_default cfg hb hu] at hp
  -- extract
  have hex1 : (modbus_tcp_extract cfg st Pe size x).1 = st := by
    rw [modbus_extract_eq cfg hb hu]
  have hex2 : (modbus_tcp_extract cfg st Pe size x).2.1 = Pe := by
    rw [modbus_extract_eq cfg hb hu]
  have hS : ∀ j, j < 36 → getBit (modbus_tcp_extract cfg st Pe size x).2.2 j = getBit mac j := by
    intro j hj
    rw [getBit_extract cfg hb hu, hPe]
    simp only [hj, if_true, modbus_slot, modbus_carrier]
    split_ifs <;> first | rfl | omega
  -- restore
  have hrs1 : (modbus_tcp_restore cfg st Pe size RepelMode.AUTHENTICATE).1 = st := by
    rw [modbus_restore_eq cfg hb hu st Pe size _ (Or.inl rfl)]
  have hrs2 : (modbus_tcp_restore cfg st Pe size RepelMode.AUTHENTICATE).2 = Q := by
    apply buffer_ext_bits
    intro i
    rw [getBit_restore cfg hb hu st _ size _ (Or.inl rfl) i, hPe]
    obtain ⟨h1, h2, h3⟩ := hQ
    by_cases a1 : i < 12
    · simp [a1, h1 i a1]
    · by_cases a2 : 16 ≤ i ∧ i < 32
      · simp [a1, a2, h2 i a2.1 a2.2]
      · by_cases a3 : 48 ≤ i ∧ i < 56
        · simp [a1, a2, a3, h3 i a3.1 a3.2]
        · simp [a1, a2, a3, modbus_carrier]
  -- verify
  have hv : (hmac_verify H ms Q size (modbus_tcp_extract cfg st Pe size x).2.2 (36 - k)
      (some (netendian_nonce N))).2 = ((36 - k : Nat) : Int) := by
    apply hmac_verify_of_leading_bits H ms Q size _ (36 - k) _ (by omega)
    intro j hj
    rw [hS j (by omega), hmac j hj]
    exact getBit_hmac_finalize _ _ _ j (by omega)
  have hpos : ((36 - k : Nat) : Int) > 0 := by omega
  have htn : ((36 - k : Nat) : Int).toNat % 65536 = 36 - k := by omega
  have hle : ¬ (36 ≤ k) := by omega
  by_cases hk0 : k > 0
  · have hrn : reconstruct_nonce recv (modbus_tcp_extract cfg st Pe size x).2.2 (36 - k) k
        = (N, if d < UINT16_MAX then d else UINT16_MAX) := by
      rw [hN]
      apply reconstruct_nonce_eq recv d k (36 - k) _ (by omega) hd (by omega) (by omega) hs
      rw [← hN, ← hnonce]
      apply bitsVal_congr
      intro i h1 h2
      exact hS i (by omega)
    simp only [repel_authenticate, authenticate_finish, modbus_tcp_parser_module, hmac_module, hp,
      bufsize_of_nat size h16, hex1, hex2, hrs1, hrs2, hle, hk0, hrn, hv, hpos, htn,
      Bool.not_false, if_true, if_false]
    have : ¬ ((size : Int) < 0) := by omega
    simp only [this, if_false]
  · have hk00 : k = 0 := by omega
    subst hk00
    have hd0 : d = 0 := by simpa using hd
    subst hd0
    have hNr : N = recv := by omega
    subst hNr
    simp only [Nat.sub_zero] at hv hpos htn
    have hlt : ¬ ((size : Int) < 0) := by omega
    have h0 : ¬ (0 > 0) := by omega
    have hu16 : (0 : Nat) < UINT16_MAX := by decide
    simp only [repel_authenticate, authenticate_finish, modbus_tcp_parser_module, hmac_module, hp,
      bufsize_of_nat size h16, hex1, hex2, hrs1, hrs2, hv, hpos, htn, hle, hlt, h0, hu16,
      Bool.not_false, if_true, if_false, Nat.sub_zero, gt_iff_lt, Nat.lt_irrefl]

theorem hmac_verify_keys (H : HmacFn) (data : HMacData) (packet : Buffer) (pktlen : Nat)
    (mac : Buffer) (bits : Nat) (nb : Option (List Nat)) :
    (hmac_verify H data packet pktlen mac bits nb).1.keys = data.keys := by
  simp only [hmac_verify]
  split_ifs <;> rfl

/-- The MAC bits in the buffer that `repel_embed` embeds are the leading bits of
the digest. -/
theorem hmac_embed_mac_bits (H : HmacFn) (ms : HMacData) (Q : Buffer) (size k send j : Nat)
    (hk : k < 36) (hj : j < 36 - k) :
    getBit (hmac_embed_mac H ms Q size (36 - k) k send) j
      = getBit (hmac_finalize allOnes (H (ms.key HMAC_KEYSLOT_SEND)
          (hmac_message Q size (some (netendian_nonce send))))) j := by
  simp only [hmac_embed_mac]
  by_cases hk0 : k > 0
  · simp only [hk0, if_true]
    have hsk : bitstring_skip bitstring_init (36 - k) = ⟨(36 - k) / 8, (36 - k) % 8⟩ :=
      skip_init _ (by simp only [UINT_RANGE]; omega)
    have hp := (push_u64_spec (hmac_sign H ms Q size (36 - k) k
      (some (netendian_nonce send))).2 ⟨(36 - k) / 8, (36 - k) % 8⟩ send (k % 256)
      (by simp only []; omega) (by omega)).1
    rw [hsk, hp j]
    have hw : ¬ ((⟨(36 - k) / 8, (36 - k) % 8⟩ : BitString).pos ≤ j ∧
        j < (⟨(36 - k) / 8, (36 - k) % 8⟩ : BitString).pos + k % 256) := by
      simp only [BitString.pos]; omega
    rw [if_neg hw, hmac_sign_buffer]
    exact getBit_hmac_finalize _ _ _ j (by omega)
  · simp only [hk0, if_false]
    rw [hmac_sign_buffer]
    exact getBit_hmac_finalize _ _ _ j (by omega)

/-- The nonce bits in the buffer that `repel_embed` embeds are the low bits of
the send nonce. -/
theorem hmac_embed_mac_nonce (H : HmacFn) (ms : HMacData) (Q : Buffer) (size k send : Nat)
    (hk : k < 36) :
    bitsVal (hmac_embed_mac H ms Q size (36 - k) k send) (36 - k) k = send % 2 ^ k := by
  simp only [hmac_embed_mac]
  by_cases hk0 : k > 0
  · simp only [hk0, if_true]
    have hsk : bitstring_skip bitstring_init (36 - k) = ⟨(36 - k) / 8, (36 - k) % 8⟩ :=
      skip_init _ (by simp only [UINT_RANGE]; omega)
    have hp := (push_u64_spec (hmac_sign H ms Q size (36 - k) k
      (some (netendian_nonce send))).2 ⟨(36 - k) / 8, (36 - k) % 8⟩ send (k % 256)
      (by simp only []; omega) (by omega)).1
    have hpos : (⟨(36 - k) / 8, (36 - k) % 8⟩ : BitString).pos = 36 - k := by
      simp only [BitString.pos]; omega
    have hk' : k % 256 = k := Nat.mod_eq_of_lt (by omega)
    rw [hpos, hk'] at hp
    rw [hsk, hk']
    exact bitsVal_of_isPush hp
  · have : k = 0 := by omega
    subst this
    simp [bitsVal, Nat.mod_one]

/-- One protected packet from `A` to `B`: `repel_embed` on `A`, then
`repel_authenticate` on `B`, with the Modbus/TCP parser (default carrier
layout, any role on either side) and the HMAC adapter, when the send key of `A`
is the receive key of `B` and the send nonce of `A` is `d` ahead of the receive
nonce of `B`, within the window. -/
theorem modbus_hmac_roundtrip (H : HmacFn) (cfgA cfgB : ModbusConfig)
    (hbA : cfgA.MODBUS_TCP_REUSE_TID_BITS = 12) (huA : cfgA.MODBUS_TCP_REUSE_UNIT_ID = true)
    (hbB : cfgB.MODBUS_TCP_REUSE_TID_BITS = 12) (huB : cfgB.MODBUS_TCP_REUSE_UNIT_ID = true)
    (stA stB : ModbusTCPState) (msA msB : HMacData) (sendA recvA sendB recvB k : Nat)
    (xA xB P : Buffer) (size d : Nat) (hk : k < 36)
    (hsize : size = bitsVal P 32 16 + 6) (h16 : size < 65536)
    (hkey : msA.key HMAC_KEYSLOT_SEND = msB.key HMAC_KEYSLOT_RECV)
    (hN : sendA = recvB + d) (hd : d < 2 ^ k) (hN64 : sendA < 2 ^ 64)
    (hs : k ≤ 30 ∨ recvB % 2 ^ k + d < 2 ^ k)
    (on_success on_failed : Bool) (cbdata : Nat) (auth : AuthenticateResult) :
    ∃ (Pe S : Buffer) (msA' msB' : HMacData),
      msA'.keys = msA.keys ∧ msB'.keys = msB.keys ∧
      repel_embed
        { parser := modbus_tcp_parser_module cfgA, macalgo := hmac_module H, parser_state := stA,
          mac_state := msA, nonce_send := sendA, nonce_recv := recvA, nonce_embed_bits := k,
          extrbuf := xA } P size
        = ({ parser := modbus_tcp_parser_module cfgA, macalgo := hmac_module H,
             parser_state := (modbus_tcp_restore cfgA stA P size RepelMode.EMBED).1,
             mac_state := msA', nonce_send := (sendA + 1) % NONCE_RANGE, nonce_recv := recvA,
             nonce_embed_bits := k, extrbuf := xA }, Pe, 36 - k) ∧
      repel_authenticate
        { parser := modbus_tcp_parser_module cfgB, macalgo := hmac_module H, parser_state := stB,
          mac_state := msB, nonce_send := sendB, nonce_recv := recvB, nonce_embed_bits := k,
          extrbuf := xB } Pe size on_success on_failed cbdata auth
        = { con :=
              { parser := modbus_tcp_parser_module cfgB, macalgo := hmac_module H,
                parser_state := (modbus_tcp_verified cfgB stB
                  (modbus_tcp_restore cfgA stA P size RepelMode.EMBED).2 size).1,
                mac_state := msB', nonce_send := sendB,
                nonce_recv := (sendA + 1) % NONCE_RANGE, nonce_embed_bits := k, extrbuf := S },
            packet := (modbus_tcp_verified cfgB stB
              (modbus_tcp_restore cfgA stA P size RepelMode.EMBED).2 size).2,
            ret := size,
            callback :=
              if on_success then
                some { kind := CallbackKind.on_auth_success, cbdata := cbdata,
                       packet := (modbus_tcp_verified cfgB stB
                         (modbus_tcp_restore cfgA stA P size RepelMode.EMBED).2 size).2,
                       packet_len := size,
                       result :=
                         { protection_level := 36 - k,
                           packet_loss := if d < UINT16_MAX then d else UINT16_MAX,
                           nonce_embedded := true } }
              else none } := by
  obtain ⟨hcan, hrest⟩ := restore_canonical cfgA hbA huA stA P size RepelMode.EMBED
  have hlen : bitsVal (modbus_tcp_restore cfgA stA P size RepelMode.EMBED).2 32 16
      = bitsVal P 32 16 := by
    apply bitsVal_congr
    intro i h1 h2
    exact hrest i h1 (by omega)
  have hE := modbus_hmac_embed H cfgA hbA huA stA msA sendA recvA k xA P size hk hsize h16
  have hV := modbus_hmac_authenticate H cfgB hbB huB stB msB sendB recvB k xB
    (modbus_tcp_embed cfgA (modbus_tcp_restore cfgA stA P size RepelMode.EMBED).1
      (modbus_tcp_restore cfgA stA P size RepelMode.EMBED).2 size
      (hmac_embed_mac H msA (modbus_tcp_restore cfgA stA P size RepelMode.EMBED).2
        size (36 - k) k sendA)).2
    (modbus_tcp_restore cfgA stA P size RepelMode.EMBED).2
    (hmac_embed_mac H msA (modbus_tcp_restore cfgA stA P size RepelMode.EMBED).2
        size (36 - k) k sendA)
    size sendA d hk (by rw [hlen]; exact hsize) h16 hcan
    (fun i => getBit_embed cfgA hbA huA _ _ _ _ i)
    (fun j hj => by rw [hmac_embed_mac_bits H msA _ size k sendA j hk hj, hkey])
    (hmac_embed_mac_nonce H msA _ size k sendA hk) hN hd hN64 hs
    on_success on_failed cbdata auth
  refine ⟨_, _, _, _, ?_, ?_, hE, hV⟩
  · rfl
  · exact hmac_verify_keys H msB _ size _ _ _

end RePeL
namespace RePeL

/-! ## Claims on the connection engine -/

theorem modbus_verified_server (cfg : ModbusConfig) (hc : cfg.MODBUS_TCP_IS_CLIENT = false)
    (st : ModbusTCPState) (Q : Buffer) (n : Nat) : modbus_tcp_verified cfg st Q n = (st, Q) := by
  simp [modbus_tcp_verified, hc]

theorem hmac_key_congr (a b : HMacData) (h : a.keys = b.keys) (slot : Nat) :
    a.key slot = b.key slot := by
  simp only [HMacData.key, h]

/-- C2, as the claim states it, fails: after the exchange the Unit ID is 0xFF,
not 0x11, and the buffer differs from the saved request. -/
theorem modbus_exchange_unit_id_lost :
    (modbus_exchange
        (modbus_hmac_connection sum_hmac {} modbus_fresh_state sender_mac_state 0 0 3 allOnes)
        (modbus_hmac_connection sum_hmac { MODBUS_TCP_IS_CLIENT := false } modbus_fresh_state
          receiver_mac_state 0 0 3 allOnes)
        modbus_request 12).2.packet.read 6 = 0xFF ∧
    modbus_request.read 6 = 0x11 ∧
    (modbus_exchange
        (modbus_hmac_connection sum_hmac {} modbus_fresh_state sender_mac_state 0 0 3 allOnes)
        (modbus_hmac_connection sum_hmac { MODBUS_TCP_IS_CLIENT := false } modbus_fresh_state
          receiver_mac_state 0 0 3 allOnes)
        modbus_request 12).2.packet.take 12 ≠ modbus_request.take 12 := by
  decide

/-- C2, amended: for the frame `00 07 00 00 00 06 11 03 00 6B 00 03`, the
default Modbus/TCP configuration and `embed_nonce_bits = 3`, any keyed function
and any pair of matching keys, after client embed, server authenticate, server
embed and client authenticate (both accept, each return 12, `verified`
included) the buffer given to `on_auth_success` has TID `00 07` and PID `00 00`
again and Unit ID `FF`: it is the saved request except for the Unit ID, which
restore has set to 0xFF. -/
theorem modbus_exchange_restores (H : HmacFn) (msC msS : HMacData) (stS : ModbusTCPState)
    (xC xS : Buffer)
    (hk1 : msC.key HMAC_KEYSLOT_SEND = msS.key HMAC_KEYSLOT_RECV)
    (hk2 : msS.key HMAC_KEYSLOT_SEND = msC.key HMAC_KEYSLOT_RECV) :
    ∃ (c2 c4 : CallbackCall),
      (modbus_exchange (modbus_hmac_connection H {} modbus_fresh_state msC 0 0 3 xC)
        (modbus_hmac_connection H { MODBUS_TCP_IS_CLIENT := false } stS msS 0 0 3 xS)
        modbus_request 12).1.callback = some c2 ∧
      c2.kind = CallbackKind.on_auth_success ∧
      (modbus_exchange (modbus_hmac_connection H {} modbus_fresh_state msC 0 0 3 xC)
        (modbus_hmac_connection H { MODBUS_TCP_IS_CLIENT := false } stS msS 0 0 3 xS)
        modbus_request 12).1.ret = 12 ∧
      (modbus_exchange (modbus_hmac_connection H {} modbus_fresh_state msC 0 0 3 xC)
        (modbus_hmac_connection H { MODBUS_TCP_IS_CLIENT := false } stS msS 0 0 3 xS)
        modbus_request 12).2.callback = some c4 ∧
      c4.kind = CallbackKind.on_auth_success ∧
      c4.packet = (modbus_exchange (modbus_hmac_connection H {} modbus_fresh_state msC 0 0 3 xC)
        (modbus_hmac_connection H { MODBUS_TCP_IS_CLIENT := false } stS msS 0 0 3 xS)
        modbus_request 12).2.packet ∧
      (modbus_exchange (modbus_hmac_connection H {} modbus_fresh_state msC 0 0 3 xC)
        (modbus_hmac_connection H { MODBUS_TCP_IS_CLIENT := false } stS msS 0 0 3 xS)
        modbus_request 12).2.ret = 12 ∧
      (modbus_exchange (modbus_hmac_connection H {} modbus_fresh_state msC 0 0 3 xC)
        (modbus_hmac_connection H { MODBUS_TCP_IS_CLIENT := false } stS msS 0 0 3 xS)
        modbus_request 12).2.packet.take 12
        = [0x00, 0x07, 0x00, 0x00, 0x00, 0x06, 0xFF, 0x03, 0x00, 0x6B, 0x00, 0x03] := by
  -- request: client to server
  obtain ⟨Pe1, S1, msC', msS', hkC, hkS, hE1, hV2⟩ := modbus_hmac_roundtrip H {}
    { MODBUS_TCP_IS_CLIENT := false } rfl rfl rfl rfl modbus_fresh_state stS msC msS 0 0 0 0 3
    xC xS modbus_request 12 0 (by decide) (by decide) (by decide) hk1 rfl (by decide)
    (by decide) (Or.inl (by decide)) true true 0 ⟨0, 0, false⟩
  rw [modbus_verified_server _ rfl] at hV2
  -- the restored request
  obtain ⟨hcan, _⟩ := restore_canonical {} rfl rfl modbus_fresh_state modbus_request 12
    RepelMode.EMBED
  have hQ3 := restore_of_canonical { MODBUS_TCP_IS_CLIENT := false } rfl rfl stS
    (modbus_tcp_restore {} modbus_fresh_state modbus_request 12 RepelMode.EMBED).2 12
    RepelMode.EMBED (Or.inr rfl) hcan
  -- reply: server to client
  obtain ⟨Pe3, S3, msS'', msC'', _, _, hE3, hV4⟩ := modbus_hmac_roundtrip H
    { MODBUS_TCP_IS_CLIENT := false } {} rfl rfl rfl rfl stS
    (modbus_tcp_restore {} modbus_fresh_state modbus_request 12 RepelMode.EMBED).1 msS' msC'
    0 ((0 + 1) % NONCE_RANGE) ((0 + 1) % NONCE_RANGE) 0 3 S1 xC
    (modbus_tcp_restore {} modbus_fresh_state modbus_request 12 RepelMode.EMBED).2 12 0
    (by decide) (by decide) (by decide)
    (by rw [hmac_key_congr _ _ hkS, hmac_key_congr _ _ hkC]; exact hk2) rfl (by decide)
    (by decide) (Or.inl (by decide)) true true 0 ⟨0, 0, false⟩
  rw [hQ3] at hV4
  simp only [modbus_exchange, modbus_hmac_connection, hE1, hV2, hE3, hV4]
  refine ⟨_, _, rfl, rfl, rfl, rfl, rfl, rfl, rfl, ?_⟩
  decide

theorem modbus_exchange_restores_witness :
    sender_mac_state.key HMAC_KEYSLOT_SEND = receiver_mac_state.key HMAC_KEYSLOT_RECV ∧
    receiver_mac_state.key HMAC_KEYSLOT_SEND = sender_mac_state.key HMAC_KEYSLOT_RECV ∧
    ∃ (c2 c4 : CallbackCall),
      (modbus_exchange
        (modbus_hmac_connection sum_hmac {} modbus_fresh_state sender_mac_state 0 0 3 allOnes)
        (modbus_hmac_connection sum_hmac { MODBUS_TCP_IS_CLIENT := false } modbus_fresh_state
          receiver_mac_state 0 0 3 allOnes)
        modbus_request 12).1.callback = some c2 ∧
      c2.kind = CallbackKind.on_auth_success ∧
      (modbus_exchange
        (modbus_hmac_connection sum_hmac {} modbus_fresh_state sender_mac_state 0 0 3 allOnes)
        (modbus_hmac_connection sum_hmac { MODBUS_TCP_IS_CLIENT := false } modbus_fresh_state
          receiver_mac_state 0 0 3 allOnes)
        modbus_request 12).1.ret = 12 ∧
      (modbus_exchange
        (modbus_hmac_connection sum_hmac {} modbus_fresh_state sender_mac_state 0 0 3 allOnes)
        (modbus_hmac_connection sum_hmac { MODBUS_TCP_IS_CLIENT := false } modbus_fresh_state
          receiver_mac_state 0 0 3 allOnes)
        modbus_request 12).2.callback = some c4 ∧
      c4.kind = CallbackKind.on_auth_success ∧
      c4.packet = (modbus_exchange
        (modbus_hmac_connection sum_hmac {} modbus_fresh_state sender_mac_state 0 0 3 allOnes)
        (modbus_hmac_connection sum_hmac { MODBUS_TCP_IS_CLIENT := false } modbus_fresh_state
          receiver_mac_state 0 0 3 allOnes)
        modbus_request 12).2.packet ∧
      (modbus_exchange
        (modbus_hmac_connection sum_hmac {} modbus_fresh_state sender_mac_state 0 0 3 allOnes)
        (modbus_hmac_connection sum_hmac { MODBUS_TCP_IS_CLIENT := false } modbus_fresh_state
          receiver_mac_state 0 0 3 allOnes)
        modbus_request 12).2.ret = 12 ∧
      (modbus_exchange
        (modbus_hmac_connection sum_hmac {} modbus_fresh_state sender_mac_state 0 0 3 allOnes)
        (modbus_hmac_connection sum_hmac { MODBUS_TCP_IS_CLIENT := false } modbus_fresh_state
          receiver_mac_state 0 0 3 allOnes)
        modbus_request 12).2.packet.take 12
        = [0x00, 0x07, 0x00, 0x00, 0x00, 0x06, 0xFF, 0x03, 0x00, 0x6B, 0x00, 0x03] :=
  ⟨by decide, by decide,
    modbus_exchange_restores sum_hmac sender_mac_state receiver_mac_state modbus_fresh_state
      allOnes allOnes (by decide) (by decide)⟩

end RePeL
namespace RePeL

/-! ## Claims on the engine, for any parser and MAC module -/

/-- C10: when the parser reports a complete packet (`pktlen > 0`) with room for
a MAC and `MAC.verify` returns a non-positive value, `repel_authenticate`
returns `pktlen`, calls `on_auth_failed` (the only callback it makes) with the
restored packet, does not run the parser's `verified` step (packet and parser
state are as `restore` left them), and leaves both nonces unchanged. -/
theorem authenticate_verify_failure {σ μ : Type} (con : RepelConnection σ μ) (packet : Buffer)
    (size : Nat) (on_success : Bool) (cbdata : Nat) (auth : AuthenticateResult)
    (hp : 0 < (auth_parse con packet size).pktlen)
    (hroom : (auth_parse con packet size).packet_has_nonce = true ∨
      con.nonce_embed_bits < (auth_parse con packet size).embed_bits)
    (hv : (auth_verify con packet size).2 ≤ 0) :
    (repel_authenticate con packet size on_success true cbdata auth).ret
      = (auth_parse con packet size).pktlen ∧
    (∃ result, (repel_authenticate con packet size on_success true cbdata auth).callback
      = some { kind := CallbackKind.on_auth_failed, cbdata := cbdata,
               packet := (auth_restore con packet size).2,
               packet_len := bufsize (auth_parse con packet size).pktlen,
               result := result } ∧
      result.protection_level = ((-(auth_verify con packet size).2) % 65536).toNat) ∧
    (repel_authenticate con packet size on_success true cbdata auth).packet
      = (auth_restore con packet size).2 ∧
    (repel_authenticate con packet size on_success true cbdata auth).con.parser_state
      = (auth_restore con packet size).1 ∧
    (repel_authenticate con packet size on_success true cbdata auth).con.nonce_recv
      = con.nonce_recv ∧
    (repel_authenticate con packet size on_success true cbdata auth).con.nonce_send
      = con.nonce_send := by
  have hneg : ¬ ((auth_parse con packet size).pktlen < 0) := by omega
  simp only [auth_parse] at hneg hroom
  cases hn : (con.parser.parse con.parser_state packet size RepelMode.AUTHENTICATE).packet_has_nonce
  · -- the engine embeds a nonce
    have hle : ¬ ((con.parser.parse con.parser_state packet size
        RepelMode.AUTHENTICATE).embed_bits ≤ con.nonce_embed_bits) := by
      rcases hroom with h | h
      · rw [hn] at h; exact absurd h (by decide)
      · omega
    simp only [auth_verify, auth_parse, auth_restore, auth_extract, auth_nonce, hn] at hv
    by_cases hk0 : con.nonce_embed_bits > 0
    · simp only [hk0, if_true, Bool.false_eq_true, if_false] at hv
      have hv' := not_lt.mpr hv
      simp only [repel_authenticate, authenticate_finish, auth_parse, auth_restore, auth_extract,
        auth_verify, auth_nonce, hneg, hn, hle, hk0, hv', gt_iff_lt, Bool.not_false, if_true,
        if_false, Bool.false_eq_true]
      exact ⟨trivial, ⟨_, rfl, rfl⟩, trivial, trivial, trivial, trivial⟩
    · have hk00 : con.nonce_embed_bits = 0 := by omega
      simp only [hk0, if_false, Bool.false_eq_true, hk00, Nat.sub_zero, gt_iff_lt,
        Nat.lt_irrefl] at hv
      rw [hk00] at hle
      have hv' := not_lt.mpr hv
      simp only [repel_authenticate, authenticate_finish, auth_parse, auth_restore, auth_extract,
        auth_verify, auth_nonce, hneg, hn, hle, hk0, hk00, hv', gt_iff_lt, Bool.not_false,
        if_true, if_false, Bool.false_eq_true, Nat.sub_zero, Nat.lt_irrefl]
      exact ⟨trivial, ⟨_, rfl, rfl⟩, trivial, trivial, trivial, trivial⟩
  · -- the protocol has a nonce of its own
    simp only [auth_verify, auth_parse, auth_restore, auth_extract, hn, if_true] at hv
    have hv' := not_lt.mpr hv
    simp only [repel_authenticate, authenticate_finish, auth_parse, auth_restore, auth_extract,
      auth_verify, hneg, hn, hv', gt_iff_lt, Bool.not_true, if_true, if_false,
      Bool.false_eq_true]
    exact ⟨trivial, ⟨_, rfl, rfl⟩, trivial, trivial, trivial, trivial⟩

theorem authenticate_verify_failure_witness :
    0 < (auth_parse (example_receiver 0) example_tampered 12).pktlen ∧
    ((auth_parse (example_receiver 0) example_tampered 12).packet_has_nonce = true ∨
      (example_receiver 0).nonce_embed_bits
        < (auth_parse (example_receiver 0) example_tampered 12).embed_bits) ∧
    (auth_verify (example_receiver 0) example_tampered 12).2 ≤ 0 ∧
    (repel_authenticate (example_receiver 0) example_tampered 12 true true 0 ⟨0, 0, false⟩).ret
      = 12 ∧
    (repel_authenticate (example_receiver 0) example_tampered 12 true true 0
      ⟨0, 0, false⟩).con.nonce_recv = 0 :=
  ⟨by decide, by decide, by decide,
    (authenticate_verify_failure (example_receiver 0) example_tampered 12 true 0 ⟨0, 0, false⟩
      (by decide) (by decide) (by decide)).1,
    (authenticate_verify_failure (example_receiver 0) example_tampered 12 true 0 ⟨0, 0, false⟩
      (by decide) (by decide) (by decide)).2.2.2.2.1⟩

end RePeL
namespace RePeL

theorem embed_parser_eq {σ μ : Type} (con : RepelConnection σ μ) (packet : Buffer) (size : Nat) :
    (repel_embed con packet size).1.parser = con.parser := by
  simp only [repel_embed]
  split_ifs <;> rfl

/-- One call of `repel_embed` and the send nonce. -/
theorem embed_send_step {σ μ : Type} (con : RepelConnection σ μ) (packet : Buffer) (size : Nat) :
    ((con.parser.parse con.parser_state packet size RepelMode.EMBED).packet_has_nonce = false →
      ((repel_embed con packet size).2.2 ≠ 0 →
        (repel_embed con packet size).1.nonce_send = (con.nonce_send + 1) % NONCE_RANGE) ∧
      ((repel_embed con packet size).2.2 = 0 →
        (repel_embed con packet size).1.nonce_send = con.nonce_send)) ∧
    ((con.parser.parse con.parser_state packet size RepelMode.EMBED).packet_has_nonce = true →
      (repel_embed con packet size).1.nonce_send = con.nonce_send) := by
  refine ⟨fun hn => ?_, fun hn => ?_⟩
  · by_cases h1 : (con.parser.parse con.parser_state packet size RepelMode.EMBED).pktlen
        ≠ (size : Int) ∨
        (con.parser.parse con.parser_state packet size RepelMode.EMBED).embed_bits = 0
    · simp only [repel_embed, h1, if_true]
      exact ⟨fun h => absurd rfl h, fun _ => trivial⟩
    · by_cases h2 : (con.parser.parse con.parser_state packet size RepelMode.EMBED).embed_bits
          ≤ con.nonce_embed_bits
      · simp only [repel_embed, h1, if_false, hn, Bool.not_false, if_true, h2]
        exact ⟨fun h => absurd rfl h, fun _ => trivial⟩
      · simp only [repel_embed, h1, if_false, hn, Bool.not_false, if_true, h2]
        exact ⟨fun _ => trivial, fun h => by omega⟩
  · by_cases h1 : (con.parser.parse con.parser_state packet size RepelMode.EMBED).pktlen
        ≠ (size : Int) ∨
        (con.parser.parse con.parser_state packet size RepelMode.EMBED).embed_bits = 0
    · simp only [repel_embed, h1, if_true]
    · simp only [repel_embed, h1, if_false, hn, Bool.not_true, Bool.false_eq_true]

theorem embed_seq_send {σ μ : Type} (pkts : List (Buffer × Nat)) (con : RepelConnection σ μ)
    (hsend : con.nonce_send < NONCE_RANGE)
    (hN : ∀ st P n, (con.parser.parse st P n RepelMode.EMBED).packet_has_nonce = false) :
    (embed_seq con pkts).1.nonce_send
      = (con.nonce_send + embed_successes (embed_seq con pkts).2) % NONCE_RANGE := by
  induction pkts generalizing con with
  | nil => simp [embed_seq, embed_successes, Nat.mod_eq_of_lt hsend]
  | cons p rest ih =>
    obtain ⟨h1, h0⟩ := (embed_send_step con p.1 p.2).1 (hN _ _ _)
    have hN' : ∀ st P n, ((repel_embed con p.1 p.2).1.parser.parse st P n
        RepelMode.EMBED).packet_has_nonce = false := by
      intro st P n
      rw [embed_parser_eq]
      exact hN st P n
    have hR : 0 < NONCE_RANGE := by decide
    by_cases hz : (repel_embed con p.1 p.2).2.2 = 0
    · have hs' : (repel_embed con p.1 p.2).1.nonce_send < NONCE_RANGE := by
        rw [h0 hz]; exact hsend
      have := ih (repel_embed con p.1 p.2).1 hs' hN'
      simp only [embed_seq, embed_successes, List.filter_cons, hz, ne_eq, not_true_eq_false,
        decide_False, Bool.false_eq_true, if_false] at this ⊢
      rw [this, h0 hz]
    · have hs' : (repel_embed con p.1 p.2).1.nonce_send < NONCE_RANGE := by
        rw [h1 hz]; exact Nat.mod_lt _ hR
      have := ih (repel_embed con p.1 p.2).1 hs' hN'
      simp only [embed_seq, embed_successes, List.filter_cons, hz, ne_eq, not_false_eq_true,
        decide_True, if_true, List.length_cons] at this ⊢
      rw [this, h1 hz, Nat.mod_add_mod]
      congr 1
      omega

/-- C9, as the claim states it, fails for a parser that reports a nonce of the
protocol itself: `repel_embed` returns 36, not 0, and `send_nonce` stays 5. -/
theorem embed_own_nonce_keeps_send_nonce :
    (repel_embed
      ({ modbus_hmac_connection sum_hmac {} modbus_fresh_state sender_mac_state 5 0 3 allOnes
          with parser := own_nonce_parser_module }) modbus_request 12).2.2 = 36 ∧
    (repel_embed
      ({ modbus_hmac_connection sum_hmac {} modbus_fresh_state sender_mac_state 5 0 3 allOnes
          with parser := own_nonce_parser_module }) modbus_request 12).1.nonce_send = 5 := by
  decide

/-- C9, amended: for every parser and MAC module, a call of `repel_embed` on a
packet for which the parser reports no nonce of the protocol increases
`send_nonce` by exactly one (modulo `2 ^ 64`) if it returns a non-zero value
and leaves it unchanged if it returns 0; a call on a packet with a protocol
nonce leaves `send_nonce` unchanged; and with a parser that never reports a
protocol nonce, a run of calls advances `send_nonce` by the number of calls
that returned non-zero. -/
theorem embed_nonce_monotone {σ μ : Type} (con : RepelConnection σ μ) (packet : Buffer)
    (size : Nat) (pkts : List (Buffer × Nat)) (hsend : con.nonce_send < NONCE_RANGE) :
    ((con.parser.parse con.parser_state packet size RepelMode.EMBED).packet_has_nonce = false →
      ((repel_embed con packet size).2.2 ≠ 0 →
        (repel_embed con packet size).1.nonce_send = (con.nonce_send + 1) % NONCE_RANGE) ∧
      ((repel_embed con packet size).2.2 = 0 →
        (repel_embed con packet size).1.nonce_send = con.nonce_send)) ∧
    ((con.parser.parse con.parser_state packet size RepelMode.EMBED).packet_has_nonce = true →
      (repel_embed con packet size).1.nonce_send = con.nonce_send) ∧
    ((∀ st P n, (con.parser.parse st P n RepelMode.EMBED).packet_has_nonce = false) →
      (embed_seq con pkts).1.nonce_send
        = (con.nonce_send + embed_successes (embed_seq con pkts).2) % NONCE_RANGE) :=
  ⟨(embed_send_step con packet size).1, (embed_send_step con packet size).2,
    fun hN => embed_seq_send pkts con hsend hN⟩

theorem modbus_parse_no_nonce (cfg : ModbusConfig) (st : ModbusTCPState) (P : Buffer) (n : Nat)
    (mode : RepelMode) : (modbus_tcp_parse cfg st P n mode).packet_has_nonce = false := by
  simp only [modbus_tcp_parse, parse_fail_on_minlen]
  split_ifs <;> rfl

theorem embed_nonce_monotone_witness :
    (example_sender 7).nonce_send < NONCE_RANGE ∧
    (repel_embed (example_sender 7) modbus_request 12).2.2 ≠ 0 ∧
    (repel_embed (example_sender 7) modbus_request 12).1.nonce_send = 8 ∧
    (embed_seq (example_sender 7) (List.replicate 6 (modbus_request, 12))).1.nonce_send
      = (7 + embed_successes
          (embed_seq (example_sender 7) (List.replicate 6 (modbus_request, 12))).2)
        % NONCE_RANGE ∧
    embed_successes (embed_seq (example_sender 7) (List.replicate 6 (modbus_request, 12))).2
      = 6 :=
  ⟨by decide, by decide, by decide,
    (embed_nonce_monotone (example_sender 7) modbus_request 12
      (List.replicate 6 (modbus_request, 12)) (by decide)).2.2
      (fun st P n => modbus_parse_no_nonce {} st P n RepelMode.EMBED),
    by decide⟩

end RePeL
namespace RePeL

/-! ## The engine by stages -/

/-- The connection that `repel_authenticate` hands to its last stage, after the
one call of `MAC.verify`. -/
theorem authenticate_stages {σ μ : Type} (con : RepelConnection σ μ) (packet : Buffer)
    (size : Nat) (s f : Bool) (cbdata : Nat) (auth : AuthenticateResult) :
    repel_authenticate con packet size s f cbdata auth =
      if (auth_parse con packet size).pktlen < 0 then
        { con := con, packet := packet, ret := (auth_parse con packet size).pktlen,
          callback := none }
      else if (auth_parse con packet size).packet_has_nonce = false ∧
          (auth_parse con packet size).embed_bits ≤ con.nonce_embed_bits then
        { con := { con with parser_state := (auth_restore con packet size).1
                            extrbuf := (auth_extract con packet size).2.2 }
          packet := (auth_restore con packet size).2, ret := 0, callback := none }
      else
        authenticate_finish
          { con with
            parser_state := (auth_restore con packet size).1
            extrbuf := (auth_extract con packet size).2.2
            mac_state := (auth_verify con packet size).1
            nonce_recv :=
              if (auth_parse con packet size).packet_has_nonce = false ∧
                  (auth_verify con packet size).2 > 0 then
                ((auth_nonce con packet size).1 + 1) % NONCE_RANGE
              else con.nonce_recv }
          (auth_restore con packet size).2 (auth_parse con packet size)
          { protection_level := auth.protection_level
            packet_loss :=
              if (auth_parse con packet size).packet_has_nonce then auth.packet_loss
              else (auth_nonce con packet size).2
            nonce_embedded := !(auth_parse con packet size).packet_has_nonce }
          (auth_verify con packet size).2 s f cbdata := by
  by_cases hneg : (con.parser.parse con.parser_state packet size RepelMode.AUTHENTICATE).pktlen < 0
  · simp only [repel_authenticate, auth_parse, hneg, if_true]
  · cases hn : (con.parser.parse con.parser_state packet size
        RepelMode.AUTHENTICATE).packet_has_nonce
    · by_cases hle : (con.parser.parse con.parser_state packet size
          RepelMode.AUTHENTICATE).embed_bits ≤ con.nonce_embed_bits
      · simp only [repel_authenticate, auth_parse, auth_restore, auth_extract, hneg, hn, hle,
          if_true, if_false, Bool.not_false, and_self]
      · by_cases hk0 : con.nonce_embed_bits > 0
        · simp only [repel_authenticate, auth_parse, auth_restore, auth_extract, auth_verify,
            auth_nonce, hneg, hn, hle, hk0, if_true, if_false, Bool.not_false, true_and,
            and_false, Bool.false_eq_true]
        · have hk00 : con.nonce_embed_bits = 0 := by omega
          simp only [repel_authenticate, auth_parse, auth_restore, auth_extract, auth_verify,
            auth_nonce, hneg, hn, hle, hk0, hk00, if_true, if_false, Bool.not_false, true_and,
            and_false, Bool.false_eq_true, Nat.sub_zero, gt_iff_lt, Nat.lt_irrefl]
    · simp only [repel_authenticate, auth_parse, auth_restore, auth_extract, auth_verify,
        hneg, hn, if_true, if_false, Bool.not_true, false_and, Bool.true_eq_false,
        Bool.false_eq_true]

end RePeL
namespace RePeL

/-! ## Return value and callbacks of the engine -/

/-- The last stage of `repel_authenticate` with both callbacks given: it
returns `pktlen` and makes one call, with `cbdata`, the packet it leaves
behind and the packet length. -/
theorem authenticate_finish_callback {σ μ : Type} (con : RepelConnection σ μ) (packet : Buffer)
    (pinfo : ParseResult) (auth : AuthenticateResult) (protection : Int) (cbdata : Nat) :
    (authenticate_finish con packet pinfo auth protection true true cbdata).ret = pinfo.pktlen ∧
    ∃ c, (authenticate_finish con packet pinfo auth protection true true cbdata).callback
        = some c ∧
      c.kind = (if protection > 0 then CallbackKind.on_auth_success
        else CallbackKind.on_auth_failed) ∧
      c.cbdata = cbdata ∧
      c.packet = (authenticate_finish con packet pinfo auth protection true true cbdata).packet ∧
      c.packet_len = bufsize pinfo.pktlen ∧
      c.result.protection_level = (if protection > 0 then protection.toNat % 65536
        else ((-protection) % 65536).toNat) ∧
      c.result.packet_loss = auth.packet_loss ∧
      c.result.nonce_embedded = auth.nonce_embedded := by
  by_cases hp : protection > 0
  · simp only [authenticate_finish, hp, if_true]
    exact ⟨trivial, _, rfl, rfl, rfl, rfl, rfl, rfl, rfl, rfl⟩
  · simp only [authenticate_finish, hp, if_false]
    exact ⟨trivial, _, rfl, rfl, rfl, rfl, rfl, rfl, rfl, rfl⟩

/-- For a parse result other than 0 and both callbacks given,
`repel_authenticate` makes a callback if and only if it returns a positive
value, and the call gets `cbdata`, the packet and the packet length. -/
theorem authenticate_callback_iff {σ μ : Type} (con : RepelConnection σ μ) (packet : Buffer)
    (size : Nat) (cbdata : Nat) (auth : AuthenticateResult)
    (h0 : (auth_parse con packet size).pktlen ≠ 0) :
    ((∃ c, (repel_authenticate con packet size true true cbdata auth).callback = some c) ↔
      0 < (repel_authenticate con packet size true true cbdata auth).ret) ∧
    ∀ c, (repel_authenticate con packet size true true cbdata auth).callback = some c →
      c.cbdata = cbdata ∧
      c.packet = (repel_authenticate con packet size true true cbdata auth).packet ∧
      c.packet_len = bufsize (auth_parse con packet size).pktlen ∧
      (repel_authenticate con packet size true true cbdata auth).ret
        = (auth_parse con packet size).pktlen := by
  rw [authenticate_stages]
  by_cases hneg : (auth_parse con packet size).pktlen < 0
  · simp only [hneg, if_true]
    refine ⟨⟨fun ⟨c, hc⟩ => by simp at hc, fun h => by omega⟩, fun c hc => by simp at hc⟩
  · by_cases hroom : (auth_parse con packet size).packet_has_nonce = false ∧
        (auth_parse con packet size).embed_bits ≤ con.nonce_embed_bits
    · simp only [hneg, hroom, if_true, if_false, and_self]
      refine ⟨⟨fun ⟨c, hc⟩ => by simp at hc, fun h => by omega⟩, fun c hc => by simp at hc⟩
    · simp only [hneg, hroom, if_false]
      obtain ⟨hr, c, hc, _, h2, h3, h4, _⟩ := authenticate_finish_callback
        { con with
          parser_state := (auth_restore con packet size).1
          extrbuf := (auth_extract con packet size).2.2
          mac_state := (auth_verify con packet size).1
          nonce_recv :=
            if (auth_parse con packet size).packet_has_nonce = false ∧
                (auth_verify con packet size).2 > 0 then
              ((auth_nonce con packet size).1 + 1) % NONCE_RANGE
            else con.nonce_recv }
        (auth_restore con packet size).2 (auth_parse con packet size)
        { protection_level := auth.protection_level
          packet_loss :=
            if (auth_parse con packet size).packet_has_nonce then auth.packet_loss
            else (auth_nonce con packet size).2
          nonce_embedded := !(auth_parse con packet size).packet_has_nonce }
        (auth_verify con packet size).2 cbdata
      rw [hr, hc]
      refine ⟨⟨fun _ => by omega, fun _ => ⟨c, rfl⟩⟩, fun c' hc' => ?_⟩
      have : c = c' := Option.some.inj hc'
      subst this
      exact ⟨h2, h3, h4, rfl⟩

/-- C13: at a parser that reports a parse error (`pktlen = 0`) together with
36 carrier bits, `repel_authenticate` on the embedded request, both callbacks
given, returns 0 and yet calls `on_auth_failed`, with packet length 0. -/
theorem authenticate_parse_error_callback :
    (auth_parse (parse_error_receiver 36) (example_embedded 0) 12).pktlen = 0 ∧
    (repel_authenticate (parse_error_receiver 36) (example_embedded 0) 12 true true 0
      ⟨0, 0, false⟩).ret = 0 ∧
    ((repel_authenticate (parse_error_receiver 36) (example_embedded 0) 12 true true 0
      ⟨0, 0, false⟩).callback.map fun c => (c.kind, c.packet_len))
      = some (CallbackKind.on_auth_failed, 0) := by
  decide

/-- C14: at a parser that reports a parse error (`pktlen = 0`, no carrier
bits), `repel_authenticate` returns 0 without a callback, but `extract` and
`restore` have run: the extract buffer holds the carrier bits of the packet and
the packet is the restored one. With 36 carrier bits reported next to the
parse error, `MAC.verify` and `on_auth_failed` are called as well. -/
theorem authenticate_parse_error_modifies :
    (auth_parse (parse_error_receiver 0) (example_embedded 0) 12).pktlen = 0 ∧
    (repel_authenticate (parse_error_receiver 0) (example_embedded 0) 12 true true 0
      ⟨0, 0, false⟩).ret = 0 ∧
    ((repel_authenticate (parse_error_receiver 0) (example_embedded 0) 12 true true 0
      ⟨0, 0, false⟩).callback.map fun c => c.kind) = none ∧
    (example_embedded 0).take 12 = [70, 96, 185, 11, 0, 6, 88, 3, 0, 107, 0, 3] ∧
    (repel_authenticate (parse_error_receiver 0) (example_embedded 0) 12 true true 0
      ⟨0, 0, false⟩).packet.take 12 = [0, 0, 0, 0, 0, 6, 255, 3, 0, 107, 0, 3] ∧
    (parse_error_receiver 0).extrbuf.take 5 = [255, 255, 255, 255, 255] ∧
    (repel_authenticate (parse_error_receiver 0) (example_embedded 0) 12 true true 0
      ⟨0, 0, false⟩).con.extrbuf.take 5 = [70, 107, 144, 181, 143] ∧
    ((repel_authenticate (parse_error_receiver 36) (example_embedded 0) 12 true true 0
      ⟨0, 0, false⟩).callback.map fun c => (c.kind, c.result.protection_level))
      = some (CallbackKind.on_auth_failed, 33) := by
  decide

/-- C15: when the parser reports a negative `pktlen`, `repel_authenticate`
returns that value, makes no callback and changes nothing: the packet and the
whole connection (nonces, parser state, MAC state, extract buffer) are as
before the call. -/
theorem authenticate_incomplete {σ μ : Type} (con : RepelConnection σ μ) (packet : Buffer)
    (size : Nat) (on_success on_failed : Bool) (cbdata : Nat) (auth : AuthenticateResult)
    (h : (auth_parse con packet size).pktlen < 0) :
    (repel_authenticate con packet size on_success on_failed cbdata auth).ret
      = (auth_parse con packet size).pktlen ∧
    (repel_authenticate con packet size on_success on_failed cbdata auth).callback = none ∧
    (repel_authenticate con packet size on_success on_failed cbdata auth).packet = packet ∧
    (repel_authenticate con packet size on_success on_failed cbdata auth).con = con := by
  rw [authenticate_stages]
  simp only [h, if_true, and_self]

theorem authenticate_incomplete_witness :
    (auth_parse (example_receiver 4) (example_embedded 4) 5).pktlen < 0 ∧
    (repel_authenticate (example_receiver 4) (example_embedded 4) 5 true true 0
      ⟨0, 0, false⟩).ret = -1 ∧
    (repel_authenticate (example_receiver 4) (example_embedded 4) 5 true true 0
      ⟨0, 0, false⟩).callback = none ∧
    (repel_authenticate (example_receiver 4) (example_embedded 4) 5 true true 0
      ⟨0, 0, false⟩).packet = example_embedded 4 ∧
    (repel_authenticate (example_receiver 4) (example_embedded 4) 5 true true 0
      ⟨0, 0, false⟩).con = example_receiver 4 :=
  have h := authenticate_incomplete (example_receiver 4) (example_embedded 4) 5 true true 0
    ⟨0, 0, false⟩ (by decide)
  ⟨by decide, by decide, h.2.1, h.2.2.1, h.2.2.2⟩

end RePeL
namespace RePeL

/-- C16: with no protocol nonce and `embed_bits ≤ embed_nonce_bits` reported by
the parser, `repel_embed` returns 0 and leaves both nonces unchanged, and
`repel_authenticate`, for a parse result that is not negative, returns 0, makes
no callback and leaves both nonces unchanged. -/
theorem no_room_for_mac {σ μ : Type} (con : RepelConnection σ μ) (packet : Buffer) (size : Nat)
    (on_success on_failed : Bool) (cbdata : Nat) (auth : AuthenticateResult) :
    ((con.parser.parse con.parser_state packet size RepelMode.EMBED).packet_has_nonce = false →
      (con.parser.parse con.parser_state packet size RepelMode.EMBED).embed_bits
          ≤ con.nonce_embed_bits →
      (repel_embed con packet size).2.2 = 0 ∧
      (repel_embed con packet size).1.nonce_send = con.nonce_send ∧
      (repel_embed con packet size).1.nonce_recv = con.nonce_recv) ∧
    ((auth_parse con packet size).packet_has_nonce = false →
      (auth_parse con packet size).embed_bits ≤ con.nonce_embed_bits →
      0 ≤ (auth_parse con packet size).pktlen →
      (repel_authenticate con packet size on_success on_failed cbdata auth).ret = 0 ∧
      (repel_authenticate con packet size on_success on_failed cbdata auth).callback = none ∧
      (repel_authenticate con packet size on_success on_failed cbdata auth).con.nonce_send
        = con.nonce_send ∧
      (repel_authenticate con packet size on_success on_failed cbdata auth).con.nonce_recv
        = con.nonce_recv) := by
  refine ⟨fun hn hle => ?_, fun hn hle hp => ?_⟩
  · by_cases h1 : (con.parser.parse con.parser_state packet size RepelMode.EMBED).pktlen
        ≠ (size : Int) ∨
        (con.parser.parse con.parser_state packet size RepelMode.EMBED).embed_bits = 0
    · simp only [repel_embed, h1, if_true, and_self]
    · simp only [repel_embed, h1, if_false, hn, Bool.not_false, if_true, hle, and_self]
  · rw [authenticate_stages]
    have hneg : ¬ ((auth_parse con packet size).pktlen < 0) := by omega
    simp only [hneg, hn, hle, if_true, if_false, and_self]

theorem no_room_for_mac_witness :
    (modbus_tcp_parse {} modbus_fresh_state modbus_request 12 RepelMode.EMBED).embed_bits
      ≤ 36 ∧
    (repel_embed ({ example_sender 5 with nonce_embed_bits := 36 }) modbus_request 12).2.2
      = 0 ∧
    (repel_embed ({ example_sender 5 with nonce_embed_bits := 36 }) modbus_request
      12).1.nonce_send = 5 ∧
    (repel_authenticate ({ example_receiver 5 with nonce_embed_bits := 36 })
      (example_embedded 5) 12 true true 0 ⟨0, 0, false⟩).ret = 0 ∧
    (repel_authenticate ({ example_receiver 5 with nonce_embed_bits := 36 })
      (example_embedded 5) 12 true true 0 ⟨0, 0, false⟩).callback = none ∧
    (repel_authenticate ({ example_receiver 5 with nonce_embed_bits := 36 })
      (example_embedded 5) 12 true true 0 ⟨0, 0, false⟩).con.nonce_recv = 5 :=
  have hs := (no_room_for_mac ({ example_sender 5 with nonce_embed_bits := 36 }) modbus_request
    12 true true 0 ⟨0, 0, false⟩).1 (by decide) (by decide)
  have hr := (no_room_for_mac ({ example_receiver 5 with nonce_embed_bits := 36 })
    (example_embedded 5) 12 true true 0 ⟨0, 0, false⟩).2 (by decide) (by decide) (by decide)
  ⟨by decide, hs.1, hs.2.1, hr.1, hr.2.1, hr.2.2.2⟩

/-- The value that `repel_embed` returns, from the parse result in EMBED mode. -/
theorem embed_return {σ μ : Type} (con : RepelConnection σ μ) (packet : Buffer)
    (size : Nat) :
    (repel_embed con packet size).2.2 =
      (if (con.parser.parse con.parser_state packet size RepelMode.EMBED).pktlen ≠ (size : Int) ∨
          (con.parser.parse con.parser_state packet size RepelMode.EMBED).embed_bits = 0 then 0
        else if (con.parser.parse con.parser_state packet size RepelMode.EMBED).packet_has_nonce
          then (con.parser.parse con.parser_state packet size RepelMode.EMBED).embed_bits
        else if con.nonce_embed_bits
            < (con.parser.parse con.parser_state packet size RepelMode.EMBED).embed_bits then
          (con.parser.parse con.parser_state packet size RepelMode.EMBED).embed_bits
            - con.nonce_embed_bits
        else 0) ∧
    ((repel_embed con packet size).2.2 ≠ 0 ↔
      (con.parser.parse con.parser_state packet size RepelMode.EMBED).pktlen = (size : Int) ∧
      (con.parser.parse con.parser_state packet size RepelMode.EMBED).embed_bits ≠ 0 ∧
      ((con.parser.parse con.parser_state packet size RepelMode.EMBED).packet_has_nonce = true ∨
        con.nonce_embed_bits
          < (con.parser.parse con.parser_state packet size RepelMode.EMBED).embed_bits)) := by
  by_cases h1 : (con.parser.parse con.parser_state packet size RepelMode.EMBED).pktlen
      ≠ (size : Int) ∨
      (con.parser.parse con.parser_state packet size RepelMode.EMBED).embed_bits = 0
  · simp only [repel_embed, h1, if_true, ne_eq, not_true_eq_false, false_iff, not_and]
    refine ⟨trivial, fun hp hb => ?_⟩
    rcases h1 with h | h
    · exact absurd hp h
    · exact absurd h hb
  · have h1' := h1
    simp only [not_or, ne_eq, not_not] at h1'
    cases hn : (con.parser.parse con.parser_state packet size RepelMode.EMBED).packet_has_nonce
    · by_cases h2 : (con.parser.parse con.parser_state packet size RepelMode.EMBED).embed_bits
          ≤ con.nonce_embed_bits
      · have h2' : ¬ (con.nonce_embed_bits
            < (con.parser.parse con.parser_state packet size RepelMode.EMBED).embed_bits) := by
          omega
        simp only [repel_embed, h1, if_false, hn, Bool.not_false, if_true, h2, h2',
          Bool.false_eq_true, ne_eq, not_true_eq_false, or_self, and_false, iff_self, and_self]
      · have h2' : con.nonce_embed_bits
            < (con.parser.parse con.parser_state packet size RepelMode.EMBED).embed_bits := by
          omega
        simp only [repel_embed, h1, if_false, hn, Bool.not_false, if_true, h2, h2',
          Bool.false_eq_true, ne_eq, or_true, and_true, true_and]
        exact ⟨h1'.1, h1'.2⟩ |> fun h => ⟨fun _ => h, fun _ => by omega⟩
    · simp only [repel_embed, h1, if_false, hn, Bool.not_true, if_true, Bool.false_eq_true,
        ne_eq, true_or, and_true, true_and]
      exact ⟨fun _ => ⟨h1'.1, h1'.2⟩, fun _ => h1'.2⟩


/-- C17: the value `repel_embed` returns, from the parse result in EMBED mode:
0 when `pktlen` differs from `packet_size` or `embed_bits` is 0; else
`embed_bits` when the packet has a nonce of its own; else
`embed_bits - embed_nonce_bits` when `embed_bits > embed_nonce_bits`, and 0
when not. It is non-zero exactly in the two success cases. -/
theorem embed_return_value {σ μ : Type} (con : RepelConnection σ μ) (packet : Buffer)
    (size : Nat) :
    (repel_embed con packet size).2.2 =
      (if (con.parser.parse con.parser_state packet size RepelMode.EMBED).pktlen ≠ (size : Int) ∨
          (con.parser.parse con.parser_state packet size RepelMode.EMBED).embed_bits = 0 then 0
        else if (con.parser.parse con.parser_state packet size RepelMode.EMBED).packet_has_nonce
          then (con.parser.parse con.parser_state packet size RepelMode.EMBED).embed_bits
        else if con.nonce_embed_bits
            < (con.parser.parse con.parser_state packet size RepelMode.EMBED).embed_bits then
          (con.parser.parse con.parser_state packet size RepelMode.EMBED).embed_bits
            - con.nonce_embed_bits
        else 0) ∧
    ((repel_embed con packet size).2.2 ≠ 0 ↔
      (con.parser.parse con.parser_state packet size RepelMode.EMBED).pktlen = (size : Int) ∧
      (con.parser.parse con.parser_state packet size RepelMode.EMBED).embed_bits ≠ 0 ∧
      ((con.parser.parse con.parser_state packet size RepelMode.EMBED).packet_has_nonce = true ∨
        con.nonce_embed_bits
          < (con.parser.parse con.parser_state packet size RepelMode.EMBED).embed_bits)) :=
  embed_return con packet size

end RePeL
namespace RePeL

/-! ## The parse function of the Modbus/TCP parser -/

/-- Eight bits from a byte boundary are the byte. -/
theorem bitsVal_byte (m : Buffer) (a : Nat) : bitsVal m (8 * a) 8 = m.read a := by
  apply Nat.eq_of_testBit_eq
  intro j
  rw [testBit_bitsVal]
  by_cases hj : j < 8
  · have e1 : (8 * a + 8 - 1 - j) / 8 = a := by omega
    have e2 : 7 - (8 * a + 8 - 1 - j) % 8 = j := by omega
    simp only [hj, decide_True, Bool.true_and, getBit, e1, e2]
  · rw [testBit_read_high m a j (by omega)]
    simp [hj]

/-- The Length field, bytes 4 and 5 in network byte order. -/
theorem bitsVal_length (P : Buffer) : bitsVal P 32 16 = 256 * P.read 4 + P.read 5 := by
  have h := bitsVal_add P 32 8 8
  have h4 := bitsVal_byte P 4
  have h5 := bitsVal_byte P 5
  simp only [Nat.reduceMul, Nat.reduceAdd, Nat.reducePow] at h h4 h5
  rw [h, h4, h5]

/-- The result of `modbus_tcp_parse`, from `buflen` and the bytes 4 and 5 of the
packet. -/
theorem modbus_parse_eq (cfg : ModbusConfig) (st : ModbusTCPState) (P : Buffer)
    (buflen : Nat) (mode : RepelMode) :
    modbus_tcp_parse cfg st P buflen mode =
      (if buflen < 6 then
        { pktlen := (buflen : Int) - 6, embed_bits := 0, packet_has_nonce := false }
      else if buflen < 256 * P.read 4 + P.read 5 + 6 then
        { pktlen := (buflen : Int) - ((256 * P.read 4 + P.read 5 + 6 : Nat) : Int),
          embed_bits := 0, packet_has_nonce := false }
      else
        { pktlen := ((256 * P.read 4 + P.read 5 + 6 : Nat) : Int),
          embed_bits := modbus_embed_bits cfg, packet_has_nonce := false }) := by
  by_cases h6 : buflen < 6
  · have h6' : (buflen : Int) < 6 := by omega
    simp only [modbus_tcp_parse, parse_fail_on_minlen, h6, h6', if_true]
  · by_cases hl : buflen < 256 * P.read 4 + P.read 5 + 6
    · have h6' : ¬ ((buflen : Int) < 6) := by omega
      have hl' : (buflen : Int) < ((256 * P.read 4 + P.read 5 : Nat) : Int) + 6 := by omega
      simp only [modbus_tcp_parse, parse_fail_on_minlen, h6, h6', hl, hl', if_true, if_false,
        peek_u16_length, Option.getD_some, bitsVal_length]
      simp
    · rw [if_neg h6, if_neg hl, modbus_parse_complete cfg st P buflen mode
        (by rw [bitsVal_length]; omega), bitsVal_length]

/-- C19: the result of `modbus_tcp_parse`, from `buflen` and the Length field
`L = 256 * packet[4] + packet[5]` alone: `buflen - 6` below 6 bytes,
`buflen - (L + 6)` below `L + 6` bytes, else `L + 6` with the carrier bits of
the configuration (36 in the default one) and no protocol nonce; `pktlen` is
never 0. For the request of 12 bytes, 5 bytes give -1 and 6 bytes give -6. -/
theorem modbus_parse_spec (cfg : ModbusConfig) (st : ModbusTCPState) (P : Buffer)
    (buflen : Nat) (mode : RepelMode) :
    modbus_tcp_parse cfg st P buflen mode =
      (if buflen < 6 then
        { pktlen := (buflen : Int) - 6, embed_bits := 0, packet_has_nonce := false }
      else if buflen < 256 * P.read 4 + P.read 5 + 6 then
        { pktlen := (buflen : Int) - ((256 * P.read 4 + P.read 5 + 6 : Nat) : Int),
          embed_bits := 0, packet_has_nonce := false }
      else
        { pktlen := ((256 * P.read 4 + P.read 5 + 6 : Nat) : Int),
          embed_bits := modbus_embed_bits cfg, packet_has_nonce := false }) ∧
    (modbus_tcp_parse cfg st P buflen mode).pktlen ≠ 0 ∧
    modbus_embed_bits {} = 36 ∧
    (modbus_tcp_parse {} modbus_fresh_state modbus_request 5 RepelMode.AUTHENTICATE).pktlen
      = -1 ∧
    (modbus_tcp_parse {} modbus_fresh_state modbus_request 6 RepelMode.AUTHENTICATE).pktlen
      = -6 := by
  have key := modbus_parse_eq cfg st P buflen mode
  refine ⟨key, ?_, by decide, by decide, by decide⟩
  rw [key]
  split_ifs with h1 h2
  · simp only [ne_eq]; omega
  · simp only [ne_eq]; omega
  · simp only [ne_eq]; omega

end RePeL
namespace RePeL

/-! ## Protection level -/

/-- The protection level that the last stage of `repel_authenticate` reports,
when `MAC.verify` has returned `+bits` or `-bits`. -/
theorem authenticate_finish_level {σ μ : Type} (con : RepelConnection σ μ) (packet : Buffer)
    (pinfo : ParseResult) (auth : AuthenticateResult) (protection : Int) (s f : Bool)
    (cbdata bits : Nat) (hb : bits < 65536)
    (hv : protection = (bits : Int) ∨ protection = -(bits : Int)) (c : CallbackCall)
    (hc : (authenticate_finish con packet pinfo auth protection s f cbdata).callback = some c) :
    c.result.protection_level = bits := by
  by_cases hp : protection > 0
  · have hpb : protection = (bits : Int) := by omega
    cases s
    · simp [authenticate_finish, hp] at hc
    · simp only [authenticate_finish, hp, if_true, Option.some.injEq] at hc
      rw [← hc]
      simp only [hpb, Int.toNat_ofNat]
      omega
  · cases f
    · simp [authenticate_finish, hp] at hc
    · simp only [authenticate_finish, hp, if_false, if_true, Option.some.injEq] at hc
      rw [← hc]
      simp only
      omega

/-- C18: for two connections with the same `embed_nonce_bits` whose parser
reports for the embedded packet the carrier bits and the nonce flag it reported
for the packet before the embed, and a `MAC.verify` that returns plus or minus
the bit count it is given: when `repel_embed` has returned `b > 0`, every
callback that `repel_authenticate` makes on the embedded packet gets
`protection_level = b`. -/
theorem protection_level_symmetry {σ μ σ' μ' : Type} (A : RepelConnection σ μ)
    (B : RepelConnection σ' μ') (P : Buffer) (size : Nat) (s f : Bool) (cbdata : Nat)
    (auth : AuthenticateResult) (c : CallbackCall)
    (hk : B.nonce_embed_bits = A.nonce_embed_bits)
    (hb : 0 < (repel_embed A P size).2.2)
    (h16 : (A.parser.parse A.parser_state P size RepelMode.EMBED).embed_bits < 65536)
    (hbits : (auth_parse B (repel_embed A P size).2.1 size).embed_bits
      = (A.parser.parse A.parser_state P size RepelMode.EMBED).embed_bits)
    (hnonce : (auth_parse B (repel_embed A P size).2.1 size).packet_has_nonce
      = (A.parser.parse A.parser_state P size RepelMode.EMBED).packet_has_nonce)
    (hv : (auth_verify B (repel_embed A P size).2.1 size).2
        = (auth_macbits B (repel_embed A P size).2.1 size : Int) ∨
      (auth_verify B (repel_embed A P size).2.1 size).2
        = -(auth_macbits B (repel_embed A P size).2.1 size : Int))
    (hc : (repel_authenticate B (repel_embed A P size).2.1 size s f cbdata auth).callback
      = some c) :
    c.result.protection_level = (repel_embed A P size).2.2 := by
  obtain ⟨hret, hnz⟩ := embed_return A P size
  have hne : (repel_embed A P size).2.2 ≠ 0 := by omega
  obtain ⟨h1, h2, h3⟩ := hnz.mp hne
  have hor : ¬ ((A.parser.parse A.parser_state P size RepelMode.EMBED).pktlen ≠ (size : Int) ∨
      (A.parser.parse A.parser_state P size RepelMode.EMBED).embed_bits = 0) := by
    simp only [not_or, ne_eq, not_not]
    exact ⟨h1, h2⟩
  rw [if_neg hor] at hret
  have hm : auth_macbits B (repel_embed A P size).2.1 size = (repel_embed A P size).2.2 := by
    rw [hret]
    simp only [auth_macbits, hbits, hnonce, hk]
    cases hn : (A.parser.parse A.parser_state P size RepelMode.EMBED).packet_has_nonce
    · have h3' : A.nonce_embed_bits
          < (A.parser.parse A.parser_state P size RepelMode.EMBED).embed_bits := by
        rcases h3 with h | h
        · rw [hn] at h; exact absurd h (by decide)
        · exact h
      simp only [Bool.false_eq_true, if_false, h3', if_true]
    · simp only [if_true]
  have hlt : (repel_embed A P size).2.2 < 65536 := by
    rw [hret]
    split_ifs <;> omega
  rw [hm] at hv
  rw [authenticate_stages] at hc
  by_cases hneg : (auth_parse B (repel_embed A P size).2.1 size).pktlen < 0
  · simp [hneg] at hc
  · by_cases hroom : (auth_parse B (repel_embed A P size).2.1 size).packet_has_nonce = false ∧
        (auth_parse B (repel_embed A P size).2.1 size).embed_bits ≤ B.nonce_embed_bits
    · simp [hneg, hroom] at hc
    · rw [if_neg hneg, if_neg hroom] at hc
      exact authenticate_finish_level _ _ _ _ _ s f cbdata _ hlt hv c hc

theorem protection_level_symmetry_witness :
    (repel_embed (example_sender 2) modbus_request 12).2.2 = 33 ∧
    ((repel_authenticate (example_receiver 2) (repel_embed (example_sender 2) modbus_request
      12).2.1 12 true true 0 ⟨0, 0, false⟩).callback.map fun c =>
        (c.kind, c.result.protection_level))
      = some (CallbackKind.on_auth_success, 33) := by
  have hk : ((repel_authenticate (example_receiver 2) (repel_embed (example_sender 2)
      modbus_request 12).2.1 12 true true 0 ⟨0, 0, false⟩).callback.map fun c => c.kind)
      = some CallbackKind.on_auth_success := by decide
  have hb : (repel_embed (example_sender 2) modbus_request 12).2.2 = 33 := by decide
  refine ⟨hb, ?_⟩
  cases h : (repel_authenticate (example_receiver 2) (repel_embed (example_sender 2)
      modbus_request 12).2.1 12 true true 0 ⟨0, 0, false⟩).callback with
  | none => rw [h] at hk; exact absurd hk (by simp)
  | some c =>
    have hl := protection_level_symmetry (example_sender 2) (example_receiver 2) modbus_request
      12 true true 0 ⟨0, 0, false⟩ c (by decide) (by decide) (by decide) (by decide) (by decide)
      (by decide) h
    rw [h] at hk
    simp only [Option.map_some', Option.some.injEq] at hk
    simp only [Option.map_some', hk, hl, hb]

end RePeL
namespace RePeL

/-! ## Replay -/

/-- The nonce candidate for a replayed packet: with the receive nonce at
`N + 1` and the low `k` bits of `N` in the extracted bits, the reconstruction
gives `N + 2 ^ k`, for `1 ≤ k ≤ 30`. -/
theorem replay_candidate (N k macbits : Nat) (mac : Buffer) (hk1 : 1 ≤ k) (hk : k ≤ 30)
    (hN : N + 2 ^ k < 2 ^ 64) (hm : macbits < 65536)
    (hlow : bitsVal mac macbits k = N % 2 ^ k) :
    (reconstruct_nonce (N + 1) mac macbits k).1 = N + 2 ^ k ∧
    (reconstruct_nonce (N + 1) mac macbits k).1 ≠ N ∧
    N + 1 ≤ (reconstruct_nonce (N + 1) mac macbits k).1 := by
  have hX : 0 < 2 ^ k := Nat.two_pow_pos k
  have h2 : 2 ≤ 2 ^ k := by
    calc 2 = 2 ^ 1 := by norm_num
      _ ≤ 2 ^ k := Nat.pow_le_pow_right (by norm_num) hk1
  have e : N + 1 + (2 ^ k - 1) = N + 2 ^ k := by omega
  have hl : bitsVal mac macbits k = (N + 1 + (2 ^ k - 1)) % 2 ^ k := by
    rw [hlow, e, Nat.add_mod_right]
  have h := reconstruct_nonce_eq (N + 1) (2 ^ k - 1) k macbits mac (by omega) (by omega)
    (by omega) hm (Or.inl hk) hl
  rw [h, e]
  refine ⟨rfl, ?_, ?_⟩
  · show N + 2 ^ k ≠ N
    omega
  · show N + 1 ≤ N + 2 ^ k
    omega

/-- C12: with `embed_nonce_bits = 31`, sender and receiver at nonce `2 ^ 31`:
the first `repel_authenticate` accepts the embedded request and sets the
receive nonce to `2 ^ 31 + 1`; for the same bytes presented again the nonce
candidate is 0, not `2 ^ 31 + 2 ^ 31`, and lies below the receive nonce. -/
theorem replay_candidate_int_shift :
    ((repel_authenticate ({ example_receiver 2147483648 with nonce_embed_bits := 31 })
      (repel_embed ({ example_sender 2147483648 with nonce_embed_bits := 31 }) modbus_request
        12).2.1 12 true true 0 ⟨0, 0, false⟩).callback.map fun c => c.kind)
      = some CallbackKind.on_auth_success ∧
    (repel_authenticate ({ example_receiver 2147483648 with nonce_embed_bits := 31 })
      (repel_embed ({ example_sender 2147483648 with nonce_embed_bits := 31 }) modbus_request
        12).2.1 12 true true 0 ⟨0, 0, false⟩).con.nonce_recv = 2147483649 ∧
    (auth_nonce
      (repel_authenticate ({ example_receiver 2147483648 with nonce_embed_bits := 31 })
        (repel_embed ({ example_sender 2147483648 with nonce_embed_bits := 31 }) modbus_request
          12).2.1 12 true true 0 ⟨0, 0, false⟩).con
      (repel_embed ({ example_sender 2147483648 with nonce_embed_bits := 31 }) modbus_request
        12).2.1 12).1 = 0 ∧
    int_one_shl 31 = 18446744071562067968 := by
  decide

end RePeL
namespace RePeL

/-! ## Acceptance by the HMAC adapter -/

theorem bits_of_memcmp (a b : Buffer) (n : Nat) (h : memcmp_eq a b n = true) (i : Nat)
    (hi : i < 8 * n) : getBit a i = getBit b i := by
  simp only [memcmp_eq, decide_eq_true_eq, Buffer.take] at h
  have hx := (List.map_inj_left.mp h) (i / 8) (List.mem_range.mpr (by omega))
  simp only [getBit, hx]

theorem bits_of_rest (a b : Buffer) (f o : Nat)
    (h : (a.read f ||| (0xff >>> o)) = (b.read f ||| (0xff >>> o))) (j : Nat) (hj : j < o)
    (ho : o < 8) : getBit a (8 * f + j) = getBit b (8 * f + j) := by
  have ht := congrArg (fun x => x.testBit (7 - j)) h
  simp only [Nat.testBit_or, Nat.testBit_shiftRight, testBit_255] at ht
  have hn : ¬ (o + (7 - j) < 8) := by omega
  simp only [hn, decide_False, Bool.or_false] at ht
  have e1 : (8 * f + j) / 8 = f := by omega
  have e2 : 7 - (8 * f + j) % 8 = 7 - j := by omega
  simp only [getBit, e1, e2, ht]

/-- The buffer that `hmac_verify` compares with holds, in its first 256 bits,
the digest. -/
theorem getBit_verify_buffer (H : HmacFn) (b : Buffer) (key msg : List Nat) (n j : Nat)
    (hj : j < 256) :
    getBit (hmac_finalize (memset b 0 n) (H key msg)) j = getBit (hmac_digest H key msg) j :=
  getBit_hmac_finalize _ _ _ j hj

/-- What `hmac_verify` returns: `+bits` when the first `bits` bits of the
candidate are those of the digest, `-bits` when not, for `bits ≤ 256`. -/
theorem hmac_verify_iff (H : HmacFn) (data : HMacData) (packet : Buffer) (pktlen : Nat)
    (mac : Buffer) (bits : Nat) (nb : Option (List Nat)) (hbits : bits ≤ 256) :
    ((∀ j, j < bits → getBit mac j
        = getBit (hmac_digest H (data.key HMAC_KEYSLOT_RECV) (hmac_message packet pktlen nb)) j) →
      (hmac_verify H data packet pktlen mac bits nb).2 = (bits : Int)) ∧
    ((¬ ∀ j, j < bits → getBit mac j
        = getBit (hmac_digest H (data.key HMAC_KEYSLOT_RECV) (hmac_message packet pktlen nb)) j) →
      (hmac_verify H data packet pktlen mac bits nb).2 = -(bits : Int)) := by
  constructor
  · intro h
    apply hmac_verify_of_leading_bits H data packet pktlen mac bits nb (by omega)
    intro j hj
    rw [h j hj]
    exact (getBit_verify_buffer H _ _ _ _ j (by omega)).symm
  · intro h
    have hneg : int16 (-(bits : Int)) = -(bits : Int) := by
      simp only [int16]; omega
    by_cases hm : memcmp_eq mac (hmac_finalize (memset data.buffer 0 (ceil_bits_to_bytes bits))
        (H (data.key HMAC_KEYSLOT_RECV) (hmac_message packet pktlen nb))) (bits / 8) = true
    · by_cases ho : bits % 8 > 0
      · by_cases hr : (mac.read (bits / 8) ||| (0xff >>> (bits % 8)))
            = ((hmac_finalize (memset data.buffer 0 (ceil_bits_to_bytes bits))
                (H (data.key HMAC_KEYSLOT_RECV) (hmac_message packet pktlen nb))).read (bits / 8)
              ||| (0xff >>> (bits % 8)))
        · exfalso
          apply h
          intro j hj
          rw [← getBit_verify_buffer H data.buffer _ _ (ceil_bits_to_bytes bits) j (by omega)]
          by_cases hf : j < 8 * (bits / 8)
          · exact bits_of_memcmp _ _ _ hm j hf
          · have e : j = 8 * (bits / 8) + (j - 8 * (bits / 8)) := by omega
            rw [e]
            exact bits_of_rest _ _ _ _ hr _ (by omega) (by omega)
        · simp only [hmac_verify, hm, if_true, ho, ne_eq, hr, not_false_eq_true]
          exact hneg
      · exfalso
        apply h
        intro j hj
        rw [← getBit_verify_buffer H data.buffer _ _ (ceil_bits_to_bytes bits) j (by omega)]
        exact bits_of_memcmp _ _ _ hm j (by omega)
    · simp only [hmac_verify, hm, if_false, Bool.false_eq_true]
      exact hneg

end RePeL
namespace RePeL

/-- The call of `MAC.verify` in `repel_authenticate`, for the HMAC adapter. -/
theorem auth_verify_hmac {σ : Type} (H : HmacFn) (con : RepelConnection σ HMacData)
    (packet : Buffer) (size : Nat) (hmac : con.macalgo = hmac_module H) :
    (auth_verify con packet size).2 =
      (hmac_verify H con.mac_state (auth_restore con packet size).2
        (bufsize (auth_parse con packet size).pktlen) (auth_extract con packet size).2.2
        (auth_macbits con packet size)
        (if (auth_parse con packet size).packet_has_nonce then none
          else some (netendian_nonce (auth_nonce con packet size).1))).2 := by
  cases hn : (auth_parse con packet size).packet_has_nonce
  · simp only [auth_verify, auth_macbits, hn, hmac, hmac_module, Bool.false_eq_true, if_false]
  · simp only [auth_verify, auth_macbits, hn, hmac, hmac_module, if_true]

/-- The verdict of `repel_authenticate` with the HMAC adapter, for a packet the
parser reports complete and `1 ≤ mac_bits ≤ 256`: the sign of the result of
`MAC.verify` says whether the first `mac_bits` extracted bits are those of the
digest of the restored packet (and the nonce candidate) under the receive
key. -/
theorem auth_verify_hmac_iff {σ : Type} (H : HmacFn) (con : RepelConnection σ HMacData)
    (packet : Buffer) (size : Nat) (hmac : con.macalgo = hmac_module H)
    (h0 : 0 < auth_macbits con packet size) (h256 : auth_macbits con packet size ≤ 256) :
    (auth_verify con packet size).2 > 0 ↔
      ∀ j, j < auth_macbits con packet size → getBit (auth_extract con packet size).2.2 j
        = getBit (hmac_digest H (con.mac_state.key HMAC_KEYSLOT_RECV)
            (auth_mac_message con packet size)) j := by
  rw [auth_verify_hmac H con packet size hmac]
  have h := hmac_verify_iff H con.mac_state (auth_restore con packet size).2
    (bufsize (auth_parse con packet size).pktlen) (auth_extract con packet size).2.2
    (auth_macbits con packet size)
    (if (auth_parse con packet size).packet_has_nonce then none
      else some (netendian_nonce (auth_nonce con packet size).1)) h256
  constructor
  · intro hpos
    by_contra hne
    have := h.2 hne
    simp only [auth_mac_message] at this
    omega
  · intro hm
    have := h.1 hm
    omega

/-- The outcome of `repel_authenticate` with the HMAC adapter, for a packet that
the parser reports complete (`pktlen ≥ 0`) with `1 ≤ mac_bits ≤ 256`: it calls
`on_auth_success` only if the first `mac_bits` extracted carrier bits are the
first `mac_bits` bits of the digest, under the receive key, of the restored
received packet followed by the eight bytes of the nonce candidate (none for a
packet with a nonce of its own); when they are, it does call it; when they are
not, it calls `on_auth_failed` with the restored packet, returns `pktlen` and
leaves `recv_nonce` unchanged. -/
theorem hmac_verdict {σ : Type} (H : HmacFn) (con : RepelConnection σ HMacData)
    (packet : Buffer) (size : Nat) (on_success : Bool) (cbdata : Nat) (auth : AuthenticateResult)
    (hmac : con.macalgo = hmac_module H)
    (hp : 0 ≤ (auth_parse con packet size).pktlen)
    (h0 : 0 < auth_macbits con packet size) (h256 : auth_macbits con packet size ≤ 256) :
    (∀ c, (repel_authenticate con packet size on_success true cbdata auth).callback = some c →
      c.kind = CallbackKind.on_auth_success →
      ∀ j, j < auth_macbits con packet size → getBit (auth_extract con packet size).2.2 j
        = getBit (hmac_digest H (con.mac_state.key HMAC_KEYSLOT_RECV)
            (auth_mac_message con packet size)) j) ∧
    ((∀ j, j < auth_macbits con packet size → getBit (auth_extract con packet size).2.2 j
        = getBit (hmac_digest H (con.mac_state.key HMAC_KEYSLOT_RECV)
            (auth_mac_message con packet size)) j) →
      (repel_authenticate con packet size on_success true cbdata auth).ret
        = (auth_parse con packet size).pktlen ∧
      ((repel_authenticate con packet size on_success true cbdata auth).callback.map
        fun c => c.kind)
        = (if on_success then some CallbackKind.on_auth_success else none)) ∧
    ((¬ ∀ j, j < auth_macbits con packet size → getBit (auth_extract con packet size).2.2 j
        = getBit (hmac_digest H (con.mac_state.key HMAC_KEYSLOT_RECV)
            (auth_mac_message con packet size)) j) →
      (repel_authenticate con packet size on_success true cbdata auth).ret
        = (auth_parse con packet size).pktlen ∧
      ((repel_authenticate con packet size on_success true cbdata auth).callback.map
        fun c => (c.kind, c.packet))
        = some (CallbackKind.on_auth_failed, (auth_restore con packet size).2) ∧
      (repel_authenticate con packet size on_success true cbdata auth).con.nonce_recv
        = con.nonce_recv) := by
  have hiff := auth_verify_hmac_iff H con packet size hmac h0 h256
  have hneg : ¬ ((auth_parse con packet size).pktlen < 0) := by omega
  have hroom : ¬ ((auth_parse con packet size).packet_has_nonce = false ∧
      (auth_parse con packet size).embed_bits ≤ con.nonce_embed_bits) := by
    intro ⟨hn, hle⟩
    simp only [auth_macbits, hn, Bool.false_eq_true, if_false] at h0
    omega
  rw [authenticate_stages, if_neg hneg, if_neg hroom]
  by_cases hv : (auth_verify con packet size).2 > 0
  · have hm := hiff.mp hv
    refine ⟨fun _ _ _ => hm, fun _ => ?_, fun hne => absurd hm hne⟩
    simp only [authenticate_finish, hv, if_true]
    cases on_success <;> simp
  · have hm : ¬ ∀ j, j < auth_macbits con packet size →
        getBit (auth_extract con packet size).2.2 j
          = getBit (hmac_digest H (con.mac_state.key HMAC_KEYSLOT_RECV)
              (auth_mac_message con packet size)) j := fun h => hv (hiff.mpr h)
    refine ⟨fun c hc hk => ?_, fun h => absurd h hm, fun _ => ?_⟩
    · simp only [authenticate_finish, hv, if_false, if_true, Option.some.injEq] at hc
      rw [← hc] at hk
      simp only at hk
      exact CallbackKind.noConfusion hk
    · simp only [authenticate_finish, hv, if_false, if_true, and_false, Option.map_some',
        and_self]

end RePeL
namespace RePeL

/-! ## A flipped bit in a Modbus/TCP frame -/

theorem getBit_flip_bit (m : Buffer) (i j : Nat) :
    getBit (flip_bit m i) j = if j = i then !getBit m i else getBit m j := by
  simp only [flip_bit, getBit]
  by_cases hb : j / 8 = i / 8
  · rw [hb, read_write_same, testBit_mod256 _ _ (by omega), Nat.testBit_xor,
      Nat.one_shiftLeft, Nat.testBit_two_pow]
    by_cases hji : j = i
    · subst hji
      simp
    · have hne : ¬ (7 - i % 8 = 7 - j % 8) := by omega
      simp [hji, hne]
  · rw [read_write_other _ _ _ _ hb]
    have hji : ¬ (j = i) := fun h => hb (by rw [h])
    simp [hji]

/-- A packet with the bits of `mac` in its carrier fields, with one more bit
outside the carrier fields inverted. -/
theorem flip_carried (Pe Q mac : Buffer) (i : Nat) (hcar : modbus_carrier i = none)
    (hPe : ∀ x, getBit Pe x = match modbus_carrier x with
      | some j => getBit mac j
      | none => getBit Q x) (x : Nat) :
    getBit (flip_bit Pe i) x = match modbus_carrier x with
      | some j => getBit mac j
      | none => getBit (flip_bit Q i) x := by
  rw [getBit_flip_bit, getBit_flip_bit]
  by_cases hx : x = i
  · subst hx
    rw [hPe x, hcar]
  · simp only [hx, if_false]
    rw [hPe x]

theorem flip_canonical (Q : Buffer) (i : Nat) (hcar : modbus_carrier i = none)
    (hQ : ModbusCanonical Q) : ModbusCanonical (flip_bit Q i) := by
  obtain ⟨h1, h2, h3⟩ := hQ
  have hi : ¬ (i < 12) ∧ ¬ (16 ≤ i ∧ i < 32) ∧ ¬ (48 ≤ i ∧ i < 56) := by
    simp only [modbus_carrier] at hcar
    split_ifs at hcar with a b c
    exact ⟨a, b, c⟩
  refine ⟨fun x hx => ?_, fun x hx1 hx2 => ?_, fun x hx1 hx2 => ?_⟩
  · rw [getBit_flip_bit, if_neg (by omega)]; exact h1 x hx
  · rw [getBit_flip_bit, if_neg (by omega)]; exact h2 x hx1 hx2
  · rw [getBit_flip_bit, if_neg (by omega)]; exact h3 x hx1 hx2

end RePeL
namespace RePeL

/-- The stages of `repel_authenticate` with the Modbus/TCP parser (default
carrier layout) on a packet `Pe` that carries the bits of `mac` in its carrier
fields and is the canonical packet `Q` elsewhere: the parse result, the
extracted bits, the restored packet, the nonce candidate and the number of MAC
bits. -/
theorem modbus_auth_stages {μ : Type} (cfg : ModbusConfig)
    (hb : cfg.MODBUS_TCP_REUSE_TID_BITS = 12) (hu : cfg.MODBUS_TCP_REUSE_UNIT_ID = true)
    (B : RepelConnection ModbusTCPState μ) (hB : B.parser = modbus_tcp_parser_module cfg)
    (Pe Q mac : Buffer) (size N d : Nat) (hk : B.nonce_embed_bits < 36)
    (hsize : size = bitsVal Q 32 16 + 6) (hQ : ModbusCanonical Q)
    (hPe : ∀ i, getBit Pe i = match modbus_carrier i with
      | some j => getBit mac j
      | none => getBit Q i)
    (hnonce : bitsVal mac (36 - B.nonce_embed_bits) B.nonce_embed_bits
      = N % 2 ^ B.nonce_embed_bits)
    (hN : N = B.nonce_recv + d) (hd : d < 2 ^ B.nonce_embed_bits) (hN64 : N < 2 ^ 64)
    (hs : B.nonce_embed_bits ≤ 30 ∨ B.nonce_recv % 2 ^ B.nonce_embed_bits + d
      < 2 ^ B.nonce_embed_bits) :
    auth_parse B Pe size
      = { pktlen := (size : Int), embed_bits := 36, packet_has_nonce := false } ∧
    (∀ j, j < 36 → getBit (auth_extract B Pe size).2.2 j = getBit mac j) ∧
    (auth_restore B Pe size).2 = Q ∧
    (auth_nonce B Pe size).1 = N ∧
    auth_macbits B Pe size = 36 - B.nonce_embed_bits := by
  have hlen : bitsVal Pe 32 16 = bitsVal Q 32 16 := by
    apply bitsVal_congr
    intro i h1 h2
    rw [hPe i]
    have : modbus_carrier i = none := by
      simp only [modbus_carrier]
      split_ifs <;> first | rfl | omega
    rw [this]
  have hp : auth_parse B Pe size
      = { pktlen := (size : Int), embed_bits := 36, packet_has_nonce := false } := by
    have h := modbus_parse_complete cfg B.parser_state Pe size RepelMode.AUTHENTICATE (by omega)
    rw [hlen, ← hsize, modbus_embed_bits_default cfg hb hu] at h
    simp only [auth_parse, hB, modbus_tcp_parser_module]
    exact h
  have hS : ∀ j, j < 36 → getBit (auth_extract B Pe size).2.2 j = getBit mac j := by
    intro j hj
    simp only [auth_extract, hB, modbus_tcp_parser_module]
    rw [getBit_extract cfg hb hu, hPe]
    simp only [hj, if_true, modbus_slot, modbus_carrier]
    split_ifs <;> first | rfl | omega
  have hR : (auth_restore B Pe size).2 = Q := by
    simp only [auth_restore, auth_extract, hB, modbus_tcp_parser_module]
    rw [modbus_extract_eq cfg hb hu]
    apply buffer_ext_bits
    intro i
    rw [getBit_restore cfg hb hu _ _ _ _ (Or.inl rfl) i, hPe]
    obtain ⟨h1, h2, h3⟩ := hQ
    by_cases a1 : i < 12
    · simp [a1, h1 i a1]
    · by_cases a2 : 16 ≤ i ∧ i < 32
      · simp [a1, a2, h2 i a2.1 a2.2]
      · by_cases a3 : 48 ≤ i ∧ i < 56
        · simp [a1, a2, a3, h3 i a3.1 a3.2]
        · simp [a1, a2, a3, modbus_carrier]
  refine ⟨hp, hS, hR, ?_, ?_⟩
  · by_cases hk0 : B.nonce_embed_bits > 0
    · simp only [auth_nonce, hk0, if_true, hp]
      rw [hN, reconstruct_nonce_eq B.nonce_recv d B.nonce_embed_bits (36 - B.nonce_embed_bits) _
        (by omega) hd (by omega) (by omega) hs]
      rw [← hN, ← hnonce]
      apply bitsVal_congr
      intro i h1 h2
      exact hS i (by omega)
    · have hk00 : B.nonce_embed_bits = 0 := by omega
      rw [hk00] at hd
      simp only [auth_nonce, hk0, if_false]
      omega
  · simp only [auth_macbits, hp, Bool.false_eq_true, if_false]

/-- One bit outside the carrier fields and the Length field of an embedded
Modbus/TCP frame inverted on the way from `A` to `B` (default carrier layout,
HMAC adapter, the send key of `A` the receive key of `B`, the send nonce of `A`
in the window of `B`): `B` accepts the frame if and only if the digest of the
modified content agrees with the digest of the original content, that is with
the embedded MAC, in the first `36 - k` bits; if it does not, `B` calls
`on_auth_failed` with the restored modified frame and keeps its receive
nonce. -/
theorem modbus_tamper_verdict (H : HmacFn) (cfgA cfgB : ModbusConfig)
    (hbA : cfgA.MODBUS_TCP_REUSE_TID_BITS = 12) (huA : cfgA.MODBUS_TCP_REUSE_UNIT_ID = true)
    (hbB : cfgB.MODBUS_TCP_REUSE_TID_BITS = 12) (huB : cfgB.MODBUS_TCP_REUSE_UNIT_ID = true)
    (stA stB : ModbusTCPState) (msA msB : HMacData) (sendA recvA sendB recvB k : Nat)
    (xA xB P : Buffer) (size d : Nat) (hk : k < 36)
    (hsize : size = bitsVal P 32 16 + 6) (h16 : size < 65536)
    (hN : sendA = recvB + d) (hd : d < 2 ^ k) (hN64 : sendA < 2 ^ 64)
    (hs : k ≤ 30 ∨ recvB % 2 ^ k + d < 2 ^ k)
    (i : Nat) (hcar : modbus_carrier i = none) (hlen : ¬ (32 ≤ i ∧ i < 48))
    (on_success : Bool) (cbdata : Nat) (auth : AuthenticateResult) :
    ((∀ j, j < 36 - k →
        getBit (hmac_digest H (msB.key HMAC_KEYSLOT_RECV)
          ((flip_bit (modbus_tcp_restore cfgA stA P size RepelMode.EMBED).2 i).take size
            ++ netendian_nonce sendA)) j
        = getBit (hmac_digest H (msA.key HMAC_KEYSLOT_SEND)
          ((modbus_tcp_restore cfgA stA P size RepelMode.EMBED).2.take size
            ++ netendian_nonce sendA)) j) →
      (repel_authenticate (modbus_hmac_connection H cfgB stB msB sendB recvB k xB)
        (flip_bit (repel_embed (modbus_hmac_connection H cfgA stA msA sendA recvA k xA)
          P size).2.1 i) size on_success true cbdata auth).ret = size ∧
      ((repel_authenticate (modbus_hmac_connection H cfgB stB msB sendB recvB k xB)
        (flip_bit (repel_embed (modbus_hmac_connection H cfgA stA msA sendA recvA k xA)
          P size).2.1 i) size on_success true cbdata auth).callback.map fun c => c.kind)
        = (if on_success then some CallbackKind.on_auth_success else none)) ∧
    ((¬ ∀ j, j < 36 - k →
        getBit (hmac_digest H (msB.key HMAC_KEYSLOT_RECV)
          ((flip_bit (modbus_tcp_restore cfgA stA P size RepelMode.EMBED).2 i).take size
            ++ netendian_nonce sendA)) j
        = getBit (hmac_digest H (msA.key HMAC_KEYSLOT_SEND)
          ((modbus_tcp_restore cfgA stA P size RepelMode.EMBED).2.take size
            ++ netendian_nonce sendA)) j) →
      (repel_authenticate (modbus_hmac_connection H cfgB stB msB sendB recvB k xB)
        (flip_bit (repel_embed (modbus_hmac_connection H cfgA stA msA sendA recvA k xA)
          P size).2.1 i) size on_success true cbdata auth).ret = size ∧
      ((repel_authenticate (modbus_hmac_connection H cfgB stB msB sendB recvB k xB)
        (flip_bit (repel_embed (modbus_hmac_connection H cfgA stA msA sendA recvA k xA)
          P size).2.1 i) size on_success true cbdata auth).callback.map
          fun c => (c.kind, c.packet))
        = some (CallbackKind.on_auth_failed,
            flip_bit (modbus_tcp_restore cfgA stA P size RepelMode.EMBED).2 i) ∧
      (repel_authenticate (modbus_hmac_connection H cfgB stB msB sendB recvB k xB)
        (flip_bit (repel_embed (modbus_hmac_connection H cfgA stA msA sendA recvA k xA)
          P size).2.1 i) size on_success true cbdata auth).con.nonce_recv = recvB) := by
  have he : (repel_embed (modbus_hmac_connection H cfgA stA msA sendA recvA k xA) P size).2.1
      = (modbus_tcp_embed cfgA (modbus_tcp_restore cfgA stA P size RepelMode.EMBED).1
          (modbus_tcp_restore cfgA stA P size RepelMode.EMBED).2 size
          (hmac_embed_mac H msA (modbus_tcp_restore cfgA stA P size RepelMode.EMBED).2
            size (36 - k) k sendA)).2 := by
    simp only [modbus_hmac_connection]
    rw [modbus_hmac_embed H cfgA hbA huA stA msA sendA recvA k xA P size hk hsize h16]
  rw [he]
  generalize hQd : (modbus_tcp_restore cfgA stA P size RepelMode.EMBED).2 = Q
  generalize hmd : hmac_embed_mac H msA Q size (36 - k) k sendA = macA
  generalize hEd : (modbus_tcp_embed cfgA (modbus_tcp_restore cfgA stA P size RepelMode.EMBED).1
    Q size macA).2 = E
  have hcan := restore_canonical cfgA hbA huA stA P size RepelMode.EMBED
  rw [hQd] at hcan
  have hE : ∀ x, getBit E x = match modbus_carrier x with
      | some j => getBit macA j
      | none => getBit Q x := by
    intro x
    rw [← hEd]
    exact getBit_embed cfgA hbA huA _ Q macA size x
  have hE' := flip_carried E Q macA i hcar hE
  have hQ' := flip_canonical Q i hcar hcan.1
  have hsize' : size = bitsVal (flip_bit Q i) 32 16 + 6 := by
    have e1 : bitsVal (flip_bit Q i) 32 16 = bitsVal Q 32 16 := by
      apply bitsVal_congr
      intro x h1 h2
      rw [getBit_flip_bit, if_neg (by omega)]
    have e2 : bitsVal Q 32 16 = bitsVal P 32 16 := by
      apply bitsVal_congr
      intro x h1 h2
      exact hcan.2 x (by omega) (by omega)
    rw [e1, e2, hsize]
  have hnb : bitsVal macA (36 - k) k = sendA % 2 ^ k := by
    rw [← hmd]
    exact hmac_embed_mac_nonce H msA Q size k sendA hk
  obtain ⟨hp, hS, hR, hNc, hmb⟩ := modbus_auth_stages cfgB hbB huB
    (modbus_hmac_connection H cfgB stB msB sendB recvB k xB) rfl (flip_bit E i) (flip_bit Q i)
    macA size sendA d hk hsize' hQ' hE' hnb hN hd hN64 hs
  have hmsg : auth_mac_message (modbus_hmac_connection H cfgB stB msB sendB recvB k xB)
      (flip_bit E i) size = (flip_bit Q i).take size ++ netendian_nonce sendA := by
    simp only [auth_mac_message, hp, hR, hNc, hmac_message, bufsize_of_nat size h16,
      Bool.false_eq_true, if_false, Option.getD_some]
  have hmb' : auth_macbits (modbus_hmac_connection H cfgB stB msB sendB recvB k xB)
      (flip_bit E i) size = 36 - k := hmb
  have hT := hmac_verdict H (modbus_hmac_connection H cfgB stB msB sendB recvB k xB)
    (flip_bit E i) size on_success cbdata auth rfl (by rw [hp]; simp only []; omega)
    (by rw [hmb']; omega) (by rw [hmb']; omega)
  rw [hmb', hmsg, hp, hR] at hT
  have hagree : (∀ j, j < 36 - k →
      getBit (auth_extract (modbus_hmac_connection H cfgB stB msB sendB recvB k xB)
        (flip_bit E i) size).2.2 j
        = getBit (hmac_digest H
            ((modbus_hmac_connection H cfgB stB msB sendB recvB k xB).mac_state.key
              HMAC_KEYSLOT_RECV)
            ((flip_bit Q i).take size ++ netendian_nonce sendA)) j) ↔
      (∀ j, j < 36 - k →
        getBit (hmac_digest H (msB.key HMAC_KEYSLOT_RECV)
          ((flip_bit Q i).take size ++ netendian_nonce sendA)) j
        = getBit (hmac_digest H (msA.key HMAC_KEYSLOT_SEND)
          (Q.take size ++ netendian_nonce sendA)) j) := by
    have hx : ∀ j, j < 36 - k →
        getBit (auth_extract (modbus_hmac_connection H cfgB stB msB sendB recvB k xB)
          (flip_bit E i) size).2.2 j
        = getBit (hmac_digest H (msA.key HMAC_KEYSLOT_SEND)
            (Q.take size ++ netendian_nonce sendA)) j := by
      intro j hj
      rw [hS j (by omega), ← hmd, hmac_embed_mac_bits H msA Q size k sendA j hk hj]
      exact getBit_hmac_finalize _ _ _ j (by omega)
    constructor
    · intro h j hj
      rw [← hx j hj]
      exact (h j hj).symm
    · intro h j hj
      rw [hx j hj]
      exact (h j hj).symm
  rw [hagree] at hT
  exact ⟨hT.2.1, hT.2.2⟩

end RePeL
namespace RePeL

/-- C11, as the claim states it, fails for a flipped bit of the Length field:
bit 47 is no carrier bit, and with it inverted the frame announces 13 bytes, so
that `repel_authenticate` on the 12 bytes returns -1 and calls neither
`on_auth_success` nor `on_auth_failed`. -/
theorem tamper_length_no_callback :
    modbus_carrier 47 = none ∧
    (example_embedded 0).take 12 = [70, 96, 185, 11, 0, 6, 88, 3, 0, 107, 0, 3] ∧
    example_length_flipped.take 12 = [70, 96, 185, 11, 0, 7, 88, 3, 0, 107, 0, 3] ∧
    (repel_authenticate (example_receiver 0) example_length_flipped 12 true true 0
      ⟨0, 0, false⟩).ret = -1 ∧
    ((repel_authenticate (example_receiver 0) example_length_flipped 12 true true 0
      ⟨0, 0, false⟩).callback.map fun c => c.kind) = none := by
  decide

end RePeL
namespace RePeL

/-! ## Restore determinism -/

/-- The index that the loop of `_map_tid` returns does not depend on the TID. -/
theorem map_tid_loop_index (st : ModbusTCPState) (t1 t2 ir : Nat) (n i : Nat) :
    (map_tid_loop st t1 ir n i).map (fun r => r.2)
      = (map_tid_loop st t2 ir n i).map (fun r => r.2) := by
  induction n generalizing i with
  | zero => rfl
  | succ n ih =>
    simp only [map_tid_loop]
    by_cases h : i ≠ ir ∧ st.transaction_map.getD i 0 = 0
    · simp only [h, ne_eq, not_false_eq_true, and_self, if_true]
      by_cases h1 : t1 = 0 <;> by_cases h2 : t2 = 0 <;> simp [h1, h2]
    · simp only [h, if_false]
      exact ih (i + 1)

/-- The index that `_map_tid` returns depends on the TID through its residue
modulo the map length only. -/
theorem map_tid_index (cfg : ModbusConfig) (st : ModbusTCPState) (t1 t2 : Nat)
    (h : t1 % tid_map_len cfg = t2 % tid_map_len cfg) :
    (_map_tid cfg st t1).2 = (_map_tid cfg st t2).2 := by
  simp only [_map_tid]
  by_cases hr : st.tid0_index < tid_map_len cfg
  · simp only [hr, if_true]
  · simp only [hr, if_false]
    have hl := map_tid_loop_index st t1 t2 st.tid0_index (tid_map_len cfg) 0
    cases h1 : map_tid_loop st t1 st.tid0_index (tid_map_len cfg) 0 <;>
      cases h2 : map_tid_loop st t2 st.tid0_index (tid_map_len cfg) 0 <;>
      rw [h1, h2] at hl <;> simp at hl
    · exact h
    · exact hl

/-- Restore determinism of the Modbus/TCP parser (12 TID bits and the Unit ID
reused, either role, either mode). -/
theorem modbus_restore_deterministic (cfg : ModbusConfig)
    (hb : cfg.MODBUS_TCP_REUSE_TID_BITS = 12) (hu : cfg.MODBUS_TCP_REUSE_UNIT_ID = true)
    (st : ModbusTCPState) (P1 P2 : Buffer) (len : Nat) (mode : RepelMode)
    (h : ∀ i, modbus_carrier i = none → getBit P1 i = getBit P2 i) :
    (modbus_tcp_restore cfg st P1 len mode).2 = (modbus_tcp_restore cfg st P2 len mode).2 := by
  have hnc : ∀ i, ¬ (i < 12) → ¬ (16 ≤ i ∧ i < 32) → ¬ (48 ≤ i ∧ i < 56) →
      getBit P1 i = getBit P2 i := by
    intro i a b c
    apply h
    simp only [modbus_carrier, a, b, c, if_false]
  by_cases hm : mode = RepelMode.AUTHENTICATE ∨ cfg.MODBUS_TCP_IS_CLIENT = false
  · apply buffer_ext_bits
    intro i
    rw [getBit_restore cfg hb hu st P1 len mode hm i, getBit_restore cfg hb hu st P2 len mode hm i]
    split_ifs with a b c
    · rfl
    · rfl
    · rfl
    · exact hnc i a b c
  · have hme : mode = RepelMode.EMBED := by
      cases mode
      · rfl
      · exact absurd (Or.inl rfl) hm
    have hc : cfg.MODBUS_TCP_IS_CLIENT = true := by
      cases hcl : cfg.MODBUS_TCP_IS_CLIENT
      · exact absurd (Or.inr hcl) hm
      · rfl
    subst hme
    rw [modbus_restore_client_eq cfg hb hu hc, modbus_restore_client_eq cfg hb hu hc]
    have hlen : tid_map_len cfg = 16 := by
      simp only [tid_map_len, hb, POW2]
      decide
    have hlow : bitsVal P1 0 16 % tid_map_len cfg = bitsVal P2 0 16 % tid_map_len cfg := by
      have e1 := bitsVal_add P1 0 12 4
      have e2 := bitsVal_add P2 0 12 4
      have e3 : bitsVal P1 (0 + 12) 4 = bitsVal P2 (0 + 12) 4 := by
        apply bitsVal_congr
        intro i h1 h2
        exact hnc i (by omega) (by omega) (by omega)
      have l1 := bitsVal_lt P1 (0 + 12) 4
      have l2 := bitsVal_lt P2 (0 + 12) 4
      rw [hlen]
      simp only [Nat.reduceAdd, Nat.reducePow] at e1 e2 e3 l1 l2
      omega
    rw [map_tid_index cfg st _ _ hlow]
    apply buffer_ext_bits
    intro i
    simp only []
    rw [getBit_modbus_restore_client P1 _ i, getBit_modbus_restore_client P2 _ i]
    split_ifs with a b c d
    · rfl
    · rfl
    · rfl
    · rfl
    · exact hnc i (by omega) (by omega) d

/-- Restore determinism of the fake parser: `fake_restore` sets the first
`min pktlen 32` bytes, the carrier bits, to zero. -/
theorem fake_restore_deterministic (st : Unit) (P1 P2 : Buffer) (pktlen : Nat)
    (mode : RepelMode) (h16 : pktlen < 65536)
    (h : ∀ i, ¬ fake_carrier pktlen i → getBit P1 i = getBit P2 i) :
    (fake_restore st P1 pktlen mode).2 = (fake_restore st P2 pktlen mode).2 := by
  simp only [fake_restore, MAX_MAC_BYTES, ceil_bits_to_bytes]
  funext a
  simp only [memset]
  by_cases ha : a < (if pktlen > (256 + 7) / 8 then (256 + 7) / 8 else pktlen)
  · simp only [ha, if_true]
  · simp only [ha, if_false]
    apply (byte_eq_of_getBit P2 P1 a _)
    intro i hi
    apply h
    simp only [fake_carrier, fake_parse, MAX_MAC_BITS]
    split_ifs at ha ⊢ <;> omega

end RePeL
namespace RePeL

/-! ## The split parser in the one-bit-gap mode -/

theorem isPush_refl (m : Buffer) (p v : Nat) : IsPush m p v 0 m := by
  intro i
  have : ¬ (p ≤ i ∧ i < p + 0) := by omega
  rw [if_neg this]

/-- The function `_bstr_zero_multibyte` sets `numbits` bits from the cursor on to zero and
moves the cursor behind them. -/
theorem zero_multibyte_loop_spec (fuel : Nat) (m : Buffer) (c : BitString) (n : Nat)
    (hs : c.shift ≤ 7) (hf : n ≤ fuel) (hn : n < 2 ^ 31) :
    IsPush m c.pos 0 n (zero_multibyte_loop fuel m c n).1 ∧
      (zero_multibyte_loop fuel m c n).2 = bitstring_skip c n := by
  induction fuel generalizing m c n with
  | zero =>
    have h0 : n = 0 := by omega
    subst h0
    exact ⟨isPush_refl m _ 0, (skip_zero c hs).symm⟩
  | succ fuel ih =>
    simp only [zero_multibyte_loop]
    by_cases h8 : n > 8
    · simp only [h8, if_true]
      have h1 := push_u8_isPush m c 0 8 (le_refl 8) hs
      have hc := push_u8_cursor m c 0 8 (le_refl 8) hs
      have hw : c.shift + 8 < UINT_RANGE := by simp only [UINT_RANGE]; omega
      obtain ⟨h2, h3⟩ := ih (bitstring_push_u8 m c 0 8).1 (bitstring_skip c 8) (n - 8)
        (skip_shift_le c 8) (by omega) (by omega)
      rw [skip_pos c 8 hw] at h2
      rw [hc]
      refine ⟨?_, ?_⟩
      · have e : n = 8 + (n - 8) := by omega
        rw [e]
        have e' : 8 + (n - 8) - 8 = n - 8 := by omega
        rw [e']
        exact IsPush.append h1 h2 (fun j _ => rfl)
          (fun j _ => by simp only [Nat.zero_testBit])
      · rw [h3, skip_skip c 8 (n - 8) (by simp only [UINT_RANGE]; omega)]
        congr 1
        omega
    · simp only [h8, if_false]
      by_cases h0 : n ≠ 0
      · simp only [h0, ne_eq, not_false_eq_true, if_true]
        exact ⟨push_u8_isPush m c 0 n (by omega) hs, push_u8_cursor m c 0 n (by omega) hs⟩
      · have hz : n = 0 := by omega
        subst hz
        simp only [ne_eq, not_true_eq_false, if_false]
        exact ⟨isPush_refl m _ 0, (skip_zero c hs).symm⟩

theorem split_zone_iff (g n p i : Nat) :
    split_zone g n p i = true ↔
      ∃ t, t < n ∧ p + t * (g + 1) + 1 ≤ i ∧ i < p + (t + 1) * (g + 1) := by
  induction n generalizing p with
  | zero => simp [split_zone]
  | succ n ih =>
    simp only [split_zone, Bool.or_eq_true, decide_eq_true_eq, ih]
    constructor
    · rintro (h | ⟨t, ht, h1, h2⟩)
      · exact ⟨0, by omega, by omega, by omega⟩
      · refine ⟨t + 1, by omega, ?_, ?_⟩
        · have e := Nat.succ_mul t (g + 1)
          simp only [Nat.succ_eq_add_one] at e
          omega
        · have e := Nat.succ_mul (t + 1) (g + 1)
          have e' := Nat.succ_mul t (g + 1)
          simp only [Nat.succ_eq_add_one] at e e'
          omega
    · rintro ⟨t, ht, h1, h2⟩
      cases t with
      | zero =>
        left
        simp only [Nat.zero_mul, Nat.zero_add, Nat.one_mul] at h1 h2
        omega
      | succ t =>
        right
        refine ⟨t, by omega, ?_, ?_⟩
        · have e := Nat.succ_mul t (g + 1)
          simp only [Nat.succ_eq_add_one] at e
          omega
        · have e := Nat.succ_mul (t + 1) (g + 1)
          have e' := Nat.succ_mul t (g + 1)
          simp only [Nat.succ_eq_add_one] at e e'
          omega

/-- The loop of `split_restore` in the one-bit-gap mode: `n` rounds from the
cursor `c` on set the bits of `n` segments to zero, leave every other bit as it
is, move the cursor by `n * (g + 1)` bits and take `n * g` off `bits`. -/
theorem split_restore_loop_spec (cfg : SplitConfig) (hp : cfg.EVAL_PKTALIGN = false)
    (g n : Nat) (m : Buffer) (c : BitString) (bits : Nat) (hs : c.shift ≤ 7) (hg : g ≤ 256)
    (hn : n ≤ 65536) (hb : n * g ≤ bits) (hb16 : bits < 65536) :
    (∀ i, getBit (split_restore_loop cfg g n m c bits).1 i
      = if split_zone g n c.pos i then false else getBit m i) ∧
    (split_restore_loop cfg g n m c bits).2.1 = bitstring_skip c (n * (g + 1)) ∧
    (split_restore_loop cfg g n m c bits).2.2 = bits - n * g := by
  induction n generalizing m c bits with
  | zero =>
    refine ⟨fun i => ?_, ?_, ?_⟩
    · simp [split_restore_loop, split_zone]
    · simp only [split_restore_loop, Nat.zero_mul]
      exact (skip_zero c hs).symm
    · simp [split_restore_loop]
  | succ n ih =>
    have e1 : (n + 1) * g = n * g + g := Nat.succ_mul n g
    have e2 : (n + 1) * (g + 1) = n * (g + 1) + (g + 1) := Nat.succ_mul n (g + 1)
    have e3 : n * (g + 1) = n * g + n := Nat.mul_succ n g
    have e4 : n * g ≤ 65536 * 256 := Nat.mul_le_mul (by omega) hg
    have hw1 : c.shift + 1 < UINT_RANGE := by simp only [UINT_RANGE]; omega
    have hgap : split_restore_gap cfg c = bitstring_skip c 1 := by
      simp only [split_restore_gap, hp, OFFSET_BITS, Bool.false_eq_true, if_false]
    obtain ⟨z1, z2⟩ := zero_multibyte_loop_spec g m (bitstring_skip c 1) g (skip_shift_le c 1)
      (le_refl g) (by omega)
    rw [skip_pos c 1 hw1] at z1
    rw [skip_skip c 1 g (by simp only [UINT_RANGE]; omega)] at z2
    have hbits : (bits + 65536 - g) % 65536 = bits - g := by omega
    obtain ⟨i1, i2, i3⟩ := ih (zero_multibyte_loop g m (bitstring_skip c 1) g).1
      (bitstring_skip c (1 + g)) (bits - g) (skip_shift_le c (1 + g)) (by omega) (by omega)
      (by omega)
    rw [skip_pos c (1 + g) (by simp only [UINT_RANGE]; omega)] at i1
    simp only [split_restore_loop, hgap, _bstr_zero_multibyte, z2, hbits]
    refine ⟨fun i => ?_, ?_, ?_⟩
    · rw [i1 i, z1 i]
      simp only [split_zone, Nat.zero_testBit]
      have ep : c.pos + (1 + g) = c.pos + g + 1 := by omega
      rw [ep]
      by_cases hz : split_zone g n (c.pos + g + 1) i = true
      · simp [hz]
      · by_cases hr : c.pos + 1 ≤ i ∧ i < c.pos + 1 + g
        · simp [hz, hr]
        · simp [hz, hr]
    · rw [i2, skip_skip c (1 + g) (n * (g + 1)) (by simp only [UINT_RANGE]; omega)]
      congr 1
      omega
    · rw [i3]
      omega

/-- The packet that `split_restore` leaves in the one-bit-gap mode: the
carrier bits are zero, every other bit is as before. -/
theorem getBit_split_restore (cfg : SplitConfig) (hp : cfg.EVAL_PKTALIGN = false)
    (st : SplitState) (hS : st.split_parser_mac_splits < 65536) (P : Buffer) (len : Nat)
    (mode : RepelMode) (i : Nat) [Decidable (split_carrier st.split_parser_mac_splits i)] :
    getBit (split_restore cfg st P len mode).2 i
      = if split_carrier st.split_parser_mac_splits i then false else getBit P i := by
  have hseg : segment_len st = 256 / (st.split_parser_mac_splits + 1) := by
    simp only [segment_len, MAX_MAC_BITS]
    exact Nat.mod_eq_of_lt (Nat.lt_of_le_of_lt (Nat.div_le_self _ _) (by decide))
  generalize hSd : st.split_parser_mac_splits = S at *
  generalize hgd : 256 / (S + 1) = g at *
  have hg : g ≤ 256 := by rw [← hgd]; exact Nat.div_le_self _ _
  have hSg : S * g ≤ 256 := by
    have h1 : g * (S + 1) ≤ 256 := by rw [← hgd]; exact Nat.div_mul_le_self 256 (S + 1)
    have h2 : g * (S + 1) = g * S + g := Nat.mul_succ g S
    have h3 : g * S = S * g := Nat.mul_comm g S
    omega
  have e3 : S * (g + 1) = S * g + S := Nat.mul_succ S g
  obtain ⟨l1, l2, l3⟩ := split_restore_loop_spec cfg hp g S P bitstring_init 256
    (by decide) hg (by omega) hSg (by decide)
  have hgap : ∀ c, split_restore_gap cfg c = bitstring_skip c 1 := by
    intro c
    simp only [split_restore_gap, hp, OFFSET_BITS, Bool.false_eq_true, if_false]
  have hi0 : bitstring_init.shift = 0 := rfl
  have hip : bitstring_init.pos = 0 := rfl
  obtain ⟨z1, _⟩ := zero_multibyte_loop_spec (256 - S * g) (split_restore_loop cfg g S P
    bitstring_init 256).1 (bitstring_skip bitstring_init (S * (g + 1) + 1)) (256 - S * g)
    (skip_shift_le _ _) (le_refl _) (by omega)
  rw [skip_pos bitstring_init _ (by simp only [UINT_RANGE, hi0]; omega), hip] at z1
  simp only [split_restore, hseg, hSd, MAX_MAC_BITS, hgap, l2, l3, _bstr_zero_multibyte]
  rw [skip_skip bitstring_init _ 1 (by simp only [UINT_RANGE, hi0]; omega)]
  rw [z1 i, l1 i, hip]
  simp only [Nat.zero_testBit, Nat.zero_add]
  have hzi := split_zone_iff g S 0 i
  simp only [Nat.zero_add] at hzi
  by_cases hc : split_carrier S i
  · rw [if_pos hc]
    simp only [split_carrier, hgd] at hc
    rcases hc with h | h
    · have : split_zone g S 0 i = true := hzi.mpr h
      simp [this]
    · have : S * (g + 1) + 1 ≤ i ∧ i < S * (g + 1) + 1 + (256 - S * g) := h
      simp [this]
  · rw [if_neg hc]
    simp only [split_carrier, hgd, not_or] at hc
    have h1 : ¬ (split_zone g S 0 i = true) := fun h => hc.1 (hzi.mp h)
    have h2 : ¬ (S * (g + 1) + 1 ≤ i ∧ i < S * (g + 1) + 1 + (256 - S * g)) := hc.2
    simp [h1, h2]

/-- Restore determinism of the split parser in the one-bit-gap mode. -/
theorem split_restore_deterministic (cfg : SplitConfig) (hp : cfg.EVAL_PKTALIGN = false)
    (st : SplitState) (hS : st.split_parser_mac_splits < 65536) (P1 P2 : Buffer) (len : Nat)
    (mode : RepelMode)
    (h : ∀ i, ¬ split_carrier st.split_parser_mac_splits i → getBit P1 i = getBit P2 i) :
    (split_restore cfg st P1 len mode).2 = (split_restore cfg st P2 len mode).2 := by
  classical
  apply buffer_ext_bits
  intro i
  rw [getBit_split_restore cfg hp st hS P1 len mode i,
    getBit_split_restore cfg hp st hS P2 len mode i]
  by_cases hc : split_carrier st.split_parser_mac_splits i
  · simp only [hc, if_true]
  · simp only [hc, if_false]
    exact h i hc

end RePeL
namespace RePeL

/-! ## Copies between buffers -/

theorem isCopy_refl (m : Buffer) (p : Nat) (sm : Buffer) (sp : Nat) : IsCopy m p sm sp 0 m := by
  intro i
  have : ¬ (p ≤ i ∧ i < p + 0) := by omega
  rw [if_neg this]

theorem isCopy_append {m m1 m2 sm : Buffer} {p sp n1 n2 : Nat} (h1 : IsCopy m p sm sp n1 m1)
    (h2 : IsCopy m1 (p + n1) sm (sp + n1) n2 m2) : IsCopy m p sm sp (n1 + n2) m2 := by
  intro i
  rw [h2 i, h1 i]
  by_cases a : p + n1 ≤ i ∧ i < p + n1 + n2
  · have b : p ≤ i ∧ i < p + (n1 + n2) := by omega
    rw [if_pos a, if_pos b]
    congr 1
    omega
  · rw [if_neg a]
    by_cases b : p ≤ i ∧ i < p + n1
    · have c : p ≤ i ∧ i < p + (n1 + n2) := by omega
      rw [if_pos b, if_pos c]
    · have c : ¬ (p ≤ i ∧ i < p + (n1 + n2)) := by omega
      rw [if_neg b, if_neg c]

theorem copy_u8_spec (dm : Buffer) (dc : BitString) (sm : Buffer) (sc : BitString) (n : Nat)
    (hn : n ≤ 8) (hd : dc.shift ≤ 7) (hs : sc.shift ≤ 7) :
    IsCopy dm dc.pos sm sc.pos n (bitstring_copy_u8 dm dc sm sc n).1 ∧
      (bitstring_copy_u8 dm dc sm sc n).2.1 = bitstring_skip dc n ∧
      (bitstring_copy_u8 dm dc sm sc n).2.2 = bitstring_skip sc n := by
  simp only [bitstring_copy_u8, pop_u8_eq sm sc n hn hs]
  exact ⟨fun i => getBit_congr_bitsVal (push_u8_isPush dm dc _ n hn hd) i,
    push_u8_cursor dm dc _ n hn hd, trivial⟩

theorem copy_u64_spec (dm : Buffer) (dc : BitString) (sm : Buffer) (sc : BitString) (n : Nat)
    (hn : n ≤ 64) (hd : dc.shift ≤ 7) (hs : sc.shift ≤ 7) :
    IsCopy dm dc.pos sm sc.pos n (bitstring_copy_u64 dm dc sm sc n).1 ∧
      (bitstring_copy_u64 dm dc sm sc n).2.1 = bitstring_skip dc n ∧
      (bitstring_copy_u64 dm dc sm sc n).2.2 = bitstring_skip sc n := by
  have hpop : bitstring_pop_u64 sm sc n = (bitsVal sm sc.pos n, bitstring_skip sc n) :=
    pop_wide_eq 64 sm sc n hn (le_refl 64) hs
  simp only [bitstring_copy_u64, hpop]
  obtain ⟨h1, h2⟩ := push_u64_spec dm dc (bitsVal sm sc.pos n) n hd hn
  exact ⟨fun i => getBit_congr_bitsVal h1 i, h2, trivial⟩

/-- The function `_bstr_copy_multibyte` copies `numbits` bits from the source cursor to the
destination cursor and moves both cursors behind them. -/
theorem copy_multibyte_loop_spec (sm : Buffer) (fuel : Nat) (dm : Buffer) (dc sc : BitString)
    (n : Nat) (hd : dc.shift ≤ 7) (hs : sc.shift ≤ 7) (hf : n ≤ fuel) (hn : n < 2 ^ 31) :
    IsCopy dm dc.pos sm sc.pos n (copy_multibyte_loop sm fuel dm dc sc n).1 ∧
      (copy_multibyte_loop sm fuel dm dc sc n).2.1 = bitstring_skip dc n ∧
      (copy_multibyte_loop sm fuel dm dc sc n).2.2 = bitstring_skip sc n := by
  induction fuel generalizing dm dc sc n with
  | zero =>
    have h0 : n = 0 := by omega
    subst h0
    exact ⟨isCopy_refl dm _ sm _, (skip_zero dc hd).symm, (skip_zero sc hs).symm⟩
  | succ fuel ih =>
    simp only [copy_multibyte_loop]
    by_cases h8 : n > 8
    · simp only [h8, if_true]
      obtain ⟨c1, c2, c3⟩ := copy_u8_spec dm dc sm sc 8 (le_refl 8) hd hs
      rw [c2, c3]
      obtain ⟨i1, i2, i3⟩ := ih (bitstring_copy_u8 dm dc sm sc 8).1 (bitstring_skip dc 8)
        (bitstring_skip sc 8) (n - 8) (skip_shift_le dc 8) (skip_shift_le sc 8) (by omega)
        (by omega)
      rw [skip_pos dc 8 (by simp only [UINT_RANGE]; omega),
        skip_pos sc 8 (by simp only [UINT_RANGE]; omega)] at i1
      refine ⟨?_, ?_, ?_⟩
      · have e : n = 8 + (n - 8) := by omega
        have h := isCopy_append c1 i1
        rw [← e] at h
        exact h
      · rw [i2, skip_skip dc 8 (n - 8) (by simp only [UINT_RANGE]; omega)]
        congr 1
        omega
      · rw [i3, skip_skip sc 8 (n - 8) (by simp only [UINT_RANGE]; omega)]
        congr 1
        omega
    · simp only [h8, if_false]
      by_cases h0 : n ≠ 0
      · simp only [h0, ne_eq, not_false_eq_true, if_true]
        exact copy_u8_spec dm dc sm sc n (by omega) hd hs
      · have hz : n = 0 := by omega
        subst hz
        simp only [ne_eq, not_true_eq_false, if_false]
        exact ⟨isCopy_refl dm _ sm _, (skip_zero dc hd).symm, (skip_zero sc hs).symm⟩

/-- The loop of `fake_embed` and `fake_extract` copies all but the last
`1..64` of the bits. -/
theorem copy_u64_loop_spec (sm : Buffer) (fuel : Nat) (dm : Buffer) (dc sc : BitString)
    (n : Nat) (hd : dc.shift ≤ 7) (hs : sc.shift ≤ 7) (hf : n ≤ fuel) (hn : n < 2 ^ 31) :
    (copy_u64_loop sm fuel dm dc sc n).2.2.2 ≤ 64 ∧
    (copy_u64_loop sm fuel dm dc sc n).2.2.2 ≤ n ∧
    IsCopy dm dc.pos sm sc.pos (n - (copy_u64_loop sm fuel dm dc sc n).2.2.2)
      (copy_u64_loop sm fuel dm dc sc n).1 ∧
    (copy_u64_loop sm fuel dm dc sc n).2.1
      = bitstring_skip dc (n - (copy_u64_loop sm fuel dm dc sc n).2.2.2) ∧
    (copy_u64_loop sm fuel dm dc sc n).2.2.1
      = bitstring_skip sc (n - (copy_u64_loop sm fuel dm dc sc n).2.2.2) := by
  induction fuel generalizing dm dc sc n with
  | zero =>
    have h0 : n = 0 := by omega
    subst h0
    simp only [copy_u64_loop, Nat.sub_self]
    exact ⟨by omega, le_refl 0, isCopy_refl dm _ sm _, (skip_zero dc hd).symm,
      (skip_zero sc hs).symm⟩
  | succ fuel ih =>
    simp only [copy_u64_loop]
    by_cases h64 : n > 64
    · simp only [h64, if_true]
      obtain ⟨c1, c2, c3⟩ := copy_u64_spec dm dc sm sc 64 (le_refl 64) hd hs
      rw [c2, c3]
      obtain ⟨i0, i0', i1, i2, i3⟩ := ih (bitstring_copy_u64 dm dc sm sc 64).1
        (bitstring_skip dc 64) (bitstring_skip sc 64) (n - 64) (skip_shift_le dc 64)
        (skip_shift_le sc 64) (by omega) (by omega)
      rw [skip_pos dc 64 (by simp only [UINT_RANGE]; omega),
        skip_pos sc 64 (by simp only [UINT_RANGE]; omega)] at i1
      generalize (copy_u64_loop sm fuel (bitstring_copy_u64 dm dc sm sc 64).1
        (bitstring_skip dc 64) (bitstring_skip sc 64) (n - 64)) = R at *
      refine ⟨i0, by omega, ?_, ?_, ?_⟩
      · have e : n - R.2.2.2 = 64 + (n - 64 - R.2.2.2) := by omega
        rw [e]
        exact isCopy_append c1 i1
      · rw [i2, skip_skip dc 64 _ (by simp only [UINT_RANGE]; omega)]
        congr 1
        omega
      · rw [i3, skip_skip sc 64 _ (by simp only [UINT_RANGE]; omega)]
        congr 1
        omega
    · simp only [h64, if_false, Nat.sub_self]
      exact ⟨by omega, le_refl n, isCopy_refl dm _ sm _, (skip_zero dc hd).symm,
        (skip_zero sc hs).symm⟩

/-- The common body of `fake_embed` and `fake_extract` copies the first
`embed_bits` bits, the carrier bits, and nothing else. -/
theorem fake_copy_spec (dm sm : Buffer) (pktlen : Nat) (i : Nat) :
    getBit (fake_copy dm sm pktlen) i
      = if fake_carrier pktlen i then getBit sm i else getBit dm i := by
  have hb : (if pktlen * 8 < MAX_MAC_BITS then (pktlen * 8) % 65536 else MAX_MAC_BITS)
      = (fake_parse () (fun _ => 0) pktlen RepelMode.EMBED).embed_bits := rfl
  simp only [fake_copy, fake_carrier]
  rw [hb]
  generalize hbd : (fake_parse () (fun _ => 0) pktlen RepelMode.EMBED).embed_bits = b
  have hb256 : b ≤ 256 := by
    rw [← hbd]
    simp only [fake_parse, MAX_MAC_BITS]
    split_ifs <;> omega
  obtain ⟨l0, l0', l1, l2, l3⟩ := copy_u64_loop_spec sm b dm bitstring_init bitstring_init b
    (by decide) (by decide) (le_refl b) (by omega)
  generalize copy_u64_loop sm b dm bitstring_init bitstring_init b = R at *
  have hip : bitstring_init.pos = 0 := rfl
  have hi0 : bitstring_init.shift = 0 := rfl
  rw [hip] at l1
  by_cases hr : R.2.2.2 > 0
  · simp only [hr, if_true]
    obtain ⟨c1, _, _⟩ := copy_u64_spec R.1 R.2.1 sm R.2.2.1 R.2.2.2 l0
      (by rw [l2]; exact skip_shift_le _ _) (by rw [l3]; exact skip_shift_le _ _)
    rw [l2, l3, skip_pos bitstring_init _ (by simp only [UINT_RANGE, hi0]; omega), hip] at c1
    rw [l2, l3]
    have h := isCopy_append l1 c1
    have e : b - R.2.2.2 + R.2.2.2 = b := by omega
    rw [e] at h
    rw [h i]
    simp only [Nat.zero_le, true_and, Nat.zero_add, Nat.sub_zero]
  · simp only [hr, if_false]
    have e : b - R.2.2.2 = b := by omega
    rw [e] at l1
    rw [l1 i]
    simp only [Nat.zero_le, true_and, Nat.zero_add, Nat.sub_zero]

end RePeL
namespace RePeL

/-! ## The carrier layout of the split parser -/

theorem split_src_isSome (g n p q i : Nat) :
    (split_src g n p q i).isSome = split_zone g n p i := by
  induction n generalizing p q with
  | zero => rfl
  | succ n ih =>
    simp only [split_src, split_zone]
    by_cases h : p + 1 ≤ i ∧ i < p + 1 + g
    · simp [h]
    · simp only [h, if_false, decide_False, Bool.false_or]
      exact ih (p + g + 1) (q + g)

/-- The carrier bits of the one-bit-gap mode are the packet bits that the
layout maps to a MAC bit. -/
theorem split_layout_isSome (S i : Nat) :
    (split_layout S i).isSome = true ↔ split_carrier S i := by
  have hz := split_src_isSome (256 / (S + 1)) S 0 0 i
  have hzi := split_zone_iff (256 / (S + 1)) S 0 i
  simp only [Nat.zero_add] at hzi
  simp only [split_layout, split_carrier]
  cases hs : split_src (256 / (S + 1)) S 0 0 i with
  | some j =>
    rw [hs] at hz
    simp only [Option.isSome_some, true_iff]
    exact Or.inl (hzi.mp hz.symm)
  | none =>
    rw [hs] at hz
    simp only [Option.isSome_none] at hz
    have hnz : ¬ ∃ t, t < S ∧ t * (256 / (S + 1) + 1) + 1 ≤ i ∧
        i < (t + 1) * (256 / (S + 1) + 1) := fun h => by
      have := hzi.mpr h
      rw [this] at hz
      exact Bool.noConfusion hz
    simp only [hnz, false_or]
    split_ifs with h
    · simp only [Option.isSome_some, true_iff]; exact h
    · simp only [Option.isSome_none, Bool.false_eq_true, false_iff]; exact h

/-- The loop of `split_embed` in the one-bit-gap mode: `n` rounds write `n`
segments of MAC bits into the packet, leave every other bit as it is, move the
packet cursor by `n * (g + 1)` bits and the MAC cursor by `n * g` bits. -/
theorem split_embed_loop_spec (cfg : SplitConfig) (hp : cfg.EVAL_PKTALIGN = false)
    (hm : cfg.EVAL_MACALIGN = false) (macbuf : Buffer) (g n : Nat) (m : Buffer)
    (c d : BitString) (bits : Nat) (hc : c.shift ≤ 7) (hd : d.shift ≤ 7) (hg : g ≤ 256)
    (hn : n ≤ 65536) (hb : n * g ≤ bits) (hb16 : bits < 65536) :
    (∀ i, getBit (split_embed_loop cfg g macbuf n m c d bits).1 i
      = match split_src g n c.pos d.pos i with
        | some j => getBit macbuf j
        | none => getBit m i) ∧
    (split_embed_loop cfg g macbuf n m c d bits).2.1 = bitstring_skip c (n * (g + 1)) ∧
    (split_embed_loop cfg g macbuf n m c d bits).2.2.1 = bitstring_skip d (n * g) ∧
    (split_embed_loop cfg g macbuf n m c d bits).2.2.2 = bits - n * g := by
  induction n generalizing m c d bits with
  | zero =>
    refine ⟨fun i => ?_, ?_, ?_, ?_⟩
    · simp [split_embed_loop, split_src]
    · simp only [split_embed_loop, Nat.zero_mul]
      exact (skip_zero c hc).symm
    · simp only [split_embed_loop, Nat.zero_mul]
      exact (skip_zero d hd).symm
    · simp [split_embed_loop]
  | succ n ih =>
    have e1 : (n + 1) * g = n * g + g := Nat.succ_mul n g
    have e2 : (n + 1) * (g + 1) = n * (g + 1) + (g + 1) := Nat.succ_mul n (g + 1)
    have e3 : n * (g + 1) = n * g + n := Nat.mul_succ n g
    have e4 : n * g ≤ 65536 * 256 := Nat.mul_le_mul (by omega) hg
    have hw1 : c.shift + 1 < UINT_RANGE := by simp only [UINT_RANGE]; omega
    have hgap : split_gap cfg c d = (bitstring_skip c 1, d) := by
      simp only [split_gap, hp, hm, OFFSET_BITS, Bool.false_eq_true, if_false]
    obtain ⟨z1, z2, z3⟩ := copy_multibyte_loop_spec macbuf g m (bitstring_skip c 1) d g
      (skip_shift_le c 1) hd (le_refl g) (by omega)
    rw [skip_pos c 1 hw1] at z1
    rw [skip_skip c 1 g (by simp only [UINT_RANGE]; omega)] at z2
    have hbits : (bits + 65536 - g) % 65536 = bits - g := by omega
    obtain ⟨i1, i2, i3, i4⟩ := ih (copy_multibyte_loop macbuf g m (bitstring_skip c 1) d g).1
      (bitstring_skip c (1 + g)) (bitstring_skip d g) (bits - g) (skip_shift_le c (1 + g))
      (skip_shift_le d g) (by omega) (by omega) (by omega)
    rw [skip_pos c (1 + g) (by simp only [UINT_RANGE]; omega),
      skip_pos d g (by simp only [UINT_RANGE]; omega)] at i1
    simp only [split_embed_loop, hgap, _bstr_copy_multibyte, z2, z3, hbits]
    refine ⟨fun i => ?_, ?_, ?_, ?_⟩
    · rw [i1 i]
      simp only [split_src]
      have ep : c.pos + (1 + g) = c.pos + g + 1 := by omega
      rw [ep]
      by_cases hr : c.pos + 1 ≤ i ∧ i < c.pos + 1 + g
      · have hns : split_src g n (c.pos + g + 1) (d.pos + g) i = none := by
          have h := split_src_isSome g n (c.pos + g + 1) (d.pos + g) i
          have hz : split_zone g n (c.pos + g + 1) i = false := by
            cases hzz : split_zone g n (c.pos + g + 1) i
            · rfl
            · obtain ⟨t, _, h1, _⟩ := (split_zone_iff g n (c.pos + g + 1) i).mp hzz
              have : 0 ≤ t * (g + 1) := Nat.zero_le _
              omega
          rw [hz] at h
          cases hs : split_src g n (c.pos + g + 1) (d.pos + g) i with
          | none => rfl
          | some j => rw [hs] at h; exact Bool.noConfusion h
        simp only [hns, hr, and_self, if_true]
        rw [z1 i, if_pos hr]
      · simp only [hr, if_false]
        cases hs : split_src g n (c.pos + g + 1) (d.pos + g) i with
        | none =>
          simp only []
          rw [z1 i, if_neg hr]
        | some j => rfl
    · rw [i2, skip_skip c (1 + g) (n * (g + 1)) (by simp only [UINT_RANGE]; omega)]
      congr 1
      omega
    · rw [i3, skip_skip d g (n * g) (by simp only [UINT_RANGE]; omega)]
      congr 1
      omega
    · rw [i4]
      omega

/-- The packet that `split_embed` leaves in the one-bit-gap mode: every carrier
bit holds its MAC bit, every other bit is as before. -/
theorem getBit_split_embed (cfg : SplitConfig) (hp : cfg.EVAL_PKTALIGN = false)
    (hm : cfg.EVAL_MACALIGN = false) (st : SplitState)
    (hS : st.split_parser_mac_splits < 65536) (P : Buffer) (len : Nat) (macbuf : Buffer)
    (i : Nat) :
    getBit (split_embed cfg st P len macbuf).2 i
      = match split_layout st.split_parser_mac_splits i with
        | some j => getBit macbuf j
        | none => getBit P i := by
  have hseg : segment_len st = 256 / (st.split_parser_mac_splits + 1) := by
    simp only [segment_len, MAX_MAC_BITS]
    exact Nat.mod_eq_of_lt (Nat.lt_of_le_of_lt (Nat.div_le_self _ _) (by decide))
  simp only [split_layout]
  generalize hSd : st.split_parser_mac_splits = S at *
  generalize hgd : 256 / (S + 1) = g at *
  have hg : g ≤ 256 := by rw [← hgd]; exact Nat.div_le_self _ _
  have hSg : S * g ≤ 256 := by
    have h1 : g * (S + 1) ≤ 256 := by rw [← hgd]; exact Nat.div_mul_le_self 256 (S + 1)
    have h2 : g * (S + 1) = g * S + g := Nat.mul_succ g S
    have h3 : g * S = S * g := Nat.mul_comm g S
    omega
  have e3 : S * (g + 1) = S * g + S := Nat.mul_succ S g
  have hi0 : bitstring_init.shift = 0 := rfl
  have hip : bitstring_init.pos = 0 := rfl
  obtain ⟨l1, l2, l3, l4⟩ := split_embed_loop_spec cfg hp hm macbuf g S P bitstring_init
    bitstring_init 256 (by decide) (by decide) hg (by omega) hSg (by decide)
  have hgap : ∀ c d, split_gap cfg c d = (bitstring_skip c 1, d) := by
    intro c d
    simp only [split_gap, hp, hm, OFFSET_BITS, Bool.false_eq_true, if_false]
  obtain ⟨z1, _, _⟩ := copy_multibyte_loop_spec macbuf (256 - S * g)
    (split_embed_loop cfg g macbuf S P bitstring_init bitstring_init 256).1
    (bitstring_skip bitstring_init (S * (g + 1) + 1)) (bitstring_skip bitstring_init (S * g))
    (256 - S * g) (skip_shift_le _ _) (skip_shift_le _ _) (le_refl _) (by omega)
  rw [skip_pos bitstring_init _ (by simp only [UINT_RANGE, hi0]; omega),
    skip_pos bitstring_init _ (by simp only [UINT_RANGE, hi0]; omega), hip] at z1
  simp only [split_embed, hseg, hSd, hm, MAX_MAC_BITS, hgap, l2, l3, l4, _bstr_copy_multibyte,
    Bool.false_eq_true, if_false]
  rw [skip_skip bitstring_init _ 1 (by simp only [UINT_RANGE, hi0]; omega)]
  rw [z1 i, l1 i, hip]
  simp only [Nat.zero_add]
  cases hs : split_src g S 0 0 i with
  | some j =>
    have hz : split_zone g S 0 i = true := by
      rw [← split_src_isSome g S 0 0 i, hs]; rfl
    obtain ⟨t, ht, h1, h2⟩ := (split_zone_iff g S 0 i).mp hz
    have e5 : (t + 1) * (g + 1) ≤ S * (g + 1) := Nat.mul_le_mul_right _ (by omega)
    have hr : ¬ (S * (g + 1) + 1 ≤ i ∧ i < S * (g + 1) + 1 + (256 - S * g)) := by omega
    simp only [hr, if_false]
  | none =>
    simp only []
    split_ifs with hr
    · rfl
    · rfl

end RePeL
namespace RePeL

/-- C20: restore determinism of the shipped parsers. For the Modbus/TCP parser
(12 TID bits and the Unit ID reused, client or server, EMBED or AUTHENTICATE
mode), the fake parser and the split parser (one-bit-gap mode): from the same
parser state, two packets that agree in every bit that is no carrier bit of
the parser are restored to the same packet, byte for byte. -/
theorem parsers_restore_deterministic :
    (∀ (cfg : ModbusConfig) (st : ModbusTCPState) (P1 P2 : Buffer) (len : Nat)
        (mode : RepelMode),
      cfg.MODBUS_TCP_REUSE_TID_BITS = 12 → cfg.MODBUS_TCP_REUSE_UNIT_ID = true →
      (∀ i, modbus_carrier i = none → getBit P1 i = getBit P2 i) →
      (modbus_tcp_restore cfg st P1 len mode).2 = (modbus_tcp_restore cfg st P2 len mode).2) ∧
    (∀ (st : Unit) (P1 P2 : Buffer) (pktlen : Nat) (mode : RepelMode),
      pktlen < 65536 →
      (∀ i, ¬ fake_carrier pktlen i → getBit P1 i = getBit P2 i) →
      (fake_restore st P1 pktlen mode).2 = (fake_restore st P2 pktlen mode).2) ∧
    (∀ (cfg : SplitConfig) (st : SplitState) (P1 P2 : Buffer) (len : Nat) (mode : RepelMode),
      cfg.EVAL_PKTALIGN = false → cfg.EVAL_MACALIGN = false →
      st.split_parser_mac_splits < 65536 →
      (∀ i, ¬ split_carrier st.split_parser_mac_splits i → getBit P1 i = getBit P2 i) →
      (split_restore cfg st P1 len mode).2 = (split_restore cfg st P2 len mode).2) :=
  ⟨fun cfg st P1 P2 len mode hb hu h =>
      modbus_restore_deterministic cfg hb hu st P1 P2 len mode h,
    fun st P1 P2 pktlen mode h16 h => fake_restore_deterministic st P1 P2 pktlen mode h16 h,
    fun cfg st P1 P2 len mode hp _ hS h =>
      split_restore_deterministic cfg hp st hS P1 P2 len mode h⟩

theorem parsers_restore_deterministic_witness :
    modbus_carrier 3 = some 3 ∧ getBit (flip_bit modbus_request 3) 3 ≠ getBit modbus_request 3 ∧
    (modbus_tcp_restore {} modbus_fresh_state (flip_bit modbus_request 3) 12 RepelMode.EMBED).2
      = (modbus_tcp_restore {} modbus_fresh_state modbus_request 12 RepelMode.EMBED).2 ∧
    (modbus_tcp_restore {} modbus_fresh_state (flip_bit modbus_request 3) 12
        RepelMode.AUTHENTICATE).2
      = (modbus_tcp_restore {} modbus_fresh_state modbus_request 12 RepelMode.AUTHENTICATE).2 ∧
    fake_carrier 12 5 ∧
    (fake_restore () (flip_bit modbus_request 5) 12 RepelMode.EMBED).2
      = (fake_restore () modbus_request 12 RepelMode.EMBED).2 ∧
    split_carrier 3 66 ∧
    (split_restore {} ⟨3, allOnes⟩ (flip_bit allOnes 66) 64 RepelMode.EMBED).2
      = (split_restore {} ⟨3, allOnes⟩ allOnes 64 RepelMode.EMBED).2 :=
  ⟨by decide, by decide,
    parsers_restore_deterministic.1 {} modbus_fresh_state (flip_bit modbus_request 3)
      modbus_request 12 RepelMode.EMBED rfl rfl (fun i hi => by
        rw [getBit_flip_bit, if_neg (fun h => by rw [h] at hi; exact absurd hi (by decide))]),
    parsers_restore_deterministic.1 {} modbus_fresh_state (flip_bit modbus_request 3)
      modbus_request 12 RepelMode.AUTHENTICATE rfl rfl (fun i hi => by
        rw [getBit_flip_bit, if_neg (fun h => by rw [h] at hi; exact absurd hi (by decide))]),
    by decide,
    parsers_restore_deterministic.2.1 () (flip_bit modbus_request 5) modbus_request 12
      RepelMode.EMBED (by decide) (fun i hi => by
        rw [getBit_flip_bit, if_neg (fun h => by rw [h] at hi; exact absurd (by decide) hi)]),
    Or.inl ⟨1, by decide, by decide, by decide⟩,
    parsers_restore_deterministic.2.2 {} ⟨3, allOnes⟩ (flip_bit allOnes 66) allOnes 64
      RepelMode.EMBED rfl rfl (by decide) (fun i hi => by
        rw [getBit_flip_bit, if_neg (fun h => by
          rw [h] at hi
          exact hi (Or.inl ⟨1, by decide, by decide, by decide⟩))])⟩

end RePeL
namespace RePeL

/-! ## The parse result before and after an embed -/

/-- The packet that a successful `repel_embed` leaves is what `parser.embed`
makes of the restored packet, for some MAC buffer. -/
theorem embed_packet {σ μ : Type} (con : RepelConnection σ μ) (P : Buffer) (size : Nat)
    (h : (repel_embed con P size).2.2 ≠ 0) :
    ∃ mac, (repel_embed con P size).2.1
      = (con.parser.embed
          (con.parser.restore con.parser_state P
            (bufsize (con.parser.parse con.parser_state P size RepelMode.EMBED).pktlen)
            RepelMode.EMBED).1
          (con.parser.restore con.parser_state P
            (bufsize (con.parser.parse con.parser_state P size RepelMode.EMBED).pktlen)
            RepelMode.EMBED).2
          (bufsize (con.parser.parse con.parser_state P size RepelMode.EMBED).pktlen) mac).2 := by
  by_cases h1 : (con.parser.parse con.parser_state P size RepelMode.EMBED).pktlen ≠ (size : Int) ∨
      (con.parser.parse con.parser_state P size RepelMode.EMBED).embed_bits = 0
  · simp [repel_embed, h1] at h
  · cases hn : (con.parser.parse con.parser_state P size RepelMode.EMBED).packet_has_nonce
    · by_cases h2 : (con.parser.parse con.parser_state P size RepelMode.EMBED).embed_bits
          ≤ con.nonce_embed_bits
      · simp [repel_embed, h1, hn, h2] at h
      · simp only [repel_embed, h1, if_false, hn, Bool.not_false, if_true, h2]
        exact ⟨_, rfl⟩
    · simp only [repel_embed, h1, if_false, hn, Bool.not_true, Bool.false_eq_true]
      exact ⟨_, rfl⟩

/-- The Modbus/TCP parser (default carrier layout, any role on either side)
reports for a packet after a successful embed the carrier bits and the nonce
flag that it reported before the embed, whatever the MAC module is. -/
theorem modbus_parse_stable {μ μ' : Type} (cfgA cfgB : ModbusConfig)
    (hbA : cfgA.MODBUS_TCP_REUSE_TID_BITS = 12) (huA : cfgA.MODBUS_TCP_REUSE_UNIT_ID = true)
    (hbB : cfgB.MODBUS_TCP_REUSE_TID_BITS = 12) (huB : cfgB.MODBUS_TCP_REUSE_UNIT_ID = true)
    (A : RepelConnection ModbusTCPState μ) (B : RepelConnection ModbusTCPState μ')
    (hA : A.parser = modbus_tcp_parser_module cfgA)
    (hB : B.parser = modbus_tcp_parser_module cfgB) (P : Buffer) (size : Nat)
    (h : (repel_embed A P size).2.2 ≠ 0) :
    (auth_parse B (repel_embed A P size).2.1 size).embed_bits
      = (A.parser.parse A.parser_state P size RepelMode.EMBED).embed_bits ∧
    (auth_parse B (repel_embed A P size).2.1 size).packet_has_nonce
      = (A.parser.parse A.parser_state P size RepelMode.EMBED).packet_has_nonce := by
  obtain ⟨mac, he⟩ := embed_packet A P size h
  obtain ⟨_, hnz⟩ := embed_return A P size
  obtain ⟨h1, h2, _⟩ := hnz.mp h
  rw [hA] at h1 h2
  simp only [modbus_tcp_parser_module] at h1 h2
  have hspecA := modbus_parse_eq cfgA A.parser_state P size RepelMode.EMBED
  have hlenA : ¬ (size < 6) ∧ ¬ (size < 256 * P.read 4 + P.read 5 + 6) := by
    constructor
    · intro hlt
      rw [hspecA, if_pos hlt] at h2
      exact h2 rfl
    · intro hlt
      by_cases h6 : size < 6
      · rw [hspecA, if_pos h6] at h2
        exact h2 rfl
      · rw [hspecA, if_neg h6, if_pos hlt] at h2
        exact h2 rfl
  have hpa : modbus_tcp_parse cfgA A.parser_state P size RepelMode.EMBED
      = { pktlen := ((256 * P.read 4 + P.read 5 + 6 : Nat) : Int),
          embed_bits := modbus_embed_bits cfgA, packet_has_nonce := false } := by
    rw [hspecA, if_neg hlenA.1, if_neg hlenA.2]
  rw [he, hA]
  simp only [modbus_tcp_parser_module, auth_parse, hB]
  generalize (bufsize (modbus_tcp_parse cfgA A.parser_state P size RepelMode.EMBED).pktlen) = len
  have hlen : bitsVal (modbus_tcp_embed cfgA
      (modbus_tcp_restore cfgA A.parser_state P len RepelMode.EMBED).1
      (modbus_tcp_restore cfgA A.parser_state P len RepelMode.EMBED).2 len mac).2 32 16
      = bitsVal P 32 16 := by
    apply bitsVal_congr
    intro i i1 i2
    rw [getBit_embed cfgA hbA huA]
    have hc : modbus_carrier i = none := by
      simp only [modbus_carrier]
      split_ifs <;> first | rfl | omega
    rw [hc]
    exact (restore_canonical cfgA hbA huA A.parser_state P len RepelMode.EMBED).2 i (by omega)
      (by omega)
  have hpb := modbus_parse_complete cfgB B.parser_state (modbus_tcp_embed cfgA
      (modbus_tcp_restore cfgA A.parser_state P len RepelMode.EMBED).1
      (modbus_tcp_restore cfgA A.parser_state P len RepelMode.EMBED).2 len mac).2 size
      RepelMode.AUTHENTICATE (by rw [hlen, bitsVal_length]; omega)
  rw [hpb, hpa, modbus_embed_bits_default cfgA hbA huA, modbus_embed_bits_default cfgB hbB huB]
  exact ⟨rfl, rfl⟩

end RePeL
namespace RePeL

/-! ## Canonical form after `modbus_tcp_restore` -/

/-- A byte from its eight bits. -/
theorem read_eq_of_bits (m : Buffer) (a v : Nat) (hv : v < 256)
    (h : ∀ t, t < 8 → getBit m (8 * a + t) = v.testBit (7 - t)) : m.read a = v := by
  apply Nat.eq_of_testBit_eq
  intro k
  by_cases hk : k < 8
  · have := h (7 - k) (by omega)
    simp only [getBit] at this
    have e1 : (8 * a + (7 - k)) / 8 = a := by omega
    have e2 : 7 - (8 * a + (7 - k)) % 8 = k := by omega
    have e3 : 7 - (7 - k) = k := by omega
    rw [e1, e2, e3] at this
    exact this
  · rw [testBit_read_high m a k (by omega)]
    symm
    apply Nat.testBit_lt_two_pow
    calc v < 256 := hv
      _ = 2 ^ 8 := by norm_num
      _ ≤ 2 ^ k := Nat.pow_le_pow_right (by norm_num) (by omega)

/-- C21: the packet that `modbus_tcp_restore` leaves without TID remap
(AUTHENTICATE mode, or the server role), with 12 TID bits and the Unit ID
reused: the upper 12 bits of the TID are zero and its lower 4 bits unchanged
(byte 0 is 0, byte 1 keeps its low nibble), PID is `00 00`, Unit ID is `FF`,
the Length field and every byte from offset 7 on are unchanged, and so is the
parser state. -/
theorem modbus_restore_canonical_form (cfg : ModbusConfig)
    (hb : cfg.MODBUS_TCP_REUSE_TID_BITS = 12) (hu : cfg.MODBUS_TCP_REUSE_UNIT_ID = true)
    (st : ModbusTCPState) (P : Buffer) (len : Nat) (mode : RepelMode)
    (hm : mode = RepelMode.AUTHENTICATE ∨ cfg.MODBUS_TCP_IS_CLIENT = false) :
    (∀ i, i < 12 → getBit (modbus_tcp_restore cfg st P len mode).2 i = false) ∧
    (∀ i, 12 ≤ i → i < 16 →
      getBit (modbus_tcp_restore cfg st P len mode).2 i = getBit P i) ∧
    (modbus_tcp_restore cfg st P len mode).2.read 0 = 0 ∧
    (modbus_tcp_restore cfg st P len mode).2.read 1 = P.read 1 % 16 ∧
    (modbus_tcp_restore cfg st P len mode).2.read 2 = 0 ∧
    (modbus_tcp_restore cfg st P len mode).2.read 3 = 0 ∧
    (modbus_tcp_restore cfg st P len mode).2.read 4 = P.read 4 ∧
    (modbus_tcp_restore cfg st P len mode).2.read 5 = P.read 5 ∧
    (modbus_tcp_restore cfg st P len mode).2.read 6 = 255 ∧
    (∀ a, 7 ≤ a → (modbus_tcp_restore cfg st P len mode).2 a = P a) ∧
    (modbus_tcp_restore cfg st P len mode).1 = st := by
  have h := getBit_restore cfg hb hu st P len mode hm
  have hbyte : ∀ a, (4 ≤ a ∧ a < 6) ∨ 7 ≤ a → (modbus_tcp_restore cfg st P len mode).2 a = P a := by
    intro a ha
    apply byte_eq_of_getBit
    intro i hi
    rw [h i]
    have a1 : ¬ (i < 12) := by omega
    have a2 : ¬ (16 ≤ i ∧ i < 32) := by omega
    have a3 : ¬ (48 ≤ i ∧ i < 56) := by omega
    simp only [a1, a2, a3, if_false]
  refine ⟨fun i hi => ?_, fun i h1 h2 => ?_, ?_, ?_, ?_, ?_, ?_, ?_, ?_, ?_, ?_⟩
  · rw [h i, if_pos hi]
  · rw [h i]
    have a1 : ¬ (i < 12) := by omega
    have a2 : ¬ (16 ≤ i ∧ i < 32) := by omega
    have a3 : ¬ (48 ≤ i ∧ i < 56) := by omega
    simp only [a1, a2, a3, if_false]
  · apply read_eq_of_bits _ 0 0 (by decide)
    intro t ht
    rw [h]
    have a1 : 8 * 0 + t < 12 := by omega
    simp only [a1, if_true, Nat.zero_testBit]
  · apply read_eq_of_bits _ 1 _ (by omega)
    intro t ht
    rw [h]
    have hmod : (P.read 1 % 16).testBit (7 - t)
        = (decide (7 - t < 4) && (P.read 1).testBit (7 - t)) := by
      have e16 : (16 : Nat) = 2 ^ 4 := by norm_num
      rw [e16, Nat.testBit_mod_two_pow]
    rw [hmod]
    by_cases h4 : t < 4
    · have a1 : 8 * 1 + t < 12 := by omega
      have a2 : ¬ (7 - t < 4) := by omega
      simp only [a1, if_true, a2, decide_False, Bool.false_and]
    · have a1 : ¬ (8 * 1 + t < 12) := by omega
      have a2 : ¬ (16 ≤ 8 * 1 + t ∧ 8 * 1 + t < 32) := by omega
      have a3 : ¬ (48 ≤ 8 * 1 + t ∧ 8 * 1 + t < 56) := by omega
      have a4 : 7 - t < 4 := by omega
      simp only [a1, a2, a3, if_false, a4, decide_True, Bool.true_and, getBit]
      have e1 : (8 * 1 + t) / 8 = 1 := by omega
      have e2 : (8 * 1 + t) % 8 = t := by omega
      rw [e1, e2]
  · apply read_eq_of_bits _ 2 0 (by decide)
    intro t ht
    rw [h]
    have a1 : ¬ (8 * 2 + t < 12) := by omega
    have a2 : 16 ≤ 8 * 2 + t ∧ 8 * 2 + t < 32 := by omega
    simp only [a1, a2, and_self, if_true, if_false, Nat.zero_testBit]
  · apply read_eq_of_bits _ 3 0 (by decide)
    intro t ht
    rw [h]
    have a1 : ¬ (8 * 3 + t < 12) := by omega
    have a2 : 16 ≤ 8 * 3 + t ∧ 8 * 3 + t < 32 := by omega
    simp only [a1, a2, and_self, if_true, if_false, Nat.zero_testBit]
  · exact congrArg Fin.val (hbyte 4 (Or.inl (by omega)))
  · exact congrArg Fin.val (hbyte 5 (Or.inl (by omega)))
  · apply read_eq_of_bits _ 6 255 (by decide)
    intro t ht
    rw [h]
    have a1 : ¬ (8 * 6 + t < 12) := by omega
    have a2 : ¬ (16 ≤ 8 * 6 + t ∧ 8 * 6 + t < 32) := by omega
    have a3 : 48 ≤ 8 * 6 + t ∧ 8 * 6 + t < 56 := by omega
    simp only [a1, a2, a3, and_self, if_true, if_false]
    exact (testBit_255_lt _ (by omega)).symm
  · exact fun a ha => hbyte a (Or.inr ha)
  · rw [modbus_restore_eq cfg hb hu st P len mode hm]

theorem modbus_restore_canonical_form_witness :
    ((modbus_tcp_restore {} modbus_fresh_state (example_embedded 0) 12
      RepelMode.AUTHENTICATE).2.take 12) = [0, 0, 0, 0, 0, 6, 255, 3, 0, 107, 0, 3] ∧
    (example_embedded 0).take 12 = [70, 96, 185, 11, 0, 6, 88, 3, 0, 107, 0, 3] ∧
    (modbus_tcp_restore {} modbus_fresh_state (example_embedded 0) 12
      RepelMode.AUTHENTICATE).2.read 1 = (example_embedded 0).read 1 % 16 ∧
    (∀ a, 7 ≤ a → (modbus_tcp_restore { MODBUS_TCP_IS_CLIENT := false } modbus_fresh_state
      (example_embedded 0) 12 RepelMode.EMBED).2 a = example_embedded 0 a) :=
  ⟨by decide, by decide,
    (modbus_restore_canonical_form {} rfl rfl modbus_fresh_state (example_embedded 0) 12
      RepelMode.AUTHENTICATE (Or.inl rfl)).2.2.2.1,
    (modbus_restore_canonical_form { MODBUS_TCP_IS_CLIENT := false } rfl rfl modbus_fresh_state
      (example_embedded 0) 12 RepelMode.EMBED (Or.inr rfl)).2.2.2.2.2.2.2.2.2.1⟩

end RePeL
namespace RePeL

/-! ## The TID map -/

/-- What the loop of `_map_tid` returns: the first cell from `i0` on that is
free and is not the reserved one. -/
theorem map_tid_loop_some (st : ModbusTCPState) (tid ir n i0 : Nat) (st' : ModbusTCPState)
    (i : Nat) (h : map_tid_loop st tid ir n i0 = some (st', i)) :
    i0 ≤ i ∧ i < i0 + n ∧ i ≠ ir ∧ st.transaction_map.getD i 0 = 0 ∧
    (∀ j, i0 ≤ j → j < i → ¬ (j ≠ ir ∧ st.transaction_map.getD j 0 = 0)) ∧
    st' = (if tid = 0 then { st with tid0_index := i }
      else { st with transaction_map := st.transaction_map.set i tid }) := by
  induction n generalizing i0 with
  | zero => simp [map_tid_loop] at h
  | succ n ih =>
    simp only [map_tid_loop] at h
    by_cases hc : i0 ≠ ir ∧ st.transaction_map.getD i0 0 = 0
    · rw [if_pos hc] at h
      by_cases ht : tid = 0
      · simp only [ht, if_true, Option.some.injEq, Prod.mk.injEq] at h
        obtain ⟨h1, h2⟩ := h
        subst h2
        exact ⟨le_refl _, by omega, hc.1, hc.2, fun j a b => by omega, by simp [ht, h1]⟩
      · simp only [ht, if_false, Option.some.injEq, Prod.mk.injEq] at h
        obtain ⟨h1, h2⟩ := h
        subst h2
        exact ⟨le_refl _, by omega, hc.1, hc.2, fun j a b => by omega, by simp [ht, h1]⟩
    · rw [if_neg hc] at h
      obtain ⟨a1, a2, a3, a4, a5, a6⟩ := ih (i0 + 1) h
      refine ⟨by omega, by omega, a3, a4, fun j b1 b2 => ?_, a6⟩
      by_cases hj : j = i0
      · subst hj; exact hc
      · exact a5 j (by omega) b2

/-- The loop of `_map_tid` finds a cell when one from `i0` on is free and not
the reserved one. -/
theorem map_tid_loop_finds (st : ModbusTCPState) (tid ir n i0 : Nat)
    (h : ∃ j, i0 ≤ j ∧ j < i0 + n ∧ j ≠ ir ∧ st.transaction_map.getD j 0 = 0) :
    ∃ r, map_tid_loop st tid ir n i0 = some r := by
  induction n generalizing i0 with
  | zero =>
    obtain ⟨j, h1, h2, _⟩ := h
    omega
  | succ n ih =>
    simp only [map_tid_loop]
    by_cases hc : i0 ≠ ir ∧ st.transaction_map.getD i0 0 = 0
    · rw [if_pos hc]
      by_cases ht : tid = 0
      · rw [if_pos ht]
        exact ⟨_, rfl⟩
      · rw [if_neg ht]
        exact ⟨_, rfl⟩
    · rw [if_neg hc]
      obtain ⟨j, h1, h2, h3, h4⟩ := h
      apply ih (i0 + 1)
      refine ⟨j, ?_, by omega, h3, h4⟩
      by_cases hj : j = i0
      · subst hj; exact absurd ⟨h3, h4⟩ hc
      · omega

/-- The TID remap round trip while no slot is reserved for TID 0: with a free
slot in the map, `_map_tid` stores `t` in a free slot `i` below the map length
(or reserves `i` for `t = 0`), and `_unmap_tid` on `i` gives back `t` and
leaves the map and `tid0_index` as they were before the two calls. -/
theorem map_unmap_round_trip (cfg : ModbusConfig) (st : ModbusTCPState) (t : Nat)
    (hlen : st.transaction_map.length = tid_map_len cfg)
    (h0 : st.tid0_index = tid_map_len cfg)
    (hfree : ∃ j, j < tid_map_len cfg ∧ st.transaction_map.getD j 0 = 0) :
    (_map_tid cfg st t).2 < tid_map_len cfg ∧
    st.transaction_map.getD (_map_tid cfg st t).2 0 = 0 ∧
    (_unmap_tid cfg (_map_tid cfg st t).1 (_map_tid cfg st t).2).2 = t ∧
    (_unmap_tid cfg (_map_tid cfg st t).1 (_map_tid cfg st t).2).1 = st := by
  have hir : ¬ (st.tid0_index < tid_map_len cfg) := by omega
  obtain ⟨j, hj1, hj2⟩ := hfree
  obtain ⟨r, hr⟩ := map_tid_loop_finds st t st.tid0_index (tid_map_len cfg) 0
    ⟨j, Nat.zero_le _, by omega, by omega, hj2⟩
  obtain ⟨a1, a2, a3, a4, _, a6⟩ := map_tid_loop_some st t st.tid0_index (tid_map_len cfg) 0
    r.1 r.2 hr
  have hm : _map_tid cfg st t = r := by
    simp only [_map_tid, hir, if_false, hr]
  rw [hm]
  have hi : r.2 < st.transaction_map.length := by omega
  refine ⟨by omega, a4, ?_, ?_⟩
  · by_cases ht : t = 0
    · simp only [ht, if_true] at a6
      simp only [_unmap_tid, a6, a4, if_true, ht]
    · simp only [ht, if_false] at a6
      have hg : (st.transaction_map.set r.2 t).getD r.2 0 = t := by
        rw [List.getD_eq_getElem?_getD, List.getElem?_set_self hi]
        rfl
      simp only [_unmap_tid, a6, hg, ht, if_false]
  · by_cases ht : t = 0
    · simp only [ht, if_true] at a6
      simp only [_unmap_tid, a6, a4, if_true]
      cases st with
      | mk m z =>
        simp only at h0
        simp only [h0]
    · simp only [ht, if_false] at a6
      have hg : (st.transaction_map.set r.2 t).getD r.2 0 = t := by
        rw [List.getD_eq_getElem?_getD, List.getElem?_set_self hi]
        rfl
      simp only [_unmap_tid, a6, hg, ht, if_false, List.set_set]
      have hs : st.transaction_map.set r.2 0 = st.transaction_map := by
        apply List.ext_getElem?
        intro k
        by_cases hk : k = r.2
        · subst hk
          rw [List.getElem?_set_self hi]
          have := a4
          rw [List.getD_eq_getElem?_getD] at this
          rw [List.getElem?_eq_getElem hi] at this ⊢
          simp only [Option.getD_some] at this
          rw [this]
        · rw [List.getElem?_set_ne (fun h => hk h.symm)]
      cases st with
      | mk m z =>
        simp only at hs
        simp only [hs]

/-- C22: with a request of Transaction Identifier 0 outstanding, `_map_tid` on
the TID `0x1234` returns the slot reserved for TID 0 and stores nothing, so
that the following `_unmap_tid` on that slot returns 0, not `0x1234`; and the
reply to the second request gets, after `modbus_tcp_restore` in EMBED mode and
`modbus_tcp_verified`, the Transaction Identifier `00 00` in place of
`12 34`. -/
theorem map_tid_reserved_slot_reused :
    tid0_pending_state = { transaction_map := List.replicate 16 0, tid0_index := 0 } ∧
    (∃ j, j < 16 ∧ tid0_pending_state.transaction_map.getD j 0 = 0 ∧
      j ≠ tid0_pending_state.tid0_index) ∧
    _map_tid {} tid0_pending_state 0x1234 = (tid0_pending_state, 0) ∧
    (_unmap_tid {} (_map_tid {} tid0_pending_state 0x1234).1
      (_map_tid {} tid0_pending_state 0x1234).2).2 = 0 ∧
    ((modbus_tcp_restore {} tid0_pending_state (modbus_request_tid 0x12 0x34) 12
      RepelMode.EMBED).2.take 2) = [0x00, 0x00] ∧
    ((modbus_tcp_verified {}
      (modbus_tcp_restore {} tid0_pending_state (modbus_request_tid 0x12 0x34) 12
        RepelMode.EMBED).1
      (modbus_tcp_restore {} tid0_pending_state (modbus_request_tid 0x12 0x34) 12
        RepelMode.EMBED).2 12).2.take 2) = [0x00, 0x00] := by
  refine ⟨by decide, ⟨1, by decide, by decide, by decide⟩, by decide, by decide, by decide,
    by decide⟩

end RePeL
namespace RePeL

/-! ## The HMAC adapter -/

/-- C23: for `bits ≤ 256`, `hmac_verify` returns `+bits` if and only if the
first `bits` bits of the candidate are the first `bits` bits of the digest of
the packet bytes (followed by the nonce bytes when given) under key slot 1, and
`-bits` otherwise; the result depends on the first `bits` bits of the candidate
only; and the buffer returned by `hmac_sign` of a peer whose key slot 0 is this
key slot 1, for the same packet, nonce and bit count, is accepted with
`+bits`. -/
theorem hmac_verify_spec (H : HmacFn) (data : HMacData) (packet : Buffer) (pktlen : Nat)
    (mac : Buffer) (bits : Nat) (nb : Option (List Nat)) (hbits : bits ≤ 256) :
    ((hmac_verify H data packet pktlen mac bits nb).2 = (bits : Int) ↔
      ∀ j, j < bits → getBit mac j
        = getBit (hmac_digest H (data.key HMAC_KEYSLOT_RECV) (hmac_message packet pktlen nb)) j) ∧
    ((¬ ∀ j, j < bits → getBit mac j
        = getBit (hmac_digest H (data.key HMAC_KEYSLOT_RECV) (hmac_message packet pktlen nb)) j) →
      (hmac_verify H data packet pktlen mac bits nb).2 = -(bits : Int)) ∧
    (∀ mac' : Buffer, (∀ j, j < bits → getBit mac' j = getBit mac j) →
      (hmac_verify H data packet pktlen mac' bits nb).2
        = (hmac_verify H data packet pktlen mac bits nb).2) ∧
    (∀ (peer : HMacData) (extrabits : Nat),
      peer.key HMAC_KEYSLOT_SEND = data.key HMAC_KEYSLOT_RECV →
      (hmac_verify H data packet pktlen
        (hmac_sign H peer packet pktlen bits extrabits nb).2 bits nb).2 = (bits : Int)) := by
  have h := hmac_verify_iff H data packet pktlen mac bits nb hbits
  refine ⟨⟨fun hv => ?_, h.1⟩, h.2, fun mac' hm => ?_, fun peer extrabits hkey => ?_⟩
  · by_contra hne
    have hn := h.2 hne
    have hb0 : bits = 0 := by omega
    apply hne
    intro j hj
    omega
  · have h' := hmac_verify_iff H data packet pktlen mac' bits nb hbits
    by_cases hmt : ∀ j, j < bits → getBit mac j
        = getBit (hmac_digest H (data.key HMAC_KEYSLOT_RECV) (hmac_message packet pktlen nb)) j
    · rw [h.1 hmt, h'.1 (fun j hj => by rw [hm j hj]; exact hmt j hj)]
    · rw [h.2 hmt, h'.2 (fun hall => hmt (fun j hj => by rw [← hm j hj]; exact hall j hj))]
  · apply (hmac_verify_iff H data packet pktlen _ bits nb hbits).1
    intro j hj
    rw [hmac_sign_buffer, hkey]
    exact getBit_verify_buffer H _ _ _ _ j (by omega)

theorem hmac_verify_spec_witness :
    (hmac_verify sum_hmac receiver_mac_state modbus_request 12
      (hmac_sign sum_hmac sender_mac_state modbus_request 12 33 3
        (some (netendian_nonce 5))).2 33 (some (netendian_nonce 5))).2 = 33 ∧
    (hmac_verify sum_hmac receiver_mac_state modbus_request 12
      (hmac_sign sum_hmac sender_mac_state modbus_request 12 33 3
        (some (netendian_nonce 6))).2 33 (some (netendian_nonce 5))).2 = -33 :=
  ⟨(hmac_verify_spec sum_hmac receiver_mac_state modbus_request 12 allOnes 33
      (some (netendian_nonce 5)) (by decide)).2.2.2 sender_mac_state 3 (by decide),
    (hmac_verify_spec sum_hmac receiver_mac_state modbus_request 12
      (hmac_sign sum_hmac sender_mac_state modbus_request 12 33 3
        (some (netendian_nonce 6))).2 33 (some (netendian_nonce 5)) (by decide)).2.1
      (by decide)⟩

end RePeL
namespace RePeL

/-! ## The null MAC module -/

theorem fakemac_loop_iff (mac : Buffer) (n i : Nat) :
    fakemac_loop mac n i = true ↔ ∀ a, i ≤ a → a < i + n → mac.read a = 0xff := by
  induction n generalizing i with
  | zero =>
    simp only [fakemac_loop, true_iff]
    intro a h1 h2
    omega
  | succ n ih =>
    simp only [fakemac_loop]
    by_cases h : mac.read i = 0xff
    · simp only [h, ne_eq, not_true_eq_false, if_false]
      rw [ih (i + 1)]
      constructor
      · intro hall a h1 h2
        by_cases ha : a = i
        · subst ha; exact h
        · exact hall a (by omega) (by omega)
      · intro hall a h1 h2
        exact hall a (by omega) (by omega)
    · simp only [h, ne_eq, not_false_eq_true, if_true, Bool.false_eq_true, false_iff]
      intro hall
      exact h (hall i (le_refl _) (by omega))

/-- The buffer that `fakemac_sign` returns: its first
`ceil((macbits + extrabits) / 8)` bytes are `0xFF`, the others as before. -/
theorem fakemac_sign_bytes (self packet : Buffer) (pktlen macbits extrabits : Nat)
    (nb : Option (List Nat)) (a : Nat) :
    (fakemac_sign self packet pktlen macbits extrabits nb).2.read a
      = if a < ceil_bits_to_bytes (macbits + extrabits) then 0xff else self.read a := by
  simp only [fakemac_sign, memset, Buffer.read]
  split_ifs <;> rfl

/-- What `fakemac_verify` returns: `+bits` for a bit count that is a multiple
of 8 when the first `bits / 8` bytes of the candidate are `0xFF`, and `-bits`
in every other case, so for every bit count that is not a multiple of 8. -/
theorem fakemac_verify_eq (self packet : Buffer) (pktlen : Nat) (mac : Buffer) (bits : Nat)
    (nb : Option (List Nat)) (h16 : bits < 32768) :
    (fakemac_verify self packet pktlen mac bits nb).2 =
      if bits % 8 = 0 ∧ ∀ a, a < bits / 8 → mac.read a = 0xff then (bits : Int)
      else -(bits : Int) := by
  have e1 : bits / 8 % 65536 = bits / 8 := by omega
  have e2 : bits % 8 % 65536 = bits % 8 := by omega
  have hp : int16 (bits : Int) = bits := int16_of_small bits h16
  have hn : int16 (-(bits : Int)) = -(bits : Int) := by simp only [int16]; omega
  have hl := fakemac_loop_iff mac (bits / 8) 0
  simp only [Nat.zero_add, Nat.zero_le, true_implies] at hl
  simp only [fakemac_verify, e1, e2, hp, hn]
  by_cases hloop : fakemac_loop mac (bits / 8) 0 = true
  · have hall := hl.mp hloop
    simp only [hloop, if_true]
    by_cases ho : bits % 8 > 0
    · have hmask : (0xff >>> (bits % 8)) % 256 ≠ 0xff := by
        have h8 : bits % 8 < 8 := Nat.mod_lt _ (by decide)
        have : bits % 8 = 1 ∨ bits % 8 = 2 ∨ bits % 8 = 3 ∨ bits % 8 = 4 ∨ bits % 8 = 5 ∨
            bits % 8 = 6 ∨ bits % 8 = 7 := by omega
        rcases this with h | h | h | h | h | h | h <;> rw [h] <;> decide
      have hor : (mac.read (bits / 8) ||| 1) ≠ 0 := by
        intro hz
        have := congrArg (fun x => x.testBit 0) hz
        simp at this
      have hz : ¬ (bits % 8 = 0 ∧ ∀ a, a < bits / 8 → mac.read a = 0xff) := by omega
      simp only [ho, if_true, hmask, ne_eq, not_false_eq_true, hor, hz, if_false]
    · have hz : bits % 8 = 0 ∧ ∀ a, a < bits / 8 → mac.read a = 0xff := ⟨by omega, hall⟩
      rw [if_neg ho, if_pos hz]
  · have hz : ¬ (bits % 8 = 0 ∧ ∀ a, a < bits / 8 → mac.read a = 0xff) :=
      fun h => hloop (hl.mpr h.2)
    simp only [hloop, Bool.false_eq_true, if_false, hz]

/-- C24: `fakemac_verify` on a candidate of `0xFF` bytes returns `-33` for 33
bits, `+32` for 32 bits. With the Modbus/TCP parser and `embed_nonce_bits = 3`
the null MAC module signs 33 bits, `repel_embed` returns 33, and
`repel_authenticate` on the embedded packet calls `on_auth_failed`; with
`embed_nonce_bits = 4` it calls `on_auth_success` with protection level 32. -/
theorem fakemac_verify_odd_bits :
    (fakemac_verify allOnes modbus_request 12 allOnes 33 none).2 = -33 ∧
    (fakemac_verify allOnes modbus_request 12 allOnes 32 none).2 = 32 ∧
    (repel_embed (modbus_fakemac_connection 3) modbus_request 12).2.2 = 33 ∧
    ((repel_authenticate (modbus_fakemac_connection 3)
      (repel_embed (modbus_fakemac_connection 3) modbus_request 12).2.1 12 true true 0
      ⟨0, 0, false⟩).callback.map fun c => (c.kind, c.result.protection_level))
      = some (CallbackKind.on_auth_failed, 33) ∧
    ((repel_authenticate (modbus_fakemac_connection 4)
      (repel_embed (modbus_fakemac_connection 4) modbus_request 12).2.1 12 true true 0
      ⟨0, 0, false⟩).callback.map fun c => (c.kind, c.result.protection_level))
      = some (CallbackKind.on_auth_success, 32) := by
  decide

end RePeL
namespace RePeL

/-! ## The fake parser -/

theorem fake_carrier_iff (B i : Nat) : fake_carrier B i ↔ i < min (8 * B) 256 := by
  simp only [fake_carrier, fake_parse, MAX_MAC_BITS]
  split_ifs <;> omega

theorem getBit_memset_zero (m : Buffer) (n i : Nat) :
    getBit (memset m 0 n) i = if i < 8 * n then false else getBit m i := by
  simp only [getBit, memset, Buffer.read]
  by_cases h : i / 8 < n
  · have h2 : i < 8 * n := by omega
    simp only [h, h2, if_true]
    simp [u8]
  · have h2 : ¬ i < 8 * n := by omega
    simp only [h, h2, if_false]

/-- C26: the fake parser on a buffer of length `B`. `fake_parse` returns
`pktlen = B`, `embed_bits = min (8 * B) 256` and `packet_has_nonce = false`;
`fake_embed` writes the first `embed_bits` bits of the MAC buffer over the
first `embed_bits` bits of the packet and leaves every other bit of the packet
as it was; `fake_extract` on the result leaves the packet as it is and returns
a buffer with those same bits; `fake_restore` sets those bits to zero and
leaves every other bit as it was. -/
theorem fake_parser_spec (B : Nat) (st : Unit) (packet m scratch : Buffer) (mode : RepelMode) :
    (fake_parse st packet B mode).pktlen = (B : Int) ∧
    (fake_parse st packet B mode).embed_bits = min (8 * B) 256 ∧
    (fake_parse st packet B mode).packet_has_nonce = false ∧
    (∀ i, getBit (fake_embed st packet B m).2 i
        = if i < min (8 * B) 256 then getBit m i else getBit packet i) ∧
    (fake_extract st (fake_embed st packet B m).2 B scratch).2.1 = (fake_embed st packet B m).2 ∧
    (∀ i, i < min (8 * B) 256 →
      getBit (fake_extract st (fake_embed st packet B m).2 B scratch).2.2 i = getBit m i) ∧
    (∀ i, getBit (fake_restore st packet B mode).2 i
        = if i < min (8 * B) 256 then false else getBit packet i) ∧
    (∀ i, getBit (fake_restore st (fake_embed st packet B m).2 B mode).2 i
        = if i < min (8 * B) 256 then false else getBit packet i) := by
  have hrest : ∀ (P : Buffer) (i : Nat), getBit (fake_restore st P B mode).2 i
      = if i < min (8 * B) 256 then false else getBit P i := by
    intro P i
    simp only [fake_restore, MAX_MAC_BYTES, ceil_bits_to_bytes]
    rw [getBit_memset_zero]
    by_cases hB : B > (256 + 7) / 8
    · simp only [hB, if_true]
      have e : min (8 * B) 256 = 8 * ((256 + 7) / 8) := by omega
      rw [e]
    · simp only [hB, if_false]
      have e : min (8 * B) 256 = 8 * B := by omega
      rw [e]
  have hemb : ∀ i, getBit (fake_embed st packet B m).2 i
      = if i < min (8 * B) 256 then getBit m i else getBit packet i := by
    intro i
    simp only [fake_embed]
    rw [fake_copy_spec]
    by_cases h : i < min (8 * B) 256
    · rw [if_pos ((fake_carrier_iff B i).mpr h), if_pos h]
    · rw [if_neg (fun hc => h ((fake_carrier_iff B i).mp hc)), if_neg h]
  refine ⟨rfl, ?_, rfl, hemb, rfl, ?_, hrest packet, ?_⟩
  · simp only [fake_parse, MAX_MAC_BITS]
    split_ifs <;> omega
  · intro i hi
    simp only [fake_extract]
    rw [fake_copy_spec, if_pos ((fake_carrier_iff B i).mpr hi)]
    rw [hemb i, if_pos hi]
  · intro i
    rw [hrest, hemb]
    by_cases h : i < min (8 * B) 256
    · simp only [h, if_true]
    · simp only [h, if_false]

end RePeL
namespace RePeL

/-! ## Packets of a protocol with a nonce of its own -/

/-- For a complete packet for which the parser reports `packet_has_nonce`,
`repel_authenticate` with both callbacks given makes one call; `MAC.verify` was
called with all `embed_bits` bits and no nonce, the result handed over has
`nonce_embedded = false`, and its `packet_loss` is what the local variable
`auth` held on entry, since that branch never assigns it. -/
theorem authenticate_own_nonce {σ μ : Type} (con : RepelConnection σ μ) (packet : Buffer)
    (size : Nat) (cbdata : Nat) (auth : AuthenticateResult)
    (hlen : 0 ≤ (auth_parse con packet size).pktlen)
    (hn : (auth_parse con packet size).packet_has_nonce = true) :
    auth_verify con packet size
      = con.macalgo.verify con.mac_state (auth_restore con packet size).2
          (bufsize (auth_parse con packet size).pktlen) (auth_extract con packet size).2.2
          (auth_parse con packet size).embed_bits none ∧
    ∃ c, (repel_authenticate con packet size true true cbdata auth).callback = some c ∧
      c.kind = (if (auth_verify con packet size).2 > 0 then CallbackKind.on_auth_success
        else CallbackKind.on_auth_failed) ∧
      c.result.nonce_embedded = false ∧
      c.result.packet_loss = auth.packet_loss := by
  constructor
  · simp only [auth_verify, hn, if_true]
  · rw [authenticate_stages]
    have hneg : ¬ (auth_parse con packet size).pktlen < 0 := by omega
    simp only [hneg, hn, if_false, if_true, Bool.true_eq_false, false_and, Bool.not_true]
    obtain ⟨_, c, hc, hk, _, _, _, _, hl, he⟩ := authenticate_finish_callback
      { con with
        parser_state := (auth_restore con packet size).1
        extrbuf := (auth_extract con packet size).2.2
        mac_state := (auth_verify con packet size).1
        nonce_recv := con.nonce_recv }
      (auth_restore con packet size).2 (auth_parse con packet size)
      { protection_level := auth.protection_level
        packet_loss := auth.packet_loss
        nonce_embedded := false }
      (auth_verify con packet size).2 cbdata
    exact ⟨c, hc, hk, he, hl⟩

/-- C27: a request embedded by a sender whose parser reports
`packet_has_nonce`, authenticated by a receiver with the same parser while the
local variable `auth` holds `packet_loss = 7` on entry: `on_auth_success` is
called with `nonce_embedded = false` and `packet_loss = 7`; with
`packet_loss = 0` on entry the result has `packet_loss = 0`. -/
theorem own_nonce_packet_loss_unset :
    (auth_parse own_nonce_receiver
      (repel_embed own_nonce_sender modbus_request 12).2.1 12).packet_has_nonce = true ∧
    (auth_parse own_nonce_receiver
      (repel_embed own_nonce_sender modbus_request 12).2.1 12).pktlen = 12 ∧
    ((repel_authenticate own_nonce_receiver
      (repel_embed own_nonce_sender modbus_request 12).2.1 12 true true 0
      ⟨0, 7, true⟩).callback.map fun c => (c.kind, c.result))
      = some (CallbackKind.on_auth_success, ⟨36, 7, false⟩) ∧
    ((repel_authenticate own_nonce_receiver
      (repel_embed own_nonce_sender modbus_request 12).2.1 12 true true 0
      ⟨0, 0, true⟩).callback.map fun c => (c.kind, c.result))
      = some (CallbackKind.on_auth_success, ⟨36, 0, false⟩) := by
  decide

end RePeL
namespace RePeL

/-! ## Embed and extract of the Modbus/TCP parser -/

/-- C30: `modbus_tcp_embed` with 12 TID bits and the Unit ID reused writes the
first 36 bits of the MAC buffer, in order, into the upper 12 bits of the TID,
the 16 PID bits and the 8 Unit ID bits; the lower 4 TID bits, the Length field
(bytes 4 and 5) and every byte from offset 7 on stay as they were, and so does
the parser state. `modbus_tcp_extract` on the result leaves packet and state
as they are and fills the first 36 bits of its buffer with the first 36 bits
of the MAC buffer. -/
theorem modbus_embed_extract_spec (cfg : ModbusConfig)
    (hb : cfg.MODBUS_TCP_REUSE_TID_BITS = 12) (hu : cfg.MODBUS_TCP_REUSE_UNIT_ID = true)
    (st : ModbusTCPState) (P m scr : Buffer) (len : Nat) :
    (∀ j, j < 12 → getBit (modbus_tcp_embed cfg st P len m).2 j = getBit m j) ∧
    (∀ j, j < 16 → getBit (modbus_tcp_embed cfg st P len m).2 (16 + j) = getBit m (12 + j)) ∧
    (∀ j, j < 8 → getBit (modbus_tcp_embed cfg st P len m).2 (48 + j) = getBit m (28 + j)) ∧
    (∀ i, 12 ≤ i → i < 16 → getBit (modbus_tcp_embed cfg st P len m).2 i = getBit P i) ∧
    (modbus_tcp_embed cfg st P len m).2.read 4 = P.read 4 ∧
    (modbus_tcp_embed cfg st P len m).2.read 5 = P.read 5 ∧
    (∀ a, 7 ≤ a → (modbus_tcp_embed cfg st P len m).2.read a = P.read a) ∧
    (modbus_tcp_embed cfg st P len m).1 = st ∧
    (modbus_tcp_extract cfg st (modbus_tcp_embed cfg st P len m).2 len scr).1 = st ∧
    (modbus_tcp_extract cfg st (modbus_tcp_embed cfg st P len m).2 len scr).2.1
      = (modbus_tcp_embed cfg st P len m).2 ∧
    (∀ j, j < 36 →
      getBit (modbus_tcp_extract cfg st (modbus_tcp_embed cfg st P len m).2 len scr).2.2 j
        = getBit m j) ∧
    (∀ j, 36 ≤ j →
      getBit (modbus_tcp_extract cfg st (modbus_tcp_embed cfg st P len m).2 len scr).2.2 j
        = getBit scr j) := by
  have hbyte : ∀ a, (a = 4 ∨ a = 5 ∨ 7 ≤ a) →
      (modbus_tcp_embed cfg st P len m).2.read a = P.read a := by
    intro a ha
    have : (modbus_tcp_embed cfg st P len m).2 a = P a := by
      apply byte_eq_of_getBit
      intro i hi
      rw [getBit_embed cfg hb hu]
      have hc : modbus_carrier i = none := by
        simp only [modbus_carrier]
        split_ifs <;> first | rfl | omega
      rw [hc]
    simp only [Buffer.read, this]
  refine ⟨?_, ?_, ?_, ?_, hbyte 4 (Or.inl rfl), hbyte 5 (Or.inr (Or.inl rfl)),
    fun a ha => hbyte a (Or.inr (Or.inr ha)), rfl, rfl, rfl, ?_, ?_⟩
  · intro j hj
    rw [getBit_embed cfg hb hu]
    simp only [modbus_carrier, hj, if_true]
  · intro j hj
    rw [getBit_embed cfg hb hu]
    have h1 : ¬ 16 + j < 12 := by omega
    have h2 : 16 ≤ 16 + j ∧ 16 + j < 32 := by omega
    have e : 16 + j - 4 = 12 + j := by omega
    simp only [modbus_carrier, h1, h2, if_false, if_true, and_self, e]
  · intro j hj
    rw [getBit_embed cfg hb hu]
    have h1 : ¬ 48 + j < 12 := by omega
    have h2 : ¬ (16 ≤ 48 + j ∧ 48 + j < 32) := by omega
    have h3 : 48 ≤ 48 + j ∧ 48 + j < 56 := by omega
    have e : 48 + j - 20 = 28 + j := by omega
    simp only [modbus_carrier, h1, h2, h3, if_false, if_true, and_self, e]
  · intro i h1 h2
    rw [getBit_embed cfg hb hu]
    have hc : modbus_carrier i = none := by
      simp only [modbus_carrier]
      split_ifs <;> first | rfl | omega
    rw [hc]
  · intro j hj
    exact extract_embed cfg cfg hb hu hb hu st st P m scr len len j hj
  · intro j hj
    rw [getBit_extract cfg hb hu]
    have : ¬ j < 36 := by omega
    simp only [this, if_false]

theorem modbus_embed_extract_spec_witness :
    ((modbus_tcp_embed {} modbus_fresh_state modbus_request 12 allOnes).2.take 12
      = [0xFF, 0xF7, 0xFF, 0xFF, 0x00, 0x06, 0xFF, 0x03, 0x00, 0x6B, 0x00, 0x03]) ∧
    (∀ j, j < 36 →
      getBit (modbus_tcp_extract {} modbus_fresh_state
        (modbus_tcp_embed {} modbus_fresh_state modbus_request 12 allOnes).2 12
        (fun _ => 0)).2.2 j = getBit allOnes j) :=
  ⟨by decide,
   (modbus_embed_extract_spec {} rfl rfl modbus_fresh_state modbus_request allOnes
      (fun _ => 0) 12).2.2.2.2.2.2.2.2.2.2.1⟩

end RePeL
namespace RePeL

/-! ## Carrier layout with an embedded nonce -/

/-- The packet that `repel_embed` leaves and the value it returns, for a
well-formed packet without protocol nonce with room for a MAC. -/
theorem embed_with_nonce {σ μ : Type} (con : RepelConnection σ μ) (P : Buffer) (size : Nat)
    (hlen : (con.parser.parse con.parser_state P size RepelMode.EMBED).pktlen = (size : Int))
    (hn : (con.parser.parse con.parser_state P size RepelMode.EMBED).packet_has_nonce = false)
    (hroom : con.nonce_embed_bits
      < (con.parser.parse con.parser_state P size RepelMode.EMBED).embed_bits) :
    (repel_embed con P size).2.1
      = (con.parser.embed
          (con.parser.restore con.parser_state P
            (bufsize (con.parser.parse con.parser_state P size RepelMode.EMBED).pktlen)
            RepelMode.EMBED).1
          (con.parser.restore con.parser_state P
            (bufsize (con.parser.parse con.parser_state P size RepelMode.EMBED).pktlen)
            RepelMode.EMBED).2
          (bufsize (con.parser.parse con.parser_state P size RepelMode.EMBED).pktlen)
          (embed_mac con P size)).2 ∧
    (repel_embed con P size).2.2
      = (con.parser.parse con.parser_state P size RepelMode.EMBED).embed_bits
          - con.nonce_embed_bits ∧
    (repel_embed con P size).1.nonce_send = (con.nonce_send + 1) % NONCE_RANGE := by
  have h1 : ¬ ((con.parser.parse con.parser_state P size RepelMode.EMBED).pktlen ≠ (size : Int) ∨
      (con.parser.parse con.parser_state P size RepelMode.EMBED).embed_bits = 0) := by
    intro h
    rcases h with h | h
    · exact h hlen
    · omega
  have h2 : ¬ (con.parser.parse con.parser_state P size RepelMode.EMBED).embed_bits
      ≤ con.nonce_embed_bits := by omega
  simp only [repel_embed, h1, if_false, hn, Bool.not_false, if_true, h2, embed_mac, embed_sign]
  exact ⟨trivial, trivial, trivial⟩

/-- The layout of the buffer `embed_mac`: MAC bits in front, then the low
nonce bits, most significant first. -/
theorem embed_mac_layout {σ μ : Type} (con : RepelConnection σ μ) (P : Buffer) (size : Nat)
    (hE : (con.parser.parse con.parser_state P size RepelMode.EMBED).embed_bits < 65536)
    (hk64 : con.nonce_embed_bits ≤ 64) :
    IsPush (embed_sign con P size)
      ((con.parser.parse con.parser_state P size RepelMode.EMBED).embed_bits
        - con.nonce_embed_bits)
      con.nonce_send con.nonce_embed_bits (embed_mac con P size) := by
  simp only [embed_mac]
  by_cases hk0 : con.nonce_embed_bits > 0
  · simp only [hk0, if_true]
    have hsk := skip_init ((con.parser.parse con.parser_state P size RepelMode.EMBED).embed_bits
        - con.nonce_embed_bits) (by simp only [UINT_RANGE]; omega)
    have hk : con.nonce_embed_bits % 256 = con.nonce_embed_bits := Nat.mod_eq_of_lt (by omega)
    rw [hsk, hk]
    have hp := (push_u64_spec (embed_sign con P size)
      ⟨((con.parser.parse con.parser_state P size RepelMode.EMBED).embed_bits
          - con.nonce_embed_bits) / 8,
        ((con.parser.parse con.parser_state P size RepelMode.EMBED).embed_bits
          - con.nonce_embed_bits) % 8⟩ con.nonce_send con.nonce_embed_bits
      (by simp only []; omega) hk64).1
    have hpos : (⟨((con.parser.parse con.parser_state P size RepelMode.EMBED).embed_bits
          - con.nonce_embed_bits) / 8,
        ((con.parser.parse con.parser_state P size RepelMode.EMBED).embed_bits
          - con.nonce_embed_bits) % 8⟩ : BitString).pos
        = (con.parser.parse con.parser_state P size RepelMode.EMBED).embed_bits
          - con.nonce_embed_bits := by
      simp only [BitString.pos]; omega
    rw [hpos] at hp
    exact hp
  · simp only [hk0, if_false]
    intro i
    have : ¬ ((con.parser.parse con.parser_state P size RepelMode.EMBED).embed_bits
        - con.nonce_embed_bits ≤ i ∧ i < (con.parser.parse con.parser_state P size
          RepelMode.EMBED).embed_bits - con.nonce_embed_bits + con.nonce_embed_bits) := by
      omega
    rw [if_neg this]

/-- The read `bitstring_pop_u64(&macstr, noncebits)` of `repel_authenticate`
at bit offset `macbits`. -/
theorem nonce_read_eq (X : Buffer) (macbits k : Nat) (hm : macbits < 65536) (hk : k ≤ 64) :
    (bitstring_pop_u64 X (bitstring_skip bitstring_init macbits) (k % 256)).1
      = bitsVal X macbits k := by
  have hk' : k % 256 = k := Nat.mod_eq_of_lt (by omega)
  rw [hk', skip_init macbits (by simp only [UINT_RANGE]; omega)]
  simp only [bitstring_pop_u64]
  rw [pop_wide_eq 64 X _ k hk (le_refl _) (by simp only []; omega)]
  simp only [BitString.pos]
  congr 1
  omega

end RePeL
namespace RePeL

/-! ## MAC input and truncation -/

/-- The bytes of `netendian_nonce`: byte `i` is `(n >> 8 * (7 - i)) mod 256`,
and read as a big-endian number the eight bytes are `n mod 2^64`. -/
theorem netendian_nonce_bytes (n : Nat) :
    (netendian_nonce n).length = 8 ∧
    (∀ i, i < 8 → (netendian_nonce n).getD i 0 = (n >>> (8 * (7 - i))) % 256) ∧
    (netendian_nonce n).foldl (fun a b => 256 * a + b) 0 = n % 2 ^ 64 := by
  refine ⟨rfl, ?_, ?_⟩
  · intro i hi
    have : i = 0 ∨ i = 1 ∨ i = 2 ∨ i = 3 ∨ i = 4 ∨ i = 5 ∨ i = 6 ∨ i = 7 := by omega
    rcases this with h | h | h | h | h | h | h | h <;> subst h <;> rfl
  · have e : netendian_nonce n = [(n >>> 56) % 256, (n >>> 48) % 256, (n >>> 40) % 256,
        (n >>> 32) % 256, (n >>> 24) % 256, (n >>> 16) % 256, (n >>> 8) % 256,
        (n >>> 0) % 256] := rfl
    rw [e]
    simp only [List.foldl, Nat.shiftRight_eq_div_pow]
    norm_num
    omega

/-- The buffer that `hmac_sign` returns agrees with the digest on every bit
below `macbits + extrabits`. -/
theorem getBit_hmac_sign (H : HmacFn) (data : HMacData) (packet : Buffer)
    (pktlen macbits extrabits : Nat) (nb : Option (List Nat)) (j : Nat)
    (h16 : macbits + extrabits < 65536) (hj : j < macbits + extrabits) :
    getBit (hmac_sign H data packet pktlen macbits extrabits nb).2 j
      = getBit (hmac_digest H (data.key HMAC_KEYSLOT_SEND) (hmac_message packet pktlen nb)) j := by
  rw [hmac_sign_buffer]
  have hc : ceil_bits_to_bytes (macbits + extrabits) % 65536
      = (macbits + extrabits + 7) / 8 := by
    simp only [ceil_bits_to_bytes]
    omega
  rw [hc]
  simp only [getBit, Buffer.read, hmac_digest, hmac_finalize, memset]
  by_cases h32 : j / 8 < DTLS_HMAC_DIGEST_SIZE
  · simp only [h32, if_true]
  · have hm : j / 8 < (macbits + extrabits + 7) / 8 := by omega
    simp only [h32, if_false, hm, if_true]
    rfl

/-- C29: MAC input and truncation. With the HMAC adapter over the keyed
function `H`, for a well-formed packet without protocol nonce with room for a
MAC, the first `mac_bits` bits of the buffer that `repel_embed` hands to
`parser.embed`, bit 0 being the most significant bit of byte 0, are the first
`mac_bits` bits of the digest `H (key slot 0) (restored packet bytes
[0..pktlen) ++ netendian_nonce send_nonce)`, byte `a` of the digest buffer being
digest byte `a`; and `netendian_nonce n` is the eight bytes
`(n >> 8 * (7 - i)) mod 256`, the big-endian form of `n`. -/
theorem embedded_mac_is_truncated_digest {σ : Type} (H : HmacFn)
    (con : RepelConnection σ HMacData) (hmac : con.macalgo = hmac_module H)
    (P : Buffer) (size : Nat)
    (hlen : (con.parser.parse con.parser_state P size RepelMode.EMBED).pktlen = (size : Int))
    (hn : (con.parser.parse con.parser_state P size RepelMode.EMBED).packet_has_nonce = false)
    (hE : (con.parser.parse con.parser_state P size RepelMode.EMBED).embed_bits < 65536)
    (hk64 : con.nonce_embed_bits ≤ 64)
    (hroom : con.nonce_embed_bits
      < (con.parser.parse con.parser_state P size RepelMode.EMBED).embed_bits) :
    (repel_embed con P size).2.1
      = (con.parser.embed
          (con.parser.restore con.parser_state P
            (bufsize (con.parser.parse con.parser_state P size RepelMode.EMBED).pktlen)
            RepelMode.EMBED).1
          (con.parser.restore con.parser_state P
            (bufsize (con.parser.parse con.parser_state P size RepelMode.EMBED).pktlen)
            RepelMode.EMBED).2
          (bufsize (con.parser.parse con.parser_state P size RepelMode.EMBED).pktlen)
          (embed_mac con P size)).2 ∧
    (∀ j, j < (repel_embed con P size).2.2 →
      getBit (embed_mac con P size) j
        = getBit (hmac_digest H (con.mac_state.key HMAC_KEYSLOT_SEND)
            ((con.parser.restore con.parser_state P
                (bufsize (con.parser.parse con.parser_state P size RepelMode.EMBED).pktlen)
                RepelMode.EMBED).2.take
              (bufsize (con.parser.parse con.parser_state P size RepelMode.EMBED).pktlen)
              ++ netendian_nonce con.nonce_send)) j) ∧
    (∀ (key msg : List Nat) (a : Nat), a < 32 →
      (hmac_digest H key msg).read a = (H key msg).getD a 0 % 256) ∧
    (∀ n i, i < 8 → (netendian_nonce n).getD i 0 = (n >>> (8 * (7 - i))) % 256) ∧
    (∀ n, (netendian_nonce n).length = 8 ∧
      (netendian_nonce n).foldl (fun a b => 256 * a + b) 0 = n % 2 ^ 64) := by
  obtain ⟨hpkt, hret, _⟩ := embed_with_nonce con P size hlen hn hroom
  have hlay := embed_mac_layout con P size hE hk64
  refine ⟨hpkt, ?_, ?_, fun n i hi => (netendian_nonce_bytes n).2.1 i hi,
    fun n => ⟨(netendian_nonce_bytes n).1, (netendian_nonce_bytes n).2.2⟩⟩
  · intro j hj
    rw [hret] at hj
    rw [hlay j]
    have hw : ¬ ((con.parser.parse con.parser_state P size RepelMode.EMBED).embed_bits
        - con.nonce_embed_bits ≤ j ∧ j < (con.parser.parse con.parser_state P size
          RepelMode.EMBED).embed_bits - con.nonce_embed_bits + con.nonce_embed_bits) := by
      omega
    rw [if_neg hw]
    simp only [embed_sign, hmac]
    exact getBit_hmac_sign H con.mac_state _ _ _ _ _ j (by omega) (by omega)
  · intro key msg a ha
    have : a < DTLS_HMAC_DIGEST_SIZE := ha
    simp only [hmac_digest, hmac_finalize, Buffer.read, this, if_true, u8]

theorem embedded_mac_is_truncated_digest_witness :
    (example_sender 5).mac_state.key HMAC_KEYSLOT_SEND = example_key 0x34 ∧
    ((modbus_tcp_restore {} modbus_fresh_state modbus_request 12 RepelMode.EMBED).2.take 12
        ++ netendian_nonce 5
      = [0x00, 0x00, 0x00, 0x00, 0x00, 0x06, 0xFF, 0x03, 0x00, 0x6B, 0x00, 0x03,
         0, 0, 0, 0, 0, 0, 0, 5]) ∧
    (∀ j, j < 33 →
      getBit (embed_mac (example_sender 5) modbus_request 12) j
        = getBit (hmac_digest sum_hmac ((example_sender 5).mac_state.key HMAC_KEYSLOT_SEND)
            ((modbus_tcp_restore {} modbus_fresh_state modbus_request 12 RepelMode.EMBED).2.take 12
              ++ netendian_nonce 5)) j) :=
  ⟨by decide, by decide, fun j hj =>
    (embedded_mac_is_truncated_digest sum_hmac (example_sender 5) rfl modbus_request 12
      (by decide) (by decide) (by decide) (by decide) (by decide)).2.1 j
      (lt_of_lt_of_eq hj (by decide))⟩

end RePeL
namespace RePeL

/-! ## The bound `max_embed_bits` and the extract buffer -/

theorem copy_u16_spec (dm : Buffer) (dc : BitString) (sm : Buffer) (sc : BitString) (n : Nat)
    (hn : n ≤ 16) (hd : dc.shift ≤ 7) (hs : sc.shift ≤ 7) :
    IsCopy dm dc.pos sm sc.pos n (bitstring_copy_u16 dm dc sm sc n).1 ∧
      (bitstring_copy_u16 dm dc sm sc n).2.1 = bitstring_skip dc n ∧
      (bitstring_copy_u16 dm dc sm sc n).2.2 = bitstring_skip sc n := by
  have hpop : bitstring_pop_u16 sm sc n = (bitsVal sm sc.pos n, bitstring_skip sc n) :=
    pop_wide_eq 16 sm sc n hn (by decide) hs
  simp only [bitstring_copy_u16, hpop]
  obtain ⟨h1, h2⟩ := push_u16_spec dm dc (bitsVal sm sc.pos n) n hd hn
  exact ⟨fun i => getBit_congr_bitsVal h1 i, h2, trivial⟩

/-- A copy leaves the bits behind its window as they are. -/
theorem isCopy_frame {m m' sm : Buffer} {p sp n : Nat} (h : IsCopy m p sm sp n m') (i : Nat)
    (hi : i < p ∨ p + n ≤ i) : getBit m' i = getBit m i := by
  rw [h i]
  have : ¬ (p ≤ i ∧ i < p + n) := by omega
  rw [if_neg this]

/-- Two buffers that agree on every bit from bit `8 * n` on agree on every
byte from offset `n` on. -/
theorem read_eq_of_bits_from (m m' : Buffer) (n : Nat)
    (h : ∀ i, 8 * n ≤ i → getBit m' i = getBit m i) (a : Nat) (ha : n ≤ a) :
    m'.read a = m.read a := by
  have : m' a = m a := by
    apply byte_eq_of_getBit
    intro i hi
    exact h i (by omega)
  simp only [Buffer.read, this]

/-- The parse result of the Modbus/TCP parser holds `modbus_embed_bits` or 0. -/
theorem modbus_parse_embed_bits (cfg : ModbusConfig) (st : ModbusTCPState) (P : Buffer)
    (buflen : Nat) (mode : RepelMode) :
    (modbus_tcp_parse cfg st P buflen mode).embed_bits = modbus_embed_bits cfg ∨
    (modbus_tcp_parse cfg st P buflen mode).embed_bits = 0 := by
  simp only [modbus_tcp_parse, parse_fail_on_minlen]
  split_ifs <;> simp

/-- The function `modbus_tcp_extract` leaves every bit of its buffer from bit
`modbus_embed_bits` on as it is. -/
theorem modbus_extract_frame (cfg : ModbusConfig) (ht : cfg.MODBUS_TCP_REUSE_TID_BITS < 16)
    (st : ModbusTCPState) (P scr : Buffer) (len i : Nat) (hi : modbus_embed_bits cfg ≤ i) :
    getBit (modbus_tcp_extract cfg st P len scr).2.2 i = getBit scr i := by
  have hip : bitstring_init.pos = 0 := rfl
  have hi0 : bitstring_init.shift ≤ 7 := by decide
  have hU : ∀ k, k ≤ 64 → (0 : Nat) + k < UINT_RANGE := by
    intro k hk; simp only [UINT_RANGE]; omega
  simp only [modbus_embed_bits] at hi
  simp only [modbus_tcp_extract]
  by_cases ht0 : cfg.MODBUS_TCP_REUSE_TID_BITS > 0
  · simp only [ht0, if_true]
    obtain ⟨a1, a2, a3⟩ := copy_u16_spec scr bitstring_init P bitstring_init
      cfg.MODBUS_TCP_REUSE_TID_BITS (by omega) hi0 hi0
    generalize bitstring_copy_u16 scr bitstring_init P bitstring_init
      cfg.MODBUS_TCP_REUSE_TID_BITS = R1 at *
    obtain ⟨b1, b2, b3⟩ := copy_u16_spec R1.1 R1.2.1 P
      (bitstring_skip R1.2.2 (16 - cfg.MODBUS_TCP_REUSE_TID_BITS)) 16 (le_refl _)
      (by rw [a2]; exact skip_shift_le _ _) (skip_shift_le _ _)
    generalize bitstring_copy_u16 R1.1 R1.2.1 P
      (bitstring_skip R1.2.2 (16 - cfg.MODBUS_TCP_REUSE_TID_BITS)) 16 = R2 at *
    have s0 : bitstring_init.shift + cfg.MODBUS_TCP_REUSE_TID_BITS < UINT_RANGE := by
      simp only [UINT_RANGE]; omega
    have s1 : R1.2.1.shift + 16 < UINT_RANGE := by
      have := skip_shift_le bitstring_init cfg.MODBUS_TCP_REUSE_TID_BITS
      rw [← a2] at this
      simp only [UINT_RANGE]; omega
    have p1 : R1.2.1.pos = cfg.MODBUS_TCP_REUSE_TID_BITS := by
      rw [a2, skip_pos _ _ s0, hip, Nat.zero_add]
    have p2 : R2.2.1.pos = cfg.MODBUS_TCP_REUSE_TID_BITS + 16 := by
      rw [b2, skip_pos _ _ s1, p1]
    rw [hip] at a1
    rw [p1] at b1
    by_cases hu : cfg.MODBUS_TCP_REUSE_UNIT_ID = true
    · simp only [hu, if_true] at hi ⊢
      obtain ⟨c1, _, _⟩ := copy_u8_spec R2.1 R2.2.1 P (bitstring_skip R2.2.2 16) 8 (le_refl _)
        (by rw [b2]; exact skip_shift_le _ _) (skip_shift_le _ _)
      rw [p2] at c1
      rw [isCopy_frame c1 i (by omega), isCopy_frame b1 i (by omega),
        isCopy_frame a1 i (by omega)]
    · simp only [hu, if_false, Bool.false_eq_true] at hi ⊢
      rw [isCopy_frame b1 i (by omega), isCopy_frame a1 i (by omega)]
  · have ht00 : cfg.MODBUS_TCP_REUSE_TID_BITS = 0 := by omega
    simp only [ht0, if_false]
    obtain ⟨b1, b2, b3⟩ := copy_u16_spec scr bitstring_init P
      (bitstring_skip bitstring_init 16) 16 (le_refl _) hi0 (skip_shift_le _ _)
    generalize bitstring_copy_u16 scr bitstring_init P
      (bitstring_skip bitstring_init 16) 16 = R2 at *
    have s0 : bitstring_init.shift + 16 < UINT_RANGE := by
      simp only [UINT_RANGE]; omega
    have p2 : R2.2.1.pos = 16 := by
      rw [b2, skip_pos _ _ s0, hip]
    rw [hip] at b1
    by_cases hu : cfg.MODBUS_TCP_REUSE_UNIT_ID = true
    · simp only [hu, if_true] at hi ⊢
      obtain ⟨c1, _, _⟩ := copy_u8_spec R2.1 R2.2.1 P (bitstring_skip R2.2.2 16) 8 (le_refl _)
        (by rw [b2]; exact skip_shift_le _ _) (skip_shift_le _ _)
      rw [p2] at c1
      rw [isCopy_frame c1 i (by omega), isCopy_frame b1 i (by omega)]
    · simp only [hu, if_false, Bool.false_eq_true] at hi ⊢
      rw [isCopy_frame b1 i (by omega)]

/-- The step in front of a segment when the MAC cursor is not aligned: the MAC
cursor stays, the packet cursor stays well-formed. -/
theorem split_gap_mac_cursor (cfg : SplitConfig) (hm : cfg.EVAL_MACALIGN = false)
    (c d : BitString) :
    (split_gap cfg c d).2 = d ∧ (split_gap cfg c d).1.shift ≤ 7 := by
  cases hp : cfg.EVAL_PKTALIGN
  · have e : split_gap cfg c d = (bitstring_skip c OFFSET_BITS, d) := by
      simp only [split_gap, hp, hm, Bool.false_eq_true, if_false]
    rw [e]
    exact ⟨rfl, skip_shift_le _ _⟩
  · have e : split_gap cfg c d = (_bstr_byte_align c, d) := by
      simp only [split_gap, hp, if_true]
    rw [e]
    exact ⟨rfl, Nat.zero_le 7⟩

/-- The loop of `split_extract` when the bits go to the MAC buffer: `n` rounds
write `n * g` bits behind the MAC cursor, leave every other bit of the buffer
as it is and move the MAC cursor by `n * g` bits. -/
theorem split_extract_loop_frame (cfg : SplitConfig) (hm : cfg.EVAL_MACALIGN = false)
    (packet : Buffer) (g n : Nat) (dst : Buffer) (c d : BitString) (bits : Nat)
    (hc : c.shift ≤ 7) (hd : d.shift ≤ 7) (hg : g ≤ 256) (hb : n * g ≤ bits)
    (hb16 : bits < 65536) :
    (∀ i, (i < d.pos ∨ d.pos + n * g ≤ i) →
      getBit (split_extract_loop cfg g packet n dst c d bits).1 i = getBit dst i) ∧
    (split_extract_loop cfg g packet n dst c d bits).2.1.shift ≤ 7 ∧
    (split_extract_loop cfg g packet n dst c d bits).2.2.1 = bitstring_skip d (n * g) ∧
    (split_extract_loop cfg g packet n dst c d bits).2.2.2 = bits - n * g := by
  induction n generalizing dst c d bits with
  | zero =>
    refine ⟨fun i _ => ?_, ?_, ?_, ?_⟩
    · simp only [split_extract_loop]
    · simp only [split_extract_loop]; exact hc
    · simp only [split_extract_loop, Nat.zero_mul]
      exact (skip_zero d hd).symm
    · simp [split_extract_loop]
  | succ n ih =>
    have e1 : (n + 1) * g = n * g + g := Nat.succ_mul n g
    obtain ⟨hgap, hgap1⟩ := split_gap_mac_cursor cfg hm c d
    obtain ⟨z1, z2, z3⟩ := copy_multibyte_loop_spec packet g dst (split_gap cfg c d).2
      (split_gap cfg c d).1 g (by rw [hgap]; exact hd) hgap1 (le_refl _) (by omega)
    have hbits : (bits + 65536 - g) % 65536 = bits - g := by omega
    simp only [split_extract_loop, _bstr_copy_multibyte, hbits]
    generalize copy_multibyte_loop packet g dst (split_gap cfg c d).2
      (split_gap cfg c d).1 g = R at *
    rw [hgap] at z1 z2
    obtain ⟨i1, i2, i3, i4⟩ := ih R.1 R.2.2 R.2.1 (bits - g)
      (by rw [z3]; exact skip_shift_le _ _) (by rw [z2]; exact skip_shift_le _ _) (by omega)
      (by omega)
    have hpos : R.2.1.pos = d.pos + g := by
      rw [z2, skip_pos d g (by simp only [UINT_RANGE]; omega)]
    refine ⟨fun i hi => ?_, i2, ?_, ?_⟩
    · rw [i1 i (by rw [hpos]; omega), isCopy_frame z1 i (by omega)]
    · rw [i3, z2, skip_skip d g (n * g) (by simp only [UINT_RANGE]; omega)]
      congr 1
      omega
    · rw [i4]
      omega

/-- The function `split_extract` leaves every bit of the MAC buffer from bit 256 on as
it is. -/
theorem split_extract_frame (cfg : SplitConfig) (st : SplitState) (P scr : Buffer)
    (len i : Nat) (hi : 256 ≤ i) :
    getBit (split_extract cfg st P len scr).2.2 i = getBit scr i := by
  by_cases hm : cfg.EVAL_MACALIGN = true
  · simp only [split_extract, hm, if_true]
  · have hm' : cfg.EVAL_MACALIGN = false := by
      cases h : cfg.EVAL_MACALIGN
      · rfl
      · exact absurd h hm
    have hseg : segment_len st = 256 / (st.split_parser_mac_splits + 1) := by
      simp only [segment_len, MAX_MAC_BITS]
      exact Nat.mod_eq_of_lt (Nat.lt_of_le_of_lt (Nat.div_le_self _ _) (by decide))
    simp only [split_extract, hm', Bool.false_eq_true, if_false, hseg, MAX_MAC_BITS]
    generalize st.split_parser_mac_splits = S at *
    generalize hgd : 256 / (S + 1) = g at *
    have hg : g ≤ 256 := by rw [← hgd]; exact Nat.div_le_self _ _
    have hSg : S * g ≤ 256 := by
      have h1 : g * (S + 1) ≤ 256 := by rw [← hgd]; exact Nat.div_mul_le_self 256 (S + 1)
      have h2 : g * (S + 1) = g * S + g := Nat.mul_succ g S
      have h3 : g * S = S * g := Nat.mul_comm g S
      omega
    have hi0 : bitstring_init.shift = 0 := rfl
    have hip : bitstring_init.pos = 0 := rfl
    obtain ⟨l1, l2, l3, l4⟩ := split_extract_loop_frame cfg hm' P g S scr bitstring_init
      bitstring_init 256 (by decide) (by decide) hg hSg (by decide)
    have hgap : ∀ c d, (split_gap cfg c d).2 = d := fun c d =>
      (split_gap_mac_cursor cfg hm' c d).1
    have hgap1 : ∀ c d, (split_gap cfg c d).1.shift ≤ 7 := fun c d =>
      (split_gap_mac_cursor cfg hm' c d).2
    generalize split_extract_loop cfg g P S scr bitstring_init bitstring_init 256 = R at *
    obtain ⟨z1, _, _⟩ := copy_multibyte_loop_spec P (256 - S * g) R.1
      (split_gap cfg R.2.1 R.2.2.1).2 (split_gap cfg R.2.1 R.2.2.1).1 (256 - S * g)
      (by rw [hgap, l3]; exact skip_shift_le _ _) (hgap1 _ _) (le_refl _) (by omega)
    rw [l4]
    simp only [_bstr_copy_multibyte]
    rw [hgap, l3, skip_pos bitstring_init _ (by simp only [UINT_RANGE, hi0]; omega), hip] at z1
    rw [hgap, l3]
    rw [isCopy_frame z1 i (by omega)]
    exact l1 i (by rw [hip]; omega)

/-- C25: for each shipped parser the `embed_bits` that `parse` returns, for
every state, buffer, buffer length and mode, is at most the `max_embed_bits`
that `create` reported, and `extract` leaves every byte of the MAC buffer from
offset `mac_bytes = ceil (max_embed_bits / 8)` on, the length that
`repel_create_connection` gives the extract buffer, as it is. For the
Modbus/TCP parser this holds with any number of reused TID bits below 16, with
and without the Unit ID, for the split parser in every build mode. -/
theorem embed_bits_le_max_embed_bits :
    (∀ (cfg : ModbusConfig) (alloc st : ModbusTCPState) (m0 : Nat) (P scr : Buffer)
        (buflen pktlen : Nat) (mode : RepelMode),
      cfg.MODBUS_TCP_REUSE_TID_BITS < 16 →
      (modbus_tcp_parse cfg st P buflen mode).embed_bits
        ≤ (modbus_tcp_create cfg (some alloc) m0).2 ∧
      ∀ a, ceil_bits_to_bytes (modbus_tcp_create cfg (some alloc) m0).2 ≤ a →
        (modbus_tcp_extract cfg st P pktlen scr).2.2.read a = scr.read a) ∧
    (∀ (st : Unit) (m0 : Nat) (P scr : Buffer) (buflen pktlen : Nat) (mode : RepelMode),
      (fake_parse st P buflen mode).embed_bits ≤ (fake_create m0).2 ∧
      ∀ a, ceil_bits_to_bytes (fake_create m0).2 ≤ a →
        (fake_extract st P pktlen scr).2.2.read a = scr.read a) ∧
    (∀ (cfg : SplitConfig) (globals st : SplitState) (rand : Nat → Nat) (m0 : Nat)
        (P scr : Buffer) (buflen pktlen : Nat) (mode : RepelMode),
      (split_parse cfg st P buflen mode).embed_bits ≤ (split_create cfg globals rand m0).2 ∧
      ∀ a, ceil_bits_to_bytes (split_create cfg globals rand m0).2 ≤ a →
        (split_extract cfg st P pktlen scr).2.2.read a = scr.read a) ∧
    (∀ {σ μ : Type} (parser : ParserModule σ) (macalgo : MacModule μ) (k : Nat)
        (parser_create : Nat → Option σ × Nat) (mac_create : Nat → Option μ)
        (alloc : Option Buffer),
      (parser_create 0).2 < 65536 →
      (repel_create_connection parser macalgo k parser_create mac_create alloc).2
        = ceil_bits_to_bytes (parser_create 0).2) := by
  refine ⟨?_, ?_, ?_, ?_⟩
  · intro cfg alloc st m0 P scr buflen pktlen mode ht
    have hmax : (modbus_tcp_create cfg (some alloc) m0).2 = modbus_embed_bits cfg := by
      simp only [modbus_tcp_create, modbus_embed_bits]
      split_ifs <;> omega
    rw [hmax]
    constructor
    · rcases modbus_parse_embed_bits cfg st P buflen mode with h | h <;> rw [h]
      exact Nat.zero_le _
    · intro a ha
      apply read_eq_of_bits_from scr _ (ceil_bits_to_bytes (modbus_embed_bits cfg)) _ a ha
      intro i hi
      apply modbus_extract_frame cfg ht
      simp only [ceil_bits_to_bytes] at hi
      omega
  · intro st m0 P scr buflen pktlen mode
    constructor
    · simp only [fake_parse, fake_create, MAX_MAC_BITS]
      split_ifs <;> omega
    · intro a ha
      apply read_eq_of_bits_from scr _ (ceil_bits_to_bytes (fake_create m0).2) _ a ha
      intro i hi
      simp only [fake_extract]
      rw [fake_copy_spec]
      have hnc : ¬ fake_carrier pktlen i := by
        rw [fake_carrier_iff]
        simp only [fake_create, MAX_MAC_BITS, ceil_bits_to_bytes] at hi
        omega
      rw [if_neg hnc]
  · intro cfg globals st rand m0 P scr buflen pktlen mode
    constructor
    · simp only [split_parse, parse_fail_on_minlen, split_create, MAX_MAC_BITS]
      split_ifs <;> simp
    · intro a ha
      apply read_eq_of_bits_from scr _ (ceil_bits_to_bytes (split_create cfg globals rand m0).2)
        _ a ha
      intro i hi
      apply split_extract_frame
      simp only [split_create, MAX_MAC_BITS, ceil_bits_to_bytes] at hi
      omega
  · intro σ μ parser macalgo k parser_create mac_create alloc h16
    have e : ceil_bits_to_bytes (parser_create 0).2 % 65536
        = ceil_bits_to_bytes (parser_create 0).2 := by
      simp only [ceil_bits_to_bytes]
      omega
    simp only [repel_create_connection, e]
    split <;> rfl

theorem embed_bits_le_max_embed_bits_witness :
    (modbus_tcp_create {} (some modbus_fresh_state) 0).2 = 36 ∧
    (modbus_tcp_parse {} modbus_fresh_state modbus_request 12 RepelMode.AUTHENTICATE).embed_bits
      ≤ (modbus_tcp_create {} (some modbus_fresh_state) 0).2 ∧
    (∀ a, ceil_bits_to_bytes (modbus_tcp_create {} (some modbus_fresh_state) 0).2 ≤ a →
      (modbus_tcp_extract {} modbus_fresh_state modbus_request 12 allOnes).2.2.read a
        = allOnes.read a) ∧
    (repel_create_connection (modbus_tcp_parser_module {}) fakemac_module 3
      (modbus_tcp_create {} (some modbus_fresh_state)) (fun _ => some allOnes)
      (some allOnes)).2 = 5 :=
  ⟨by decide,
   (embed_bits_le_max_embed_bits.1 {} modbus_fresh_state modbus_fresh_state 0 modbus_request
      allOnes 12 12 RepelMode.AUTHENTICATE (by decide)).1,
   (embed_bits_le_max_embed_bits.1 {} modbus_fresh_state modbus_fresh_state 0 modbus_request
      allOnes 12 12 RepelMode.AUTHENTICATE (by decide)).2,
   (embed_bits_le_max_embed_bits.2.2.2 (modbus_tcp_parser_module {}) fakemac_module 3
      (modbus_tcp_create {} (some modbus_fresh_state)) (fun _ => some allOnes) (some allOnes)
      (by decide)).trans (by decide)⟩

end RePeL
namespace RePeL

/-! ## Slot allocation, the full map, and the shape of the map -/

/-- Slot allocation while no slot is reserved for TID 0: with a free slot in
the map, `_map_tid` returns a slot below the map length that was free, and
stores `t` there, or reserves the slot when `t = 0` and leaves the map. -/
theorem map_tid_alloc (cfg : ModbusConfig) (st : ModbusTCPState) (t : Nat)
    (h0 : ¬ st.tid0_index < tid_map_len cfg)
    (hfree : ∃ j, j < tid_map_len cfg ∧ st.transaction_map.getD j 0 = 0) :
    (_map_tid cfg st t).2 < tid_map_len cfg ∧
    st.transaction_map.getD (_map_tid cfg st t).2 0 = 0 ∧
    (_map_tid cfg st t).2 ≠ st.tid0_index ∧
    (∀ j, j < (_map_tid cfg st t).2 → st.transaction_map.getD j 0 ≠ 0) ∧
    (t ≠ 0 → (_map_tid cfg st t).1
      = { st with transaction_map := st.transaction_map.set (_map_tid cfg st t).2 t }) ∧
    (t = 0 → (_map_tid cfg st t).1 = { st with tid0_index := (_map_tid cfg st t).2 }) := by
  obtain ⟨j, hj1, hj2⟩ := hfree
  obtain ⟨r, hr⟩ := map_tid_loop_finds st t st.tid0_index (tid_map_len cfg) 0
    ⟨j, Nat.zero_le _, by omega, by omega, hj2⟩
  obtain ⟨a1, a2, a3, a4, a5, a6⟩ := map_tid_loop_some st t st.tid0_index (tid_map_len cfg) 0
    r.1 r.2 hr
  have hm : _map_tid cfg st t = r := by
    simp only [_map_tid, h0, if_false, hr]
  rw [hm]
  refine ⟨by omega, a4, a3, fun j hj hz => ?_, fun ht => ?_, fun ht => ?_⟩
  · exact a5 j (Nat.zero_le _) hj ⟨by omega, hz⟩
  · rw [a6, if_neg ht]
  · rw [a6, if_pos ht]

/-- The full map while no slot is reserved for TID 0: `_map_tid` returns
`t mod map_len` and leaves the state as it is. -/
theorem map_tid_full (cfg : ModbusConfig) (st : ModbusTCPState) (t : Nat)
    (h0 : ¬ st.tid0_index < tid_map_len cfg)
    (hfull : ∀ j, j < tid_map_len cfg → st.transaction_map.getD j 0 ≠ 0) :
    _map_tid cfg st t = (st, t % tid_map_len cfg) := by
  cases hl : map_tid_loop st t st.tid0_index (tid_map_len cfg) 0 with
  | none => simp only [_map_tid, h0, if_false, hl]
  | some r =>
    obtain ⟨_, a2, _, a4, _, _⟩ := map_tid_loop_some st t st.tid0_index (tid_map_len cfg) 0
      r.1 r.2 hl
    exact absurd a4 (hfull r.2 (by omega))

/-- C31: with a request of Transaction Identifier 0 outstanding and the
slots 1 to 15 free, `_map_tid` on the TID `0x1234` returns slot 0, the slot
that `tid0_index` has in use, and stores nothing: the cell of the slot is 0
afterwards, not `0x1234`, and the state is as before; a further `_map_tid` on
the TID `0x5678` returns slot 0 again, so that three transactions outstanding
at the same time share one slot while 15 slots are free. -/
theorem map_tid_returns_slot_in_use :
    tid0_pending_state.tid0_index = 0 ∧
    (∀ j, 1 ≤ j → j < 16 → tid0_pending_state.transaction_map.getD j 0 = 0) ∧
    (_map_tid {} tid0_pending_state 0x1234).2 = tid0_pending_state.tid0_index ∧
    (_map_tid {} tid0_pending_state 0x1234).1 = tid0_pending_state ∧
    (_map_tid {} tid0_pending_state 0x1234).1.transaction_map.getD 0 0 = 0 ∧
    (_map_tid {} (_map_tid {} tid0_pending_state 0x1234).1 0x5678).2 = 0 := by
  refine ⟨by decide, ?_, by decide, by decide, by decide, by decide⟩
  intro j h1 h2
  have : j = 1 ∨ j = 2 ∨ j = 3 ∨ j = 4 ∨ j = 5 ∨ j = 6 ∨ j = 7 ∨ j = 8 ∨ j = 9 ∨ j = 10 ∨
      j = 11 ∨ j = 12 ∨ j = 13 ∨ j = 14 ∨ j = 15 := by omega
  rcases this with h | h | h | h | h | h | h | h | h | h | h | h | h | h | h <;> subst h <;>
    decide

/-- C32: in the state with 16 requests outstanding, TID 0 among them (cells
0 to 14 hold the TIDs 1 to 15, slot 15 is reserved for TID 0), no slot is
free; `_map_tid` on the TID `0x1235` leaves the state as it is and returns 15,
the slot of TID 0, not `0x1235 mod 16 = 5`. -/
theorem map_tid_full_returns_reserved :
    full_map_state
      = { transaction_map := [1, 2, 3, 4, 5, 6, 7, 8, 9, 10, 11, 12, 13, 14, 15, 0],
          tid0_index := 15 } ∧
    _map_tid {} full_map_state 0x1235 = (full_map_state, 15) ∧
    0x1235 % tid_map_len {} = 5 := by
  decide

theorem tidMapShape_empty (cfg : ModbusConfig) : TidMapShape cfg (empty_tid_map cfg) := by
  refine ⟨?_, le_refl _, fun h => ?_⟩
  · simp only [empty_tid_map, List.length_replicate]
  · simp only [empty_tid_map] at h
    omega

theorem getD_set_zero (l : List Nat) (i k : Nat) (hk : l.getD k 0 = 0) :
    (l.set i 0).getD k 0 = 0 := by
  rw [List.getD_eq_getElem?_getD] at hk ⊢
  by_cases hik : i = k
  · subst hik
    by_cases hi : i < l.length
    · rw [List.getElem?_set_self hi]
      rfl
    · rw [List.getElem?_eq_none (by rw [List.length_set]; omega)]
      rfl
  · rw [List.getElem?_set_ne hik]
    exact hk

theorem tidMapShape_call (cfg : ModbusConfig) (st : ModbusTCPState) (c : TidCall)
    (h : TidMapShape cfg st) : TidMapShape cfg (tid_call cfg st c) := by
  obtain ⟨h1, h2, h3⟩ := h
  cases c with
  | map_tid tid =>
    simp only [tid_call]
    by_cases hu : st.tid0_index < tid_map_len cfg
    · have : _map_tid cfg st tid = (st, st.tid0_index) := by
        simp only [_map_tid, hu, if_true]
      rw [this]
      exact ⟨h1, h2, h3⟩
    · cases hl : map_tid_loop st tid st.tid0_index (tid_map_len cfg) 0 with
      | none =>
        have : _map_tid cfg st tid = (st, tid % tid_map_len cfg) := by
          simp only [_map_tid, hu, if_false, hl]
        rw [this]
        exact ⟨h1, h2, h3⟩
      | some r =>
        obtain ⟨_, a2, _, a4, _, a6⟩ := map_tid_loop_some st tid st.tid0_index
          (tid_map_len cfg) 0 r.1 r.2 hl
        have : _map_tid cfg st tid = r := by
          simp only [_map_tid, hu, if_false, hl]
        rw [this, a6]
        by_cases ht : tid = 0
        · rw [if_pos ht]
          exact ⟨h1, by simp only []; omega, fun _ => a4⟩
        · rw [if_neg ht]
          refine ⟨by simp only [List.length_set]; exact h1, h2, fun hlt => ?_⟩
          exact absurd hlt hu
  | unmap_tid mapid =>
    simp only [tid_call, _unmap_tid]
    by_cases ht : st.transaction_map.getD mapid 0 = 0
    · rw [if_pos ht]
      by_cases hm : mapid = st.tid0_index
      · rw [if_pos hm]
        exact ⟨h1, le_refl _, fun hlt => absurd hlt (Nat.lt_irrefl _)⟩
      · rw [if_neg hm]
        exact ⟨h1, h2, h3⟩
    · rw [if_neg ht]
      refine ⟨by simp only [List.length_set]; exact h1, h2, fun hlt => ?_⟩
      exact getD_set_zero _ _ _ (h3 hlt)

theorem tidMapShape_calls (cfg : ModbusConfig) (calls : List TidCall) (st : ModbusTCPState)
    (h : TidMapShape cfg st) : TidMapShape cfg (tid_calls cfg st calls) := by
  induction calls generalizing st with
  | nil => exact h
  | cons c cs ih => exact ih (tid_call cfg st c) (tidMapShape_call cfg st c h)

/-- A map with a cell that is 0 has fewer non-zero cells than cells. -/
theorem tid_map_used_lt (st : ModbusTCPState) (k : Nat) (hk : k < st.transaction_map.length)
    (h0 : st.transaction_map.getD k 0 = 0) : tid_map_used st < st.transaction_map.length := by
  simp only [tid_map_used]
  have hle := @List.countP_le_length Nat (fun t => t != 0) st.transaction_map
  by_contra hlt
  have heq : List.countP (fun t => t != 0) st.transaction_map = st.transaction_map.length := by
    omega
  rw [List.countP_eq_length] at heq
  have hmem : st.transaction_map[k] ∈ st.transaction_map := List.getElem_mem hk
  have := heq _ hmem
  rw [List.getD_eq_getElem?_getD, List.getElem?_eq_getElem hk] at h0
  simp only [Option.getD_some] at h0
  rw [h0] at this
  exact absurd this (by decide)

/-- C33: in every state reached from the empty map by calls of `_map_tid`
and of `_unmap_tid` with slot indices below the map length, the map has its
`map_len` cells, `tid0_index` is at most `map_len`; when `tid0_index` is in use
its cell is 0 and at most `map_len - 1` cells hold a non-zero TID, and
otherwise at most `map_len` cells do. -/
theorem tid_map_invariant (cfg : ModbusConfig) (calls : List TidCall)
    (_hr : ∀ c, c ∈ calls → c.in_range cfg = true) :
    (tid_calls cfg (empty_tid_map cfg) calls).transaction_map.length = tid_map_len cfg ∧
    (tid_calls cfg (empty_tid_map cfg) calls).tid0_index ≤ tid_map_len cfg ∧
    ((tid_calls cfg (empty_tid_map cfg) calls).tid0_index < tid_map_len cfg →
      (tid_calls cfg (empty_tid_map cfg) calls).transaction_map.getD
          (tid_calls cfg (empty_tid_map cfg) calls).tid0_index 0 = 0 ∧
      tid_map_used (tid_calls cfg (empty_tid_map cfg) calls) ≤ tid_map_len cfg - 1) ∧
    (¬ (tid_calls cfg (empty_tid_map cfg) calls).tid0_index < tid_map_len cfg →
      tid_map_used (tid_calls cfg (empty_tid_map cfg) calls) ≤ tid_map_len cfg) := by
  obtain ⟨h1, h2, h3⟩ := tidMapShape_calls cfg calls _ (tidMapShape_empty cfg)
  refine ⟨h1, h2, fun hlt => ⟨h3 hlt, ?_⟩, fun _ => ?_⟩
  · have := tid_map_used_lt _ _ (by rw [h1]; exact hlt) (h3 hlt)
    omega
  · rw [← h1]
    exact List.countP_le_length _

theorem tid_map_invariant_witness :
    tid_calls {} (empty_tid_map {})
        [TidCall.map_tid 7, TidCall.map_tid 0, TidCall.map_tid 9, TidCall.unmap_tid 0]
      = { transaction_map := [0, 0, 0, 0, 0, 0, 0, 0, 0, 0, 0, 0, 0, 0, 0, 0], tid0_index := 1 } ∧
    tid_map_used (tid_calls {} (empty_tid_map {})
        [TidCall.map_tid 7, TidCall.map_tid 0, TidCall.map_tid 9, TidCall.unmap_tid 0])
      ≤ tid_map_len {} - 1 :=
  ⟨by decide,
   ((tid_map_invariant {}
      [TidCall.map_tid 7, TidCall.map_tid 0, TidCall.map_tid 9, TidCall.unmap_tid 0]
      (by decide)).2.2.1 (by decide)).2⟩

end RePeL
namespace RePeL

/-! ## The state that `modbus_tcp_create` leaves -/

/-- What `modbus_tcp_create` makes of the allocated memory: `tid0_index` is the map
length, the cells whose two bytes lie within the first `tid_map_len` bytes are
0, that is the cells of the lower half of the map, and every cell of the upper
half is as it was; `max_embed_bits` is `modbus_embed_bits`. -/
theorem modbus_create_state (cfg : ModbusConfig) (alloc : ModbusTCPState) (m0 : Nat) :
    ∃ st, (modbus_tcp_create cfg (some alloc) m0).1 = some st ∧
      st.transaction_map.length = tid_map_len cfg ∧
      st.tid0_index = tid_map_len cfg ∧
      (∀ i, 2 * i + 2 ≤ tid_map_len cfg → st.transaction_map.getD i 0 = 0) ∧
      (∀ i, tid_map_len cfg ≤ 2 * i → i < tid_map_len cfg →
        st.transaction_map.getD i 0 = alloc.transaction_map.getD i 0) ∧
      (modbus_tcp_create cfg (some alloc) m0).2 = modbus_embed_bits cfg := by
  refine ⟨_, rfl, ?_, rfl, ?_, ?_, ?_⟩
  · simp only [List.length_map, List.length_range]
  · intro i hi
    have hlt : i < tid_map_len cfg := by omega
    rw [List.getD_eq_getElem?_getD, List.getElem?_map, List.getElem?_range hlt]
    simp only [Option.map_some', Option.getD_some, hi, if_true]
  · intro i h1 h2
    rw [List.getD_eq_getElem?_getD, List.getElem?_map, List.getElem?_range h2]
    have a : ¬ 2 * i + 2 ≤ tid_map_len cfg := by omega
    have b : ¬ 2 * i + 1 ≤ tid_map_len cfg := by omega
    simp only [Option.map_some', Option.getD_some, a, b, if_false]
  · simp only [modbus_tcp_create, modbus_embed_bits]
    split_ifs <;> omega

/-- C40: `modbus_tcp_create` in the default configuration on allocated memory
whose 16 map cells hold `0x1234` and whose `tid0_index` holds 99: `tid0_index`
becomes 16 and `max_embed_bits` 36, the cells 0 to 7 become 0, and the cells 8
to 15 still hold `0x1234`, so they are not free. -/
theorem modbus_create_clears_half_the_map :
    tid_map_len {} = 16 ∧
    modbus_tcp_create {} (some { transaction_map := List.replicate 16 0x1234, tid0_index := 99 }) 0
      = (some { transaction_map := [0, 0, 0, 0, 0, 0, 0, 0, 0x1234, 0x1234, 0x1234, 0x1234,
                  0x1234, 0x1234, 0x1234, 0x1234],
                tid0_index := 16 }, 36) ∧
    modbus_tcp_create {} (some { transaction_map := List.replicate 16 0, tid0_index := 0 }) 0
      = (some modbus_fresh_state, 36) := by
  decide

end RePeL
namespace RePeL

/-! ## The bytes that the Modbus/TCP parser touches -/

/-- With 12 TID bits and the Unit ID reused, the four functions of the
Modbus/TCP parser that get the packet leave every byte from offset 7 on as it
is, and what `modbus_tcp_extract` returns depends on the first 7 bytes of the
packet only. -/
theorem modbus_touches_seven_bytes (cfg : ModbusConfig)
    (hb : cfg.MODBUS_TCP_REUSE_TID_BITS = 12) (hu : cfg.MODBUS_TCP_REUSE_UNIT_ID = true)
    (st : ModbusTCPState) (P mac scr : Buffer) (len : Nat) (mode : RepelMode) :
    (∀ a, 7 ≤ a → (modbus_tcp_embed cfg st P len mac).2.read a = P.read a) ∧
    (∀ a, 7 ≤ a → (modbus_tcp_restore cfg st P len mode).2.read a = P.read a) ∧
    (∀ a, 2 ≤ a → (modbus_tcp_verified cfg st P len).2.read a = P.read a) ∧
    (modbus_tcp_extract cfg st P len scr).2.1 = P ∧
    (∀ P2 : Buffer, (∀ a, a < 7 → P2.read a = P.read a) →
      (modbus_tcp_extract cfg st P2 len scr).2.2 = (modbus_tcp_extract cfg st P len scr).2.2) := by
  refine ⟨?_, ?_, ?_, ?_, ?_⟩
  · intro a ha
    apply read_eq_of_bits_from P _ 7 _ a ha
    intro i hi
    rw [getBit_embed cfg hb hu]
    have hc : modbus_carrier i = none := by
      simp only [modbus_carrier]
      split_ifs <;> first | rfl | omega
    rw [hc]
  · intro a ha
    apply read_eq_of_bits_from P _ 7 _ a ha
    intro i hi
    by_cases hm : mode = RepelMode.AUTHENTICATE ∨ cfg.MODBUS_TCP_IS_CLIENT = false
    · rw [getBit_restore cfg hb hu st P len mode hm]
      have h1 : ¬ i < 12 := by omega
      have h2 : ¬ (16 ≤ i ∧ i < 32) := by omega
      have h3 : ¬ (48 ≤ i ∧ i < 56) := by omega
      simp only [h1, h2, h3, if_false]
    · have hmode : mode = RepelMode.EMBED := by
        cases mode
        · rfl
        · exact absurd (Or.inl rfl) hm
      have hcl : cfg.MODBUS_TCP_IS_CLIENT = true := by
        cases h : cfg.MODBUS_TCP_IS_CLIENT
        · exact absurd (Or.inr h) hm
        · rfl
      rw [hmode, modbus_restore_client_eq cfg hb hu hcl, getBit_modbus_restore_client]
      have h1 : ¬ i < 12 := by omega
      have h1' : ¬ i < 16 := by omega
      have h2 : ¬ i < 32 := by omega
      have h3 : ¬ (48 ≤ i ∧ i < 56) := by omega
      simp only [h1, h1', h2, h3, if_false]
  · intro a ha
    apply read_eq_of_bits_from P _ 2 _ a ha
    intro i hi
    simp only [modbus_tcp_verified]
    split_ifs
    · have hp := (push_u16_spec P bitstring_init
        (_unmap_tid cfg st ((bitstring_peek_u16 P bitstring_init cfg.MODBUS_TCP_REUSE_TID_BITS
          (16 - cfg.MODBUS_TCP_REUSE_TID_BITS)).getD 0)).2 16 (by decide) (le_refl _)).1
      rw [hp i]
      have : ¬ (bitstring_init.pos ≤ i ∧ i < bitstring_init.pos + 16) := by
        have : bitstring_init.pos = 0 := rfl
        omega
      rw [if_neg this]
    · rfl
  · rw [modbus_extract_eq cfg hb hu]
  · intro P2 h2
    apply buffer_ext_bits
    intro j
    rw [getBit_extract cfg hb hu, getBit_extract cfg hb hu]
    by_cases hj : j < 36
    · simp only [hj, if_true]
      have hs : modbus_slot j / 8 < 7 := by
        simp only [modbus_slot]
        split_ifs <;> omega
      simp only [getBit, h2 _ hs]
    · simp only [hj, if_false]

/-- C39: the 6-byte frame `00 01 00 00 00 00` (Length 0) is accepted by
`modbus_tcp_parse` with `pktlen = 6` and 36 carrier bits, yet `modbus_tcp_embed` and
`modbus_tcp_restore` write the byte at offset 6 (it becomes `0xFF`), and
`modbus_tcp_extract` reads it: with `0xAA` in place of 0 at offset 6 the bits it
returns differ. -/
theorem modbus_header_only_frame_overrun :
    modbus_tcp_parse {} modbus_fresh_state modbus_header_only 6 RepelMode.EMBED
      = { pktlen := 6, embed_bits := 36, packet_has_nonce := false } ∧
    modbus_header_only.read 6 = 0 ∧
    (modbus_tcp_embed {} modbus_fresh_state modbus_header_only 6 allOnes).2.read 6 = 0xFF ∧
    (modbus_tcp_restore {} modbus_fresh_state modbus_header_only 6
      RepelMode.AUTHENTICATE).2.read 6 = 0xFF ∧
    (modbus_tcp_extract {} modbus_fresh_state modbus_header_only 6
      (fun _ => 0)).2.2.take 5 = [0x00, 0x00, 0x00, 0x00, 0x00] ∧
    (modbus_tcp_extract {} modbus_fresh_state (modbus_header_only.write 6 0xAA) 6
      (fun _ => 0)).2.2.take 5 = [0x00, 0x00, 0x00, 0x0A, 0xA0] := by
  decide

end RePeL
namespace RePeL

/-! ## What a failed `repel_embed` leaves behind -/

/-- C38, as the claim states it, fails: with the Modbus/TCP client parser
and `embed_nonce_bits = 36` there is no room for a MAC, `repel_embed` returns 0 and
leaves both nonces as they were, but the packet is the restored one (TID
`00 00`, Unit ID `FF` in place of `00 07` and `11`) and the TID 7 is entered in
slot 0 of the map. -/
theorem embed_no_room_modifies :
    (repel_embed (modbus_hmac_connection sum_hmac {} modbus_fresh_state sender_mac_state 5 5 36
      allOnes) modbus_request 12).2.2 = 0 ∧
    modbus_request.take 12
      = [0x00, 0x07, 0x00, 0x00, 0x00, 0x06, 0x11, 0x03, 0x00, 0x6B, 0x00, 0x03] ∧
    (repel_embed (modbus_hmac_connection sum_hmac {} modbus_fresh_state sender_mac_state 5 5 36
      allOnes) modbus_request 12).2.1.take 12
      = [0x00, 0x00, 0x00, 0x00, 0x00, 0x06, 0xFF, 0x03, 0x00, 0x6B, 0x00, 0x03] ∧
    (repel_embed (modbus_hmac_connection sum_hmac {} modbus_fresh_state sender_mac_state 5 5 36
      allOnes) modbus_request 12).1.parser_state
      = { transaction_map := [7, 0, 0, 0, 0, 0, 0, 0, 0, 0, 0, 0, 0, 0, 0, 0], tid0_index := 16 } ∧
    (repel_embed (modbus_hmac_connection sum_hmac {} modbus_fresh_state sender_mac_state 5 5 36
      allOnes) modbus_request 12).1.nonce_send = 5 ∧
    (repel_embed (modbus_hmac_connection sum_hmac {} modbus_fresh_state sender_mac_state 5 5 36
      allOnes) modbus_request 12).1.nonce_recv = 5 := by
  decide

/-- C38, amended: whenever `repel_embed` returns 0, both nonces, the MAC
state and the extract buffer are as they were before the call. When it returns
0 because the parser reports a length other than `packet_size` or no carrier
bits, the packet and the parser state are as before as well; when it returns
0 because `embed_bits ≤ embed_nonce_bits`, the packet and the parser state are those
that `parser.restore` in EMBED mode leaves. -/
theorem embed_failure_state {σ μ : Type} (con : RepelConnection σ μ) (P : Buffer) (size : Nat)
    (h0 : (repel_embed con P size).2.2 = 0) :
    (repel_embed con P size).1.nonce_send = con.nonce_send ∧
    (repel_embed con P size).1.nonce_recv = con.nonce_recv ∧
    (repel_embed con P size).1.mac_state = con.mac_state ∧
    (repel_embed con P size).1.extrbuf = con.extrbuf ∧
    (repel_embed con P size).1.nonce_embed_bits = con.nonce_embed_bits ∧
    (((con.parser.parse con.parser_state P size RepelMode.EMBED).pktlen ≠ (size : Int) ∨
        (con.parser.parse con.parser_state P size RepelMode.EMBED).embed_bits = 0) →
      (repel_embed con P size).2.1 = P ∧
      (repel_embed con P size).1 = con) ∧
    (¬ ((con.parser.parse con.parser_state P size RepelMode.EMBED).pktlen ≠ (size : Int) ∨
        (con.parser.parse con.parser_state P size RepelMode.EMBED).embed_bits = 0) →
      (con.parser.parse con.parser_state P size RepelMode.EMBED).packet_has_nonce = false ∧
      (con.parser.parse con.parser_state P size RepelMode.EMBED).embed_bits
        ≤ con.nonce_embed_bits ∧
      (repel_embed con P size).2.1
        = (con.parser.restore con.parser_state P
            (bufsize (con.parser.parse con.parser_state P size RepelMode.EMBED).pktlen)
            RepelMode.EMBED).2 ∧
      (repel_embed con P size).1.parser_state
        = (con.parser.restore con.parser_state P
            (bufsize (con.parser.parse con.parser_state P size RepelMode.EMBED).pktlen)
            RepelMode.EMBED).1) := by
  by_cases h1 : (con.parser.parse con.parser_state P size RepelMode.EMBED).pktlen ≠ (size : Int) ∨
      (con.parser.parse con.parser_state P size RepelMode.EMBED).embed_bits = 0
  · have he : repel_embed con P size = (con, P, 0) := by
      simp only [repel_embed, h1, if_true]
    rw [he]
    exact ⟨rfl, rfl, rfl, rfl, rfl, fun _ => ⟨rfl, rfl⟩, fun h => absurd h1 h⟩
  · have hb : (con.parser.parse con.parser_state P size RepelMode.EMBED).embed_bits ≠ 0 :=
      fun h => h1 (Or.inr h)
    cases hn : (con.parser.parse con.parser_state P size RepelMode.EMBED).packet_has_nonce
    · by_cases h2 : (con.parser.parse con.parser_state P size RepelMode.EMBED).embed_bits
          ≤ con.nonce_embed_bits
      · have he : repel_embed con P size
            = ({ con with parser_state := (con.parser.restore con.parser_state P
                  (bufsize (con.parser.parse con.parser_state P size RepelMode.EMBED).pktlen)
                  RepelMode.EMBED).1 },
               (con.parser.restore con.parser_state P
                  (bufsize (con.parser.parse con.parser_state P size RepelMode.EMBED).pktlen)
                  RepelMode.EMBED).2, 0) := by
          simp only [repel_embed, h1, if_false, hn, Bool.not_false, if_true, h2]
        rw [he]
        exact ⟨rfl, rfl, rfl, rfl, rfl, fun h => absurd h h1, fun _ => ⟨rfl, h2, rfl, rfl⟩⟩
      · exfalso
        simp only [repel_embed, h1, if_false, hn, Bool.not_false, if_true, h2] at h0
        omega
    · exfalso
      simp only [repel_embed, h1, if_false, hn, Bool.not_true, Bool.false_eq_true] at h0
      exact hb h0

theorem embed_failure_state_witness :
    (repel_embed (modbus_hmac_connection sum_hmac {} modbus_fresh_state sender_mac_state 5 5 3
      allOnes) modbus_request 11).2.2 = 0 ∧
    (repel_embed (modbus_hmac_connection sum_hmac {} modbus_fresh_state sender_mac_state 5 5 3
      allOnes) modbus_request 11).2.1 = modbus_request ∧
    (repel_embed (modbus_hmac_connection sum_hmac {} modbus_fresh_state sender_mac_state 5 5 3
      allOnes) modbus_request 11).1.nonce_send = 5 :=
  ⟨by decide,
   ((embed_failure_state (modbus_hmac_connection sum_hmac {} modbus_fresh_state sender_mac_state
      5 5 3 allOnes) modbus_request 11 (by decide)).2.2.2.2.2.1 (Or.inl (by decide))).1,
   (embed_failure_state (modbus_hmac_connection sum_hmac {} modbus_fresh_state sender_mac_state
      5 5 3 allOnes) modbus_request 11 (by decide)).1⟩

end RePeL
namespace RePeL

/-! ## The split parser: layout of the segments -/

/-- Segment `t` of the layout: its bit `r` carries MAC bit `q + t * g + r`. -/
theorem split_src_at (g n p q t r : Nat) (ht : t < n) (hr : r < g) :
    split_src g n p q (p + t * (g + 1) + 1 + r) = some (q + t * g + r) := by
  induction n generalizing p q t with
  | zero => omega
  | succ n ih =>
    simp only [split_src]
    cases t with
    | zero =>
      have hw : p + 1 ≤ p + 0 * (g + 1) + 1 + r ∧ p + 0 * (g + 1) + 1 + r < p + 1 + g := by
        omega
      rw [if_pos hw]
      congr 1
      omega
    | succ t =>
      have e1 : (t + 1) * (g + 1) = t * (g + 1) + (g + 1) := Nat.succ_mul t (g + 1)
      have e2 : (t + 1) * g = t * g + g := Nat.succ_mul t g
      have hw : ¬ (p + 1 ≤ p + (t + 1) * (g + 1) + 1 + r ∧
          p + (t + 1) * (g + 1) + 1 + r < p + 1 + g) := by omega
      rw [if_neg hw]
      have := ih (p + g + 1) (q + g) t (by omega)
      have e3 : p + g + 1 + t * (g + 1) + 1 + r = p + (t + 1) * (g + 1) + 1 + r := by omega
      have e4 : q + g + t * g + r = q + (t + 1) * g + r := by omega
      rw [e3, e4] at this
      exact this

/-- The bit in front of a segment, and every bit behind the segments, carries
no MAC bit. -/
theorem split_src_gap (g n p q i : Nat)
    (h : (∃ t, t ≤ n ∧ i = p + t * (g + 1)) ∨ p + n * (g + 1) ≤ i ∨ i < p) :
    split_src g n p q i = none := by
  have hz : split_zone g n p i = false := by
    cases hzz : split_zone g n p i
    · rfl
    · obtain ⟨t', ht', h1, h2⟩ := (split_zone_iff g n p i).mp hzz
      exfalso
      rcases h with ⟨t, ht, hi⟩ | h | h
      · by_cases htt : t' < t
        · have : (t' + 1) * (g + 1) ≤ t * (g + 1) := Nat.mul_le_mul_right _ (by omega)
          omega
        · have : t * (g + 1) ≤ t' * (g + 1) := Nat.mul_le_mul_right _ (by omega)
          omega
      · have : (t' + 1) * (g + 1) ≤ n * (g + 1) := Nat.mul_le_mul_right _ (by omega)
        omega
      · omega
  have hs := split_src_isSome g n p q i
  rw [hz] at hs
  cases hc : split_src g n p q i with
  | none => rfl
  | some j => rw [hc] at hs; exact Bool.noConfusion hs

theorem split_dst_bounds (g n p q j i : Nat) (h : split_dst g n p q j = some i) :
    q ≤ j ∧ j < q + n * g ∧ p + 1 ≤ i := by
  induction n generalizing p q with
  | zero => simp [split_dst] at h
  | succ n ih =>
    have e1 : (n + 1) * g = n * g + g := Nat.succ_mul n g
    simp only [split_dst] at h
    by_cases hw : q ≤ j ∧ j < q + g
    · rw [if_pos hw] at h
      simp only [Option.some.injEq] at h
      omega
    · rw [if_neg hw] at h
      have := ih (p + g + 1) (q + g) h
      omega

theorem split_dst_none (g n p q j : Nat) (h : split_dst g n p q j = none) :
    ¬ (q ≤ j ∧ j < q + n * g) := by
  induction n generalizing p q with
  | zero => omega
  | succ n ih =>
    have e1 : (n + 1) * g = n * g + g := Nat.succ_mul n g
    simp only [split_dst] at h
    by_cases hw : q ≤ j ∧ j < q + g
    · rw [if_pos hw] at h
      exact Option.noConfusion h
    · rw [if_neg hw] at h
      have := ih (p + g + 1) (q + g) h
      omega

/-- The packet bit of a MAC bit carries that MAC bit. -/
theorem split_src_of_dst (g n p q j i : Nat) (h : split_dst g n p q j = some i) :
    split_src g n p q i = some j := by
  induction n generalizing p q with
  | zero => simp [split_dst] at h
  | succ n ih =>
    simp only [split_dst] at h
    simp only [split_src]
    by_cases hw : q ≤ j ∧ j < q + g
    · rw [if_pos hw] at h
      simp only [Option.some.injEq] at h
      have hw2 : p + 1 ≤ i ∧ i < p + 1 + g := by omega
      rw [if_pos hw2]
      congr 1
      omega
    · rw [if_neg hw] at h
      have hb := split_dst_bounds g n (p + g + 1) (q + g) j i h
      have hw2 : ¬ (p + 1 ≤ i ∧ i < p + 1 + g) := by omega
      rw [if_neg hw2]
      exact ih (p + g + 1) (q + g) h

/-- Facts on the segment length `g = 256 / (S + 1)`. -/
theorem segment_facts (S : Nat) :
    256 / (S + 1) ≤ 256 ∧ S * (256 / (S + 1)) ≤ 256 ∧
    S * (256 / (S + 1) + 1) = S * (256 / (S + 1)) + S := by
  have h0 : 256 / (S + 1) ≤ 256 := Nat.div_le_self _ _
  have h1 : 256 / (S + 1) * (S + 1) ≤ 256 := Nat.div_mul_le_self 256 (S + 1)
  generalize 256 / (S + 1) = g at *
  have h2 : g * (S + 1) = g * S + g := Nat.mul_succ _ S
  have h3 : g * S = S * g := Nat.mul_comm _ S
  exact ⟨h0, by omega, Nat.mul_succ S _⟩

/-- Every MAC bit below 256 has its packet bit, and that packet bit carries
it. -/
theorem split_slot_layout (S j : Nat) (hj : j < 256) :
    ∃ i, split_slot S j = some i ∧ split_layout S i = some j := by
  obtain ⟨hg, hSg, e3⟩ := segment_facts S
  simp only [split_slot, split_layout]
  generalize 256 / (S + 1) = g at *
  cases hd : split_dst g S 0 0 j with
  | some i =>
    refine ⟨i, rfl, ?_⟩
    rw [split_src_of_dst g S 0 0 j i hd]
  | none =>
    have hn := split_dst_none g S 0 0 j hd
    have hw : S * g ≤ j ∧ j < 256 := by omega
    simp only [hw, and_self, if_true]
    refine ⟨_, rfl, ?_⟩
    rw [split_src_gap g S 0 0 _ (Or.inr (Or.inl (by omega)))]
    have hw2 : S * (g + 1) + 1 ≤ S * (g + 1) + 1 + (j - S * g) ∧
        S * (g + 1) + 1 + (j - S * g) < S * (g + 1) + 1 + (256 - S * g) := by omega
    simp only [hw2, and_self, if_true]
    congr 1
    omega

theorem split_slot_none (S j : Nat) (hj : 256 ≤ j) : split_slot S j = none := by
  obtain ⟨hg, hSg, e3⟩ := segment_facts S
  simp only [split_slot]
  generalize 256 / (S + 1) = g at *
  cases hd : split_dst g S 0 0 j with
  | some i =>
    have := split_dst_bounds g S 0 0 j i hd
    omega
  | none =>
    have hw : ¬ (S * g ≤ j ∧ j < 256) := by omega
    simp only [hw, if_false]

/-- Every carrier bit of `S ≤ 255` splits lies within the first 64 bytes; in
general within the first `S + 257` bits. -/
theorem split_carrier_lt (S i : Nat) (h : split_carrier S i) : i < S + 257 := by
  obtain ⟨hg, hSg, e3⟩ := segment_facts S
  simp only [split_carrier] at h
  generalize 256 / (S + 1) = g at *
  rcases h with ⟨t, ht, h1, h2⟩ | ⟨h1, h2⟩
  · have : (t + 1) * (g + 1) ≤ S * (g + 1) := Nat.mul_le_mul_right _ (by omega)
    omega
  · omega

/-- The loop of `split_extract` in the one-bit-gap mode: `n` rounds fill `n`
segments of the MAC buffer with the packet bits behind the gaps, leave every
other bit of the buffer as it is, and move the packet cursor by `n * (g + 1)`
bits and the MAC cursor by `n * g` bits. -/
theorem split_extract_loop_spec (cfg : SplitConfig) (hp : cfg.EVAL_PKTALIGN = false)
    (hm : cfg.EVAL_MACALIGN = false) (packet : Buffer) (g n : Nat) (dst : Buffer)
    (c d : BitString) (bits : Nat) (hc : c.shift ≤ 7) (hd : d.shift ≤ 7) (hg : g ≤ 256)
    (hn : n ≤ 65536) (hb : n * g ≤ bits) (hb16 : bits < 65536) :
    (∀ j, getBit (split_extract_loop cfg g packet n dst c d bits).1 j
      = match split_dst g n c.pos d.pos j with
        | some i => getBit packet i
        | none => getBit dst j) ∧
    (split_extract_loop cfg g packet n dst c d bits).2.1 = bitstring_skip c (n * (g + 1)) ∧
    (split_extract_loop cfg g packet n dst c d bits).2.2.1 = bitstring_skip d (n * g) ∧
    (split_extract_loop cfg g packet n dst c d bits).2.2.2 = bits - n * g := by
  induction n generalizing dst c d bits with
  | zero =>
    refine ⟨fun i => ?_, ?_, ?_, ?_⟩
    · simp [split_extract_loop, split_dst]
    · simp only [split_extract_loop, Nat.zero_mul]
      exact (skip_zero c hc).symm
    · simp only [split_extract_loop, Nat.zero_mul]
      exact (skip_zero d hd).symm
    · simp [split_extract_loop]
  | succ n ih =>
    have e1 : (n + 1) * g = n * g + g := Nat.succ_mul n g
    have e2 : (n + 1) * (g + 1) = n * (g + 1) + (g + 1) := Nat.succ_mul n (g + 1)
    have e3 : n * (g + 1) = n * g + n := Nat.mul_succ n g
    have e4 : n * g ≤ 65536 * 256 := Nat.mul_le_mul (by omega) hg
    have hw1 : c.shift + 1 < UINT_RANGE := by simp only [UINT_RANGE]; omega
    have hgap : split_gap cfg c d = (bitstring_skip c 1, d) := by
      simp only [split_gap, hp, hm, OFFSET_BITS, Bool.false_eq_true, if_false]
    obtain ⟨z1, z2, z3⟩ := copy_multibyte_loop_spec packet g dst d (bitstring_skip c 1) g
      hd (skip_shift_le c 1) (le_refl g) (by omega)
    rw [skip_pos c 1 hw1] at z1
    rw [skip_skip c 1 g (by simp only [UINT_RANGE]; omega)] at z3
    have hbits : (bits + 65536 - g) % 65536 = bits - g := by omega
    obtain ⟨i1, i2, i3, i4⟩ := ih (copy_multibyte_loop packet g dst d (bitstring_skip c 1) g).1
      (bitstring_skip c (1 + g)) (bitstring_skip d g) (bits - g) (skip_shift_le c (1 + g))
      (skip_shift_le d g) (by omega) (by omega) (by omega)
    rw [skip_pos c (1 + g) (by simp only [UINT_RANGE]; omega),
      skip_pos d g (by simp only [UINT_RANGE]; omega)] at i1
    simp only [split_extract_loop, hgap, _bstr_copy_multibyte, z2, z3, hbits]
    refine ⟨fun j => ?_, ?_, ?_, ?_⟩
    · rw [i1 j]
      simp only [split_dst]
      have ep : c.pos + (1 + g) = c.pos + g + 1 := by omega
      rw [ep]
      by_cases hr : d.pos ≤ j ∧ j < d.pos + g
      · have hns : split_dst g n (c.pos + g + 1) (d.pos + g) j = none := by
          cases hs : split_dst g n (c.pos + g + 1) (d.pos + g) j with
          | none => rfl
          | some i =>
            have := split_dst_bounds g n _ _ j i hs
            omega
        simp only [hns, hr, and_self, if_true]
        rw [z1 j, if_pos hr]
      · simp only [hr, if_false]
        cases hs : split_dst g n (c.pos + g + 1) (d.pos + g) j with
        | none =>
          simp only []
          rw [z1 j, if_neg hr]
        | some i => rfl
    · rw [i2, skip_skip c (1 + g) (n * (g + 1)) (by simp only [UINT_RANGE]; omega)]
      congr 1
      omega
    · rw [i3, skip_skip d g (n * g) (by simp only [UINT_RANGE]; omega)]
      congr 1
      omega
    · rw [i4]
      omega

/-- The buffer that `split_extract` returns in the one-bit-gap mode: MAC bit `j < 256` is
the packet bit of its slot, every bit from 256 on is as before. -/
theorem getBit_split_extract (cfg : SplitConfig) (hp : cfg.EVAL_PKTALIGN = false)
    (hm : cfg.EVAL_MACALIGN = false) (st : SplitState)
    (hS : st.split_parser_mac_splits < 65536) (P : Buffer) (len : Nat) (scr : Buffer)
    (j : Nat) :
    getBit (split_extract cfg st P len scr).2.2 j
      = match split_slot st.split_parser_mac_splits j with
        | some i => getBit P i
        | none => getBit scr j := by
  have hseg : segment_len st = 256 / (st.split_parser_mac_splits + 1) := by
    simp only [segment_len, MAX_MAC_BITS]
    exact Nat.mod_eq_of_lt (Nat.lt_of_le_of_lt (Nat.div_le_self _ _) (by decide))
  obtain ⟨hg, hSg, e3⟩ := segment_facts st.split_parser_mac_splits
  simp only [split_slot]
  generalize hSd : st.split_parser_mac_splits = S at *
  generalize hgd : 256 / (S + 1) = g at *
  have hi0 : bitstring_init.shift = 0 := rfl
  have hip : bitstring_init.pos = 0 := rfl
  obtain ⟨l1, l2, l3, l4⟩ := split_extract_loop_spec cfg hp hm P g S scr bitstring_init
    bitstring_init 256 (by decide) (by decide) hg (by omega) hSg (by decide)
  have hgap : ∀ c d, split_gap cfg c d = (bitstring_skip c 1, d) := by
    intro c d
    simp only [split_gap, hp, hm, OFFSET_BITS, Bool.false_eq_true, if_false]
  obtain ⟨z1, _, _⟩ := copy_multibyte_loop_spec P (256 - S * g)
    (split_extract_loop cfg g P S scr bitstring_init bitstring_init 256).1
    (bitstring_skip bitstring_init (S * g)) (bitstring_skip bitstring_init (S * (g + 1) + 1))
    (256 - S * g) (skip_shift_le _ _) (skip_shift_le _ _) (le_refl _) (by omega)
  rw [skip_pos bitstring_init _ (by simp only [UINT_RANGE, hi0]; omega),
    skip_pos bitstring_init _ (by simp only [UINT_RANGE, hi0]; omega), hip] at z1
  simp only [split_extract, hseg, hSd, hm, MAX_MAC_BITS, hgap, l2, l3, l4, _bstr_copy_multibyte,
    Bool.false_eq_true, if_false]
  rw [skip_skip bitstring_init _ 1 (by simp only [UINT_RANGE, hi0]; omega)]
  rw [z1 j, l1 j, hip]
  simp only [Nat.zero_add]
  cases hs : split_dst g S 0 0 j with
  | some i =>
    have hb := split_dst_bounds g S 0 0 j i hs
    have hr : ¬ (S * g ≤ j ∧ j < S * g + (256 - S * g)) := by omega
    simp only [hr, if_false]
  | none =>
    simp only []
    by_cases hr : S * g ≤ j ∧ j < S * g + (256 - S * g)
    · have hr2 : S * g ≤ j ∧ j < 256 := by omega
      simp only [hr, hr2, and_self, if_true]
    · have hr2 : ¬ (S * g ≤ j ∧ j < 256) := by omega
      simp only [hr, hr2, if_false]

end RePeL
namespace RePeL

/-! ## Segments of `split_embed` -/

/-- C34, as the claim states it, fails: with 2 splits `segment_len` is 85,
the loop of `split_embed` writes two segments of 85 bits and leaves 86 bits for the
last one, so the three segments are not of equal size. On a packet of zero bits
and a MAC of one bits the segments take the packet bits 1 to 85, 87 to 171 and
173 to 258: their first and last bits are set, the bits 0, 86, 172 and 259 are
not. -/
theorem split_segments_unequal :
    segment_len (split_state 2) = 85 ∧
    (split_embed_loop {} (segment_len (split_state 2)) allOnes 2 (fun _ => 0) bitstring_init
      bitstring_init MAX_MAC_BITS).2.2.2 = 86 ∧
    [0, 1, 85, 86, 87, 171, 172, 173, 258, 259].map
        (getBit (split_embed {} (split_state 2) (fun _ => 0) 64 allOnes).2)
      = [false, true, true, false, true, true, false, true, true, false] := by
  decide

/-- C34, amended: in the one-bit-gap mode with `S` splits and
`g = 256 / (S + 1)` (rounded down), `split_embed` writes the MAC bits in order as `S`
segments of `g` bits followed by a last segment with the remaining
`256 - S * g` bits: bit `r` of segment `t < S` goes to packet bit
`t * (g + 1) + 1 + r`, bit `r` of the last segment to packet bit
`S * (g + 1) + 1 + r`. The one packet bit in front of each of the `S + 1`
segments, and every bit behind the last segment, is left as it was. The last
segment has `g` bits, as the others, exactly when `S + 1` divides 256. -/
theorem split_embed_segments (cfg : SplitConfig) (hp : cfg.EVAL_PKTALIGN = false)
    (hm : cfg.EVAL_MACALIGN = false) (st : SplitState)
    (hS : st.split_parser_mac_splits < 65536) (P : Buffer) (len : Nat) (m : Buffer) :
    (∀ t r, t < st.split_parser_mac_splits → r < 256 / (st.split_parser_mac_splits + 1) →
      getBit (split_embed cfg st P len m).2
          (t * (256 / (st.split_parser_mac_splits + 1) + 1) + 1 + r)
        = getBit m (t * (256 / (st.split_parser_mac_splits + 1)) + r)) ∧
    (∀ r, r < 256 - st.split_parser_mac_splits * (256 / (st.split_parser_mac_splits + 1)) →
      getBit (split_embed cfg st P len m).2
          (st.split_parser_mac_splits * (256 / (st.split_parser_mac_splits + 1) + 1) + 1 + r)
        = getBit m (st.split_parser_mac_splits * (256 / (st.split_parser_mac_splits + 1)) + r)) ∧
    (∀ t, t ≤ st.split_parser_mac_splits →
      getBit (split_embed cfg st P len m).2 (t * (256 / (st.split_parser_mac_splits + 1) + 1))
        = getBit P (t * (256 / (st.split_parser_mac_splits + 1) + 1))) ∧
    (∀ i, st.split_parser_mac_splits * (256 / (st.split_parser_mac_splits + 1) + 1) + 1
        + (256 - st.split_parser_mac_splits * (256 / (st.split_parser_mac_splits + 1))) ≤ i →
      getBit (split_embed cfg st P len m).2 i = getBit P i) ∧
    (256 - st.split_parser_mac_splits * (256 / (st.split_parser_mac_splits + 1))
        = 256 / (st.split_parser_mac_splits + 1) ↔ (st.split_parser_mac_splits + 1) ∣ 256) := by
  obtain ⟨hg, hSg, e3⟩ := segment_facts st.split_parser_mac_splits
  have hE := getBit_split_embed cfg hp hm st hS P len m
  simp only [split_layout] at hE
  have hdiv : (st.split_parser_mac_splits + 1) ∣ 256 ↔
      (st.split_parser_mac_splits + 1) * (256 / (st.split_parser_mac_splits + 1)) = 256 :=
    ⟨fun h => Nat.mul_div_cancel' h, fun h => Dvd.intro _ h⟩
  have e5 : (st.split_parser_mac_splits + 1) * (256 / (st.split_parser_mac_splits + 1))
      = st.split_parser_mac_splits * (256 / (st.split_parser_mac_splits + 1))
        + 256 / (st.split_parser_mac_splits + 1) := Nat.succ_mul _ _
  rw [hdiv, e5]
  generalize st.split_parser_mac_splits = S at *
  generalize 256 / (S + 1) = g at *
  refine ⟨?_, ?_, ?_, ?_, by omega⟩
  · intro t r ht hr
    rw [hE]
    have := split_src_at g S 0 0 t r ht hr
    simp only [Nat.zero_add] at this
    rw [this]
  · intro r hr
    rw [hE, split_src_gap g S 0 0 _ (Or.inr (Or.inl (by omega)))]
    have hw : S * (g + 1) + 1 ≤ S * (g + 1) + 1 + r ∧
        S * (g + 1) + 1 + r < S * (g + 1) + 1 + (256 - S * g) := by omega
    simp only [hw, and_self, if_true]
    congr 1
    omega
  · intro t ht
    rw [hE, split_src_gap g S 0 0 _ (Or.inl ⟨t, ht, by omega⟩)]
    have : t * (g + 1) ≤ S * (g + 1) := Nat.mul_le_mul_right _ ht
    have hw : ¬ (S * (g + 1) + 1 ≤ t * (g + 1) ∧
        t * (g + 1) < S * (g + 1) + 1 + (256 - S * g)) := by omega
    simp only [hw, if_false]
  · intro i hi
    rw [hE, split_src_gap g S 0 0 _ (Or.inr (Or.inl (by omega)))]
    have hw : ¬ (S * (g + 1) + 1 ≤ i ∧ i < S * (g + 1) + 1 + (256 - S * g)) := by omega
    simp only [hw, if_false]

theorem split_embed_segments_witness :
    (∀ r, r < 256 - 2 * (256 / (2 + 1)) →
      getBit (split_embed {} (split_state 2) (fun _ => 0) 64 allOnes).2
          (2 * (256 / (2 + 1) + 1) + 1 + r)
        = getBit allOnes (2 * (256 / (2 + 1)) + r)) ∧
    256 - 2 * (256 / (2 + 1)) = 86 :=
  ⟨(split_embed_segments {} rfl rfl (split_state 2) (by decide) (fun _ => 0) 64 allOnes).2.1,
   by decide⟩

end RePeL
namespace RePeL

/-! ## Minimum packet length of the split parser -/

/-- C35, as the claim states it, fails. Without splits the claim has 33
bytes as the shortest accepted buffer: `split_parse` rejects 33 bytes with the
shortfall `-31`, and 63 bytes with `-1`, and accepts 64 bytes. With 256 splits
a buffer of 64 bytes is accepted, and `split_embed` writes the packet bit 512, the
first bit of the byte at offset 64. -/
theorem split_parse_rejects_short_buffer :
    split_parse {} (split_state 0) (fun _ => 0) 33 RepelMode.EMBED
      = { pktlen := -31, embed_bits := 0, packet_has_nonce := false } ∧
    split_parse {} (split_state 0) (fun _ => 0) 63 RepelMode.EMBED
      = { pktlen := -1, embed_bits := 0, packet_has_nonce := false } ∧
    split_parse {} (split_state 0) (fun _ => 0) 64 RepelMode.EMBED
      = { pktlen := 64, embed_bits := 256, packet_has_nonce := false } ∧
    split_parse {} (split_state 256) (fun _ => 0) 64 RepelMode.EMBED
      = { pktlen := 64, embed_bits := 256, packet_has_nonce := false } ∧
    getBit (fun _ => 0) 512 = false ∧
    getBit (split_embed {} (split_state 256) (fun _ => 0) 64 allOnes).2 512 = true := by
  refine ⟨by decide, by decide, by decide, by decide, by decide, ?_⟩
  rw [getBit_split_embed {} rfl rfl (split_state 256) (by decide) (fun _ => 0) 64 allOnes 512]
  have hl : split_layout (split_state 256).split_parser_mac_splits 512 = some 255 := by
    have hg : 256 / (256 + 1) = 0 := by decide
    simp only [split_layout, split_state, hg]
    rw [split_src_gap 0 256 0 0 512 (Or.inr (Or.inl (by decide)))]
    decide
  rw [hl]
  decide

/-- C35, amended: in the one-bit-gap mode, whatever the split count, the
shortest buffer that `split_parse` accepts (`pktlen = buflen`,
`embed_bits = 256`) has 64 bytes, the 256 carrier bits plus 256 one-bit gaps
rounded up to bytes; a shorter buffer gets the negative shortfall
`buflen - 64` as `pktlen`. For a split count of at most 255 every carrier bit
lies within the first 64 bytes, so within every accepted packet; `split_embed` and
`split_restore` change carrier bits only, and what `split_extract` returns depends on the
carrier bits of the packet only. -/
theorem split_min_length (cfg : SplitConfig) (hp : cfg.EVAL_PKTALIGN = false)
    (hm : cfg.EVAL_MACALIGN = false) (st : SplitState)
    (hS : st.split_parser_mac_splits < 65536) (P m scr : Buffer) (len : Nat)
    (mode : RepelMode) :
    (∀ buflen, 64 ≤ buflen → split_parse cfg st P buflen mode
      = { pktlen := (buflen : Int), embed_bits := 256, packet_has_nonce := false }) ∧
    (∀ buflen, buflen < 64 → split_parse cfg st P buflen mode
      = { pktlen := (buflen : Int) - 64, embed_bits := 0, packet_has_nonce := false }) ∧
    (st.split_parser_mac_splits ≤ 255 →
      ∀ i, split_carrier st.split_parser_mac_splits i → i < 8 * 64) ∧
    (∀ i, ¬ split_carrier st.split_parser_mac_splits i →
      getBit (split_embed cfg st P len m).2 i = getBit P i) ∧
    (∀ i, ¬ split_carrier st.split_parser_mac_splits i →
      getBit (split_restore cfg st P len mode).2 i = getBit P i) ∧
    (split_extract cfg st P len scr).2.1 = P ∧
    (∀ P2 : Buffer,
      (∀ i, split_carrier st.split_parser_mac_splits i → getBit P2 i = getBit P i) →
      (split_extract cfg st P2 len scr).2.2 = (split_extract cfg st P len scr).2.2) := by
  classical
  have hmin : MIN_PKT_LEN cfg = 64 := by
    simp only [MIN_PKT_LEN, hp, Bool.false_eq_true, if_false]
    decide
  refine ⟨?_, ?_, ?_, ?_, ?_, ?_, ?_⟩
  · intro buflen hb
    have : ¬ ((buflen : Int) < ((64 : Nat) : Int)) := by omega
    simp only [split_parse, parse_fail_on_minlen, hmin, this, if_false, MAX_MAC_BITS]
  · intro buflen hb
    have : (buflen : Int) < ((64 : Nat) : Int) := by omega
    simp only [split_parse, parse_fail_on_minlen, hmin, this, if_true]
    rfl
  · intro h255 i hi
    have := split_carrier_lt _ i hi
    omega
  · intro i hi
    rw [getBit_split_embed cfg hp hm st hS P len m i]
    cases hl : split_layout st.split_parser_mac_splits i with
    | none => rfl
    | some j =>
      exact absurd ((split_layout_isSome _ i).mp (by rw [hl]; rfl)) hi
  · intro i hi
    rw [getBit_split_restore cfg hp st hS P len mode i, if_neg hi]
  · simp only [split_extract, hm, Bool.false_eq_true, if_false]
  · intro P2 h2
    apply buffer_ext_bits
    intro j
    rw [getBit_split_extract cfg hp hm st hS P2 len scr j,
      getBit_split_extract cfg hp hm st hS P len scr j]
    by_cases hj : j < 256
    · obtain ⟨i, h1, h3⟩ := split_slot_layout st.split_parser_mac_splits j hj
      rw [h1]
      exact h2 i ((split_layout_isSome _ i).mp (by rw [h3]; rfl))
    · rw [split_slot_none _ j (by omega)]

theorem split_min_length_witness :
    split_parse {} (split_state 3) (fun _ => 0) 64 RepelMode.EMBED
      = { pktlen := 64, embed_bits := 256, packet_has_nonce := false } ∧
    (∀ i, split_carrier (split_state 3).split_parser_mac_splits i → i < 8 * 64) :=
  ⟨(split_min_length {} rfl rfl (split_state 3) (by decide) (fun _ => 0) allOnes (fun _ => 0)
      64 RepelMode.EMBED).1 64 (le_refl _),
   (split_min_length {} rfl rfl (split_state 3) (by decide) (fun _ => 0) allOnes (fun _ => 0)
      64 RepelMode.EMBED).2.2.1 (by decide)⟩

end RePeL
namespace RePeL

/-! ## Round trip of the split parser -/

/-- C36: round trip of the split parser in the one-bit-gap mode, for every
split count, packet and MAC buffer. `split_extract` on the packet that `split_embed` leaves
returns the 256 MAC bits and leaves the packet; `split_restore` on that packet gives
the packet that `split_restore` gives on the original; and `split_restore` sets to zero
the bits that `split_embed` writes, the packet bits that the layout maps to a MAC
bit, and leaves every other bit as it was. None of the three changes the
parser state. -/
theorem split_round_trip (cfg : SplitConfig) (hp : cfg.EVAL_PKTALIGN = false)
    (hm : cfg.EVAL_MACALIGN = false) (st : SplitState)
    (hS : st.split_parser_mac_splits < 65536) (P m scr : Buffer) (len : Nat)
    (mode : RepelMode) :
    (∀ j, j < 256 →
      getBit (split_extract cfg st (split_embed cfg st P len m).2 len scr).2.2 j = getBit m j) ∧
    (split_extract cfg st (split_embed cfg st P len m).2 len scr).2.1
      = (split_embed cfg st P len m).2 ∧
    (split_restore cfg st (split_embed cfg st P len m).2 len mode).2
      = (split_restore cfg st P len mode).2 ∧
    (∀ i, getBit (split_embed cfg st P len m).2 i
      = match split_layout st.split_parser_mac_splits i with
        | some j => getBit m j
        | none => getBit P i) ∧
    (∀ i, getBit (split_restore cfg st P len mode).2 i
      = if (split_layout st.split_parser_mac_splits i).isSome then false else getBit P i) ∧
    (split_embed cfg st P len m).1 = st ∧
    (split_extract cfg st P len scr).1 = st ∧
    (split_restore cfg st P len mode).1 = st := by
  classical
  refine ⟨?_, ?_, ?_, getBit_split_embed cfg hp hm st hS P len m, ?_, rfl, ?_, rfl⟩
  · intro j hj
    obtain ⟨i, h1, h3⟩ := split_slot_layout st.split_parser_mac_splits j hj
    rw [getBit_split_extract cfg hp hm st hS _ len scr j, h1]
    simp only []
    rw [getBit_split_embed cfg hp hm st hS P len m i, h3]
  · simp only [split_extract, hm, Bool.false_eq_true, if_false]
  · apply split_restore_deterministic cfg hp st hS
    intro i hi
    rw [getBit_split_embed cfg hp hm st hS P len m i]
    cases hl : split_layout st.split_parser_mac_splits i with
    | none => rfl
    | some j => exact absurd ((split_layout_isSome _ i).mp (by rw [hl]; rfl)) hi
  · intro i
    rw [getBit_split_restore cfg hp st hS P len mode i]
    by_cases hc : split_carrier st.split_parser_mac_splits i
    · rw [if_pos hc, if_pos ((split_layout_isSome _ i).mpr hc)]
    · have : ¬ (split_layout st.split_parser_mac_splits i).isSome = true :=
        fun h => hc ((split_layout_isSome _ i).mp h)
      rw [if_neg hc, if_neg this]
  · simp only [split_extract, hm, Bool.false_eq_true, if_false]

theorem split_round_trip_witness :
    (∀ j, j < 256 →
      getBit (split_extract {} (split_state 255)
        (split_embed {} (split_state 255) (fun _ => 0) 64 allOnes).2 64 (fun _ => 0)).2.2 j
        = getBit allOnes j) ∧
    (split_restore {} (split_state 255)
        (split_embed {} (split_state 255) (fun _ => 0) 64 allOnes).2 64 RepelMode.AUTHENTICATE).2
      = (split_restore {} (split_state 255) (fun _ => 0) 64 RepelMode.AUTHENTICATE).2 :=
  ⟨(split_round_trip {} rfl rfl (split_state 255) (by decide) (fun _ => 0) allOnes (fun _ => 0)
      64 RepelMode.AUTHENTICATE).1,
   (split_round_trip {} rfl rfl (split_state 255) (by decide) (fun _ => 0) allOnes (fun _ => 0)
      64 RepelMode.AUTHENTICATE).2.2.1⟩

end RePeL
namespace RePeL

/-! ## In-sync round trip with the fake parser and the HMAC adapter -/

/-- The nonce reconstruction when the bits read are the low bits of the
receive nonce itself: the candidate is the receive nonce and the loss is 0, for
every width up to 64. -/
theorem reconstruct_nonce_in_sync (R k macbits : Nat) (mac : Buffer) (hk : k ≤ 64)
    (hR : R < 2 ^ 64) (hm : macbits < 65536) (hlow : bitsVal mac macbits k = R % 2 ^ k) :
    reconstruct_nonce R mac macbits k = (R, 0) := by
  have hX : 0 < 2 ^ k := Nat.two_pow_pos k
  have hpop := nonce_read_eq mac macbits k hm hk
  have hlo := low_or_upper (R % 2 ^ k) R k (Nat.mod_lt _ hX) hR
  rw [Nat.div_add_mod] at hlo
  have hnl : ¬ R < R := Nat.lt_irrefl R
  have hd : (R + NONCE_RANGE - R) % NONCE_RANGE = 0 := by
    simp only [NONCE_RANGE]
    omega
  have hu : (0 : Nat) < UINT16_MAX := by decide
  simp only [reconstruct_nonce, hpop, hlow, hlo, hnl, if_false, hd, hu, if_true]

/-- The restored packet of the fake parser for 32 bytes does not depend on
the first 256 bits. -/
theorem fake_restore_copy (P M : Buffer) :
    memset (fake_copy (memset P 0 32) M 32) 0 32 = memset P 0 32 := by
  funext a
  simp only [memset]
  by_cases ha : a < 32
  · simp only [ha, if_true]
  · simp only [ha, if_false]
    have : fake_copy (memset P 0 32) M 32 a = memset P 0 32 a := by
      apply byte_eq_of_getBit
      intro i hi
      rw [fake_copy_spec]
      have hnc : ¬ fake_carrier 32 i := by
        rw [fake_carrier_iff]
        omega
      rw [if_neg hnc]
    rw [this]
    simp only [memset, ha, if_false]

/-- The result of `repel_embed` with the fake parser and the HMAC adapter on a packet
of 32 bytes. -/
theorem fake_hmac_embed (H : HmacFn) (ms : HMacData) (send recv k : Nat) (x P : Buffer)
    (hk : k ≤ 64) :
    repel_embed
        { parser := fake_parser_module, macalgo := hmac_module H, parser_state := (),
          mac_state := ms, nonce_send := send, nonce_recv := recv, nonce_embed_bits := k,
          extrbuf := x } P 32
      = ({ parser := fake_parser_module, macalgo := hmac_module H, parser_state := (),
           mac_state :=
             { keys := ms.keys
               buffer := hmac_embed_mac H ms (memset P 0 32) 32 (256 - k) k send },
           nonce_send := (send + 1) % NONCE_RANGE, nonce_recv := recv, nonce_embed_bits := k,
           extrbuf := x },
         fake_copy (memset P 0 32) (hmac_embed_mac H ms (memset P 0 32) 32 (256 - k) k send) 32,
         256 - k) := by
  have hp : fake_parse () P 32 RepelMode.EMBED
      = { pktlen := 32, embed_bits := 256, packet_has_nonce := false } := by
    simp only [fake_parse, MAX_MAC_BITS]
    rfl
  have hb : bufsize 32 = 32 := by decide
  have hr : fake_restore () P 32 RepelMode.EMBED = ((), memset P 0 32) := by
    simp only [fake_restore, MAX_MAC_BYTES, ceil_bits_to_bytes]
    rfl
  have hle : ¬ (256 ≤ k) := by omega
  have h1 : ¬ ((32 : Int) ≠ ((32 : Nat) : Int) ∨ 256 = 0) := by decide
  simp only [repel_embed, fake_parser_module, hmac_module, hp, hb, hr, hle, h1, fake_embed,
    hmac_embed_mac, if_false, Bool.not_false, if_true]
  by_cases hk0 : k > 0
  · simp only [hk0, if_true, hmac_sign]
  · simp only [hk0, if_false, hmac_sign]

/-- The layout of the buffer `hmac_embed_mac`: the first `macbits` bits are
those of the digest, the next `k` bits are the low bits of the send nonce. -/
theorem hmac_embed_mac_layout (H : HmacFn) (ms : HMacData) (Q : Buffer)
    (size macbits k send : Nat) (hk : k ≤ 64) (hm : macbits + k < 65536) :
    (∀ j, j < macbits → getBit (hmac_embed_mac H ms Q size macbits k send) j
      = getBit (hmac_digest H (ms.key HMAC_KEYSLOT_SEND)
          (hmac_message Q size (some (netendian_nonce send)))) j) ∧
    bitsVal (hmac_embed_mac H ms Q size macbits k send) macbits k = send % 2 ^ k := by
  simp only [hmac_embed_mac]
  by_cases hk0 : k > 0
  · simp only [hk0, if_true]
    have hsk : bitstring_skip bitstring_init macbits = ⟨macbits / 8, macbits % 8⟩ :=
      skip_init _ (by simp only [UINT_RANGE]; omega)
    have hp := (push_u64_spec (hmac_sign H ms Q size macbits k
      (some (netendian_nonce send))).2 ⟨macbits / 8, macbits % 8⟩ send (k % 256)
      (by simp only []; omega) (by omega)).1
    have hpos : (⟨macbits / 8, macbits % 8⟩ : BitString).pos = macbits := by
      simp only [BitString.pos]; omega
    have hk' : k % 256 = k := Nat.mod_eq_of_lt (by omega)
    rw [hpos, hk'] at hp
    rw [hsk, hk']
    refine ⟨fun j hj => ?_, bitsVal_of_isPush hp⟩
    rw [hp j]
    have hw : ¬ (macbits ≤ j ∧ j < macbits + k) := by omega
    rw [if_neg hw]
    exact getBit_hmac_sign H ms Q size macbits k _ j hm (by omega)
  · have hk00 : k = 0 := by omega
    subst hk00
    simp only [hk0, if_false]
    refine ⟨fun j hj => ?_, by simp [bitsVal, Nat.mod_one]⟩
    exact getBit_hmac_sign H ms Q size macbits 0 _ j hm (by omega)

/-- The result of `repel_authenticate` with the fake parser and the HMAC adapter on a
packet of 32 bytes that carries the bits of `M` in its first 256 bits, when
the first `256 - k` bits of `M` are those of the digest of the restored packet
and the receive nonce under the receive key, and the next `k` bits are the low
bits of the receive nonce. -/
theorem fake_hmac_authenticate (H : HmacFn) (con : RepelConnection Unit HMacData)
    (P M : Buffer) (r k cbdata : Nat) (auth : AuthenticateResult)
    (c1 : con.parser = fake_parser_module) (c2 : con.macalgo = hmac_module H)
    (c4 : con.nonce_recv = r) (c5 : con.nonce_embed_bits = k) (hk : k ≤ 64) (hr : r < 2 ^ 64)
    (hM1 : ∀ j, j < 256 - k → getBit M j
      = getBit (hmac_digest H (con.mac_state.key HMAC_KEYSLOT_RECV)
          (hmac_message (memset P 0 32) 32 (some (netendian_nonce r)))) j)
    (hM2 : bitsVal M (256 - k) k = r % 2 ^ k) :
    (repel_authenticate con (fake_copy (memset P 0 32) M 32) 32 true true cbdata auth).ret = 32 ∧
    (∃ c, (repel_authenticate con (fake_copy (memset P 0 32) M 32) 32 true true cbdata
        auth).callback = some c ∧
      c.kind = CallbackKind.on_auth_success ∧ c.cbdata = cbdata ∧ c.packet_len = 32 ∧
      c.result = { protection_level := 256 - k, packet_loss := 0, nonce_embedded := true }) ∧
    (repel_authenticate con (fake_copy (memset P 0 32) M 32) 32 true true cbdata
      auth).con.nonce_recv = (r + 1) % NONCE_RANGE ∧
    (repel_authenticate con (fake_copy (memset P 0 32) M 32) 32 true true cbdata
      auth).con.nonce_send = con.nonce_send := by
  have hX : ∀ j, j < 256 →
      getBit (fake_copy con.extrbuf (fake_copy (memset P 0 32) M 32) 32) j = getBit M j := by
    intro j hj
    have hc : fake_carrier 32 j := by rw [fake_carrier_iff]; omega
    rw [fake_copy_spec, if_pos hc, fake_copy_spec, if_pos hc]
  have hb : bufsize 32 = 32 := by decide
  have hpA : auth_parse con (fake_copy (memset P 0 32) M 32) 32
      = { pktlen := 32, embed_bits := 256, packet_has_nonce := false } := by
    simp only [auth_parse, c1, fake_parser_module, fake_parse, MAX_MAC_BITS]
    rfl
  have hex : auth_extract con (fake_copy (memset P 0 32) M 32) 32
      = ((), fake_copy (memset P 0 32) M 32,
          fake_copy con.extrbuf (fake_copy (memset P 0 32) M 32) 32) := by
    simp only [auth_extract, hpA, hb, c1, fake_parser_module, fake_extract]
  have hrs : auth_restore con (fake_copy (memset P 0 32) M 32) 32 = ((), memset P 0 32) := by
    simp only [auth_restore, hex, hpA, hb, c1, fake_parser_module, fake_restore, MAX_MAC_BYTES,
      ceil_bits_to_bytes]
    have h32 : ¬ (32 > (256 + 7) / 8) := by decide
    rw [if_neg h32, fake_restore_copy]
  have hnon : auth_nonce con (fake_copy (memset P 0 32) M 32) 32 = (r, 0) := by
    simp only [auth_nonce, hex, hpA, c4, c5]
    by_cases hk0 : k > 0
    · rw [if_pos hk0]
      apply reconstruct_nonce_in_sync r k (256 - k) _ hk hr (by omega)
      rw [← hM2]
      apply bitsVal_congr
      intro i h1 h2
      exact hX i (by omega)
    · rw [if_neg hk0]
  have hver : auth_verify con (fake_copy (memset P 0 32) M 32) 32
      = hmac_verify H con.mac_state (memset P 0 32) 32
          (fake_copy con.extrbuf (fake_copy (memset P 0 32) M 32) 32) (256 - k)
          (some (netendian_nonce r)) := by
    simp only [auth_verify, hpA, hrs, hex, hnon, hb, c2, c5, hmac_module,
      Bool.false_eq_true, if_false]
  have hv : (auth_verify con (fake_copy (memset P 0 32) M 32) 32).2
      = ((256 - k : Nat) : Int) := by
    rw [hver]
    apply hmac_verify_of_leading_bits H _ _ 32 _ (256 - k) _ (by omega)
    intro j hj
    rw [hX j (by omega), hM1 j hj]
    exact getBit_hmac_finalize _ _ _ j (by omega)
  have hpos : ((256 - k : Nat) : Int) > 0 := by omega
  have htn : ((256 - k : Nat) : Int).toNat % 65536 = 256 - k := by omega
  have hle : ¬ (256 ≤ k) := by omega
  have hlt : ¬ ((32 : Int) < 0) := by decide
  have hvf : con.parser.verified = none := by rw [c1]; rfl
  rw [authenticate_stages]
  simp only [hpA, hlt, if_false, c5, hle, and_false, true_and, hv, hpos, and_self, if_true,
    hnon, authenticate_finish, hvf, hb, htn, Bool.not_false, Bool.false_eq_true]
  exact ⟨⟨_, rfl, rfl, rfl, rfl, rfl⟩, trivial⟩

/-- C37: in-sync round trip for every nonce width `k` in `0..64`. A
connection with the fake parser and the HMAC adapter, over any keyed function,
whose send and receive keys are equal and whose send and receive nonce both
hold `r`: on a packet of 32 bytes `repel_embed` returns `256 - k`, and
`repel_authenticate` on the connection and the buffer that `repel_embed` leaves returns
32 and calls `on_auth_success` with the callback data, `protection_level = 256 - k`,
`packet_loss = 0` and `nonce_embedded = true`; afterwards both nonces hold
`r + 1` (as 64-bit numbers, so 0 after `2^64 - 1`). -/
theorem fake_hmac_in_sync_round_trip (H : HmacFn) (ms : HMacData) (r k : Nat) (x P : Buffer)
    (cbdata : Nat) (auth : AuthenticateResult)
    (hkey : ms.key HMAC_KEYSLOT_SEND = ms.key HMAC_KEYSLOT_RECV) (hk : k ≤ 64)
    (hr : r < 2 ^ 64) :
    (repel_embed
        { parser := fake_parser_module, macalgo := hmac_module H, parser_state := (),
          mac_state := ms, nonce_send := r, nonce_recv := r, nonce_embed_bits := k,
          extrbuf := x } P 32).2.2 = 256 - k ∧
    (repel_authenticate
      (repel_embed
        { parser := fake_parser_module, macalgo := hmac_module H, parser_state := (),
          mac_state := ms, nonce_send := r, nonce_recv := r, nonce_embed_bits := k,
          extrbuf := x } P 32).1
      (repel_embed
        { parser := fake_parser_module, macalgo := hmac_module H, parser_state := (),
          mac_state := ms, nonce_send := r, nonce_recv := r, nonce_embed_bits := k,
          extrbuf := x } P 32).2.1 32 true true cbdata auth).ret = 32 ∧
    (∃ c, (repel_authenticate
      (repel_embed
        { parser := fake_parser_module, macalgo := hmac_module H, parser_state := (),
          mac_state := ms, nonce_send := r, nonce_recv := r, nonce_embed_bits := k,
          extrbuf := x } P 32).1
      (repel_embed
        { parser := fake_parser_module, macalgo := hmac_module H, parser_state := (),
          mac_state := ms, nonce_send := r, nonce_recv := r, nonce_embed_bits := k,
          extrbuf := x } P 32).2.1 32 true true cbdata auth).callback = some c ∧
      c.kind = CallbackKind.on_auth_success ∧ c.cbdata = cbdata ∧ c.packet_len = 32 ∧
      c.result = { protection_level := 256 - k, packet_loss := 0, nonce_embedded := true }) ∧
    (repel_authenticate
      (repel_embed
        { parser := fake_parser_module, macalgo := hmac_module H, parser_state := (),
          mac_state := ms, nonce_send := r, nonce_recv := r, nonce_embed_bits := k,
          extrbuf := x } P 32).1
      (repel_embed
        { parser := fake_parser_module, macalgo := hmac_module H, parser_state := (),
          mac_state := ms, nonce_send := r, nonce_recv := r, nonce_embed_bits := k,
          extrbuf := x } P 32).2.1 32 true true cbdata auth).con.nonce_recv
      = (r + 1) % 2 ^ 64 ∧
    (repel_authenticate
      (repel_embed
        { parser := fake_parser_module, macalgo := hmac_module H, parser_state := (),
          mac_state := ms, nonce_send := r, nonce_recv := r, nonce_embed_bits := k,
          extrbuf := x } P 32).1
      (repel_embed
        { parser := fake_parser_module, macalgo := hmac_module H, parser_state := (),
          mac_state := ms, nonce_send := r, nonce_recv := r, nonce_embed_bits := k,
          extrbuf := x } P 32).2.1 32 true true cbdata auth).con.nonce_send
      = (r + 1) % 2 ^ 64 := by
  rw [fake_hmac_embed H ms r r k x P hk]
  simp only []
  obtain ⟨hM1, hM2⟩ := hmac_embed_mac_layout H ms (memset P 0 32) 32 (256 - k) k r hk
    (by omega)
  have hkk : HMacData.key
      (HMacData.mk ms.keys (hmac_embed_mac H ms (memset P 0 32) 32 (256 - k) k r))
      HMAC_KEYSLOT_RECV = ms.key HMAC_KEYSLOT_SEND := by
    rw [hkey]
    exact hmac_key_congr _ _ rfl _
  obtain ⟨a1, a2, a3, a4⟩ := fake_hmac_authenticate H
    { parser := fake_parser_module, macalgo := hmac_module H, parser_state := (),
      mac_state := HMacData.mk ms.keys (hmac_embed_mac H ms (memset P 0 32) 32 (256 - k) k r),
      nonce_send := (r + 1) % NONCE_RANGE, nonce_recv := r, nonce_embed_bits := k,
      extrbuf := x }
    P (hmac_embed_mac H ms (memset P 0 32) 32 (256 - k) k r) r k cbdata auth rfl rfl rfl rfl
    hk hr (fun j hj => by rw [hM1 j hj, hkk]) hM2
  exact ⟨trivial, a1, a2, a3, a4⟩

theorem fake_hmac_in_sync_round_trip_witness :
    (repel_embed
        { parser := fake_parser_module, macalgo := hmac_module sum_hmac, parser_state := (),
          mac_state := { keys := Buffer.ofList (example_key 0x34 ++ example_key 0x34),
                         buffer := allOnes },
          nonce_send := 2 ^ 64 - 1, nonce_recv := 2 ^ 64 - 1, nonce_embed_bits := 64,
          extrbuf := allOnes } allOnes 32).2.2 = 192 :=
  (fake_hmac_in_sync_round_trip sum_hmac
    { keys := Buffer.ofList (example_key 0x34 ++ example_key 0x34), buffer := allOnes }
    (2 ^ 64 - 1) 64 allOnes allOnes 0 ⟨0, 0, false⟩ (by decide) (by decide) (by decide)).1

end RePeL
namespace RePeL

/-! ## The frame that travels from the sender to the receiver -/

theorem getBit_receive_frame (F : Buffer) (n : Nat) (r : Buffer) (i : Nat) :
    getBit (receive_frame F n r) i = if i < 8 * n then getBit F i else getBit r i := by
  simp only [getBit, Buffer.read, receive_frame]
  by_cases h : i < 8 * n
  · have : i / 8 < n := by omega
    simp only [h, this, if_true]
  · have : ¬ (i / 8 < n) := by omega
    simp only [h, this, if_false]

/-- One protected packet from `A` to `B` with the Modbus/TCP parser (default carrier
layout, any role on either side) and the HMAC adapter, the `size` bytes of the
embedded frame arriving in a receive buffer that held `rbuf`: for a frame of at
least 7 bytes the receiver accepts, when the send key of `A` is the receive key
of `B` and the send nonce of `A` is `d` ahead of the receive nonce of `B`,
within the window. -/
theorem modbus_hmac_frame_roundtrip (H : HmacFn) (cfgA cfgB : ModbusConfig)
    (hbA : cfgA.MODBUS_TCP_REUSE_TID_BITS = 12) (huA : cfgA.MODBUS_TCP_REUSE_UNIT_ID = true)
    (hbB : cfgB.MODBUS_TCP_REUSE_TID_BITS = 12) (huB : cfgB.MODBUS_TCP_REUSE_UNIT_ID = true)
    (stA stB : ModbusTCPState) (msA msB : HMacData) (sendA recvA sendB recvB k : Nat)
    (xA xB P rbuf : Buffer) (size d : Nat) (hk : k < 36)
    (hsize : size = bitsVal P 32 16 + 6) (h7 : 7 ≤ size) (h16 : size < 65536)
    (hkey : msA.key HMAC_KEYSLOT_SEND = msB.key HMAC_KEYSLOT_RECV)
    (hN : sendA = recvB + d) (hd : d < 2 ^ k) (hN64 : sendA < 2 ^ 64)
    (hs : k ≤ 30 ∨ recvB % 2 ^ k + d < 2 ^ k)
    (on_success on_failed : Bool) (cbdata : Nat) (auth : AuthenticateResult) :
    ∃ (Pe S : Buffer) (msA' msB' : HMacData),
      msA'.keys = msA.keys ∧ msB'.keys = msB.keys ∧
      repel_embed
        { parser := modbus_tcp_parser_module cfgA, macalgo := hmac_module H, parser_state := stA,
          mac_state := msA, nonce_send := sendA, nonce_recv := recvA, nonce_embed_bits := k,
          extrbuf := xA } P size
        = ({ parser := modbus_tcp_parser_module cfgA, macalgo := hmac_module H,
             parser_state := (modbus_tcp_restore cfgA stA P size RepelMode.EMBED).1,
             mac_state := msA', nonce_send := (sendA + 1) % NONCE_RANGE, nonce_recv := recvA,
             nonce_embed_bits := k, extrbuf := xA }, Pe, 36 - k) ∧
      repel_authenticate
        { parser := modbus_tcp_parser_module cfgB, macalgo := hmac_module H, parser_state := stB,
          mac_state := msB, nonce_send := sendB, nonce_recv := recvB, nonce_embed_bits := k,
          extrbuf := xB } (receive_frame Pe size rbuf) size on_success on_failed cbdata auth
        = { con :=
              { parser := modbus_tcp_parser_module cfgB, macalgo := hmac_module H,
                parser_state := (modbus_tcp_verified cfgB stB (receive_frame
                  (modbus_tcp_restore cfgA stA P size RepelMode.EMBED).2 size rbuf) size).1,
                mac_state := msB', nonce_send := sendB,
                nonce_recv := (sendA + 1) % NONCE_RANGE, nonce_embed_bits := k, extrbuf := S },
            packet := (modbus_tcp_verified cfgB stB (receive_frame
              (modbus_tcp_restore cfgA stA P size RepelMode.EMBED).2 size rbuf) size).2,
            ret := size,
            callback :=
              if on_success then
                some { kind := CallbackKind.on_auth_success, cbdata := cbdata,
                       packet := (modbus_tcp_verified cfgB stB (receive_frame
                         (modbus_tcp_restore cfgA stA P size RepelMode.EMBED).2 size rbuf)
                         size).2,
                       packet_len := size,
                       result :=
                         { protection_level := 36 - k,
                           packet_loss := if d < UINT16_MAX then d else UINT16_MAX,
                           nonce_embedded := true } }
              else none } := by
  obtain ⟨hcan, hrest⟩ := restore_canonical cfgA hbA huA stA P size RepelMode.EMBED
  have hin : ∀ i, i < 8 * size → getBit (receive_frame
      (modbus_tcp_restore cfgA stA P size RepelMode.EMBED).2 size rbuf) i
      = getBit (modbus_tcp_restore cfgA stA P size RepelMode.EMBED).2 i := by
    intro i hi
    rw [getBit_receive_frame, if_pos hi]
  have hlen : bitsVal (receive_frame
      (modbus_tcp_restore cfgA stA P size RepelMode.EMBED).2 size rbuf) 32 16
      = bitsVal P 32 16 := by
    apply bitsVal_congr
    intro i h1 h2
    rw [hin i (by omega)]
    exact hrest i h1 (by omega)
  have hcan' : ModbusCanonical (receive_frame
      (modbus_tcp_restore cfgA stA P size RepelMode.EMBED).2 size rbuf) := by
    obtain ⟨c1, c2, c3⟩ := hcan
    refine ⟨?_, ?_, ?_⟩
    · intro i hi; rw [hin i (by omega)]; exact c1 i hi
    · intro i h1 h2; rw [hin i (by omega)]; exact c2 i h1 h2
    · intro i h1 h2; rw [hin i (by omega)]; exact c3 i h1 h2
  have hmsg : ∀ nb, hmac_message (receive_frame
      (modbus_tcp_restore cfgA stA P size RepelMode.EMBED).2 size rbuf) size nb
      = hmac_message (modbus_tcp_restore cfgA stA P size RepelMode.EMBED).2 size nb := by
    intro nb
    simp only [hmac_message]
    rw [take_congr hin]
  have hE := modbus_hmac_embed H cfgA hbA huA stA msA sendA recvA k xA P size hk hsize h16
  have hV := modbus_hmac_authenticate H cfgB hbB huB stB msB sendB recvB k xB
    (receive_frame (modbus_tcp_embed cfgA (modbus_tcp_restore cfgA stA P size RepelMode.EMBED).1
      (modbus_tcp_restore cfgA stA P size RepelMode.EMBED).2 size
      (hmac_embed_mac H msA (modbus_tcp_restore cfgA stA P size RepelMode.EMBED).2
        size (36 - k) k sendA)).2 size rbuf)
    (receive_frame (modbus_tcp_restore cfgA stA P size RepelMode.EMBED).2 size rbuf)
    (hmac_embed_mac H msA (modbus_tcp_restore cfgA stA P size RepelMode.EMBED).2
        size (36 - k) k sendA)
    size sendA d hk (by rw [hlen]; exact hsize) h16 hcan'
    (fun i => by
      rw [getBit_receive_frame, getBit_receive_frame]
      by_cases hi : i < 8 * size
      · rw [if_pos hi, if_pos hi]
        exact getBit_embed cfgA hbA huA _ _ _ _ i
      · rw [if_neg hi, if_neg hi]
        have : modbus_carrier i = none := by
          simp only [modbus_carrier]
          split_ifs <;> first | rfl | omega
        rw [this])
    (fun j hj => by rw [hmac_embed_mac_bits H msA _ size k sendA j hk hj, hkey, hmsg])
    (hmac_embed_mac_nonce H msA _ size k sendA hk) hN hd hN64 hs
    on_success on_failed cbdata auth
  refine ⟨_, _, _, _, ?_, ?_, hE, hV⟩
  · rfl
  · exact hmac_verify_keys H msB _ size _ _ _

/-- Embed/authenticate success on Modbus/TCP for frames that hold the Unit
Identifier: connections `A` and `B` with the Modbus/TCP parser (12 TID bits and
the Unit ID reused, 36 carrier bits, either role) and the HMAC adapter over any
keyed function `H`, the same `embed_nonce_bits = k < 36`, the send key of `A`
equal to the receive key of `B`, and `B.recv_nonce = A.send_nonce`. For every
complete frame `P` of at least 7 bytes (buffer length = Length field + 6) and
whatever the receive buffer held before, `repel_embed` on `A` returns
`36 - k > 0`, and `repel_authenticate` on `B` with the frame received returns
the frame length, calls `on_auth_success` (and no other callback) with
`protection_level = 36 - k`, `packet_loss = 0`, and leaves `B.recv_nonce` equal
to `A.send_nonce`. -/
theorem embed_authenticate_frame_success (H : HmacFn) (cfgA cfgB : ModbusConfig)
    (hbA : cfgA.MODBUS_TCP_REUSE_TID_BITS = 12) (huA : cfgA.MODBUS_TCP_REUSE_UNIT_ID = true)
    (hbB : cfgB.MODBUS_TCP_REUSE_TID_BITS = 12) (huB : cfgB.MODBUS_TCP_REUSE_UNIT_ID = true)
    (stA stB : ModbusTCPState) (msA msB : HMacData) (sendA recvA sendB k : Nat)
    (xA xB P rbuf : Buffer) (size : Nat) (hk : k < 36)
    (hsize : size = bitsVal P 32 16 + 6) (h7 : 7 ≤ size) (h16 : size < 65536)
    (hkey : msA.key HMAC_KEYSLOT_SEND = msB.key HMAC_KEYSLOT_RECV)
    (hN64 : sendA < NONCE_RANGE)
    (on_failed : Bool) (cbdata : Nat) (auth : AuthenticateResult) :
    (embed_authenticate (modbus_hmac_connection H cfgA stA msA sendA recvA k xA)
        (modbus_hmac_connection H cfgB stB msB sendB sendA k xB)
        P size rbuf true on_failed cbdata auth).1.2.2 = 36 - k ∧
    0 < 36 - k ∧
    (embed_authenticate (modbus_hmac_connection H cfgA stA msA sendA recvA k xA)
        (modbus_hmac_connection H cfgB stB msB sendB sendA k xB)
        P size rbuf true on_failed cbdata auth).2.ret = size ∧
    0 < size ∧
    (∃ pkt, (embed_authenticate (modbus_hmac_connection H cfgA stA msA sendA recvA k xA)
        (modbus_hmac_connection H cfgB stB msB sendB sendA k xB)
        P size rbuf true on_failed cbdata auth).2.callback
      = some { kind := CallbackKind.on_auth_success, cbdata := cbdata, packet := pkt,
               packet_len := size,
               result := { protection_level := 36 - k, packet_loss := 0,
                           nonce_embedded := true } }) ∧
    (embed_authenticate (modbus_hmac_connection H cfgA stA msA sendA recvA k xA)
        (modbus_hmac_connection H cfgB stB msB sendB sendA k xB)
        P size rbuf true on_failed cbdata auth).2.con.nonce_recv
      = (embed_authenticate (modbus_hmac_connection H cfgA stA msA sendA recvA k xA)
        (modbus_hmac_connection H cfgB stB msB sendB sendA k xB)
        P size rbuf true on_failed cbdata auth).1.1.nonce_send := by
  obtain ⟨Pe, S, msA', msB', _, _, hE, hV⟩ := modbus_hmac_frame_roundtrip H cfgA cfgB hbA huA
    hbB huB stA stB msA msB sendA recvA sendB sendA k xA xB P rbuf size 0 hk hsize h7 h16 hkey rfl
    (Nat.two_pow_pos k) (by simpa [NONCE_RANGE] using hN64)
    (Or.inr (by simpa using Nat.mod_lt sendA (Nat.two_pow_pos k))) true on_failed cbdata auth
  simp only [embed_authenticate, modbus_hmac_connection, hE, hV]
  have hu : (0 : Nat) < UINT16_MAX := by decide
  refine ⟨trivial, by omega, trivial, by omega, ⟨(modbus_tcp_verified cfgB stB (receive_frame
    (modbus_tcp_restore cfgA stA P size RepelMode.EMBED).2 size rbuf) size).2, ?_⟩, trivial⟩
  rw [if_pos trivial, if_pos hu]

theorem embed_authenticate_frame_success_example :
    (embed_authenticate
        (modbus_hmac_connection sum_hmac {} modbus_fresh_state sender_mac_state 5 0 3 allOnes)
        (modbus_hmac_connection sum_hmac {} modbus_fresh_state receiver_mac_state 0 5 3 allOnes)
        modbus_request 12 allOnes true true 0 ⟨0, 0, false⟩).2.con.nonce_recv
      = (embed_authenticate
        (modbus_hmac_connection sum_hmac {} modbus_fresh_state sender_mac_state 5 0 3 allOnes)
        (modbus_hmac_connection sum_hmac {} modbus_fresh_state receiver_mac_state 0 5 3 allOnes)
        modbus_request 12 allOnes true true 0 ⟨0, 0, false⟩).1.1.nonce_send :=
  (embed_authenticate_frame_success sum_hmac {} {} rfl rfl rfl rfl modbus_fresh_state
    modbus_fresh_state sender_mac_state receiver_mac_state 5 0 0 3 allOnes allOnes
    modbus_request allOnes 12 (by decide) (by decide) (by decide) (by decide) (by decide)
    (by decide) true 0 ⟨0, 0, false⟩).2.2.2.2.2

/-- C1 at the frame of 6 bytes `00 01 00 00 00 00` (MBAP header without Unit
Identifier, Length 0), with `embed_nonce_bits = 3`, matching keys and
`B.recv_nonce = A.send_nonce = 5`: `modbus_tcp_parse` accepts the frame as
complete (buffer length = Length field + 6 = 6) and `repel_embed` returns 33,
but it writes carrier bits 28..35 into byte 6, behind the frame. The 6 bytes
that travel do not hold them: `repel_authenticate` on the frame received, in a
buffer that held zeros or 0xFF bytes before, calls `on_auth_failed` and leaves
`recv_nonce` at 5, while the send nonce is 6. -/
theorem embed_authenticate_header_only :
    (modbus_tcp_parse {} modbus_fresh_state modbus_header_only 6 RepelMode.EMBED).pktlen = 6 ∧
    6 = bitsVal modbus_header_only 32 16 + 6 ∧
    sender_mac_state.key HMAC_KEYSLOT_SEND = receiver_mac_state.key HMAC_KEYSLOT_RECV ∧
    (embed_authenticate
        (modbus_hmac_connection sum_hmac {} modbus_fresh_state sender_mac_state 5 0 3 allOnes)
        (modbus_hmac_connection sum_hmac {} modbus_fresh_state receiver_mac_state 0 5 3 allOnes)
        modbus_header_only 6 (Buffer.ofList []) true true 0 ⟨0, 0, false⟩).1.2.2 = 33 ∧
    (embed_authenticate
        (modbus_hmac_connection sum_hmac {} modbus_fresh_state sender_mac_state 5 0 3 allOnes)
        (modbus_hmac_connection sum_hmac {} modbus_fresh_state receiver_mac_state 0 5 3 allOnes)
        modbus_header_only 6 (Buffer.ofList []) true true 0 ⟨0, 0, false⟩).1.2.1.take 7
      = [47, 80, 71, 153, 0, 0, 237] ∧
    modbus_header_only.take 7 = [0, 1, 0, 0, 0, 0, 0] ∧
    (∀ rbuf ∈ [Buffer.ofList [], allOnes],
      (embed_authenticate
          (modbus_hmac_connection sum_hmac {} modbus_fresh_state sender_mac_state 5 0 3 allOnes)
          (modbus_hmac_connection sum_hmac {} modbus_fresh_state receiver_mac_state 0 5 3
            allOnes)
          modbus_header_only 6 rbuf true true 0 ⟨0, 0, false⟩).2.callback.map
          (fun c => c.kind) = some CallbackKind.on_auth_failed ∧
      (embed_authenticate
          (modbus_hmac_connection sum_hmac {} modbus_fresh_state sender_mac_state 5 0 3 allOnes)
          (modbus_hmac_connection sum_hmac {} modbus_fresh_state receiver_mac_state 0 5 3
            allOnes)
          modbus_header_only 6 rbuf true true 0 ⟨0, 0, false⟩).2.con.nonce_recv = 5 ∧
      (embed_authenticate
          (modbus_hmac_connection sum_hmac {} modbus_fresh_state sender_mac_state 5 0 3 allOnes)
          (modbus_hmac_connection sum_hmac {} modbus_fresh_state receiver_mac_state 0 5 3
            allOnes)
          modbus_header_only 6 rbuf true true 0 ⟨0, 0, false⟩).1.1.nonce_send = 6) := by
  refine ⟨by decide, by decide, by decide, by decide, by decide, by decide, ?_⟩
  intro rbuf h
  simp only [List.mem_cons, List.mem_singleton, List.not_mem_nil, or_false] at h
  rcases h with h | h <;> subst h <;> decide

end RePeL
namespace RePeL

/-! ## The nonce window -/

/-- A frame of the fake parser, received: the first 256 bits are the carrier
bits, the rest is what the receive buffer held. -/
theorem fake_receive_frame (P M rbuf : Buffer) :
    receive_frame (fake_copy (memset P 0 32) M 32) 32 rbuf
      = fake_copy (memset rbuf 0 32) M 32 := by
  apply buffer_ext_bits
  intro i
  rw [getBit_receive_frame, fake_copy_spec, fake_copy_spec]
  by_cases hi : i < 256
  · have hc : fake_carrier 32 i := by rw [fake_carrier_iff]; omega
    have h8 : i < 8 * 32 := by omega
    rw [if_pos hc, if_pos h8, if_pos hc]
  · have hc : ¬ fake_carrier 32 i := by rw [fake_carrier_iff]; omega
    have h8 : ¬ i < 8 * 32 := by omega
    rw [if_neg hc, if_neg h8, if_neg hc, getBit_memset_zero, if_neg h8]

/-- The message of the fake parser for 32 bytes: the restored packet holds
zeros there, whatever the packet. -/
theorem fake_restored_message (P P' : Buffer) (nb : Option (List Nat)) :
    hmac_message (memset P' 0 32) 32 nb = hmac_message (memset P 0 32) 32 nb := by
  simp only [hmac_message]
  have : (memset P' 0 32).take 32 = (memset P 0 32).take 32 := by
    apply take_congr
    intro i hi
    rw [getBit_memset_zero, getBit_memset_zero, if_pos hi, if_pos hi]
  rw [this]

/-- The result of `repel_authenticate` with the fake parser and the HMAC adapter on a
packet of 32 bytes that carries the bits of `M` in its first 256 bits, when
the first `256 - k` bits of `M` are those of the digest of the restored packet
and the nonce `R + d` under the receive key, the next `k` bits are the low
bits of `R + d`, and `R + d` lies in the window of the receive nonce `R`. -/
theorem fake_hmac_authenticate_window (H : HmacFn) (con : RepelConnection Unit HMacData)
    (P M : Buffer) (R d k cbdata : Nat) (auth : AuthenticateResult)
    (c1 : con.parser = fake_parser_module) (c2 : con.macalgo = hmac_module H)
    (c4 : con.nonce_recv = R) (c5 : con.nonce_embed_bits = k) (hk1 : 1 ≤ k) (hk : k ≤ 63)
    (hd : d < 2 ^ k) (hR : R + d < 2 ^ 64) (hs : k ≤ 30 ∨ R % 2 ^ k + d < 2 ^ k)
    (hM1 : ∀ j, j < 256 - k → getBit M j
      = getBit (hmac_digest H (con.mac_state.key HMAC_KEYSLOT_RECV)
          (hmac_message (memset P 0 32) 32 (some (netendian_nonce (R + d))))) j)
    (hM2 : bitsVal M (256 - k) k = (R + d) % 2 ^ k) :
    (repel_authenticate con (fake_copy (memset P 0 32) M 32) 32 true true cbdata auth).ret = 32 ∧
    (∃ c, (repel_authenticate con (fake_copy (memset P 0 32) M 32) 32 true true cbdata
        auth).callback = some c ∧
      c.kind = CallbackKind.on_auth_success ∧ c.cbdata = cbdata ∧ c.packet_len = 32 ∧
      c.result = { protection_level := 256 - k,
                   packet_loss := if d < UINT16_MAX then d else UINT16_MAX,
                   nonce_embedded := true }) ∧
    (repel_authenticate con (fake_copy (memset P 0 32) M 32) 32 true true cbdata
      auth).con.nonce_recv = (R + d + 1) % NONCE_RANGE := by
  have hX : ∀ j, j < 256 →
      getBit (fake_copy con.extrbuf (fake_copy (memset P 0 32) M 32) 32) j = getBit M j := by
    intro j hj
    have hc : fake_carrier 32 j := by rw [fake_carrier_iff]; omega
    rw [fake_copy_spec, if_pos hc, fake_copy_spec, if_pos hc]
  have hb : bufsize 32 = 32 := by decide
  have hpA : auth_parse con (fake_copy (memset P 0 32) M 32) 32
      = { pktlen := 32, embed_bits := 256, packet_has_nonce := false } := by
    simp only [auth_parse, c1, fake_parser_module, fake_parse, MAX_MAC_BITS]
    rfl
  have hex : auth_extract con (fake_copy (memset P 0 32) M 32) 32
      = ((), fake_copy (memset P 0 32) M 32,
          fake_copy con.extrbuf (fake_copy (memset P 0 32) M 32) 32) := by
    simp only [auth_extract, hpA, hb, c1, fake_parser_module, fake_extract]
  have hrs : auth_restore con (fake_copy (memset P 0 32) M 32) 32 = ((), memset P 0 32) := by
    simp only [auth_restore, hex, hpA, hb, c1, fake_parser_module, fake_restore, MAX_MAC_BYTES,
      ceil_bits_to_bytes]
    have h32 : ¬ (32 > (256 + 7) / 8) := by decide
    rw [if_neg h32, fake_restore_copy]
  have hk0 : k > 0 := by omega
  have hnon : auth_nonce con (fake_copy (memset P 0 32) M 32) 32
      = (R + d, if d < UINT16_MAX then d else UINT16_MAX) := by
    simp only [auth_nonce, hex, hpA, c4, c5]
    rw [if_pos hk0]
    apply reconstruct_nonce_eq R d k (256 - k) _ hk hd hR (by omega) hs
    rw [← hM2]
    apply bitsVal_congr
    intro i h1 h2
    exact hX i (by omega)
  have hver : auth_verify con (fake_copy (memset P 0 32) M 32) 32
      = hmac_verify H con.mac_state (memset P 0 32) 32
          (fake_copy con.extrbuf (fake_copy (memset P 0 32) M 32) 32) (256 - k)
          (some (netendian_nonce (R + d))) := by
    simp only [auth_verify, hpA, hrs, hex, hnon, hb, c2, c5, hmac_module,
      Bool.false_eq_true, if_false]
  have hv : (auth_verify con (fake_copy (memset P 0 32) M 32) 32).2
      = ((256 - k : Nat) : Int) := by
    rw [hver]
    apply hmac_verify_of_leading_bits H _ _ 32 _ (256 - k) _ (by omega)
    intro j hj
    rw [hX j (by omega), hM1 j hj]
    exact getBit_hmac_finalize _ _ _ j (by omega)
  have hpos : ((256 - k : Nat) : Int) > 0 := by omega
  have htn : ((256 - k : Nat) : Int).toNat % 65536 = 256 - k := by omega
  have hle : ¬ (256 ≤ k) := by omega
  have hlt : ¬ ((32 : Int) < 0) := by decide
  have hvf : con.parser.verified = none := by rw [c1]; rfl
  rw [authenticate_stages]
  simp only [hpA, hlt, if_false, c5, hle, and_false, true_and, hv, hpos, and_self, if_true,
    hnon, authenticate_finish, hvf, hb, htn, Bool.not_false, Bool.false_eq_true]
  exact ⟨⟨_, rfl, rfl, rfl, rfl, rfl⟩, trivial⟩

/-- The nonce window of `repel_authenticate` for any parser and MAC module: the
candidate, the call of `MAC.verify`, and the outcome when that call accepts. -/
theorem nonce_window_stages {σ μ : Type} (con : RepelConnection σ μ) (packet : Buffer)
    (size : Nat) (on_failed : Bool) (cbdata : Nat) (auth : AuthenticateResult)
    (d : Nat) (hk1 : 1 ≤ con.nonce_embed_bits) (hk : con.nonce_embed_bits ≤ 63)
    (hd : d ≤ 2 ^ con.nonce_embed_bits - 1) (hR : con.nonce_recv + d < NONCE_RANGE)
    (hs : con.nonce_embed_bits ≤ 30 ∨
      con.nonce_recv % 2 ^ con.nonce_embed_bits + d < 2 ^ con.nonce_embed_bits)
    (hp : 0 ≤ (auth_parse con packet size).pktlen)
    (hn : (auth_parse con packet size).packet_has_nonce = false)
    (he : con.nonce_embed_bits < (auth_parse con packet size).embed_bits)
    (he16 : (auth_parse con packet size).embed_bits < 65536)
    (hlow : bitsVal (auth_extract con packet size).2.2
        ((auth_parse con packet size).embed_bits - con.nonce_embed_bits) con.nonce_embed_bits
      = (con.nonce_recv + d) % 2 ^ con.nonce_embed_bits) :
    auth_nonce con packet size = (con.nonce_recv + d, min d UINT16_MAX) ∧
    auth_verify con packet size
      = con.macalgo.verify con.mac_state (auth_restore con packet size).2
          (bufsize (auth_parse con packet size).pktlen) (auth_extract con packet size).2.2
          ((auth_parse con packet size).embed_bits - con.nonce_embed_bits)
          (some (netendian_nonce (con.nonce_recv + d))) ∧
    (0 < (con.macalgo.verify con.mac_state (auth_restore con packet size).2
          (bufsize (auth_parse con packet size).pktlen) (auth_extract con packet size).2.2
          ((auth_parse con packet size).embed_bits - con.nonce_embed_bits)
          (some (netendian_nonce (con.nonce_recv + d)))).2 →
      (repel_authenticate con packet size true on_failed cbdata auth).ret
        = (auth_parse con packet size).pktlen ∧
      (∃ c, (repel_authenticate con packet size true on_failed cbdata auth).callback = some c ∧
        c.kind = CallbackKind.on_auth_success ∧ c.result.packet_loss = min d UINT16_MAX) ∧
      (repel_authenticate con packet size true on_failed cbdata auth).con.nonce_recv
        = (con.nonce_recv + d + 1) % NONCE_RANGE) := by
  have hX : 0 < 2 ^ con.nonce_embed_bits := Nat.two_pow_pos _
  have hk0 : con.nonce_embed_bits > 0 := by omega
  have hrn := reconstruct_nonce_eq con.nonce_recv d con.nonce_embed_bits
    ((auth_parse con packet size).embed_bits - con.nonce_embed_bits)
    (auth_extract con packet size).2.2 hk (by omega)
    (by simpa [NONCE_RANGE] using hR) (by omega) hs hlow
  have hmin : (if d < UINT16_MAX then d else UINT16_MAX) = min d UINT16_MAX := by
    by_cases h : d < UINT16_MAX
    · rw [if_pos h, Nat.min_eq_left (Nat.le_of_lt h)]
    · rw [if_neg h, Nat.min_eq_right (by omega)]
  rw [hmin] at hrn
  have hnonce : auth_nonce con packet size = (con.nonce_recv + d, min d UINT16_MAX) := by
    simp only [auth_nonce, hk0, if_true, hrn]
  have hver : auth_verify con packet size
      = con.macalgo.verify con.mac_state (auth_restore con packet size).2
          (bufsize (auth_parse con packet size).pktlen) (auth_extract con packet size).2.2
          ((auth_parse con packet size).embed_bits - con.nonce_embed_bits)
          (some (netendian_nonce (con.nonce_recv + d))) := by
    simp only [auth_verify, hn, hnonce, Bool.false_eq_true, if_false]
  refine ⟨hnonce, hver, ?_⟩
  intro hacc
  have hv : (auth_verify con packet size).2 > 0 := by rw [hver]; exact hacc
  have hneg : ¬ ((auth_parse con packet size).pktlen < 0) := by omega
  have hle : ¬ ((auth_parse con packet size).embed_bits ≤ con.nonce_embed_bits) := by omega
  rw [authenticate_stages]
  simp only [hneg, if_false, hn, hle, and_false, true_and, hv, if_true, hnonce,
    authenticate_finish, Bool.not_false, Bool.false_eq_true]
  exact ⟨⟨_, rfl, rfl, rfl⟩, trivial⟩

/-- C8, as the claim states it, fails for `d ≥ 0xFFFF`: with `k = 17`,
`recv_nonce = 0` and 65536 packets dropped, the packet verifies with the
candidate 65536 and `recv_nonce` becomes 65537, but the reported `packet_loss`
is 65535. -/
theorem packet_loss_is_capped :
    (embed_authenticate
        (modbus_hmac_connection sum_hmac {} modbus_fresh_state sender_mac_state 65536 0 17
          allOnes)
        (modbus_hmac_connection sum_hmac { MODBUS_TCP_IS_CLIENT := false } modbus_fresh_state
          receiver_mac_state 0 0 17 allOnes)
        modbus_request 12 allOnes true true 0 ⟨0, 0, false⟩).2.callback.map
      (fun c => (c.kind, c.result.packet_loss)) = some (CallbackKind.on_auth_success, 65535) ∧
    (embed_authenticate
        (modbus_hmac_connection sum_hmac {} modbus_fresh_state sender_mac_state 65536 0 17
          allOnes)
        (modbus_hmac_connection sum_hmac { MODBUS_TCP_IS_CLIENT := false } modbus_fresh_state
          receiver_mac_state 0 0 17 allOnes)
        modbus_request 12 allOnes true true 0 ⟨0, 0, false⟩).2.con.nonce_recv = 65537 := by
  decide

/-- C8, amended: for `1 ≤ k = embed_nonce_bits ≤ 63`, receive nonce `R` and
`d ≤ 2 ^ k - 1` dropped packets (`R + d < 2 ^ 64`, and from `k = 31` on
`R mod 2 ^ k + d < 2 ^ k`), the authentic packet with sender nonce `R + d`
verifies, the `packet_loss` reported is `d` capped at 0xFFFF, and `recv_nonce`
becomes `R + d + 1`.

First part, any parser and MAC module: when `repel_authenticate` on a packet
without protocol nonce extracts the low `k` bits of `R + d` behind the MAC
bits, the nonce candidate is `R + d` and it is the nonce handed to
`MAC.verify`; when that call of `MAC.verify` accepts, `repel_authenticate`
returns the packet length, calls `on_auth_success` with `packet_loss`
`min d 0xFFFF`, and sets `recv_nonce` to `R + d + 1`.

Second part, Modbus/TCP parser (default carrier layout, `k < 36`) with the
HMAC adapter over any keyed function and matching keys: a frame of at least 7
bytes that the sender with send nonce `R + d` embeds is accepted by the
receiver with receive nonce `R`, with the same outcome.

Third part, fake parser with the HMAC adapter, packets of 32 bytes, every `k`
up to 63: the same. -/
theorem authenticate_nonce_window :
    (∀ {σ μ : Type} (con : RepelConnection σ μ) (packet : Buffer) (size : Nat)
        (on_failed : Bool) (cbdata : Nat) (auth : AuthenticateResult) (d : Nat),
      1 ≤ con.nonce_embed_bits → con.nonce_embed_bits ≤ 63 →
      d ≤ 2 ^ con.nonce_embed_bits - 1 → con.nonce_recv + d < NONCE_RANGE →
      (con.nonce_embed_bits ≤ 30 ∨
        con.nonce_recv % 2 ^ con.nonce_embed_bits + d < 2 ^ con.nonce_embed_bits) →
      0 ≤ (auth_parse con packet size).pktlen →
      (auth_parse con packet size).packet_has_nonce = false →
      con.nonce_embed_bits < (auth_parse con packet size).embed_bits →
      (auth_parse con packet size).embed_bits < 65536 →
      bitsVal (auth_extract con packet size).2.2
          ((auth_parse con packet size).embed_bits - con.nonce_embed_bits) con.nonce_embed_bits
        = (con.nonce_recv + d) % 2 ^ con.nonce_embed_bits →
      auth_nonce con packet size = (con.nonce_recv + d, min d UINT16_MAX) ∧
      auth_verify con packet size
        = con.macalgo.verify con.mac_state (auth_restore con packet size).2
            (bufsize (auth_parse con packet size).pktlen) (auth_extract con packet size).2.2
            ((auth_parse con packet size).embed_bits - con.nonce_embed_bits)
            (some (netendian_nonce (con.nonce_recv + d))) ∧
      (0 < (con.macalgo.verify con.mac_state (auth_restore con packet size).2
            (bufsize (auth_parse con packet size).pktlen) (auth_extract con packet size).2.2
            ((auth_parse con packet size).embed_bits - con.nonce_embed_bits)
            (some (netendian_nonce (con.nonce_recv + d)))).2 →
        (repel_authenticate con packet size true on_failed cbdata auth).ret
          = (auth_parse con packet size).pktlen ∧
        (∃ c, (repel_authenticate con packet size true on_failed cbdata auth).callback
            = some c ∧
          c.kind = CallbackKind.on_auth_success ∧ c.result.packet_loss = min d UINT16_MAX) ∧
        (repel_authenticate con packet size true on_failed cbdata auth).con.nonce_recv
          = (con.nonce_recv + d + 1) % NONCE_RANGE)) ∧
    (∀ (H : HmacFn) (cfgA cfgB : ModbusConfig) (stA stB : ModbusTCPState) (msA msB : HMacData)
        (R d k recvA sendB : Nat) (xA xB P rbuf : Buffer) (size : Nat) (on_failed : Bool)
        (cbdata : Nat) (auth : AuthenticateResult),
      cfgA.MODBUS_TCP_REUSE_TID_BITS = 12 → cfgA.MODBUS_TCP_REUSE_UNIT_ID = true →
      cfgB.MODBUS_TCP_REUSE_TID_BITS = 12 → cfgB.MODBUS_TCP_REUSE_UNIT_ID = true →
      1 ≤ k → k < 36 → d ≤ 2 ^ k - 1 → R + d < NONCE_RANGE →
      (k ≤ 30 ∨ R % 2 ^ k + d < 2 ^ k) →
      size = bitsVal P 32 16 + 6 → 7 ≤ size → size < 65536 →
      msA.key HMAC_KEYSLOT_SEND = msB.key HMAC_KEYSLOT_RECV →
      (embed_authenticate (modbus_hmac_connection H cfgA stA msA (R + d) recvA k xA)
          (modbus_hmac_connection H cfgB stB msB sendB R k xB)
          P size rbuf true on_failed cbdata auth).2.ret = size ∧
      (∃ c, (embed_authenticate (modbus_hmac_connection H cfgA stA msA (R + d) recvA k xA)
          (modbus_hmac_connection H cfgB stB msB sendB R k xB)
          P size rbuf true on_failed cbdata auth).2.callback = some c ∧
        c.kind = CallbackKind.on_auth_success ∧ c.result.packet_loss = min d UINT16_MAX) ∧
      (embed_authenticate (modbus_hmac_connection H cfgA stA msA (R + d) recvA k xA)
          (modbus_hmac_connection H cfgB stB msB sendB R k xB)
          P size rbuf true on_failed cbdata auth).2.con.nonce_recv
        = (R + d + 1) % NONCE_RANGE) ∧
    (∀ (H : HmacFn) (msA msB : HMacData) (R d k recvA sendB : Nat) (xA xB P rbuf : Buffer)
        (cbdata : Nat) (auth : AuthenticateResult),
      1 ≤ k → k ≤ 63 → d ≤ 2 ^ k - 1 → R + d < NONCE_RANGE →
      (k ≤ 30 ∨ R % 2 ^ k + d < 2 ^ k) →
      msA.key HMAC_KEYSLOT_SEND = msB.key HMAC_KEYSLOT_RECV →
      (embed_authenticate (fake_hmac_connection H msA (R + d) recvA k xA)
          (fake_hmac_connection H msB sendB R k xB)
          P 32 rbuf true true cbdata auth).2.ret = 32 ∧
      (∃ c, (embed_authenticate (fake_hmac_connection H msA (R + d) recvA k xA)
          (fake_hmac_connection H msB sendB R k xB)
          P 32 rbuf true true cbdata auth).2.callback = some c ∧
        c.kind = CallbackKind.on_auth_success ∧ c.result.packet_loss = min d UINT16_MAX) ∧
      (embed_authenticate (fake_hmac_connection H msA (R + d) recvA k xA)
          (fake_hmac_connection H msB sendB R k xB)
          P 32 rbuf true true cbdata auth).2.con.nonce_recv
        = (R + d + 1) % NONCE_RANGE) := by
  have hmin : ∀ d, (if d < UINT16_MAX then d else UINT16_MAX) = min d UINT16_MAX := by
    intro d
    by_cases h : d < UINT16_MAX
    · rw [if_pos h, Nat.min_eq_left (Nat.le_of_lt h)]
    · rw [if_neg h, Nat.min_eq_right (by omega)]
  refine ⟨?_, ?_, ?_⟩
  · intro σ μ con packet size on_failed cbdata auth d hk1 hk hd hR hs hp hn he he16 hlow
    exact nonce_window_stages con packet size on_failed cbdata auth d hk1 hk hd hR hs hp hn he
      he16 hlow
  · intro H cfgA cfgB stA stB msA msB R d k recvA sendB xA xB P rbuf size on_failed cbdata auth
      hbA huA hbB huB hk1 hk hd hR hs hsize h7 h16 hkey
    have hX : 0 < 2 ^ k := Nat.two_pow_pos k
    obtain ⟨Pe, S, msA', msB', _, _, hE, hV⟩ := modbus_hmac_frame_roundtrip H cfgA cfgB hbA huA
      hbB huB stA stB msA msB (R + d) recvA sendB R k xA xB P rbuf size d hk hsize h7 h16 hkey
      rfl (by omega) (by simpa [NONCE_RANGE] using hR) hs true on_failed cbdata auth
    simp only [embed_authenticate, modbus_hmac_connection, hE, hV, if_true, hmin]
    exact ⟨trivial, ⟨_, rfl, rfl, rfl⟩, trivial⟩
  · intro H msA msB R d k recvA sendB xA xB P rbuf cbdata auth hk1 hk hd hR hs hkey
    have hX : 0 < 2 ^ k := Nat.two_pow_pos k
    obtain ⟨hM1, hM2⟩ := hmac_embed_mac_layout H msA (memset P 0 32) 32 (256 - k) k (R + d)
      (by omega) (by omega)
    obtain ⟨a1, ⟨c, a2, a3, _, _, a4⟩, a5⟩ := fake_hmac_authenticate_window H
      (fake_hmac_connection H msB sendB R k xB) rbuf
      (hmac_embed_mac H msA (memset P 0 32) 32 (256 - k) k (R + d)) R d k cbdata auth
      rfl rfl rfl rfl hk1 hk (by omega) (by simpa [NONCE_RANGE] using hR) hs
      (fun j hj => by
        rw [hM1 j hj, fake_restored_message P rbuf]
        simp only [fake_hmac_connection, hkey])
      hM2
    simp only [embed_authenticate, fake_hmac_connection]
    rw [fake_hmac_embed H msA (R + d) recvA k xA P (by omega)]
    simp only []
    rw [fake_receive_frame]
    simp only [fake_hmac_connection] at a1 a2 a5
    refine ⟨a1, ⟨c, a2, a3, ?_⟩, a5⟩
    rw [a4, hmin]

theorem authenticate_nonce_window_witness :
    (1 ≤ (example_receiver 1).nonce_embed_bits ∧ (example_receiver 1).nonce_embed_bits ≤ 63 ∧
      2 ≤ 2 ^ (example_receiver 1).nonce_embed_bits - 1 ∧
      (example_receiver 1).nonce_recv + 2 < NONCE_RANGE) ∧
    (auth_nonce (example_receiver 1) (example_embedded 3) 12 = (1 + 2, min 2 UINT16_MAX) ∧
      (repel_authenticate (example_receiver 1) (example_embedded 3) 12 true true 0
        ⟨0, 0, false⟩).con.nonce_recv = (1 + 2 + 1) % NONCE_RANGE) ∧
    (embed_authenticate
        (modbus_hmac_connection sum_hmac {} modbus_fresh_state sender_mac_state (1 + 2) 0 3
          allOnes)
        (modbus_hmac_connection sum_hmac { MODBUS_TCP_IS_CLIENT := false } modbus_fresh_state
          receiver_mac_state 0 1 3 allOnes)
        modbus_request 12 allOnes true true 0 ⟨0, 0, false⟩).2.con.nonce_recv
      = (1 + 2 + 1) % NONCE_RANGE ∧
    (embed_authenticate
        (fake_hmac_connection sum_hmac sender_mac_state (2 ^ 63 + (2 ^ 63 - 1)) 0 63 allOnes)
        (fake_hmac_connection sum_hmac receiver_mac_state 0 (2 ^ 63) 63 allOnes)
        allOnes 32 allOnes true true 0 ⟨0, 0, false⟩).2.con.nonce_recv
      = (2 ^ 63 + (2 ^ 63 - 1) + 1) % NONCE_RANGE ∧
    nonce_loss_run = [some 0, some 2, some 0, some 0] :=
  ⟨by decide,
    ⟨(authenticate_nonce_window.1 (example_receiver 1) (example_embedded 3) 12 true 0
        ⟨0, 0, false⟩ 2 (by decide) (by decide) (by decide) (by decide) (by decide) (by decide)
        (by decide) (by decide) (by decide) (by decide)).1,
      ((authenticate_nonce_window.1 (example_receiver 1) (example_embedded 3) 12 true 0
        ⟨0, 0, false⟩ 2 (by decide) (by decide) (by decide) (by decide) (by decide) (by decide)
        (by decide) (by decide) (by decide) (by decide)).2.2 (by decide)).2.2⟩,
    (authenticate_nonce_window.2.1 sum_hmac {} { MODBUS_TCP_IS_CLIENT := false }
      modbus_fresh_state modbus_fresh_state sender_mac_state receiver_mac_state 1 2 3 0 0
      allOnes allOnes modbus_request allOnes 12 true 0 ⟨0, 0, false⟩ rfl rfl rfl rfl
      (by decide) (by decide) (by decide) (by decide) (by decide) (by decide) (by decide)
      (by decide) (by decide)).2.2,
    (authenticate_nonce_window.2.2 sum_hmac sender_mac_state receiver_mac_state (2 ^ 63)
      (2 ^ 63 - 1) 63 0 0 allOnes allOnes allOnes allOnes 0 ⟨0, 0, false⟩
      (by decide) (by decide) (by decide) (by decide) (by decide) (by decide)).2.2,
    by decide⟩

end RePeL
namespace RePeL

/-! ## The nonce bits that the receiver reads -/

/-- The value that `nonce += 1 << noncebits` adds has no bit below bit
`noncebits`. -/
theorem int_one_shl_mod (k : Nat) : int_one_shl k % 2 ^ k = 0 := by
  by_cases h30 : k ≤ 30
  · rw [int_one_shl_small k h30, Nat.mod_self]
  · by_cases h31 : k = 31
    · subst h31
      decide
    · have hd : 2 ^ 32 ∣ 2 ^ k := Nat.pow_dvd_pow 2 (by omega)
      have hz : 2 ^ k % 2 ^ 32 = 0 := Nat.mod_eq_zero_of_dvd hd
      simp only [int_one_shl, hz]
      rw [if_pos (by norm_num)]
      exact Nat.zero_mod _

/-- The low `k` bits of the nonce candidate are the `k` bits read at bit
offset `macbits` of the extracted bits, for every `k` up to 64. -/
theorem reconstruct_nonce_low (recv : Nat) (mac : Buffer) (macbits k : Nat)
    (hm : macbits < 65536) (hk : k ≤ 64) :
    (reconstruct_nonce recv mac macbits k).1 % 2 ^ k = bitsVal mac macbits k := by
  have hl : bitsVal mac macbits k < 2 ^ k := bitsVal_lt mac macbits k
  have h1 : (bitsVal mac macbits k ||| (recv &&& ((NONCE_MASK <<< k) % NONCE_RANGE))) % 2 ^ k
      = bitsVal mac macbits k := by
    apply Nat.eq_of_testBit_eq
    intro j
    rw [Nat.testBit_mod_two_pow, Nat.testBit_or, Nat.testBit_and, testBit_nonce_mask]
    by_cases hj : j < k
    · have : ¬ (k ≤ j) := by omega
      simp [hj, this]
    · have h2 : (bitsVal mac macbits k).testBit j = false :=
        Nat.testBit_lt_two_pow (lt_of_lt_of_le hl (Nat.pow_le_pow_right (by norm_num)
          (by omega)))
      simp [hj, h2]
  have hdvd : 2 ^ k ∣ NONCE_RANGE := by
    simp only [NONCE_RANGE]
    exact Nat.pow_dvd_pow 2 hk
  simp only [reconstruct_nonce]
  rw [nonce_read_eq mac macbits k hm hk]
  split_ifs
  · rw [Nat.mod_mod_of_dvd _ hdvd, Nat.add_mod, int_one_shl_mod, Nat.add_zero, Nat.mod_mod, h1]
  · exact h1

/-- With the fake parser on both sides and a packet of 32 bytes, the bits
that `repel_authenticate` extracts from the buffer that `repel_embed` leaves are
the carrier bits handed to `parser.embed`. -/
theorem fake_extract_carrier {μ μ' : Type} (A : RepelConnection Unit μ)
    (B : RepelConnection Unit μ') (P : Buffer) (hA : A.parser = fake_parser_module)
    (hB : B.parser = fake_parser_module) (hk : A.nonce_embed_bits < 256) (j : Nat)
    (hj : j < 256) :
    getBit (auth_extract B (repel_embed A P 32).2.1 32).2.2 j = getBit (embed_mac A P 32) j := by
  have hp : ∀ (u : Unit) (Q : Buffer) (m : RepelMode), fake_parse u Q 32 m
      = { pktlen := 32, embed_bits := 256, packet_has_nonce := false } := by
    intro u Q m
    simp only [fake_parse, MAX_MAC_BITS]
    rfl
  have hpA : A.parser.parse A.parser_state P 32 RepelMode.EMBED
      = { pktlen := 32, embed_bits := 256, packet_has_nonce := false } := by
    rw [hA]
    exact hp A.parser_state P RepelMode.EMBED
  have hb : bufsize 32 = 32 := by decide
  obtain ⟨hpkt, _, _⟩ := embed_with_nonce A P 32 (by rw [hpA]; rfl) (by rw [hpA])
    (by rw [hpA]; exact hk)
  have hc : fake_carrier 32 j := by rw [fake_carrier_iff]; omega
  rw [hpkt]
  simp only [auth_extract, auth_parse, hA, hB, fake_parser_module, fake_extract, fake_embed, hp,
    hb]
  rw [fake_copy_spec, if_pos hc, fake_copy_spec, if_pos hc]

/-- C28: carrier layout with an embedded nonce. For a well-formed packet
without protocol nonce and `k = embed_nonce_bits` in `1..64` with
`k < embed_bits`, `repel_embed` returns `mac_bits = embed_bits - k` and hands
to `parser.embed` the buffer `embed_mac`, whose first `mac_bits` bits are those
of the buffer that `MAC.sign` returned and whose next `k` bits are the low `k`
bits of the send nonce before the increment, most significant first.

On the other side, for every connection `B` with the same `embed_nonce_bits`
and every buffer on which `repel_authenticate` parses a packet without protocol
nonce with `embed_bits` carrier bits and extracts these carrier bits: the read
of `k` bits at bit offset `mac_bits` of the extracted bits gives
`send_nonce mod 2^k`; the nonce candidate of `repel_authenticate` is
`reconstruct_nonce` on the extracted bits at offset `mac_bits`, its low `k`
bits are `send_nonce mod 2^k`, it is the nonce handed to `MAC.verify` with
`mac_bits` MAC bits, and `recv_nonce` is the candidate plus one after
`repel_authenticate` when `MAC.verify` accepts, unchanged otherwise. -/
theorem embed_carrier_layout {σ μ : Type} (con : RepelConnection σ μ) (P : Buffer) (size : Nat)
    (hlen : (con.parser.parse con.parser_state P size RepelMode.EMBED).pktlen = (size : Int))
    (hn : (con.parser.parse con.parser_state P size RepelMode.EMBED).packet_has_nonce = false)
    (hE : (con.parser.parse con.parser_state P size RepelMode.EMBED).embed_bits < 65536)
    (hk1 : 1 ≤ con.nonce_embed_bits) (hk64 : con.nonce_embed_bits ≤ 64)
    (hroom : con.nonce_embed_bits
      < (con.parser.parse con.parser_state P size RepelMode.EMBED).embed_bits) :
    (repel_embed con P size).2.2
      = (con.parser.parse con.parser_state P size RepelMode.EMBED).embed_bits
          - con.nonce_embed_bits ∧
    (repel_embed con P size).2.1
      = (con.parser.embed
          (con.parser.restore con.parser_state P
            (bufsize (con.parser.parse con.parser_state P size RepelMode.EMBED).pktlen)
            RepelMode.EMBED).1
          (con.parser.restore con.parser_state P
            (bufsize (con.parser.parse con.parser_state P size RepelMode.EMBED).pktlen)
            RepelMode.EMBED).2
          (bufsize (con.parser.parse con.parser_state P size RepelMode.EMBED).pktlen)
          (embed_mac con P size)).2 ∧
    (∀ j, j < (repel_embed con P size).2.2 →
      getBit (embed_mac con P size) j = getBit (embed_sign con P size) j) ∧
    (∀ j, j < con.nonce_embed_bits →
      getBit (embed_mac con P size) ((repel_embed con P size).2.2 + j)
        = con.nonce_send.testBit (con.nonce_embed_bits - 1 - j)) ∧
    bitsVal (embed_mac con P size) (repel_embed con P size).2.2 con.nonce_embed_bits
      = con.nonce_send % 2 ^ con.nonce_embed_bits ∧
    (∀ {σ' μ' : Type} (B : RepelConnection σ' μ') (Pr : Buffer) (rsize : Nat)
        (on_success on_failed : Bool) (cbdata : Nat) (auth : AuthenticateResult),
      B.nonce_embed_bits = con.nonce_embed_bits →
      0 ≤ (auth_parse B Pr rsize).pktlen →
      (auth_parse B Pr rsize).packet_has_nonce = false →
      (auth_parse B Pr rsize).embed_bits
        = (con.parser.parse con.parser_state P size RepelMode.EMBED).embed_bits →
      (∀ j, j < (con.parser.parse con.parser_state P size RepelMode.EMBED).embed_bits →
        getBit (auth_extract B Pr rsize).2.2 j = getBit (embed_mac con P size) j) →
      (bitstring_pop_u64 (auth_extract B Pr rsize).2.2
          (bitstring_skip bitstring_init (repel_embed con P size).2.2)
          (con.nonce_embed_bits % 256)).1 = con.nonce_send % 2 ^ con.nonce_embed_bits ∧
      auth_nonce B Pr rsize
        = reconstruct_nonce B.nonce_recv (auth_extract B Pr rsize).2.2
            (repel_embed con P size).2.2 con.nonce_embed_bits ∧
      (auth_nonce B Pr rsize).1 % 2 ^ con.nonce_embed_bits
        = con.nonce_send % 2 ^ con.nonce_embed_bits ∧
      auth_verify B Pr rsize
        = B.macalgo.verify B.mac_state (auth_restore B Pr rsize).2
            (bufsize (auth_parse B Pr rsize).pktlen) (auth_extract B Pr rsize).2.2
            (repel_embed con P size).2.2
            (some (netendian_nonce (auth_nonce B Pr rsize).1)) ∧
      (repel_authenticate B Pr rsize on_success on_failed cbdata auth).con.nonce_recv
        = (if 0 < (auth_verify B Pr rsize).2 then
            ((auth_nonce B Pr rsize).1 + 1) % NONCE_RANGE
          else B.nonce_recv)) := by
  obtain ⟨hpkt, hret, _⟩ := embed_with_nonce con P size hlen hn hroom
  have hlay := embed_mac_layout con P size hE hk64
  rw [hret]
  refine ⟨rfl, hpkt, ?_, ?_, bitsVal_of_isPush hlay, ?_⟩
  · intro j hj
    rw [hlay j]
    have : ¬ ((con.parser.parse con.parser_state P size RepelMode.EMBED).embed_bits
        - con.nonce_embed_bits ≤ j ∧ j < (con.parser.parse con.parser_state P size
          RepelMode.EMBED).embed_bits - con.nonce_embed_bits + con.nonce_embed_bits) := by
      omega
    rw [if_neg this]
  · intro j hj
    rw [hlay _]
    have hw : ((con.parser.parse con.parser_state P size RepelMode.EMBED).embed_bits
        - con.nonce_embed_bits ≤ (con.parser.parse con.parser_state P size
          RepelMode.EMBED).embed_bits - con.nonce_embed_bits + j ∧
        (con.parser.parse con.parser_state P size RepelMode.EMBED).embed_bits
          - con.nonce_embed_bits + j < (con.parser.parse con.parser_state P size
          RepelMode.EMBED).embed_bits - con.nonce_embed_bits + con.nonce_embed_bits) := by
      omega
    rw [if_pos hw]
    congr 1
    omega
  · intro σ' μ' B Pr rsize on_success on_failed cbdata auth hkB hp hnB hEB hX
    have hbits : bitsVal (auth_extract B Pr rsize).2.2
        ((con.parser.parse con.parser_state P size RepelMode.EMBED).embed_bits
          - con.nonce_embed_bits) con.nonce_embed_bits
        = con.nonce_send % 2 ^ con.nonce_embed_bits := by
      rw [← bitsVal_of_isPush hlay]
      apply bitsVal_congr
      intro i h1 h2
      exact hX i (by omega)
    have hk0 : B.nonce_embed_bits > 0 := by omega
    have hnon : auth_nonce B Pr rsize
        = reconstruct_nonce B.nonce_recv (auth_extract B Pr rsize).2.2
            ((con.parser.parse con.parser_state P size RepelMode.EMBED).embed_bits
              - con.nonce_embed_bits) con.nonce_embed_bits := by
      simp only [auth_nonce]
      rw [if_pos hk0, hkB, hEB]
    have hver : auth_verify B Pr rsize
        = B.macalgo.verify B.mac_state (auth_restore B Pr rsize).2
            (bufsize (auth_parse B Pr rsize).pktlen) (auth_extract B Pr rsize).2.2
            ((con.parser.parse con.parser_state P size RepelMode.EMBED).embed_bits
              - con.nonce_embed_bits)
            (some (netendian_nonce (auth_nonce B Pr rsize).1)) := by
      simp only [auth_verify, hnB, Bool.false_eq_true, if_false]
      rw [hkB, hEB]
    refine ⟨?_, hnon, ?_, hver, ?_⟩
    · rw [nonce_read_eq _ _ _ (by omega) hk64]
      exact hbits
    · rw [hnon, reconstruct_nonce_low _ _ _ _ (by omega) hk64]
      exact hbits
    · have hneg : ¬ ((auth_parse B Pr rsize).pktlen < 0) := by omega
      have hle : ¬ ((auth_parse B Pr rsize).embed_bits ≤ B.nonce_embed_bits) := by omega
      rw [authenticate_stages]
      simp only [hneg, if_false, hnB, hle, and_false, true_and, authenticate_finish, gt_iff_lt]
      by_cases hv : 0 < (auth_verify B Pr rsize).2
      · simp only [hv, if_true]
      · simp only [hv, if_false]

theorem embed_carrier_layout_witness :
    (repel_embed (fake_fakemac_connection 64 0x0123456789ABCDEF) allOnes 32).2.2 = 192 ∧
    bitsVal (embed_mac (fake_fakemac_connection 64 0x0123456789ABCDEF) allOnes 32) 192 64
      = 0x0123456789ABCDEF ∧
    (auth_nonce (fake_fakemac_connection 64 0)
      (repel_embed (fake_fakemac_connection 64 0x0123456789ABCDEF) allOnes 32).2.1 32).1
        % 2 ^ (fake_fakemac_connection 64 0x0123456789ABCDEF).nonce_embed_bits
      = (fake_fakemac_connection 64 0x0123456789ABCDEF).nonce_send
        % 2 ^ (fake_fakemac_connection 64 0x0123456789ABCDEF).nonce_embed_bits ∧
    bitsVal (embed_mac (example_sender 13) modbus_request 12) 33 3 = 5 ∧
    (auth_nonce (example_receiver 9) (example_embedded 13) 12).1 % 2 ^ 3 = 13 % 2 ^ 3 ∧
    auth_nonce (example_receiver 9) (example_embedded 13) 12 = (13, 4) ∧
    (repel_authenticate (example_receiver 9) (example_embedded 13) 12 true true 0
      ⟨0, 0, false⟩).con.nonce_recv = 14 :=
  ⟨(embed_carrier_layout (fake_fakemac_connection 64 0x0123456789ABCDEF) allOnes 32
      (by decide) (by decide) (by decide) (by decide) (by decide) (by decide)).1.trans
      (by decide),
   ((embed_carrier_layout (fake_fakemac_connection 64 0x0123456789ABCDEF) allOnes 32
      (by decide) (by decide) (by decide) (by decide) (by decide)
      (by decide)).1 ▸ (embed_carrier_layout (fake_fakemac_connection 64 0x0123456789ABCDEF)
      allOnes 32 (by decide) (by decide) (by decide) (by decide) (by decide)
      (by decide)).2.2.2.2.1).trans (by decide),
   ((embed_carrier_layout (fake_fakemac_connection 64 0x0123456789ABCDEF) allOnes 32
      (by decide) (by decide) (by decide) (by decide) (by decide) (by decide)).2.2.2.2.2
      (fake_fakemac_connection 64 0)
      (repel_embed (fake_fakemac_connection 64 0x0123456789ABCDEF) allOnes 32).2.1 32
      true true 0 ⟨0, 0, false⟩ (by decide) (by decide) (by decide) (by decide)
      (fun j hj => fake_extract_carrier (fake_fakemac_connection 64 0x0123456789ABCDEF)
        (fake_fakemac_connection 64 0) allOnes rfl rfl (by decide) j hj)).2.2.1,
   by decide,
   ((embed_carrier_layout (example_sender 13) modbus_request 12
      (by decide) (by decide) (by decide) (by decide) (by decide) (by decide)).2.2.2.2.2
      (example_receiver 9) (example_embedded 13) 12 true true 0 ⟨0, 0, false⟩
      (by decide) (by decide) (by decide) (by decide) (by decide)).2.2.1,
   by decide, by decide⟩

end RePeL
namespace RePeL

/-! ## A flipped bit in a received Modbus/TCP frame -/

/-- One bit outside the carrier fields and the Length field of an embedded
Modbus/TCP frame of at least 7 bytes inverted on the way from `A` to `B`, the
`size` bytes of the frame arriving in a receive buffer that held `rbuf`
(default carrier layout, HMAC adapter, the send nonce of `A` in the window of
`B`): `B` accepts the frame if and only if the digest of the modified content
agrees with the digest of the original content, that is with the embedded MAC,
in the first `36 - k` bits; if it does not, `B` calls `on_auth_failed` with the
restored modified frame and keeps its receive nonce. -/
theorem modbus_frame_tamper_verdict (H : HmacFn) (cfgA cfgB : ModbusConfig)
    (hbA : cfgA.MODBUS_TCP_REUSE_TID_BITS = 12) (huA : cfgA.MODBUS_TCP_REUSE_UNIT_ID = true)
    (hbB : cfgB.MODBUS_TCP_REUSE_TID_BITS = 12) (huB : cfgB.MODBUS_TCP_REUSE_UNIT_ID = true)
    (stA stB : ModbusTCPState) (msA msB : HMacData) (sendA recvA sendB recvB k : Nat)
    (xA xB P rbuf : Buffer) (size d : Nat) (hk : k < 36)
    (hsize : size = bitsVal P 32 16 + 6) (h7 : 7 ≤ size) (h16 : size < 65536)
    (hN : sendA = recvB + d) (hd : d < 2 ^ k) (hN64 : sendA < 2 ^ 64)
    (hs : k ≤ 30 ∨ recvB % 2 ^ k + d < 2 ^ k)
    (i : Nat) (hcar : modbus_carrier i = none) (hlen : ¬ (32 ≤ i ∧ i < 48))
    (on_success : Bool) (cbdata : Nat) (auth : AuthenticateResult) :
    ((∀ j, j < 36 - k →
        getBit (hmac_digest H (msB.key HMAC_KEYSLOT_RECV)
          ((flip_bit (modbus_tcp_restore cfgA stA P size RepelMode.EMBED).2 i).take size
            ++ netendian_nonce sendA)) j
        = getBit (hmac_digest H (msA.key HMAC_KEYSLOT_SEND)
          ((modbus_tcp_restore cfgA stA P size RepelMode.EMBED).2.take size
            ++ netendian_nonce sendA)) j) →
      (repel_authenticate (modbus_hmac_connection H cfgB stB msB sendB recvB k xB)
        (receive_frame (flip_bit (repel_embed (modbus_hmac_connection H cfgA stA msA sendA
          recvA k xA) P size).2.1 i) size rbuf) size on_success true cbdata auth).ret = size ∧
      ((repel_authenticate (modbus_hmac_connection H cfgB stB msB sendB recvB k xB)
        (receive_frame (flip_bit (repel_embed (modbus_hmac_connection H cfgA stA msA sendA
          recvA k xA) P size).2.1 i) size rbuf) size on_success true cbdata
            auth).callback.map fun c => c.kind)
        = (if on_success then some CallbackKind.on_auth_success else none)) ∧
    ((¬ ∀ j, j < 36 - k →
        getBit (hmac_digest H (msB.key HMAC_KEYSLOT_RECV)
          ((flip_bit (modbus_tcp_restore cfgA stA P size RepelMode.EMBED).2 i).take size
            ++ netendian_nonce sendA)) j
        = getBit (hmac_digest H (msA.key HMAC_KEYSLOT_SEND)
          ((modbus_tcp_restore cfgA stA P size RepelMode.EMBED).2.take size
            ++ netendian_nonce sendA)) j) →
      (repel_authenticate (modbus_hmac_connection H cfgB stB msB sendB recvB k xB)
        (receive_frame (flip_bit (repel_embed (modbus_hmac_connection H cfgA stA msA sendA
          recvA k xA) P size).2.1 i) size rbuf) size on_success true cbdata auth).ret = size ∧
      ((repel_authenticate (modbus_hmac_connection H cfgB stB msB sendB recvB k xB)
        (receive_frame (flip_bit (repel_embed (modbus_hmac_connection H cfgA stA msA sendA
          recvA k xA) P size).2.1 i) size rbuf) size on_success true cbdata auth).callback.map
          fun c => (c.kind, c.packet))
        = some (CallbackKind.on_auth_failed,
            receive_frame (flip_bit (modbus_tcp_restore cfgA stA P size RepelMode.EMBED).2 i)
              size rbuf) ∧
      (repel_authenticate (modbus_hmac_connection H cfgB stB msB sendB recvB k xB)
        (receive_frame (flip_bit (repel_embed (modbus_hmac_connection H cfgA stA msA sendA
          recvA k xA) P size).2.1 i) size rbuf) size on_success true cbdata
            auth).con.nonce_recv = recvB) := by
  have he : (repel_embed (modbus_hmac_connection H cfgA stA msA sendA recvA k xA) P size).2.1
      = (modbus_tcp_embed cfgA (modbus_tcp_restore cfgA stA P size RepelMode.EMBED).1
          (modbus_tcp_restore cfgA stA P size RepelMode.EMBED).2 size
          (hmac_embed_mac H msA (modbus_tcp_restore cfgA stA P size RepelMode.EMBED).2
            size (36 - k) k sendA)).2 := by
    simp only [modbus_hmac_connection]
    rw [modbus_hmac_embed H cfgA hbA huA stA msA sendA recvA k xA P size hk hsize h16]
  rw [he]
  generalize hQd : (modbus_tcp_restore cfgA stA P size RepelMode.EMBED).2 = Q
  generalize hmd : hmac_embed_mac H msA Q size (36 - k) k sendA = macA
  generalize hEd : (modbus_tcp_embed cfgA (modbus_tcp_restore cfgA stA P size RepelMode.EMBED).1
    Q size macA).2 = E
  have hcan := restore_canonical cfgA hbA huA stA P size RepelMode.EMBED
  rw [hQd] at hcan
  have hE : ∀ x, getBit E x = match modbus_carrier x with
      | some j => getBit macA j
      | none => getBit Q x := by
    intro x
    rw [← hEd]
    exact getBit_embed cfgA hbA huA _ Q macA size x
  have hE' := flip_carried E Q macA i hcar hE
  have hQ' := flip_canonical Q i hcar hcan.1
  have hsize' : size = bitsVal (flip_bit Q i) 32 16 + 6 := by
    have e1 : bitsVal (flip_bit Q i) 32 16 = bitsVal Q 32 16 := by
      apply bitsVal_congr
      intro x h1 h2
      rw [getBit_flip_bit, if_neg (by omega)]
    have e2 : bitsVal Q 32 16 = bitsVal P 32 16 := by
      apply bitsVal_congr
      intro x h1 h2
      exact hcan.2 x (by omega) (by omega)
    rw [e1, e2, hsize]
  have hnb : bitsVal macA (36 - k) k = sendA % 2 ^ k := by
    rw [← hmd]
    exact hmac_embed_mac_nonce H msA Q size k sendA hk
  have hin : ∀ (X : Buffer) (x : Nat), x < 8 * size →
      getBit (receive_frame X size rbuf) x = getBit X x := by
    intro X x hx
    rw [getBit_receive_frame, if_pos hx]
  have hEf : ∀ x, getBit (receive_frame (flip_bit E i) size rbuf) x
      = match modbus_carrier x with
        | some j => getBit macA j
        | none => getBit (receive_frame (flip_bit Q i) size rbuf) x := by
    intro x
    rw [getBit_receive_frame, getBit_receive_frame]
    by_cases hx : x < 8 * size
    · rw [if_pos hx, if_pos hx]
      exact hE' x
    · rw [if_neg hx, if_neg hx]
      have : modbus_carrier x = none := by
        simp only [modbus_carrier]
        split_ifs <;> first | rfl | omega
      rw [this]
  have hQf : ModbusCanonical (receive_frame (flip_bit Q i) size rbuf) := by
    obtain ⟨c1, c2, c3⟩ := hQ'
    refine ⟨?_, ?_, ?_⟩
    · intro x hx; rw [hin _ x (by omega)]; exact c1 x hx
    · intro x h1 h2; rw [hin _ x (by omega)]; exact c2 x h1 h2
    · intro x h1 h2; rw [hin _ x (by omega)]; exact c3 x h1 h2
  have hsizef : size = bitsVal (receive_frame (flip_bit Q i) size rbuf) 32 16 + 6 := by
    have e0 : bitsVal (receive_frame (flip_bit Q i) size rbuf) 32 16
        = bitsVal (flip_bit Q i) 32 16 := by
      apply bitsVal_congr
      intro x h1 h2
      exact hin _ x (by omega)
    rw [e0]
    exact hsize'
  have htake : (receive_frame (flip_bit Q i) size rbuf).take size = (flip_bit Q i).take size :=
    take_congr (fun x hx => hin _ x hx)
  obtain ⟨hp, hS, hR, hNc, hmb⟩ := modbus_auth_stages cfgB hbB huB
    (modbus_hmac_connection H cfgB stB msB sendB recvB k xB) rfl
    (receive_frame (flip_bit E i) size rbuf) (receive_frame (flip_bit Q i) size rbuf)
    macA size sendA d hk hsizef hQf hEf hnb hN hd hN64 hs
  have hmsg : auth_mac_message (modbus_hmac_connection H cfgB stB msB sendB recvB k xB)
      (receive_frame (flip_bit E i) size rbuf) size
        = (flip_bit Q i).take size ++ netendian_nonce sendA := by
    simp only [auth_mac_message, hp, hR, hNc, hmac_message, bufsize_of_nat size h16,
      Bool.false_eq_true, if_false, Option.getD_some, htake]
  have hmb' : auth_macbits (modbus_hmac_connection H cfgB stB msB sendB recvB k xB)
      (receive_frame (flip_bit E i) size rbuf) size = 36 - k := hmb
  have hT := hmac_verdict H (modbus_hmac_connection H cfgB stB msB sendB recvB k xB)
    (receive_frame (flip_bit E i) size rbuf) size on_success cbdata auth rfl
    (by rw [hp]; simp only []; omega)
    (by rw [hmb']; omega) (by rw [hmb']; omega)
  rw [hmb', hmsg, hp, hR] at hT
  have hagree : (∀ j, j < 36 - k →
      getBit (auth_extract (modbus_hmac_connection H cfgB stB msB sendB recvB k xB)
        (receive_frame (flip_bit E i) size rbuf) size).2.2 j
        = getBit (hmac_digest H
            ((modbus_hmac_connection H cfgB stB msB sendB recvB k xB).mac_state.key
              HMAC_KEYSLOT_RECV)
            ((flip_bit Q i).take size ++ netendian_nonce sendA)) j) ↔
      (∀ j, j < 36 - k →
        getBit (hmac_digest H (msB.key HMAC_KEYSLOT_RECV)
          ((flip_bit Q i).take size ++ netendian_nonce sendA)) j
        = getBit (hmac_digest H (msA.key HMAC_KEYSLOT_SEND)
          (Q.take size ++ netendian_nonce sendA)) j) := by
    have hx : ∀ j, j < 36 - k →
        getBit (auth_extract (modbus_hmac_connection H cfgB stB msB sendB recvB k xB)
          (receive_frame (flip_bit E i) size rbuf) size).2.2 j
        = getBit (hmac_digest H (msA.key HMAC_KEYSLOT_SEND)
            (Q.take size ++ netendian_nonce sendA)) j := by
      intro j hj
      rw [hS j (by omega), ← hmd, hmac_embed_mac_bits H msA Q size k sendA j hk hj]
      exact getBit_hmac_finalize _ _ _ j (by omega)
    constructor
    · intro h j hj
      rw [← hx j hj]
      exact (h j hj).symm
    · intro h j hj
      rw [hx j hj]
      exact (h j hj).symm
  rw [hagree] at hT
  exact ⟨hT.2.1, hT.2.2⟩

/-- C11, amended. With the HMAC adapter and any parser, for a packet that the
parser reports complete (`pktlen ≥ 0`) with `1 ≤ mac_bits ≤ 256`:
`repel_authenticate` calls `on_auth_success` only if the first `mac_bits`
extracted carrier bits are the first `mac_bits` bits of the digest, under the
receive key, of the restored received packet followed by the eight bytes of
the nonce candidate; when they are not, it calls `on_auth_failed`, returns
`pktlen` and leaves `recv_nonce` unchanged. And for the Modbus/TCP parser: a
frame in which a bit outside the carrier fields and outside the Length field
was inverted after the embed is accepted if and only if the digest of the
modified content agrees in the first `36 - k` bits with the embedded one;
when it does not, `on_auth_failed` is called and `recv_nonce` is unchanged.
The same holds for a frame of at least 7 bytes of which the `size` bytes
arrive in a receive buffer that held anything before. -/
theorem tamper_rejection :
    (∀ (σ : Type) (H : HmacFn) (con : RepelConnection σ HMacData) (packet : Buffer)
        (size : Nat) (on_success : Bool) (cbdata : Nat) (auth : AuthenticateResult),
      con.macalgo = hmac_module H →
      0 ≤ (auth_parse con packet size).pktlen →
      0 < auth_macbits con packet size → auth_macbits con packet size ≤ 256 →
      (∀ c, (repel_authenticate con packet size on_success true cbdata auth).callback = some c →
        c.kind = CallbackKind.on_auth_success →
        ∀ j, j < auth_macbits con packet size → getBit (auth_extract con packet size).2.2 j
          = getBit (hmac_digest H (con.mac_state.key HMAC_KEYSLOT_RECV)
              (auth_mac_message con packet size)) j) ∧
      ((∀ j, j < auth_macbits con packet size → getBit (auth_extract con packet size).2.2 j
          = getBit (hmac_digest H (con.mac_state.key HMAC_KEYSLOT_RECV)
              (auth_mac_message con packet size)) j) →
        (repel_authenticate con packet size on_success true cbdata auth).ret
          = (auth_parse con packet size).pktlen ∧
        ((repel_authenticate con packet size on_success true cbdata auth).callback.map
          fun c => c.kind)
          = (if on_success then some CallbackKind.on_auth_success else none)) ∧
      ((¬ ∀ j, j < auth_macbits con packet size → getBit (auth_extract con packet size).2.2 j
          = getBit (hmac_digest H (con.mac_state.key HMAC_KEYSLOT_RECV)
              (auth_mac_message con packet size)) j) →
        (repel_authenticate con packet size on_success true cbdata auth).ret
          = (auth_parse con packet size).pktlen ∧
        ((repel_authenticate con packet size on_success true cbdata auth).callback.map
          fun c => (c.kind, c.packet))
          = some (CallbackKind.on_auth_failed, (auth_restore con packet size).2) ∧
        (repel_authenticate con packet size on_success true cbdata auth).con.nonce_recv
          = con.nonce_recv)) ∧
    (∀ (H : HmacFn) (cfgA cfgB : ModbusConfig) (stA stB : ModbusTCPState) (msA msB : HMacData)
        (sendA recvA sendB recvB k : Nat) (xA xB P : Buffer) (size d i : Nat)
        (on_success : Bool) (cbdata : Nat) (auth : AuthenticateResult),
      cfgA.MODBUS_TCP_REUSE_TID_BITS = 12 → cfgA.MODBUS_TCP_REUSE_UNIT_ID = true →
      cfgB.MODBUS_TCP_REUSE_TID_BITS = 12 → cfgB.MODBUS_TCP_REUSE_UNIT_ID = true →
      k < 36 → size = bitsVal P 32 16 + 6 → size < 65536 →
      sendA = recvB + d → d < 2 ^ k → sendA < 2 ^ 64 →
      (k ≤ 30 ∨ recvB % 2 ^ k + d < 2 ^ k) →
      modbus_carrier i = none → ¬ (32 ≤ i ∧ i < 48) →
      ((∀ j, j < 36 - k →
          getBit (hmac_digest H (msB.key HMAC_KEYSLOT_RECV)
            ((flip_bit (modbus_tcp_restore cfgA stA P size RepelMode.EMBED).2 i).take size
              ++ netendian_nonce sendA)) j
          = getBit (hmac_digest H (msA.key HMAC_KEYSLOT_SEND)
            ((modbus_tcp_restore cfgA stA P size RepelMode.EMBED).2.take size
              ++ netendian_nonce sendA)) j) →
        (repel_authenticate (modbus_hmac_connection H cfgB stB msB sendB recvB k xB)
          (flip_bit (repel_embed (modbus_hmac_connection H cfgA stA msA sendA recvA k xA)
            P size).2.1 i) size on_success true cbdata auth).ret = size ∧
        ((repel_authenticate (modbus_hmac_connection H cfgB stB msB sendB recvB k xB)
          (flip_bit (repel_embed (modbus_hmac_connection H cfgA stA msA sendA recvA k xA)
            P size).2.1 i) size on_success true cbdata auth).callback.map fun c => c.kind)
          = (if on_success then some CallbackKind.on_auth_success else none)) ∧
      ((¬ ∀ j, j < 36 - k →
          getBit (hmac_digest H (msB.key HMAC_KEYSLOT_RECV)
            ((flip_bit (modbus_tcp_restore cfgA stA P size RepelMode.EMBED).2 i).take size
              ++ netendian_nonce sendA)) j
          = getBit (hmac_digest H (msA.key HMAC_KEYSLOT_SEND)
            ((modbus_tcp_restore cfgA stA P size RepelMode.EMBED).2.take size
              ++ netendian_nonce sendA)) j) →
        (repel_authenticate (modbus_hmac_connection H cfgB stB msB sendB recvB k xB)
          (flip_bit (repel_embed (modbus_hmac_connection H cfgA stA msA sendA recvA k xA)
            P size).2.1 i) size on_success true cbdata auth).ret = size ∧
        ((repel_authenticate (modbus_hmac_connection H cfgB stB msB sendB recvB k xB)
          (flip_bit (repel_embed (modbus_hmac_connection H cfgA stA msA sendA recvA k xA)
            P size).2.1 i) size on_success true cbdata auth).callback.map
            fun c => (c.kind, c.packet))
          = some (CallbackKind.on_auth_failed,
              flip_bit (modbus_tcp_restore cfgA stA P size RepelMode.EMBED).2 i) ∧
        (repel_authenticate (modbus_hmac_connection H cfgB stB msB sendB recvB k xB)
          (flip_bit (repel_embed (modbus_hmac_connection H cfgA stA msA sendA recvA k xA)
            P size).2.1 i) size on_success true cbdata auth).con.nonce_recv = recvB)) ∧
    (∀ (H : HmacFn) (cfgA cfgB : ModbusConfig) (stA stB : ModbusTCPState) (msA msB : HMacData)
        (sendA recvA sendB recvB k : Nat) (xA xB P rbuf : Buffer) (size d i : Nat)
        (on_success : Bool) (cbdata : Nat) (auth : AuthenticateResult),
      cfgA.MODBUS_TCP_REUSE_TID_BITS = 12 → cfgA.MODBUS_TCP_REUSE_UNIT_ID = true →
      cfgB.MODBUS_TCP_REUSE_TID_BITS = 12 → cfgB.MODBUS_TCP_REUSE_UNIT_ID = true →
      k < 36 → size = bitsVal P 32 16 + 6 → 7 ≤ size → size < 65536 →
      sendA = recvB + d → d < 2 ^ k → sendA < 2 ^ 64 →
      (k ≤ 30 ∨ recvB % 2 ^ k + d < 2 ^ k) →
      modbus_carrier i = none → ¬ (32 ≤ i ∧ i < 48) →
      ((∀ j, j < 36 - k →
          getBit (hmac_digest H (msB.key HMAC_KEYSLOT_RECV)
            ((flip_bit (modbus_tcp_restore cfgA stA P size RepelMode.EMBED).2 i).take size
              ++ netendian_nonce sendA)) j
          = getBit (hmac_digest H (msA.key HMAC_KEYSLOT_SEND)
            ((modbus_tcp_restore cfgA stA P size RepelMode.EMBED).2.take size
              ++ netendian_nonce sendA)) j) →
        (repel_authenticate (modbus_hmac_connection H cfgB stB msB sendB recvB k xB)
          (receive_frame (flip_bit (repel_embed (modbus_hmac_connection H cfgA stA msA sendA
            recvA k xA) P size).2.1 i) size rbuf) size on_success true cbdata auth).ret = size ∧
        ((repel_authenticate (modbus_hmac_connection H cfgB stB msB sendB recvB k xB)
          (receive_frame (flip_bit (repel_embed (modbus_hmac_connection H cfgA stA msA sendA
            recvA k xA) P size).2.1 i) size rbuf) size on_success true cbdata
              auth).callback.map fun c => c.kind)
          = (if on_success then some CallbackKind.on_auth_success else none)) ∧
      ((¬ ∀ j, j < 36 - k →
          getBit (hmac_digest H (msB.key HMAC_KEYSLOT_RECV)
            ((flip_bit (modbus_tcp_restore cfgA stA P size RepelMode.EMBED).2 i).take size
              ++ netendian_nonce sendA)) j
          = getBit (hmac_digest H (msA.key HMAC_KEYSLOT_SEND)
            ((modbus_tcp_restore cfgA stA P size RepelMode.EMBED).2.take size
              ++ netendian_nonce sendA)) j) →
        (repel_authenticate (modbus_hmac_connection H cfgB stB msB sendB recvB k xB)
          (receive_frame (flip_bit (repel_embed (modbus_hmac_connection H cfgA stA msA sendA
            recvA k xA) P size).2.1 i) size rbuf) size on_success true cbdata auth).ret = size ∧
        ((repel_authenticate (modbus_hmac_connection H cfgB stB msB sendB recvB k xB)
          (receive_frame (flip_bit (repel_embed (modbus_hmac_connection H cfgA stA msA sendA
            recvA k xA) P size).2.1 i) size rbuf) size on_success true cbdata auth).callback.map
            fun c => (c.kind, c.packet))
          = some (CallbackKind.on_auth_failed,
              receive_frame (flip_bit (modbus_tcp_restore cfgA stA P size RepelMode.EMBED).2 i)
                size rbuf) ∧
        (repel_authenticate (modbus_hmac_connection H cfgB stB msB sendB recvB k xB)
          (receive_frame (flip_bit (repel_embed (modbus_hmac_connection H cfgA stA msA sendA
            recvA k xA) P size).2.1 i) size rbuf) size on_success true cbdata
              auth).con.nonce_recv = recvB)) :=
  ⟨fun _ H con packet size on_success cbdata auth hmac hp h0 h256 =>
      hmac_verdict H con packet size on_success cbdata auth hmac hp h0 h256,
    fun H cfgA cfgB stA stB msA msB sendA recvA sendB recvB k xA xB P size d i on_success cbdata
        auth hbA huA hbB huB hk hsize h16 hN hd hN64 hs hcar hlen =>
      modbus_tamper_verdict H cfgA cfgB hbA huA hbB huB stA stB msA msB sendA recvA sendB recvB k
        xA xB P size d hk hsize h16 hN hd hN64 hs i hcar hlen on_success cbdata auth,
    fun H cfgA cfgB stA stB msA msB sendA recvA sendB recvB k xA xB P rbuf size d i on_success
        cbdata auth hbA huA hbB huB hk hsize h7 h16 hN hd hN64 hs hcar hlen =>
      modbus_frame_tamper_verdict H cfgA cfgB hbA huA hbB huB stA stB msA msB sendA recvA sendB
        recvB k xA xB P rbuf size d hk hsize h7 h16 hN hd hN64 hs i hcar hlen on_success cbdata
        auth⟩

theorem tamper_rejection_witness :
    0 ≤ (auth_parse (example_receiver 0) example_tampered 12).pktlen ∧
    auth_macbits (example_receiver 0) example_tampered 12 = 33 ∧
    (repel_authenticate (example_receiver 0) example_tampered 12 true true 0
      ⟨0, 0, false⟩).ret = 12 ∧
    ((repel_authenticate (example_receiver 0) example_tampered 12 true true 0
      ⟨0, 0, false⟩).callback.map fun c => (c.kind, c.packet))
      = some (CallbackKind.on_auth_failed, (auth_restore (example_receiver 0) example_tampered
          12).2) ∧
    (repel_authenticate (example_receiver 0) example_tampered 12 true true 0
      ⟨0, 0, false⟩).con.nonce_recv = 0 ∧
    modbus_carrier 63 = none ∧
    ((repel_authenticate (example_receiver 0) (flip_bit (repel_embed (example_sender 0)
      modbus_request 12).2.1 63) 12 true true 0 ⟨0, 0, false⟩).callback.map
        fun c => (c.kind, c.packet))
      = some (CallbackKind.on_auth_failed,
          flip_bit (modbus_tcp_restore {} modbus_fresh_state modbus_request 12
            RepelMode.EMBED).2 63) ∧
    (repel_authenticate (example_receiver 0) (receive_frame (flip_bit (repel_embed
      (example_sender 0) modbus_request 12).2.1 63) 12 (Buffer.ofList [])) 12 true true 0
      ⟨0, 0, false⟩).con.nonce_recv = 0 :=
  have h1 := (tamper_rejection.1 ModbusTCPState sum_hmac (example_receiver 0) example_tampered 12
    true 0 ⟨0, 0, false⟩ rfl (by decide) (by decide) (by decide)).2.2 (by decide)
  have h2 := (tamper_rejection.2.1 sum_hmac {} { MODBUS_TCP_IS_CLIENT := false }
    modbus_fresh_state modbus_fresh_state sender_mac_state receiver_mac_state 0 0 0 0 3 allOnes
    allOnes modbus_request 12 0 63 true 0 ⟨0, 0, false⟩ rfl rfl rfl rfl (by decide) (by decide)
    (by decide) rfl (by decide) (by decide) (Or.inl (by decide)) (by decide) (by decide)).2
    (by decide)
  have h3 := (tamper_rejection.2.2 sum_hmac {} { MODBUS_TCP_IS_CLIENT := false }
    modbus_fresh_state modbus_fresh_state sender_mac_state receiver_mac_state 0 0 0 0 3 allOnes
    allOnes modbus_request (Buffer.ofList []) 12 0 63 true 0 ⟨0, 0, false⟩ rfl rfl rfl rfl
    (by decide) (by decide) (by decide) (by decide) rfl (by decide) (by decide)
    (Or.inl (by decide)) (by decide) (by decide)).2 (by decide)
  ⟨by decide, by decide, h1.1, h1.2.1, h1.2.2, by decide, h2.2.1, h3.2.2⟩

end RePeL
